import Mathlib

/-!
Verification of the TOON codec (packages/toon-python): a shallow embedding of
`string_utils.py`, `primitives.py`, `encode.py` and `decode.py` in Lean 4,
together with proofs and refutations of the specification's claims.

Strings are modelled as `List Char` (Python `str` is a sequence of code
points).  Python exceptions are modelled by `Except PyErr`.  Python's `float`
literal acceptance is modelled by an executable grammar predicate
(`floatAccepts`); IEEE arithmetic itself is out of scope, and a float value
produced by the decoder is represented abstractly by its source literal.
-/

namespace Toon

/-- Python strings as lists of characters. -/
abbrev Str := List Char

/-- Characters treated as whitespace by Python's `str.strip()` family. -/
def isPyWs (c : Char) : Bool :=
  c = ' ' || c = '\t' || c = '\n' || c = '\r' || c = '\x0b' || c = '\x0c'

/-- ASCII digit test (`str.isdigit` restricted to ASCII, which is all the
repository's grammar uses). -/
def isDigitC (c : Char) : Bool :=
  '0' ≤ c && c ≤ '9'

/-- ASCII letter test (`str.isalpha` restricted to ASCII; the decoder applies
it to grammar characters only). -/
def isAlphaC (c : Char) : Bool :=
  ('a' ≤ c && c ≤ 'z') || ('A' ≤ c && c ≤ 'Z')

/-- Characters allowed after the first character of an identifier segment. -/
def isIdentTailC (c : Char) : Bool :=
  isAlphaC c || isDigitC c || c = '_'

/-- `str.lstrip(" ")`: drop leading space characters (spaces only). -/
def lstripSpaces (s : Str) : Str :=
  s.dropWhile (· = ' ')

/-- Drop trailing characters satisfying `p`. -/
def rstripBy (p : Char → Bool) (s : Str) : Str :=
  (s.reverse.dropWhile p).reverse

/-- `str.rstrip()`: drop trailing Python whitespace. -/
def rstripWs (s : Str) : Str :=
  rstripBy isPyWs s

/-- `str.strip()`: drop leading and trailing Python whitespace. -/
def pyStrip (s : Str) : Str :=
  rstripWs (s.dropWhile isPyWs)

/-- `str.startswith(pat)`. -/
def strStarts : Str → Str → Bool
  | [], _ => true
  | _ :: _, [] => false
  | p :: ps, c :: cs => p = c && strStarts ps cs

/-- `str.endswith(pat)`. -/
def strEnds (pat s : Str) : Bool :=
  strStarts pat.reverse s.reverse

/-- `pat in s` for Python strings: substring containment. -/
def strHasSub (pat : Str) : Str → Bool
  | [] => strStarts pat []
  | c :: cs => strStarts pat (c :: cs) || strHasSub pat cs

/-- ASCII `str.lower()` on one character. -/
def asciiLowerC (c : Char) : Char :=
  if 'A' ≤ c && c ≤ 'Z' then Char.ofNat (c.toNat + 32) else c

/-- ASCII `str.lower()`. -/
def lowerStr (s : Str) : Str :=
  s.map asciiLowerC

/-- Split a string on a separator character, Python `str.split(sep)` style:
the result is always non-empty, and empty pieces are kept. -/
def splitOnChar (sep : Char) : Str → List Str
  | [] => [[]]
  | c :: rest =>
    match splitOnChar sep rest with
    | [] => [[c]]
    | g :: gs => if c = sep then [] :: g :: gs else (c :: g) :: gs

/-- Decimal digits of a natural number, most significant first, as a fueled
(hence kernel-reducible) recursion; `n + 1` units of fuel always suffice
since `n / 10 < n` for `n ≥ 10`. -/
def natDigitsGo : Nat → Nat → Str
  | 0, _ => []
  | fuel + 1, n =>
    if n < 10 then [Char.ofNat (48 + n)]
    else natDigitsGo fuel (n / 10) ++ [Char.ofNat (48 + n % 10)]

/-- Decimal digits of a natural number, most significant first. -/
def natDigits (n : Nat) : Str :=
  natDigitsGo (n + 1) n

/-- Python `str(int)`: minimal decimal form with a leading minus sign for
negative numbers. -/
def intStr (n : Int) : Str :=
  if n < 0 then '-' :: natDigits (-n).toNat else natDigits n.toNat

/-! ## string_utils.py -/

/-- The TOON escape table (`ESCAPE_MAP`): the image of one character under
escaping. -/
def escapeChar (c : Char) : Str :=
  if c = '\\' then ['\\', '\\']
  else if c = '"' then ['\\', '"']
  else if c = '\n' then ['\\', 'n']
  else if c = '\r' then ['\\', 'r']
  else if c = '\t' then ['\\', 't']
  else [c]

/-- `escape_string`: escape the five TOON sequences, leave everything else. -/
def escapeString : Str → Str
  | [] => []
  | c :: rest => escapeChar c ++ escapeString rest

/-- The TOON unescape table (`UNESCAPE_MAP`). -/
def unescChar (c : Char) : Option Char :=
  if c = '\\' then some '\\'
  else if c = '"' then some '"'
  else if c = 'n' then some '\n'
  else if c = 'r' then some '\r'
  else if c = 't' then some '\t'
  else none

/-- Errors raised by the Python code: `SyntaxError`, `ValueError` (strict-mode
validation) and `TypeError` (path-expansion conflicts).  `fuelErr` marks
exhaustion of the decoder's step budget and corresponds to no Python
behaviour; every theorem below produces an `ok` or a genuine error.
Exception messages are not modelled. -/
inductive PyErr where
  | syntaxErr
  | valueErr
  | typeErr
  | fuelErr
deriving DecidableEq, Repr

/-- `unescape_string`: process the five escape sequences, failing on an
invalid sequence or a trailing backslash. -/
def unescapeString : Str → Except PyErr Str
  | [] => .ok []
  | '\\' :: [] => .error .syntaxErr
  | '\\' :: c :: rest =>
    match unescChar c with
    | some u => do
      let r ← unescapeString rest
      return u :: r
    | none => .error .syntaxErr
  | c :: rest => do
    let r ← unescapeString rest
    return c :: r

/-- Reserved literal words (`RESERVED_LITERALS`), compared lowercased. -/
def reservedLiterals : List Str :=
  [['t','r','u','e'], ['f','a','l','s','e'], ['n','u','l','l']]

/-- Structural characters that force quoting (`STRUCTURAL_CHARS`). -/
def isStructuralC (c : Char) : Bool :=
  c = ':' || c = '[' || c = ']' || c = '{' || c = '}'

/-- `is_valid_identifier_segment`: the regex `[a-zA-Z_][a-zA-Z0-9_]*`. -/
def isValidIdentifierSegment (s : Str) : Bool :=
  match s with
  | [] => false
  | c :: rest => (isAlphaC c || c = '_') && rest.all isIdentTailC

/-! ### A model of Python number-literal acceptance

`_looks_like_number` and `_try_parse_number` call the builtins `float()` and
`int()`.  The model below reproduces CPython's base-10 string grammar:
surrounding whitespace, an optional sign, digit groups that may contain
underscores strictly between digits, `inf`/`infinity`/`nan` (any case) for
`float()`, and optional fraction and exponent parts.  Non-ASCII digits and
IEEE rounding/underflow are outside the model (no claim depends on them). -/

/-- Consume a Python digit group: `digit (('_')? digit)*`.  Returns the
digits (underscores removed) and the remaining input, or `none` when the
input does not start with a digit. -/
def digitGroup : Str → Option (Str × Str)
  | c :: rest =>
    if isDigitC c then
      let r := digitGroupTail rest
      some (c :: r.1, r.2)
    else none
  | [] => none
where
  /-- Consume further digits, allowing a single underscore between digits. -/
  digitGroupTail : Str → Str × Str
    | c :: rest =>
      if isDigitC c then
        let r := digitGroupTail rest
        (c :: r.1, r.2)
      else if c = '_' then
        match rest with
        | d :: rest' =>
          if isDigitC d then
            let r := digitGroupTail rest'
            (d :: r.1, r.2)
          else ([], c :: rest)
        | [] => ([], [c])
      else ([], c :: rest)
    | [] => ([], [])

/-- Strip an optional leading `+` or `-`; return the sign (`true` for minus)
and the rest. -/
def stripSign : Str → Bool × Str
  | '+' :: rest => (false, rest)
  | '-' :: rest => (true, rest)
  | s => (false, s)

/-- After the optional sign, the special float words accepted by `float()`. -/
def isFloatWord (s : Str) : Bool :=
  lowerStr s = ['i','n','f'] || lowerStr s = ['i','n','f','i','n','i','t','y'] ||
    lowerStr s = ['n','a','n']

/-- Parse the mantissa of a float literal: `digits [. [digits]] | . digits`.
Returns the mantissa digits (integer and fraction concatenated) and the
remaining input. -/
def floatMantissa (s : Str) : Option (Str × Str) :=
  match digitGroup s with
  | some (ds, rest) =>
    match rest with
    | '.' :: rest' =>
      match digitGroup rest' with
      | some (fs, rest'') => some (ds ++ fs, rest'')
      | none => some (ds, rest')
    | _ => some (ds, rest)
  | none =>
    match s with
    | '.' :: rest =>
      match digitGroup rest with
      | some (fs, rest') => some (fs, rest')
      | none => none
    | _ => none

/-- Parse an optional exponent part `(e|E) [sign] digits`; `none` means the
exponent marker was present but malformed. -/
def floatExponent (s : Str) : Option Str :=
  match s with
  | c :: rest =>
    if c = 'e' || c = 'E' then
      let (_, rest') := stripSign rest
      match digitGroup rest' with
      | some (_, rest'') => some rest''
      | none => none
    else some s
  | [] => some []

/-- Model of `float(s)` acceptance: does CPython parse `s` as a float? -/
def floatAccepts (s : Str) : Bool :=
  let t := pyStrip s
  let (_, body) := stripSign t
  if isFloatWord body then true
  else
    match floatMantissa body with
    | some (_, rest) =>
      match floatExponent rest with
      | some [] => true
      | _ => false
    | none => false

/-- Mantissa digits of an accepted float literal (used only to decide the
`value == 0.0` normalisation; `inf`/`nan` yield `none`). -/
def floatMantissaDigits (s : Str) : Option Str :=
  let t := pyStrip s
  let (_, body) := stripSign t
  if isFloatWord body then none
  else
    match floatMantissa body with
    | some (ds, _) => some ds
    | none => none

/-- Does the accepted float literal denote zero?  True when every mantissa
digit is `0`.  (IEEE underflow of extreme exponents is not modelled.) -/
def floatIsZeroLit (s : Str) : Bool :=
  match floatMantissaDigits s with
  | some ds => ds.all (· = '0')
  | none => false

/-- Numeric value of a digit string (underscores already removed). -/
def digitsToNat : Str → Nat → Nat
  | [], acc => acc
  | c :: rest, acc => digitsToNat rest (acc * 10 + (c.toNat - 48))

/-- Model of `int(s)`: base-10 with optional surrounding whitespace, sign and
underscores between digits; `none` when CPython would raise `ValueError`. -/
def intAccepts (s : Str) : Option Int :=
  let t := pyStrip s
  let (neg, body) := stripSign t
  match digitGroup body with
  | some (ds, []) =>
    let n : Int := Int.ofNat (digitsToNat ds 0)
    some (if neg then -n else n)
  | _ => none

/-- `_looks_like_number`: the encoder's test for number-like strings. -/
def looksLikeNumber (value : Str) : Bool :=
  match value with
  | [] => false
  | _ =>
    let s := if strStarts ['-'] value then value.tail else value
    if s = [] then false
    else if 1 < s.length && s.headI = '0' && isDigitC (s.getD 1 ' ') then false
    else floatAccepts value

/-- `is_safe_unquoted`: may this string be emitted without quotes? -/
def isSafeUnquoted (value : Str) (delimiter : Char) : Bool :=
  if value = [] then false
  else if value ≠ pyStrip value then false
  else if reservedLiterals.contains (lowerStr value) then false
  else if looksLikeNumber value then false
  else if value.any isStructuralC then false
  else if value.contains '"' || value.contains '\\' then false
  else if value.contains '\n' || value.contains '\r' || value.contains '\t' then false
  else if value.contains delimiter then false
  else if strStarts ['-'] value then false
  else true

/-- Scanning loop of `find_unquoted_colon`.  The escape case (`i += 2`) is
written as a two-element pattern so the recursion is structural. -/
def findUnquotedColonGo : Str → Nat → Bool → Option Nat
  | [], _, _ => none
  | c :: rest, i, inq =>
    if c = '\\' && inq then
      match rest with
      | _ :: rest2 => findUnquotedColonGo rest2 (i + 2) inq
      | [] => none
    else if c = '"' then findUnquotedColonGo rest (i + 1) (!inq)
    else if c = ':' && !inq then some i
    else findUnquotedColonGo rest (i + 1) inq

/-- `find_unquoted_colon`: index of the first colon outside double quotes,
skipping backslash escapes inside quotes; `none` models Python's `-1`. -/
def findUnquotedColon (line : Str) : Option Nat :=
  findUnquotedColonGo line 0 false

/-- Scanning loop of `split_by_delimiter`; `cur` is the piece being built.
The escape case is written as a two-element pattern so the recursion is
structural.  A lone backslash inside quotes at the end of input falls
through the remaining tests and is appended, as in the source. -/
def splitByDelimiterGo (delimiter : Char) : Str → Bool → Str → List Str
  | [], _, cur => [pyStrip cur]
  | c :: rest, inq, cur =>
    if c = '\\' && inq then
      match rest with
      | c2 :: rest2 => splitByDelimiterGo delimiter rest2 inq (cur ++ ['\\', c2])
      | [] => [pyStrip (cur ++ [c])]
    else if c = '"' then splitByDelimiterGo delimiter rest (!inq) (cur ++ [c])
    else if c = delimiter && !inq then
      pyStrip cur :: splitByDelimiterGo delimiter rest inq []
    else splitByDelimiterGo delimiter rest inq (cur ++ [c])

/-- `split_by_delimiter`: split on the delimiter outside double quotes,
keeping escape pairs intact and stripping each piece. -/
def splitByDelimiter (value : Str) (delimiter : Char) : List Str :=
  splitByDelimiterGo delimiter value false []

/-! ## The value model (types.py `JsonValue`)

Python `int` and `float` are distinct; a float value is represented
abstractly by the literal it was parsed from (`vfloat`), since IEEE
arithmetic is outside this embedding.  No theorem below constructs or
compares `vfloat` values. -/

/-- JSON-compatible values. -/
inductive Value where
  | vnull
  | vbool (b : Bool)
  | vint (n : Int)
  | vfloat (lit : Str)
  | vstr (s : Str)
  | varr (xs : List Value)
  | vobj (fs : List (Str × Value))

instance : Inhabited Value := ⟨.vnull⟩

/-- Python `dict[str, JsonValue]` as an insertion-ordered association list
with unique keys (uniqueness holds for every dict the code builds). -/
abbrev Dict := List (Str × Value)

/-- `k in d` for Python dicts. -/
def dictContains (d : Dict) (k : Str) : Bool :=
  d.any (fun e => e.1 == k)

/-- `d.get(k)` for Python dicts. -/
def dictGet (d : Dict) (k : Str) : Option Value :=
  (d.find? (fun e => e.1 == k)).map (·.2)

/-- `d[k] = v` for Python dicts: replace in place when the key exists,
append otherwise. -/
def dictInsert (d : Dict) (k : Str) (v : Value) : Dict :=
  if dictContains d k then d.map (fun e => if e.1 == k then (k, v) else e)
  else d ++ [(k, v)]

/-! ## primitives.py -/

/-- Is the (accepted) float literal one of the `inf`/`nan` words? -/
def floatLitIsNanInf (lit : Str) : Bool :=
  isFloatWord (stripSign (pyStrip lit)).2

/-- `_encode_number`.  For `vfloat` the repository calls `repr(value)` on the
IEEE double; the model returns the stored literal instead (no theorem
exercises that branch). -/
def encodeNumber : Value → Str
  | .vint n => intStr n
  | .vfloat lit =>
    if floatLitIsNanInf lit then ['n','u','l','l']
    else if floatIsZeroLit lit then ['0']
    else lit
  | _ => []

/-- `encode_string_literal`: quote and escape unless safely unquotable. -/
def encodeStringLiteral (value : Str) (delimiter : Char) : Str :=
  if isSafeUnquoted value delimiter then value
  else '"' :: (escapeString value ++ ['"'])

/-- `encode_primitive`.  The `vobj`/`varr` case raises `TypeError` in Python;
the encoder never reaches it (it dispatches on `isinstance` first), and the
model returns `[]` there.  No theorem exercises that branch. -/
def encodePrimitive (v : Value) (delimiter : Char) : Str :=
  match v with
  | .vnull => ['n','u','l','l']
  | .vbool b => if b then ['t','r','u','e'] else ['f','a','l','s','e']
  | .vint n => encodeNumber (.vint n)
  | .vfloat lit => encodeNumber (.vfloat lit)
  | .vstr s => encodeStringLiteral s delimiter
  | _ => []

/-- `encode_key`: object keys additionally force quoting on any space. -/
def encodeKey (key : Str) : Str :=
  if key = [] then ['"', '"']
  else if key.contains ' ' then '"' :: (escapeString key ++ ['"'])
  else if isSafeUnquoted key ',' then key
  else '"' :: (escapeString key ++ ['"'])

/-- `_try_parse_number`: leading-zero guard, then `int()` for tokens with no
`.`/`e`, else `float()` with the `-0.0 → 0` normalisation. -/
def tryParseNumber (token : Str) : Option Value :=
  if token = [] then none
  else
    let clean := token.dropWhile (· = '-')
    if 1 < clean.length && clean.headI = '0' && isDigitC (clean.getD 1 ' ') then none
    else if !(token.contains '.') && !(token.contains 'e') && !(token.contains 'E') then
      (intAccepts token).map Value.vint
    else if floatAccepts token then
      some (if floatIsZeroLit token then Value.vint 0 else Value.vfloat token)
    else none

/-- Scanning loop of `find_closing_quote` (`i += 2` on a backslash; a
trailing backslash overshoots the end and the scan fails, as in Python). -/
def findClosingQuoteGo : Str → Nat → Option Nat
  | [], _ => none
  | c :: rest, i =>
    if c = '\\' then
      match rest with
      | _ :: rest2 => findClosingQuoteGo rest2 (i + 2)
      | [] => none
    else if c = '"' then some i
    else findClosingQuoteGo rest (i + 1)

/-- `find_closing_quote`: index of the closing quote of the string starting
at index `start`, skipping escape pairs. -/
def findClosingQuote (s : Str) (start : Nat) : Option Nat :=
  findClosingQuoteGo (s.drop (start + 1)) (start + 1)

/-- `parse_string_literal`: strip the surrounding quotes and unescape.
Characters after the closing quote are ignored, as in the source. -/
def parseStringLiteral (token : Str) : Except PyErr Str :=
  if !strStarts ['"'] token then .error .syntaxErr
  else
    match findClosingQuote token 0 with
    | none => .error .syntaxErr
    | some e => unescapeString ((token.drop 1).take (e - 1))

/-- `parse_primitive`: null/bool literals, numbers, quoted and bare strings. -/
def parsePrimitive (token : Str) : Except PyErr Value :=
  if token = [] then .ok (.vstr [])
  else if strStarts ['"'] token then (parseStringLiteral token).map .vstr
  else if token = ['n','u','l','l'] then .ok .vnull
  else if token = ['t','r','u','e'] then .ok (.vbool true)
  else if token = ['f','a','l','s','e'] then .ok (.vbool false)
  else
    match tryParseNumber token with
    | some v => .ok v
    | none => .ok (.vstr token)

/-- The bracket portion of an array header (`_format_bracket` and the inline
branch of `format_array_header`). -/
def formatBracket (length : Nat) (delimiter : Char) : Str :=
  if delimiter = ',' then '[' :: (natDigits length ++ [']'])
  else '[' :: (natDigits length ++ [delimiter, ']'])

/-- `format_array_header`: bracket, optional field list, optional key. -/
def formatArrayHeader (length : Nat) (key : Option Str) (fields : List Str)
    (delimiter : Char) : Str :=
  let bracket := formatBracket length delimiter
  let fieldsPart :=
    if fields = [] then []
    else '{' :: (List.intercalate [delimiter] (fields.map encodeKey) ++ ['}'])
  match key with
  | some k =>
    if k = [] then bracket ++ fieldsPart ++ [':']
    else encodeKey k ++ bracket ++ fieldsPart ++ [':']
  | none => bracket ++ fieldsPart ++ [':']

/-! ## types.py: options and line records -/

/-- `key_folding` values. -/
inductive KeyFolding where
  | noFold
  | safeFold
deriving DecidableEq

/-- `EncodeOptions` (defaults as in the dataclass). -/
structure EncodeOpts where
  indent : Nat := 2
  delimiter : Char := ','
  keyFolding : KeyFolding := .noFold
  flattenDepth : Option Nat := none

/-- `DecodeOptions` (defaults as in the dataclass).  `indent = 0` would make
Python raise `ZeroDivisionError`; Lean's `/`/`%` by zero differ there, and
every theorem below uses a positive width. -/
structure DecodeOpts where
  strict : Bool := false
  expandPaths : Bool := false
  indent : Nat := 2

/-- `ParsedLine`. -/
structure ParsedLine where
  raw : Str
  content : Str
  indent : Nat
  depth : Nat
  lineNumber : Nat

/-- `ArrayHeaderInfo`. -/
structure ArrayHeaderInfo where
  length : Nat
  delimiter : Char := ','
  fields : List Str := []

/-! ## decode.py -/

/-- The sentinel prefix marking source-quoted keys (`QUOTED_KEY_MARKER`,
`"\x00QUOTED\x00"`). -/
def quotedKeyMarker : Str :=
  ['\x00', 'Q', 'U', 'O', 'T', 'E', 'D', '\x00']

/-- One step of `_parse_lines`: indentation count, strict checks, depth.
The depth division is Python's `indent // indent_size`; Lean's total `Nat`
division departs from Python only at `indentSize = 0`, where Python raises
`ZeroDivisionError` on every line — every theorem below therefore only
exercises positive widths. -/
def parseLine (indentSize : Nat) (strict : Bool) (idx : Nat) (raw : Str) :
    Except PyErr ParsedLine :=
  let stripped := lstripSpaces raw
  let ind := raw.length - stripped.length
  if strict && (raw.take ind).contains '\t' then .error .syntaxErr
  else if strict && ind % indentSize ≠ 0 then .error .syntaxErr
  else .ok { raw := raw, content := rstripWs stripped, indent := ind,
             depth := ind / indentSize, lineNumber := idx }

/-- `_parse_lines` over the whole input (line numbers start at 1). -/
def parseLinesGo (indentSize : Nat) (strict : Bool) :
    List Str → Nat → Except PyErr (List ParsedLine)
  | [], _ => .ok []
  | raw :: rest, i => do
    let l ← parseLine indentSize strict i raw
    let ls ← parseLinesGo indentSize strict rest (i + 1)
    return l :: ls

/-- The cursor's line buffer and options (`_Cursor` minus the position, which
is threaded explicitly). -/
structure DCtx where
  lines : List ParsedLine
  opts : DecodeOpts

/-- The scan of `_Cursor.peek` over the suffix starting at `pos`, carrying
the absolute position. -/
def peekFromAux : List ParsedLine → Nat → Option (ParsedLine × Nat)
  | [], _ => none
  | l :: rest, pos =>
    if l.content ≠ [] then some (l, pos) else peekFromAux rest (pos + 1)

/-- `_Cursor.peek`'s scan: first line with non-empty content at or after
`pos`, together with its position. -/
def peekFrom (lines : List ParsedLine) (pos : Nat) : Option (ParsedLine × Nat) :=
  peekFromAux (lines.drop pos) pos

/-- `_Cursor.peek`: the found line (if any) and the mutated position (the
scan leaves the cursor on the found line, or at the end). -/
def peekPos (lines : List ParsedLine) (pos : Nat) : Option ParsedLine × Nat :=
  match peekFrom lines pos with
  | some (l, p) => (some l, p)
  | none => (none, lines.length)

/-- `_Cursor.peek_at_depth`: peek, then require the exact depth.  The
position mutation of the underlying peek persists either way. -/
def peekAtDepthPos (lines : List ParsedLine) (pos : Nat) (depth : Nat) :
    Option ParsedLine × Nat :=
  match peekPos lines pos with
  | (some l, p) => (if l.depth = depth then some l else none, p)
  | (none, p) => (none, p)

/-- Characters permitted in the unquoted key run of `ARRAY_HEADER_PATTERN`
(the class `[^:\[\]{}"]`). -/
def isKeyRunC (c : Char) : Bool :=
  !(c = ':' || c = '[' || c = ']' || c = '{' || c = '}' || c = '"')

/-- The data captured by a successful `ARRAY_HEADER_PATTERN` match. -/
structure HeaderMatch where
  key : Str
  length : Nat
  delim : Option Char
  fields : Option Str
  rest : Str

/-- Scan the body of the regex's quoted-key alternative
(`"(?:[^"\\]|\\.)*"`, after the opening quote): returns the body and the
text after the closing quote. -/
def scanQuotedBody : Str → Option (Str × Str)
  | [] => none
  | '"' :: rest => some ([], rest)
  | '\\' :: c :: rest => (scanQuotedBody rest).map (fun r => ('\\' :: c :: r.1, r.2))
  | c :: rest => (scanQuotedBody rest).map (fun r => (c :: r.1, r.2))

/-- Continue an `ARRAY_HEADER_PATTERN` match after the `]`: optional
`{fields}` group, then the mandatory colon and trailing text. -/
def headerAfterBracket (key : Str) (len : Nat) (dOpt : Option Char) (r3 : Str) :
    Option HeaderMatch :=
  match r3 with
  | '{' :: r4 =>
    let fs := r4.takeWhile (· ≠ '}')
    if fs.length = r4.length then none
    else
      match r4.drop (fs.length + 1) with
      | ':' :: rest => some ⟨key, len, dOpt, some fs, rest⟩
      | _ => none
  | ':' :: rest => some ⟨key, len, dOpt, none, rest⟩
  | _ => none

/-- Continue an `ARRAY_HEADER_PATTERN` match after the key: `[`, digits,
optional delimiter, `]`. -/
def headerAfterKey (key : Str) (afterKey : Str) : Option HeaderMatch :=
  match afterKey with
  | '[' :: r1 =>
    let ds := r1.takeWhile isDigitC
    if ds = [] then none
    else
      let len := digitsToNat ds 0
      match r1.drop ds.length with
      | d :: rest2 =>
        if d = ',' || d = '\t' || d = '|' then
          match rest2 with
          | ']' :: r3 => headerAfterBracket key len (some d) r3
          | _ => none
        else if d = ']' then headerAfterBracket key len none rest2
        else none
      | [] => none
  | _ => none

/-- A faithful matcher for `ARRAY_HEADER_PATTERN`.  The regex's key group is
deterministic: the first character selects the quoted, empty or unquoted-run
alternative, and no backtracking into a shorter key can succeed because the
run class excludes `[`. -/
def matchArrayHeader (content : Str) : Option HeaderMatch :=
  match content with
  | [] => none
  | c :: rest =>
    if c = '"' then
      match scanQuotedBody rest with
      | some (body, after) => headerAfterKey ('"' :: (body ++ ['"'])) after
      | none => none
    else if c = '[' then headerAfterKey [] content
    else
      let run := content.takeWhile isKeyRunC
      if run = [] then none
      else headerAfterKey run (content.drop run.length)

/-- `_parse_key`: strip, unquote-and-unescape when surrounded by quotes, and
mark source-quoted keys when path expansion is on. -/
def parseKeyStr (key : Str) (markQuoted : Bool) : Except PyErr Str :=
  let key := pyStrip key
  if key = [] then .ok []
  else if strStarts ['"'] key && strEnds ['"'] key then do
    let parsed ← unescapeString ((key.drop 1).dropLast)
    return (if markQuoted then quotedKeyMarker ++ parsed else parsed)
  else .ok key

/-- `_parse_array_header_from_match`: delimiter defaulting, field-list
splitting (an empty `{}` group is falsy and yields no fields). -/
def parseArrayHeaderFromMatch (m : HeaderMatch) (defaultDelimiter : Char) :
    Except PyErr ArrayHeaderInfo :=
  let delimiter := m.delim.getD defaultDelimiter
  match m.fields with
  | some fs =>
    if fs = [] then .ok ⟨m.length, delimiter, []⟩
    else do
      let fields ← (splitByDelimiter fs delimiter).mapM
        (fun f => parseKeyStr (pyStrip f) false)
      .ok ⟨m.length, delimiter, fields⟩
  | none => .ok ⟨m.length, delimiter, []⟩

/-- The bail test of `_collect_implicit_multiline` on the first following
content line: lines that look like TOON structure abort the heuristic. -/
def implicitBailsOn (content : Str) : Bool :=
  if strStarts ['-', ' '] content || content = ['-'] then true
  else if strStarts ['['] content && content.contains ']' then true
  else
    match findUnquotedColon content with
    | some n =>
      if 0 < n then
        let keyPart := pyStrip (content.take n)
        if keyPart ≠ [] then
          if strStarts ['"'] keyPart then !strStarts ['#'] keyPart
          else if (isAlphaC keyPart.headI || keyPart.headI = '_') &&
              !keyPart.contains ' ' then
            !strStarts ['#'] keyPart
          else false
        else false
      else false
    | none => false

/-- The break test inside the capture loop of `_collect_implicit_multiline`
(applied only to lines at depth at most the parent's). -/
def implicitBreaksOn (content : Str) : Bool :=
  (match findUnquotedColon content with
   | some n =>
     if 0 < n then
       let keyPart := pyStrip (content.take n)
       if keyPart ≠ [] && !strStarts ['#'] keyPart then
         if strStarts ['"'] keyPart then true
         else (isAlphaC keyPart.headI || keyPart.headI = '_') &&
           !keyPart.contains ' '
       else false
     else false
   | none => false)
  || (strStarts ['['] content && strHasSub [']', ':'] content)

/-- The capture loop of `_collect_implicit_multiline`: blank lines are kept
as empty strings, a shallow TOON-looking line stops the loop, anything else
is captured raw (with `\r\n` stripped from the right). -/
def collectLoopAux (parentDepth : Nat) :
    List ParsedLine → Nat → List Str → List Str × Nat
  | [], pos, acc => (acc, pos)
  | line :: rest, pos, acc =>
    if line.content = [] then collectLoopAux parentDepth rest (pos + 1) (acc ++ [[]])
    else if line.depth ≤ parentDepth && implicitBreaksOn line.content then (acc, pos)
    else
      collectLoopAux parentDepth rest (pos + 1)
        (acc ++ [rstripBy (fun c => c = '\r' || c = '\n') line.raw])

/-- The capture loop, started at position `pos` of the line buffer. -/
def collectLoop (lines : List ParsedLine) (parentDepth : Nat) (pos : Nat)
    (acc : List Str) : List Str × Nat :=
  collectLoopAux parentDepth (lines.drop pos) pos acc

/-- Drop captured trailing lines that are blank after stripping. -/
def dropTrailingBlank (ls : List Str) : List Str :=
  (ls.reverse.dropWhile (fun l => pyStrip l = [])).reverse

/-- `_collect_implicit_multiline`: probe the first following content line,
then capture; on failure the cursor is restored to its entry position. -/
def collectImplicitMultiline (lines : List ParsedLine) (pos : Nat)
    (parentDepth : Nat) : Option Str × Nat :=
  match peekFrom lines pos with
  | none => (none, pos)
  | some (l, _) =>
    if implicitBailsOn l.content then (none, pos)
    else
      let (ls, p) := collectLoop lines parentDepth pos []
      if ls = [] || ls.all (· = []) then (none, pos)
      else
        let ls2 := dropTrailingBlank ls
        if ls2 = [] then (none, pos)
        else (some (List.intercalate ['\n'] ls2), p)

/-- Chomping styles of block scalars. -/
inductive Chomping where
  | clip
  | strip
  | keep
deriving DecidableEq

/-- The consuming loop of `_decode_block_scalar`: the first non-blank line
fixes the block indent, blank lines are always captured, and a shallower
non-blank line ends the block. -/
def blockLoopAux (minIndent : Nat) :
    List ParsedLine → Nat → Option Nat → List Str → List Str × Nat
  | [], pos, _, acc => (acc, pos)
  | line :: rest, pos, blockIndent, acc =>
    let raw := line.raw
    let stripped := lstripSpaces raw
    let currentIndent := raw.length - stripped.length
    let isBlank := pyStrip stripped = []
    match blockIndent with
    | none =>
      if isBlank then blockLoopAux minIndent rest (pos + 1) none (acc ++ [[]])
      else if currentIndent < minIndent then (acc, pos)
      else
        blockLoopAux minIndent rest (pos + 1) (some currentIndent)
          (acc ++ [rstripBy (fun c => c = '\r' || c = '\n') (raw.drop currentIndent)])
    | some bi =>
      if isBlank then blockLoopAux minIndent rest (pos + 1) (some bi) (acc ++ [[]])
      else if currentIndent < bi then (acc, pos)
      else
        blockLoopAux minIndent rest (pos + 1) (some bi)
          (acc ++ [rstripBy (fun c => c = '\r' || c = '\n') (raw.drop bi)])

/-- The block-scalar capture loop, started at position `pos`. -/
def blockLoop (lines : List ParsedLine) (minIndent : Nat) (pos : Nat)
    (blockIndent : Option Nat) (acc : List Str) : List Str × Nat :=
  blockLoopAux minIndent (lines.drop pos) pos blockIndent acc

/-- Strip chomping: remove every trailing empty captured line. -/
def chompStrip (ls : List Str) : List Str :=
  (ls.reverse.dropWhile (· = [])).reverse

/-- The clip loop on the reversed line list: drop leading empties while at
least one further line remains. -/
def chompClipRev : List Str → List Str
  | [] => []
  | x :: rest => if x = [] ∧ rest ≠ [] then chompClipRev rest else x :: rest

/-- Clip chomping: pop trailing empties while more than one line remains. -/
def chompClip (ls : List Str) : List Str :=
  (chompClipRev ls.reverse).reverse

/-- The folded-style paragraph builder of `_decode_block_scalar`. -/
def foldedGo : List Str → List Str → List Str
  | [], cur => if cur ≠ [] then [List.intercalate [' '] cur] else []
  | l :: rest, cur =>
    if l = [] then
      (if cur ≠ [] then [List.intercalate [' '] cur] else []) ++ [[]] ++ foldedGo rest []
    else foldedGo rest (cur ++ [l])

/-- `_decode_block_scalar`: style and chomping from the indicator, capture,
chomp, join, and the trailing newline of clip/keep on non-empty results. -/
def decodeBlockScalar (lines : List ParsedLine) (opts : DecodeOpts) (pos : Nat)
    (depth : Nat) (indicator : Str) : Str × Nat :=
  let isLiteral := strStarts ['|'] indicator
  let chomping : Chomping :=
    if strEnds ['-'] indicator then .strip
    else if strEnds ['+'] indicator then .keep
    else .clip
  let minIndent := (depth + 1) * opts.indent
  let (contentLines, p) := blockLoop lines minIndent pos none []
  let contentLines :=
    match chomping with
    | .strip => chompStrip contentLines
    | .clip => chompClip contentLines
    | .keep => contentLines
  let result :=
    if isLiteral then List.intercalate ['\n'] contentLines
    else List.intercalate ['\n'] (foldedGo contentLines [])
  let result :=
    if result ≠ [] ∧ (chomping = .clip ∨ chomping = .keep) then result ++ ['\n']
    else result
  (result, p)

/-- `_decode_inline_values`: split, parse each token, strict length check. -/
def decodeInlineValues (valuesStr : Str) (header : ArrayHeaderInfo)
    (opts : DecodeOpts) : Except PyErr (List Value) :=
  if valuesStr = [] then
    if opts.strict && 0 < header.length then .error .valueErr else .ok []
  else do
    let values := splitByDelimiter valuesStr header.delimiter
    let result ← values.mapM parsePrimitive
    if opts.strict && result.length ≠ header.length then .error .valueErr
    else .ok result

/-- Pad missing trailing tokens with empty strings and truncate extras
(the non-strict branch of `_decode_tabular_rows`). -/
def padTruncate (values : List Str) (n : Nat) : List Str :=
  (values ++ List.replicate (n - values.length) []).take n

/-- Build one tabular row dict from zipped field/token pairs. -/
def buildRowGo : List (Str × Str) → Dict → Except PyErr Dict
  | [], acc => .ok acc
  | (f, s) :: rest, acc => do
    let v ← parsePrimitive s
    buildRowGo rest (dictInsert acc f v)

/-- The six block-scalar indicators. -/
def blockIndicators : List Str :=
  [['|'], ['>'], ['|', '-'], ['>', '-'], ['|', '+'], ['>', '+']]

/-!
The decoder's mutually recursive functions are modelled as one fueled
dispatcher, `decodeStep`, over a call tag: one tag (and one arm below) per
Python function.  This keeps the recursion a single structural descent on
the fuel, which the kernel can evaluate.  Each call shape returns exactly
one `DecOut` constructor (apparent from its arm), so the `DecOut`
projections' other branches are never reached.
-/

/-- One pending decoder call (which `_decode_*` function, and its
arguments other than the cursor). -/
inductive DecCall where
  | root
  | rootArray
  | objectGo (depth : Nat) (acc : Dict)
  | keyValue (line : ParsedLine) (depth : Nat)
  | listItemsGo (expected : Nat) (depth : Nat) (acc : List Value)
  | listItem (line : ParsedLine) (depth : Nat)
  | listItemArray (m : HeaderMatch) (depth : Nat)
  | extraFields (depth : Nat) (acc : Dict)
  | listItemObject (itemContent : Str) (cp : Nat) (depth : Nat)
  | tabularRowsGo (header : ArrayHeaderInfo) (depth : Nat) (acc : List Value)

/-- The result of a decoder call: a value, a dict under construction, one
key/value pair, or a row/item list. -/
inductive DecOut where
  | val (v : Value)
  | dict (d : Dict)
  | kv (k : Str) (v : Value)
  | vals (xs : List Value)

/-- Project a value result (`_decode_root`, `_decode_list_item`, ...). -/
def DecOut.asVal : DecOut → Value
  | .val v => v
  | .dict d => .vobj d
  | .kv _ v => v
  | .vals xs => .varr xs

/-- Project a dict result (`_decode_object`'s loop, the extra-fields loop). -/
def DecOut.asDict : DecOut → Dict
  | .dict d => d
  | _ => []

/-- Project a key/value result (`_decode_key_value`). -/
def DecOut.asKV : DecOut → Str × Value
  | .kv k v => (k, v)
  | _ => ([], .vnull)

/-- Project a list result (`_decode_list_items`, `_decode_tabular_rows`). -/
def DecOut.asVals : DecOut → List Value
  | .vals xs => xs
  | _ => []

/-- The decoder.  Each arm is the body of the correspondingly named Python
function; `pos` is the cursor position and the returned `Nat` the position
after the call. -/
def decodeStep (fuel : Nat) (ctx : DCtx) (call : DecCall) (pos : Nat) :
    Except PyErr (DecOut × Nat) :=
  match fuel with
  | 0 => .error .fuelErr
  | fuel + 1 =>
    match call with
    | .root =>
      -- `_decode_root`: dispatch on root array, bare primitive or root object.
      match peekPos ctx.lines pos with
      | (none, p) => .ok (.val .vnull, p)
      | (some line, p) =>
        if strStarts ['['] line.content then decodeStep fuel ctx .rootArray p
        else
          match findUnquotedColon line.content with
          | none =>
            match peekAtDepthPos ctx.lines (p + 1) 0 with
            | (none, p2) => (parsePrimitive line.content).map (fun v => (.val v, p2))
            | (some _, _) => .error .syntaxErr
          | some _ =>
            (decodeStep fuel ctx (.objectGo 0 []) p).map
              (fun r => (.val (.vobj r.1.asDict), r.2))
    | .rootArray =>
      -- `_decode_root_array`: header line, then tabular, inline or list body.
      match peekPos ctx.lines pos with
      | (none, _) => .error .syntaxErr
      | (some line, p0) =>
        let p := p0 + 1
        match matchArrayHeader line.content with
        | none => .error .syntaxErr
        | some m => do
          let header ← parseArrayHeaderFromMatch m ','
          if header.fields ≠ [] then
            (decodeStep fuel ctx (.tabularRowsGo header 1 []) p).map
              (fun r => (.val (.varr r.1.asVals), r.2))
          else
            let colonIdx := (line.content.findIdx? (· = ':')).getD 0
            let rest := pyStrip (line.content.drop (colonIdx + 1))
            if strEnds [']'] (rstripBy (· = ':') line.content) then
              if rest ≠ [] then
                (decodeInlineValues rest header ctx.opts).map
                  (fun xs => (.val (.varr xs), p))
              else
                (decodeStep fuel ctx (.listItemsGo header.length 1 []) p).map
                  (fun r => (.val (.varr r.1.asVals), r.2))
            else
              (decodeInlineValues rest header ctx.opts).map
                (fun xs => (.val (.varr xs), p))
    | .objectGo depth acc =>
      -- the entry loop of `_decode_object`.
      match peekAtDepthPos ctx.lines pos depth with
      | (none, p) => .ok (.dict acc, p)
      | (some line, p) => do
        let r ← decodeStep fuel ctx (.keyValue line depth) (p + 1)
        decodeStep fuel ctx
          (.objectGo depth (dictInsert acc r.1.asKV.1 r.1.asKV.2)) r.2
    | .keyValue line depth =>
      -- `_decode_key_value`.
      let content := line.content
      match matchArrayHeader content with
      | some m => do
        let key ← parseKeyStr m.key ctx.opts.expandPaths
        let header ← parseArrayHeaderFromMatch m ','
        let rest := pyStrip m.rest
        if header.fields ≠ [] then do
          let r ← decodeStep fuel ctx (.tabularRowsGo header (depth + 1) []) pos
          .ok (.kv key (.varr r.1.asVals), r.2)
        else if rest ≠ [] then do
          let xs ← decodeInlineValues rest header ctx.opts
          .ok (.kv key (.varr xs), pos)
        else do
          let r ← decodeStep fuel ctx (.listItemsGo header.length (depth + 1) []) pos
          .ok (.kv key (.varr r.1.asVals), r.2)
      | none =>
        match findUnquotedColon content with
        | none => .error .syntaxErr
        | some cp => do
          let keyPart := pyStrip (content.take cp)
          let valuePart := pyStrip (content.drop (cp + 1))
          let key ← parseKeyStr keyPart ctx.opts.expandPaths
          if valuePart ≠ [] then
            if blockIndicators.contains valuePart then
              let r := decodeBlockScalar ctx.lines ctx.opts pos depth valuePart
              .ok (.kv key (.vstr r.1), r.2)
            else
              match collectImplicitMultiline ctx.lines pos depth with
              | (some cont, p2) => .ok (.kv key (.vstr (valuePart ++ '\n' :: cont)), p2)
              | (none, p2) => do
                let v ← parsePrimitive valuePart
                .ok (.kv key v, p2)
          else
            match peekPos ctx.lines pos with
            | (some nl, p1) =>
              if depth < nl.depth then do
                let r ← decodeStep fuel ctx (.objectGo (depth + 1) []) p1
                .ok (.kv key (.vobj r.1.asDict), r.2)
              else .ok (.kv key (.vobj []), p1)
            | (none, p1) => .ok (.kv key (.vobj []), p1)
    | .listItemsGo expected depth acc =>
      -- the item loop of `_decode_list_items`, with the strict count check.
      if acc.length < expected then
        match peekAtDepthPos ctx.lines pos depth with
        | (none, p) =>
          if ctx.opts.strict && acc.length ≠ expected then .error .valueErr
          else .ok (.vals acc, p)
        | (some line, p) =>
          if !strStarts ['-', ' '] line.content && line.content ≠ ['-'] then
            if ctx.opts.strict && acc.length ≠ expected then .error .valueErr
            else .ok (.vals acc, p)
          else do
            let r ← decodeStep fuel ctx (.listItem line depth) (p + 1)
            decodeStep fuel ctx
              (.listItemsGo expected depth (acc ++ [r.1.asVal])) r.2
      else
        if ctx.opts.strict && acc.length ≠ expected then .error .valueErr
        else .ok (.vals acc, pos)
    | .listItem line depth =>
      -- `_decode_list_item`.
      let content := line.content
      if content = ['-'] then
        match peekPos ctx.lines pos with
        | (some nl, p1) =>
          if depth < nl.depth then
            (decodeStep fuel ctx (.objectGo (depth + 1) []) p1).map
              (fun r => (.val (.vobj r.1.asDict), r.2))
          else .ok (.val (.vobj []), p1)
        | (none, p1) => .ok (.val (.vobj []), p1)
      else
        let itemContent := pyStrip (content.drop 2)
        if itemContent = [] then
          match peekPos ctx.lines pos with
          | (some nl, p1) =>
            if depth < nl.depth then
              (decodeStep fuel ctx (.objectGo (depth + 1) []) p1).map
                (fun r => (.val (.vobj r.1.asDict), r.2))
            else .ok (.val (.vobj []), p1)
          | (none, p1) => .ok (.val (.vobj []), p1)
        else
          match matchArrayHeader itemContent with
          | some m => decodeStep fuel ctx (.listItemArray m depth) pos
          | none =>
            match findUnquotedColon itemContent with
            | some cp => decodeStep fuel ctx (.listItemObject itemContent cp depth) pos
            | none => (parsePrimitive itemContent).map (fun v => (.val v, pos))
    | .listItemArray m depth => do
      -- `_decode_list_item_array`.
      let key ← parseKeyStr m.key ctx.opts.expandPaths
      let header ← parseArrayHeaderFromMatch m ','
      let rest := pyStrip m.rest
      let arrp ←
        if header.fields ≠ [] then
          (decodeStep fuel ctx (.tabularRowsGo header (depth + 2) []) pos).map
            (fun r => ((Value.varr r.1.asVals : Value), r.2))
        else if rest ≠ [] then
          (decodeInlineValues rest header ctx.opts).map
            (fun xs => ((Value.varr xs : Value), pos))
        else
          (decodeStep fuel ctx (.listItemsGo header.length (depth + 2) []) pos).map
            (fun r => ((Value.varr r.1.asVals : Value), r.2))
      if key ≠ [] then do
        let r ← decodeStep fuel ctx (.extraFields depth [(key, arrp.1)]) arrp.2
        .ok (.val (.vobj r.1.asDict), r.2)
      else .ok (.val arrp.1, arrp.2)
    | .extraFields depth acc =>
      -- the shared remaining-fields loop of `_decode_list_item_array` and
      -- `_decode_list_item_object` (fields at depth + 1).
      match peekAtDepthPos ctx.lines pos (depth + 1) with
      | (none, p) => .ok (.dict acc, p)
      | (some nl, p) => do
        let r ← decodeStep fuel ctx (.keyValue nl (depth + 1)) (p + 1)
        decodeStep fuel ctx
          (.extraFields depth (dictInsert acc r.1.asKV.1 r.1.asKV.2)) r.2
    | .listItemObject itemContent cp depth =>
      -- `_decode_list_item_object`.
      let keyPart := pyStrip (itemContent.take cp)
      let valuePart := pyStrip (itemContent.drop (cp + 1))
      match (if valuePart ≠ [] && strStarts ['['] valuePart then
          matchArrayHeader (keyPart ++ valuePart) else none) with
      | some m => decodeStep fuel ctx (.listItemArray m depth) pos
      | none => do
        let key ← parseKeyStr keyPart ctx.opts.expandPaths
        let vp ←
          if valuePart ≠ [] then
            (parsePrimitive valuePart).map (fun v => (v, pos))
          else
            match peekPos ctx.lines pos with
            | (some nl, p1) =>
              if depth + 1 < nl.depth then
                (decodeStep fuel ctx (.objectGo (depth + 2) []) p1).map
                  (fun r => ((Value.vobj r.1.asDict : Value), r.2))
              else .ok (.vobj [], p1)
            | (none, p1) => .ok (.vobj [], p1)
        let r ← decodeStep fuel ctx (.extraFields depth [(key, vp.1)]) vp.2
        .ok (.val (.vobj r.1.asDict), r.2)
    | .tabularRowsGo header depth acc =>
      -- the row loop of `_decode_tabular_rows`.
      if acc.length < header.length then
        match peekAtDepthPos ctx.lines pos depth with
        | (none, p) =>
          if ctx.opts.strict && acc.length ≠ header.length then .error .valueErr
          else .ok (.vals acc, p)
        | (some line, p) => do
          let values := splitByDelimiter line.content header.delimiter
          let values ←
            if values.length ≠ header.fields.length then
              if ctx.opts.strict then .error .valueErr
              else .ok (padTruncate values header.fields.length)
            else .ok values
          let row ← buildRowGo (header.fields.zip values) []
          decodeStep fuel ctx
            (.tabularRowsGo header depth (acc ++ [Value.vobj row])) (p + 1)
      else
        if ctx.opts.strict && acc.length ≠ header.length then .error .valueErr
        else .ok (.vals acc, pos)

/-! ### Path expansion (`_expand_paths` and helpers) -/

/-- `_is_expandable_path`: every dot-separated segment a valid identifier. -/
def isExpandablePath (key : Str) : Bool :=
  (splitOnChar '.' key).all isValidIdentifierSegment

mutual

/-- `_merge_values`: deep merge of two dicts, otherwise the new value wins. -/
def mergeValues (existing newV : Value) (strict : Bool) : Value :=
  match existing, newV with
  | .vobj a, .vobj b => .vobj (mergeGo a b strict)
  | _, n => n

/-- The entry loop of `_merge_values` over the new dict. -/
def mergeGo (acc : Dict) (entries : List (Str × Value)) (strict : Bool) : Dict :=
  match entries with
  | [] => acc
  | (k, v) :: rest =>
    let acc' :=
      if dictContains acc k then
        dictInsert acc k (mergeValues ((dictGet acc k).getD .vnull) v strict)
      else dictInsert acc k v
    mergeGo acc' rest strict

end

/-- `_set_nested`: create intermediate objects along the path (replacing
non-dict intermediates, or failing in strict mode) and write the value at
the final key with the merge-on-conflict rule. -/
def setNested (obj : Dict) (path : List Str) (value : Value) (strict : Bool) :
    Except PyErr Dict :=
  match path with
  | [] => .ok obj
  | [last] =>
    if dictContains obj last then
      if strict then .error .typeErr
      else .ok (dictInsert obj last
        (mergeValues ((dictGet obj last).getD .vnull) value strict))
    else .ok (dictInsert obj last value)
  | seg :: rest => do
    let sub ←
      match dictGet obj seg with
      | none => .ok ([] : Dict)
      | some (.vobj d) => .ok d
      | some _ => if strict then .error .typeErr else .ok ([] : Dict)
    let sub' ← setNested sub rest value strict
    .ok (dictInsert obj seg (.vobj sub'))

mutual

/-- `_expand_paths` on one value. -/
def expandPathsVal (v : Value) (strict : Bool) : Except PyErr Value :=
  match v with
  | .vobj fs => (expandObjGo fs strict []).map Value.vobj
  | .varr xs => (expandListGo xs strict).map Value.varr
  | x => .ok x

/-- The entry loop of `_expand_paths` over a dict: marked keys are
unmarked and never split, expandable dotted keys are split via
`_set_nested`, and plain keys are inserted with the merge-on-conflict
rule. -/
def expandObjGo (fs : List (Str × Value)) (strict : Bool) (acc : Dict) :
    Except PyErr Dict :=
  match fs with
  | [] => .ok acc
  | (key, val) :: rest => do
    let ev ← expandPathsVal val strict
    let acc' ←
      if strStarts quotedKeyMarker key then
        let actual := key.drop quotedKeyMarker.length
        if dictContains acc actual then
          if strict then .error .typeErr
          else .ok (dictInsert acc actual
            (mergeValues ((dictGet acc actual).getD .vnull) ev strict))
        else .ok (dictInsert acc actual ev)
      else if key.contains '.' && isExpandablePath key then
        setNested acc (splitOnChar '.' key) ev strict
      else
        if dictContains acc key then
          if strict then .error .typeErr
          else .ok (dictInsert acc key
            (mergeValues ((dictGet acc key).getD .vnull) ev strict))
        else .ok (dictInsert acc key ev)
    expandObjGo rest strict acc'

/-- `_expand_paths` over a list. -/
def expandListGo (xs : List Value) (strict : Bool) : Except PyErr (List Value) :=
  match xs with
  | [] => .ok []
  | x :: rest => do
    let e ← expandPathsVal x strict
    let r ← expandListGo rest strict
    .ok (e :: r)

end

/-- Fuel budget for one decode run: a generous linear bound on the number of
mutual-recursion steps a run over this many lines can take (each step either
consumes a line or descends one grammar rank; cf. the simulation lemmas). -/
def decodeFuel (n : Nat) : Nat :=
  16 * n + 16

/-- `decode_lines`: scan, decode from a fresh cursor, optionally expand. -/
def decodeLinesToon (rawLines : List Str) (opts : DecodeOpts) :
    Except PyErr Value := do
  let parsed ← parseLinesGo opts.indent opts.strict rawLines 1
  if parsed.isEmpty then .ok .vnull
  else do
    let r ← decodeStep (decodeFuel parsed.length) ⟨parsed, opts⟩ .root 0
    if opts.expandPaths then expandPathsVal r.1.asVal opts.strict else .ok r.1.asVal

/-- `decode`: split on newlines and decode. -/
def decodeToon (text : Str) (opts : DecodeOpts) : Except PyErr Value :=
  decodeLinesToon (splitOnChar '\n' text) opts

/-! ## encode.py

`_normalize_value` also converts datetimes, sets and other Python iterables;
those have no counterpart in the `Value` model, so only the JSON-shaped
branches (the float special cases and the recursive descent) appear here. -/

mutual

/-- `_normalize_value` on the value model. -/
def normalizeValue : Value → Value
  | .vfloat lit =>
    if floatLitIsNanInf lit then .vnull
    else if floatIsZeroLit lit then .vint 0
    else .vfloat lit
  | .vobj fs => .vobj (normObj fs)
  | .varr xs => .varr (normArr xs)
  | x => x

/-- `_normalize_value` over dict entries. -/
def normObj : List (Str × Value) → List (Str × Value)
  | [] => []
  | (k, v) :: rest => (k, normalizeValue v) :: normObj rest

/-- `_normalize_value` over list elements. -/
def normArr : List Value → List Value
  | [] => []
  | v :: rest => normalizeValue v :: normArr rest

end

/-- `_is_primitive`. -/
def isPrimitiveVal : Value → Bool
  | .vobj _ => false
  | .varr _ => false
  | _ => true

/-- `_is_inline_primitive_array`. -/
def isInlinePrimitiveArray (arr : List Value) : Bool :=
  !arr.isEmpty && arr.all isPrimitiveVal

/-- Set equality of key lists (Python compares `set(keys)`; the keys of one
dict are unique, so mutual containment is set equality). -/
def keySetEq (a b : List Str) : Bool :=
  a.all (b.contains ·) && b.all (a.contains ·)

/-- The key list of an object value (empty for non-objects). -/
def objKeys : Value → List Str
  | .vobj fs => fs.map (·.1)
  | _ => []

/-- `_is_tabular_array`: non-empty, all non-empty objects over one key set,
every normalised field value primitive. -/
def isTabularArray (arr : List Value) : Bool :=
  match arr with
  | [] => false
  | first :: rest =>
    if !(arr.all fun v => match v with | .vobj _ => true | _ => false) then false
    else
      let firstKeys := objKeys first
      if firstKeys.isEmpty then false
      else if !(rest.all fun v => keySetEq (objKeys v) firstKeys) then false
      else
        arr.all fun v =>
          match v with
          | .vobj fs => fs.all fun e => isPrimitiveVal (normalizeValue e.2)
          | _ => true

/-- `_can_fold_key`: identifier key, single-entry dict value with identifier
inner key, and no sibling equal to the key or extending its dotted prefix.
(The `opts`/`depth` parameters of the source are unused there too.) -/
def canFoldKey (key : Str) (value : Value) (siblingKeys : List Str) : Bool :=
  if !isValidIdentifierSegment key then false
  else
    match value with
    | .vobj [(nk, _)] =>
      if !isValidIdentifierSegment nk then false
      else
        let foldedPrefix := key ++ ['.']
        !(siblingKeys.any fun s => strStarts foldedPrefix s || s == key)
    | _ => false

/-- The indent prefix for a depth. -/
def indentStr (opts : EncodeOpts) (depth : Nat) : Str :=
  List.replicate (opts.indent * depth) ' '

/-- `_encode_tabular_row`: one delimiter-joined row line (a missing field is
`None` and encodes as `null`). -/
def encodeTabularRow (row : Dict) (fields : List Str) (opts : EncodeOpts)
    (depth : Nat) : Str :=
  indentStr opts depth ++
    List.intercalate [opts.delimiter]
      (fields.map fun f =>
        encodePrimitive (normalizeValue ((dictGet row f).getD .vnull)) opts.delimiter)

/-!
The encoder functions below operate on the tree that `encode_lines` has
already passed through `_normalize_value`, which is recursive and
idempotent: every subvalue of a normalised value is itself normalised.  The
source re-normalises subvalues at each step; on a normalised tree those
calls return their argument unchanged, so the functions here recurse on the
raw subterm directly (keeping the recursion structural and hence
kernel-reducible) and keep the remaining `_normalize_value` calls only
where they are plain uses rather than recursion scrutinees.
-/

mutual

/-- `_encode_object_lines`: per entry, try folding, then dispatch on the
(already normalised) value. -/
def encodeObjectLines (fs : List (Str × Value)) (opts : EncodeOpts)
    (depth : Nat) (siblingKeys : List Str) : List Str :=
  match fs with
  | [] => []
  | (key, value) :: rest =>
    let indent := indentStr opts depth
    let lines :=
      if opts.keyFolding = .safeFold && canFoldKey key value siblingKeys then
        encodeFolded [key] value opts depth
      else
        match value with
        | .vobj fs' =>
          if fs'.isEmpty then [indent ++ encodeKey key ++ [':']]
          else (indent ++ encodeKey key ++ [':']) ::
            encodeObjectLines fs' opts (depth + 1) []
        | .varr xs => encodeArray key xs opts depth
        | prim =>
          [indent ++ encodeKey key ++ [':', ' '] ++
            encodePrimitive prim opts.delimiter]
    lines ++ encodeObjectLines rest opts depth siblingKeys

/-- `_encode_array`: empty, inline, tabular or list format for a keyed
array. -/
def encodeArray (key : Str) (arr : List Value) (opts : EncodeOpts)
    (depth : Nat) : List Str :=
  let indent := indentStr opts depth
  let encodedKey := encodeKey key
  if arr.isEmpty then
    [indent ++ encodedKey ++ formatBracket 0 opts.delimiter ++ [':']]
  else if isInlinePrimitiveArray arr then
    let values := arr.map (encodePrimitive · opts.delimiter)
    [indent ++ encodedKey ++ formatBracket arr.length opts.delimiter ++
      [':', ' '] ++ List.intercalate [opts.delimiter] values]
  else if isTabularArray arr then
    let fields := objKeys arr.headI
    (indent ++ formatArrayHeader arr.length (some key) fields opts.delimiter) ::
      arr.map fun row =>
        encodeTabularRow (match row with | .vobj fs => fs | _ => []) fields opts (depth + 1)
  else
    (indent ++ encodedKey ++ formatBracket arr.length opts.delimiter ++ [':']) ::
      (match arr with
       | [] => []
       | a :: rest =>
         encodeListItem a opts (depth + 1) ++ encodeListItemsLoop rest opts (depth + 1))

/-- The `for item in arr: yield from _encode_list_item(...)` loops. -/
def encodeListItemsLoop (xs : List Value) (opts : EncodeOpts) (depth : Nat) :
    List Str :=
  match xs with
  | [] => []
  | x :: rest => encodeListItem x opts depth ++ encodeListItemsLoop rest opts depth

/-- `_encode_list_item`: objects put their first field on the hyphen line,
nested arrays use a bare `[N]` bracket, primitives follow the marker. -/
def encodeListItem (item : Value) (opts : EncodeOpts) (depth : Nat) : List Str :=
  let indent := indentStr opts depth
  match item with
  | .vobj fs =>
    match fs with
    | [] => [indent ++ ['-']]
    | (_, fv) :: _ =>
      if (match normalizeValue fv with
          | .varr ys => isTabularArray ys | _ => false) then
        encodeTabularFirstListItem fs opts depth
      else
        encodeObjectListItem fs opts depth
  | .varr xs =>
    if isInlinePrimitiveArray xs then
      let values := xs.map (encodePrimitive · opts.delimiter)
      [indent ++ ['-', ' ', '['] ++ natDigits xs.length ++ [']', ':', ' '] ++
        List.intercalate [opts.delimiter] values]
    else
      (indent ++ ['-', ' ', '['] ++ natDigits xs.length ++ [']', ':']) ::
        (match xs with
         | [] => []
         | y :: rest =>
           encodeListItem y opts (depth + 1) ++ encodeListItemsLoop rest opts (depth + 1))
  | prim => [indent ++ ['-', ' '] ++ encodePrimitive prim opts.delimiter]

/-- `_encode_object_list_item`: first field on the hyphen line, remaining
fields at depth + 1. -/
def encodeObjectListItem (fs : List (Str × Value)) (opts : EncodeOpts)
    (depth : Nat) : List Str :=
  let indent := indentStr opts depth
  match fs with
  | [] => []
  | (firstKey, firstValue) :: rest =>
    let encodedKey := encodeKey firstKey
    match firstValue with
    | .vobj fs' =>
      (if fs'.isEmpty then [indent ++ ['-', ' '] ++ encodedKey ++ [':']]
       else (indent ++ ['-', ' '] ++ encodedKey ++ [':']) ::
         encodeObjectLines fs' opts (depth + 2) []) ++
        encodeRemainingFields rest opts depth
    | .varr xs =>
      encodeListItemArrayFirst firstKey xs opts depth ++
        encodeRemainingFields rest opts depth
    | prim =>
      (indent ++ ['-', ' '] ++ encodedKey ++ [':', ' '] ++
        encodePrimitive prim opts.delimiter) ::
        encodeRemainingFields rest opts depth

/-- The remaining-fields loop shared by `_encode_object_list_item` (both
copies in the source) and `_encode_tabular_first_list_item`: nested objects
at depth + 2 under a key line, arrays via `_encode_array` at depth + 1,
primitives on one line. -/
def encodeRemainingFields (fs : List (Str × Value)) (opts : EncodeOpts)
    (depth : Nat) : List Str :=
  let childIndent := indentStr opts (depth + 1)
  match fs with
  | [] => []
  | (key, value) :: rest =>
    let encodedKey := encodeKey key
    let lines :=
      match value with
      | .vobj fs' =>
        if fs'.isEmpty then [childIndent ++ encodedKey ++ [':']]
        else (childIndent ++ encodedKey ++ [':']) ::
          encodeObjectLines fs' opts (depth + 2) []
      | .varr xs => encodeArray key xs opts (depth + 1)
      | prim =>
        [childIndent ++ encodedKey ++ [':', ' '] ++
          encodePrimitive prim opts.delimiter]
    lines ++ encodeRemainingFields rest opts depth

/-- `_encode_list_item_array_first`: an array as the first field of an
object list item (bare `[N]` brackets for the empty/inline/list forms). -/
def encodeListItemArrayFirst (key : Str) (arr : List Value) (opts : EncodeOpts)
    (depth : Nat) : List Str :=
  let indent := indentStr opts depth
  let encodedKey := encodeKey key
  if arr.isEmpty then
    [indent ++ ['-', ' '] ++ encodedKey ++ ['[', '0', ']', ':']]
  else if isInlinePrimitiveArray arr then
    let values := arr.map (encodePrimitive · opts.delimiter)
    [indent ++ ['-', ' '] ++ encodedKey ++ ['['] ++ natDigits arr.length ++
      [']', ':', ' '] ++ List.intercalate [opts.delimiter] values]
  else if isTabularArray arr then
    let fields := objKeys arr.headI
    (indent ++ ['-', ' '] ++
        formatArrayHeader arr.length (some key) fields opts.delimiter) ::
      arr.map fun row =>
        encodeTabularRow (match row with | .vobj fs => fs | _ => []) fields opts (depth + 2)
  else
    (indent ++ ['-', ' '] ++ encodedKey ++ ['['] ++ natDigits arr.length ++
        [']', ':']) ::
      (match arr with
       | [] => []
       | a :: rest =>
         encodeListItem a opts (depth + 2) ++ encodeListItemsLoop rest opts (depth + 2))

/-- `_encode_tabular_first_list_item`: tabular header on the hyphen line,
rows at depth + 2, remaining fields at depth + 1. -/
def encodeTabularFirstListItem (fs : List (Str × Value)) (opts : EncodeOpts)
    (depth : Nat) : List Str :=
  let indent := indentStr opts depth
  match fs with
  | [] => []
  | (firstKey, firstValue) :: rest =>
    match firstValue with
    | .varr xs =>
      let fields := objKeys xs.headI
      (indent ++ ['-', ' '] ++
          formatArrayHeader xs.length (some firstKey) fields opts.delimiter) ::
        (xs.map fun row =>
          encodeTabularRow (match row with | .vobj fs' => fs' | _ => []) fields opts (depth + 2)) ++
        encodeRemainingFields rest opts depth
    | _ => encodeRemainingFields rest opts depth

/-- `_encode_folded`: the while loop walking the single-entry chain, fused
with the final emission (the source builds `path` in a loop and then emits
once; the recursion here performs the same walk). -/
def encodeFolded (path : List Str) (current : Value) (opts : EncodeOpts)
    (depth : Nat) : List Str :=
  let indent := indentStr opts depth
  let foldedKey := List.intercalate ['.'] path
  match current with
  | .vobj fs =>
    let emit :=
      if fs.isEmpty then [indent ++ foldedKey ++ [':']]
      else (indent ++ foldedKey ++ [':']) :: encodeObjectLines fs opts (depth + 1) []
    match fs with
    | [(nk, nv)] =>
      if (match opts.flattenDepth with | none => true | some m => path.length ≤ m) then
        if isValidIdentifierSegment nk then encodeFolded (path ++ [nk]) nv opts depth
        else emit
      else emit
    | _ => emit
  | .varr xs => encodeArrayWithKey foldedKey xs opts depth
  | prim =>
    [indent ++ foldedKey ++ [':', ' '] ++ encodePrimitive prim opts.delimiter]

/-- `_encode_array_with_key`: like `_encode_array`, but with the dotted key
emitted verbatim. -/
def encodeArrayWithKey (key : Str) (arr : List Value) (opts : EncodeOpts)
    (depth : Nat) : List Str :=
  let indent := indentStr opts depth
  if arr.isEmpty then
    [indent ++ key ++ formatBracket 0 opts.delimiter ++ [':']]
  else if isInlinePrimitiveArray arr then
    let values := arr.map (encodePrimitive · opts.delimiter)
    [indent ++ key ++ formatBracket arr.length opts.delimiter ++ [':', ' '] ++
      List.intercalate [opts.delimiter] values]
  else if isTabularArray arr then
    let fields := objKeys arr.headI
    (indent ++ key ++ formatBracket arr.length opts.delimiter ++
        (if fields.isEmpty then [] else
          '{' :: (List.intercalate [opts.delimiter] (fields.map encodeKey) ++ ['}'])) ++ [':']) ::
      arr.map fun row =>
        encodeTabularRow (match row with | .vobj fs => fs | _ => []) fields opts (depth + 1)
  else
    (indent ++ key ++ formatBracket arr.length opts.delimiter ++ [':']) ::
      (match arr with
       | [] => []
       | a :: rest =>
         encodeListItem a opts (depth + 1) ++ encodeListItemsLoop rest opts (depth + 1))

end

/-- `_encode_root_array`: inline, tabular or list format at the root. -/
def encodeRootArray (arr : List Value) (opts : EncodeOpts) : List Str :=
  if isInlinePrimitiveArray arr then
    [formatBracket arr.length opts.delimiter ++ [':', ' '] ++
      List.intercalate [opts.delimiter] (arr.map (encodePrimitive · opts.delimiter))]
  else if isTabularArray arr then
    let fields := objKeys arr.headI
    formatArrayHeader arr.length none fields opts.delimiter ::
      arr.map fun row =>
        encodeTabularRow (match row with | .vobj fs => fs | _ => []) fields opts 1
  else
    (formatBracket arr.length opts.delimiter ++ [':']) ::
      encodeListItemsLoop arr opts 1

/-- `encode_lines`: normalise, then dispatch on the root form. -/
def encodeLinesToon (v : Value) (opts : EncodeOpts) : List Str :=
  match normalizeValue v with
  | .vobj fs => encodeObjectLines fs opts 0 []
  | .varr xs => encodeRootArray xs opts
  | prim => [encodePrimitive prim opts.delimiter]

/-- `encode`: the lines joined by newlines. -/
def encodeToon (v : Value) (opts : EncodeOpts) : Str :=
  List.intercalate ['\n'] (encodeLinesToon v opts)

/-- The single-quote character, written by code point to keep source lexing
simple. -/
def squoteC : Char :=
  Char.ofNat 39

/-! ### Classes for the amended round-trip theorems

The classes below single out documents whose encoding is a list of
independent single lines; the amended claims quantify over them. -/

/-- Characters that may appear in a plain (unquoted) object key on an
encoded line: identifier characters and the dot. -/
def plainKeyCharB (c : Char) : Bool :=
  isAlphaC c || isDigitC c || c = '_' || c = '.'

/-- A plain key as it appears on an encoded line: nonempty, starting with a
letter or underscore, all characters identifier characters or dots. -/
def dottedKeyB : Str → Bool
  | [] => false
  | c :: rest => (isAlphaC c || c = '_') && (c :: rest).all plainKeyCharB

/-- A key the encoder emits verbatim and the decoder reads back verbatim:
a valid identifier segment that is safe unquoted. -/
def goodKeyB (k : Str) : Bool :=
  isValidIdentifierSegment k && isSafeUnquoted k ','

/-- Primitive leaves allowed inside inline arrays and at the root (floats
are excluded: their encoding goes through `repr`, outside this model). -/
def primLeafB : Value → Bool
  | .vnull => true
  | .vbool _ => true
  | .vint _ => true
  | .vstr _ => true
  | _ => false

/-- Values allowed as one field of a flat object: primitives (strings must
not coincide with a block-scalar indicator), empty objects, and arrays of
primitive leaves. -/
def rowValB : Value → Bool
  | .vnull => true
  | .vbool _ => true
  | .vint _ => true
  | .vfloat _ => false
  | .vstr s => !(blockIndicators.contains s)
  | .vobj fs => fs.isEmpty
  | .varr xs => xs.all primLeafB

/-- Leaves allowed at the end of a foldable single-key chain. -/
def foldLeafB : Value → Bool
  | .vnull => true
  | .vbool _ => true
  | .vint _ => true
  | .vstr s => !(blockIndicators.contains s)
  | .vobj fs => fs.isEmpty
  | _ => false

/-- Pairwise distinctness of keys. -/
def keysNodupB : List Str → Bool
  | [] => true
  | k :: rest => !(rest.contains k) && keysNodupB rest

/-- The flat-object class of the amended C1: every field has a good key and
a flat value, and the keys are pairwise distinct. -/
def flatObjB (fs : List (Str × Value)) : Bool :=
  fs.all (fun e => goodKeyB e.1 && rowValB e.2) && keysNodupB (fs.map (·.1))

/-- The single line the encoder emits for one flat field. -/
def rowLine (kk : Str) : Value → Str
  | .vobj _ => kk ++ [':']
  | .varr [] => kk ++ formatBracket 0 ',' ++ [':']
  | .varr xs => kk ++ formatBracket xs.length ',' ++ [':', ' '] ++
      List.intercalate [','] (xs.map (encodePrimitive · ','))
  | prim => kk ++ [':', ' '] ++ encodePrimitive prim ','

/-- The `ParsedLine` that `_parse_lines` builds for an unindented line that
is already right-stripped. -/
def mkLine (r : Str) (i : Nat) : ParsedLine :=
  ⟨r, r, 0, 0, i⟩

/-- The parsed-line buffer for a list of such lines. -/
def mkLines : List Str → Nat → List ParsedLine
  | [], _ => []
  | r :: rs, i => mkLine r i :: mkLines rs (i + 1)

/-- Nested single-key objects along a path, ending in a leaf. -/
def chainVal : List Str → Value → Value
  | [], leaf => leaf
  | k :: rest, leaf => .vobj [(k, chainVal rest leaf)]

/-- The dict that `_set_nested` builds along a fresh path. -/
def chainEntry : List Str → Value → Dict
  | [], _ => []
  | [k], v => [(k, v)]
  | k :: rest, v => [(k, .vobj (chainEntry rest v))]

/-- The cursor position after decoding one flat field: key lines with an
empty-object value leave the cursor where the failed child peek put it. -/
def rowAfter (ctx : DCtx) (pos : Nat) : Value → Nat
  | .vobj _ => (peekPos ctx.lines pos).2
  | _ => pos

/-- Relates the decoder's parsed-line buffer to the flat rows it encodes:
matching content, all at depth 0 (line numbers and raw text are
unconstrained, since no reached code path reads them). -/
def linesMatch (ls : List ParsedLine) (rows : List (Str × Value)) : Prop :=
  List.Forall₂ (fun l r => l.content = rowLine r.1 r.2 ∧ l.depth = 0) ls rows

/-- Rows decodable from their lines: dotted keys and flat values. -/
def rowsGood (rows : List (Str × Value)) : Prop :=
  ∀ r ∈ rows, dottedKeyB r.1 = true ∧ rowValB r.2 = true

/-- The last character, if any, is not whitespace. -/
def lastOK (l : Str) : Prop :=
  ∀ c, l.getLast? = some c → isPyWs c = false


/-! ### The nested document class for the amended round-trip claims

The predicates below classify the documents whose encoding is a tree of
single-line rows: primitive leaves, inline primitive arrays, tabular
arrays of uniform flat rows, empty objects, and nested non-empty objects.
The key predicate is a parameter: the encoder-side class uses `goodKeyB`,
the decoder-side simulation only needs `dottedKeyB`. -/

/-- One tabular row against an ordered field list: an object with exactly
those keys in that order and primitive-leaf values. -/
def tabRowB (fields : List Str) : Value → Bool
  | .vobj fs => fs.map (·.1) == fields && (fs.map (·.2)).all primLeafB
  | _ => false

/-- A tabular array: non-empty, the first row fixes a non-empty ordered
field list of safe distinct keys, and every row matches it. -/
def tabArrB : List Value → Bool
  | .vobj ((f0, v0) :: fr) :: rest =>
      (((f0, v0) :: fr).map (·.1)).all goodKeyB &&
      keysNodupB (((f0, v0) :: fr).map (·.1)) &&
      (((f0, v0) :: fr).map (·.2)).all primLeafB &&
      rest.all (tabRowB (((f0, v0) :: fr).map (·.1)))
  | _ => false

/-- The field list of a tabular array (the first row's keys). -/
def tabFields : List Value → List Str
  | .vobj fs :: _ => fs.map (·.1)
  | _ => []

/-- The encoded content of one tabular row. -/
def tabRowLine : Value → Str
  | .vobj fs => List.intercalate [','] (fs.map (fun e => encodePrimitive e.2 ','))
  | _ => []

/-- The encoded content of a tabular array's header line. -/
def tabHeaderLine (kk : Str) (xs : List Value) : Str :=
  kk ++ '[' :: (natDigits xs.length ++ ']' :: '{' ::
    (List.intercalate [','] (tabFields xs) ++ '}' :: ':' :: []))

mutual

/-- Membership of one entry value in the nested document class, keys
checked with `kp`. -/
def nvalB (kp : Str → Bool) : Value → Bool
  | .vnull => true
  | .vbool _ => true
  | .vint _ => true
  | .vfloat _ => false
  | .vstr s => !(blockIndicators.contains s)
  | .varr xs => xs.all primLeafB || tabArrB xs
  | .vobj [] => true
  | .vobj (e :: es) => nentsB kp (e :: es)

/-- The entries of one object level: `kp`-keys, pairwise distinct, values
in the class. -/
def nentsB (kp : Str → Bool) : List (Str × Value) → Bool
  | [] => true
  | (k, v) :: rest =>
      kp k && !((rest.map (·.1)).contains k) && nvalB kp v && nentsB kp rest

end

mutual

/-- The `(depth, content)` line list of one entry of the nested document. -/
def nvalLines (kk : Str) (v : Value) (d : Nat) : List (Nat × Str) :=
  match v with
  | .vobj (e :: es) => (d, kk ++ [':']) :: nentsLines (e :: es) (d + 1)
  | .varr xs =>
      if tabArrB xs then
        (d, tabHeaderLine kk xs) :: xs.map (fun r => (d + 1, tabRowLine r))
      else [(d, rowLine kk v)]
  | _ => [(d, rowLine kk v)]

/-- The `(depth, content)` line list of an entry list. -/
def nentsLines : List (Str × Value) → Nat → List (Nat × Str)
  | [], _ => []
  | (k, v) :: rest, d => nvalLines k v d ++ nentsLines rest d

end

mutual

/-- Fuel bound for decoding one entry value. -/
def nvalCost : Value → Nat
  | .vobj (e :: es) => 3 + nentsCost (e :: es)
  | .varr xs => if tabArrB xs then 3 + xs.length else 3
  | _ => 3

/-- Fuel bound for one object level. -/
def nentsCost : List (Str × Value) → Nat
  | [] => 1
  | (_, v) :: rest => 1 + nvalCost v + nentsCost rest

end

mutual

/-- Nesting size of one entry value (the strong-induction measure). -/
def nvalSize : Value → Nat
  | .vobj (e :: es) => 1 + nentsSize (e :: es)
  | _ => 0

/-- Nesting size of an entry list. -/
def nentsSize : List (Str × Value) → Nat
  | [] => 0
  | (_, v) :: rest => 1 + nvalSize v + nentsSize rest

end

/-- The raw text of one `(depth, content)` line at indent width 2. -/
def rawOfD (p : Nat × Str) : Str :=
  List.replicate (2 * p.1) ' ' ++ p.2

/-- The parsed lines the scanner produces from a `(depth, content)` list at
indent width 2. -/
def mkLinesD : List (Nat × Str) → Nat → List ParsedLine
  | [], _ => []
  | (d, c) :: rest, i =>
      ⟨List.replicate (2 * d) ' ' ++ c, c, 2 * d, d, i⟩ :: mkLinesD rest (i + 1)

/-- A parsed-line list realises a `(depth, content)` list. -/
def linesMatchD (ls : List ParsedLine) (ps : List (Nat × Str)) : Prop :=
  List.Forall₂ (fun l p => l.content = p.2 ∧ l.depth = p.1) ls ps

/-- The suffix after a subtree: if non-empty, its head line looks like TOON
structure (so the implicit-multiline heuristic bails), sits strictly above
the subtree, and is non-blank. -/
def sCondD (d : Nat) (S : List ParsedLine) : Prop :=
  ∀ l S2, S = l :: S2 → implicitBailsOn l.content = true ∧ l.depth < d ∧
    l.content ≠ []

/-! ### Safe key folding on the nested class -/

mutual

/-- `_encode_folded`'s walk on one entry of the class: follow the
single-entry chain, joining keys with dots, and fold the entries of a
multi-entry object at the chain's end. -/
def foldEntry (k : Str) : Value → Str × Value
  | .vobj [(k1, v1)] => foldEntry (k ++ '.' :: k1) v1
  | .vobj (e1 :: e2 :: rest) => (k, .vobj (foldEnts (e1 :: e2 :: rest)))
  | v => (k, v)

/-- Folding applied to every entry of one object level. -/
def foldEnts : List (Str × Value) → List (Str × Value)
  | [] => []
  | (k, v) :: rest => foldEntry k v :: foldEnts rest

end

/-- The chain keys below one entry value (the folded key's later
segments). -/
def foldPathKeys : Value → List Str
  | .vobj [(k1, v1)] => k1 :: foldPathKeys v1
  | _ => []

/-- The value at the end of one entry's single-entry chain. -/
def foldEnd : Value → Value
  | .vobj [(_, v1)] => foldEnd v1
  | v => v


/-! ## Theorems for the claims -/

/-!
### Supporting lemmas

The development below proves the simulation and round-trip lemmas the
claim theorems build on: string scanning (quotes, colons, delimiters),
the Python number grammar on encoded integers, the line scanner on
already-stripped lines, the decoder loops (`decodeStep`) on flat
single-line documents, the encoder on flat objects and folded single-key
chains, and path expansion of a single dotted key.
-/

lemma pred_ne {p : Char → Bool} {c d : Char} (hc : p c = true) (hd : p d = false) :
    c ≠ d := by
  intro h
  rw [h, hd] at hc
  exact Bool.noConfusion hc

lemma contains_false_of_all {l : Str} {a : Char} (h : ∀ x ∈ l, x ≠ a) :
    l.contains a = false := by
  induction l with
  | nil => rfl
  | cons c t ih =>
    simp only [List.contains_cons, Bool.or_eq_false_iff]
    constructor
    · exact beq_eq_false_iff_ne.mpr (fun he => (h c (by simp)) he.symm)
    · exact ih (fun x hx => h x (by simp [hx]))

lemma escapeChar_cases (c : Char) :
    (escapeChar c = [c] ∧ c ≠ '\\' ∧ c ≠ '"' ∧ c ≠ '\n') ∨
    (∃ x, escapeChar c = ['\\', x] ∧ unescChar x = some c) := by
  unfold escapeChar
  split_ifs with h1 h2 h3 h4 h5
  · exact Or.inr ⟨'\\', rfl, by subst h1; rfl⟩
  · exact Or.inr ⟨'"', rfl, by subst h2; rfl⟩
  · exact Or.inr ⟨'n', rfl, by subst h3; rfl⟩
  · exact Or.inr ⟨'r', rfl, by subst h4; rfl⟩
  · exact Or.inr ⟨'t', rfl, by subst h5; rfl⟩
  · exact Or.inl ⟨rfl, h1, h2, h3⟩

lemma escapeString_cons (c : Char) (t : Str) :
    escapeString (c :: t) = escapeChar c ++ escapeString t := rfl

lemma unescapeString_cons_plain {c : Char} (t : Str) (h : c ≠ '\\') :
    unescapeString (c :: t) =
      match unescapeString t with
      | .ok r => .ok (c :: r)
      | .error e => .error e := by
  rw [unescapeString.eq_def]
  split
  · simp_all
  · simp_all
  · simp_all
  · rename_i c2 rest hno1 hno2 heq
    injection heq with h1 h2
    subst h1
    subst h2
    cases hr : unescapeString t <;> simp [hr, Except.bind, Except.map]

lemma unescape_escape (s : Str) : unescapeString (escapeString s) = .ok s := by
  induction s with
  | nil => rfl
  | cons c t ih =>
    rcases escapeChar_cases c with ⟨he, hbs, _, _⟩ | ⟨x, he, hx⟩
    · rw [escapeString_cons, he, List.singleton_append]
      rw [unescapeString_cons_plain _ hbs, ih]
    · rw [escapeString_cons, he]
      show unescapeString ('\\' :: x :: escapeString t) = .ok (c :: t)
      rw [show unescapeString ('\\' :: x :: escapeString t) =
          (match unescChar x with
           | some u => do
             let r ← unescapeString (escapeString t)
             return u :: r
           | none => .error .syntaxErr) from rfl]
      rw [hx, ih]
      rfl

lemma newline_not_mem_escapeString (s : Str) : '\n' ∉ escapeString s := by
  induction s with
  | nil => simp [escapeString]
  | cons c t ih =>
    rw [escapeString_cons]
    intro hmem
    rcases List.mem_append.mp hmem with hm | hm
    · rcases escapeChar_cases c with ⟨he, _, _, hn⟩ | ⟨x, he, hx⟩
      · rw [he] at hm
        exact hn (List.mem_singleton.mp hm).symm
      · rw [he] at hm
        simp only [List.mem_cons, List.mem_singleton, List.not_mem_nil,
          or_false] at hm
        rcases hm with h1 | h2
        · exact absurd h1 (by decide)
        · rw [← h2] at hx
          rw [show unescChar '\n' = none from rfl] at hx
          exact Option.noConfusion hx
    · exact ih hm

lemma findClosingQuoteGo_cons_plain (c : Char) (rest : Str) (i : Nat)
    (h1 : c ≠ '\\') (h2 : c ≠ '"') :
    findClosingQuoteGo (c :: rest) i = findClosingQuoteGo rest (i + 1) := by
  cases rest with
  | nil => rw [findClosingQuoteGo.eq_3, if_neg h1, if_neg h2]
  | cons d r => rw [findClosingQuoteGo.eq_2, if_neg h1, if_neg h2]

lemma findClosingQuoteGo_esc (x : Char) (rest : Str) (i : Nat) :
    findClosingQuoteGo ('\\' :: x :: rest) i = findClosingQuoteGo rest (i + 2) := by
  rw [findClosingQuoteGo.eq_2, if_pos rfl]

lemma findClosingQuoteGo_quote (rest : Str) (i : Nat) :
    findClosingQuoteGo ('"' :: rest) i = some i := by
  cases rest with
  | nil => rw [findClosingQuoteGo.eq_3, if_neg (by decide), if_pos rfl]
  | cons d r => rw [findClosingQuoteGo.eq_2, if_neg (by decide), if_pos rfl]

lemma findClosingQuoteGo_escape (s : Str) :
    ∀ i, findClosingQuoteGo (escapeString s ++ ['"']) i =
      some (i + (escapeString s).length) := by
  induction s with
  | nil =>
    intro i
    show findClosingQuoteGo ('"' :: []) i = _
    rw [findClosingQuoteGo_quote]
    simp [escapeString]
  | cons c t ih =>
    intro i
    rcases escapeChar_cases c with ⟨he, hbs, hq, _⟩ | ⟨x, he, _⟩
    · rw [escapeString_cons, he, List.singleton_append]
      show findClosingQuoteGo (c :: (escapeString t ++ ['"'])) i = _
      rw [findClosingQuoteGo_cons_plain c _ i hbs hq, ih (i + 1)]
      congr 1
      simp only [List.length_cons]
      omega
    · rw [escapeString_cons, he]
      show findClosingQuoteGo ('\\' :: x :: (escapeString t ++ ['"'])) i = _
      rw [findClosingQuoteGo_esc, ih (i + 2)]
      congr 1
      simp only [List.length_append, List.length_cons, List.length_nil]
      omega

lemma findUnquotedColonGo_cons_false (c : Char) (rest : Str) (i : Nat)
    (hq : c ≠ '"') (hc : c ≠ ':') :
    findUnquotedColonGo (c :: rest) i false = findUnquotedColonGo rest (i + 1) false := by
  cases rest with
  | nil => rw [findUnquotedColonGo.eq_3]; simp [hq, hc]
  | cons d r => rw [findUnquotedColonGo.eq_2]; simp [hq, hc]

lemma findUnquotedColonGo_colon (rest : Str) (i : Nat) :
    findUnquotedColonGo (':' :: rest) i false = some i := by
  cases rest with
  | nil => rw [findUnquotedColonGo.eq_3]; simp
  | cons d r => rw [findUnquotedColonGo.eq_2]; simp

lemma findUnquotedColonGo_quote (rest : Str) (i : Nat) (inq : Bool) :
    findUnquotedColonGo ('"' :: rest) i inq = findUnquotedColonGo rest (i + 1) (!inq) := by
  cases rest with
  | nil => rw [findUnquotedColonGo.eq_3]; simp
  | cons d r => rw [findUnquotedColonGo.eq_2]; simp

lemma findUnquotedColonGo_esc_true (x : Char) (rest : Str) (i : Nat) :
    findUnquotedColonGo ('\\' :: x :: rest) i true = findUnquotedColonGo rest (i + 2) true := by
  rw [findUnquotedColonGo.eq_2]; simp

lemma findUnquotedColonGo_cons_true (c : Char) (rest : Str) (i : Nat)
    (h1 : c ≠ '\\') (hq : c ≠ '"') :
    findUnquotedColonGo (c :: rest) i true = findUnquotedColonGo rest (i + 1) true := by
  cases rest with
  | nil => rw [findUnquotedColonGo.eq_3]; simp [h1, hq]
  | cons d r => rw [findUnquotedColonGo.eq_2]; simp [h1, hq]

lemma fuc_pre (pre : Str) (hpre : ∀ c ∈ pre, c ≠ '"' ∧ c ≠ ':') :
    ∀ rest i, findUnquotedColonGo (pre ++ ':' :: rest) i false = some (i + pre.length) := by
  induction pre with
  | nil =>
    intro rest i
    rw [List.nil_append, findUnquotedColonGo_colon]
    simp
  | cons c p ih =>
    intro rest i
    have hc := hpre c (by simp)
    rw [List.cons_append, findUnquotedColonGo_cons_false c _ i hc.1 hc.2,
      ih (fun x hx => hpre x (by simp [hx])) rest (i + 1)]
    congr 1
    simp only [List.length_cons]
    omega

lemma fuc_none (l : Str) (h : ∀ c ∈ l, c ≠ '"' ∧ c ≠ ':') :
    ∀ i, findUnquotedColonGo l i false = none := by
  induction l with
  | nil => intro i; rw [findUnquotedColonGo.eq_1]
  | cons c p ih =>
    intro i
    have hc := h c (by simp)
    rw [findUnquotedColonGo_cons_false c _ i hc.1 hc.2,
      ih (fun x hx => h x (by simp [hx])) (i + 1)]

lemma fuc_quoted_body (s : Str) :
    ∀ rest i, findUnquotedColonGo (escapeString s ++ '"' :: rest) i true =
      findUnquotedColonGo rest (i + (escapeString s).length + 1) false := by
  induction s with
  | nil =>
    intro rest i
    rw [show escapeString [] ++ '"' :: rest = '"' :: rest from rfl,
      findUnquotedColonGo_quote]
    simp [escapeString]
  | cons c t ih =>
    intro rest i
    rcases escapeChar_cases c with ⟨he, hbs, hq, _⟩ | ⟨x, he, _⟩
    · rw [escapeString_cons, he, List.singleton_append, List.cons_append,
        findUnquotedColonGo_cons_true c _ i hbs hq, ih rest (i + 1)]
      congr 2
      simp only [List.length_cons]
      omega
    · rw [escapeString_cons, he]
      show findUnquotedColonGo ('\\' :: x :: (escapeString t ++ '"' :: rest)) i true = _
      rw [findUnquotedColonGo_esc_true, ih rest (i + 2)]
      congr 2
      simp only [List.length_append, List.length_cons, List.length_nil]
      omega

lemma sbd_cons_false (dl c : Char) (rest cur : Str) (hq : c ≠ '"') (hd : c ≠ dl) :
    splitByDelimiterGo dl (c :: rest) false cur =
      splitByDelimiterGo dl rest false (cur ++ [c]) := by
  cases rest with
  | nil => rw [splitByDelimiterGo.eq_3]; simp [hq, hd]
  | cons d r => rw [splitByDelimiterGo.eq_2]; simp [hq, hd]

lemma sbd_delim (dl : Char) (rest cur : Str) (hq : dl ≠ '"') :
    splitByDelimiterGo dl (dl :: rest) false cur =
      pyStrip cur :: splitByDelimiterGo dl rest false [] := by
  cases rest with
  | nil => rw [splitByDelimiterGo.eq_3]; simp [hq]
  | cons d r => rw [splitByDelimiterGo.eq_2]; simp [hq]

lemma sbd_quote (dl : Char) (rest cur : Str) (inq : Bool) :
    splitByDelimiterGo dl ('"' :: rest) inq cur =
      splitByDelimiterGo dl rest (!inq) (cur ++ ['"']) := by
  cases rest with
  | nil => rw [splitByDelimiterGo.eq_3]; simp
  | cons d r => rw [splitByDelimiterGo.eq_2]; simp

lemma sbd_esc_true (dl x : Char) (rest cur : Str) :
    splitByDelimiterGo dl ('\\' :: x :: rest) true cur =
      splitByDelimiterGo dl rest true (cur ++ ['\\', x]) := by
  rw [splitByDelimiterGo.eq_2]; simp

lemma sbd_cons_true (dl c : Char) (rest cur : Str) (h1 : c ≠ '\\') (hq : c ≠ '"') :
    splitByDelimiterGo dl (c :: rest) true cur =
      splitByDelimiterGo dl rest true (cur ++ [c]) := by
  cases rest with
  | nil => rw [splitByDelimiterGo.eq_3]; simp [h1, hq]
  | cons d r => rw [splitByDelimiterGo.eq_2]; simp [h1, hq]

lemma sbd_quoted_body (dl : Char) (s : Str) :
    ∀ rest cur, splitByDelimiterGo dl (escapeString s ++ '"' :: rest) true cur =
      splitByDelimiterGo dl rest false (cur ++ escapeString s ++ ['"']) := by
  induction s with
  | nil =>
    intro rest cur
    rw [show escapeString [] ++ '"' :: rest = '"' :: rest from rfl, sbd_quote]
    simp [escapeString]
  | cons c t ih =>
    intro rest cur
    rcases escapeChar_cases c with ⟨he, hbs, hq, _⟩ | ⟨x, he, _⟩
    · rw [escapeString_cons, he, List.singleton_append, List.cons_append,
        sbd_cons_true dl c _ cur hbs hq, ih rest (cur ++ [c])]
      congr 1
      simp [escapeString_cons, he]
    · rw [escapeString_cons, he]
      show splitByDelimiterGo dl ('\\' :: x :: (escapeString t ++ '"' :: rest)) true cur = _
      rw [sbd_esc_true, ih rest (cur ++ ['\\', x])]
      congr 1
      simp [escapeString_cons, he]

lemma splitOnChar_of_not_mem (sep : Char) (l : Str) (h : sep ∉ l) :
    splitOnChar sep l = [l] := by
  induction l with
  | nil => rfl
  | cons c t ih =>
    have hc : ¬ c = sep := fun he => h (by simp [he])
    rw [splitOnChar, ih (fun hm => h (by simp [hm]))]
    simp [hc]

lemma splitOnChar_ne_nil (sep : Char) (l : Str) : splitOnChar sep l ≠ [] := by
  cases l with
  | nil => simp [splitOnChar]
  | cons c t =>
    rw [splitOnChar]
    cases hs : splitOnChar sep t with
    | nil => simp
    | cons g gs =>
      by_cases hc : c = sep <;> simp [hc]

lemma splitOnChar_append_sep (sep : Char) (l r : Str) (h : sep ∉ l) :
    splitOnChar sep (l ++ sep :: r) = l :: splitOnChar sep r := by
  induction l with
  | nil =>
    rw [List.nil_append, splitOnChar]
    cases hs : splitOnChar sep r with
    | nil => exact absurd hs (splitOnChar_ne_nil sep r)
    | cons g gs => simp
  | cons c t ih =>
    have hc : ¬ c = sep := fun he => h (by simp [he])
    rw [List.cons_append, splitOnChar, ih (fun hm => h (by simp [hm]))]
    simp [hc]

lemma intercalate_cons_cons (sep : Str) (a b : Str) (t : List Str) :
    List.intercalate sep (a :: b :: t) = a ++ sep ++ List.intercalate sep (b :: t) := by
  simp [List.intercalate, List.intersperse]

lemma splitOnChar_intercalate (sep : Char) (ls : List Str) (hne : ls ≠ [])
    (h : ∀ l ∈ ls, sep ∉ l) :
    splitOnChar sep (List.intercalate [sep] ls) = ls := by
  induction ls with
  | nil => exact absurd rfl hne
  | cons a t ih =>
    cases t with
    | nil =>
      rw [show List.intercalate [sep] [a] = a by simp [List.intercalate]]
      exact splitOnChar_of_not_mem sep a (h a (by simp))
    | cons b t2 =>
      rw [intercalate_cons_cons, List.append_assoc, List.singleton_append,
        splitOnChar_append_sep sep a _ (h a (by simp)),
        ih (by simp) (fun l hl => h l (by simp [hl]))]

lemma rstripBy_concat (p : Char → Bool) (l : Str) (c : Char) :
    rstripBy p (l ++ [c]) = if p c then rstripBy p l else l ++ [c] := by
  unfold rstripBy
  rw [List.reverse_append]
  simp only [List.reverse_cons, List.reverse_nil, List.nil_append,
    List.singleton_append, List.dropWhile_cons]
  by_cases hc : p c
  · simp [hc]
  · simp only [hc]
    simp

lemma rstripBy_self_of_last (p : Char → Bool) (l : Str) (c : Char) (h : p c = false) :
    rstripBy p (l ++ [c]) = l ++ [c] := by
  rw [rstripBy_concat, h]
  simp

lemma rstripBy_sublist (p : Char → Bool) (l : Str) : (rstripBy p l).length ≤ l.length := by
  unfold rstripBy
  calc (l.reverse.dropWhile p).reverse.length = (l.reverse.dropWhile p).length := by
        simp
    _ ≤ l.reverse.length := (List.dropWhile_sublist p).length_le
    _ = l.length := by simp

lemma rstripBy_last_false (p : Char → Bool) (l : Str) (c : Char)
    (h : rstripBy p (l ++ [c]) = l ++ [c]) : p c = false := by
  by_contra hb
  have hc : p c = true := by
    cases hp : p c
    · exact absurd hp hb
    · rfl
  rw [rstripBy_concat, hc, if_pos rfl] at h
  have := rstripBy_sublist p l
  have hlen := congrArg List.length h
  simp at hlen
  omega

lemma lastOK_of_rstrip_self (l : Str) (h : rstripWs l = l) : lastOK l := by
  intro c hc
  rcases List.eq_nil_or_concat l with rfl | ⟨l2, b, rfl⟩
  · exact absurd hc (by simp)
  · simp only [List.concat_eq_append] at h hc
    rw [List.getLast?_concat] at hc
    obtain rfl : b = c := Option.some.inj hc
    exact rstripBy_last_false isPyWs l2 b h

lemma rstrip_self_of_lastOK (l : Str) (h : lastOK l) : rstripWs l = l := by
  rcases List.eq_nil_or_concat l with rfl | ⟨l2, b, rfl⟩
  · rfl
  · simp only [List.concat_eq_append] at h ⊢
    exact rstripBy_self_of_last isPyWs l2 b (h b (by rw [List.getLast?_concat]))

lemma lastOK_append (a b : Str) (hb : b ≠ []) (h : lastOK b) : lastOK (a ++ b) := by
  intro c hc
  rcases List.eq_nil_or_concat b with rfl | ⟨b2, x, rfl⟩
  · exact absurd rfl hb
  · simp only [List.concat_eq_append] at h hc
    rw [← List.append_assoc, List.getLast?_concat] at hc
    obtain rfl : x = c := Option.some.inj hc
    exact h x (by rw [List.getLast?_concat])

lemma dropWhile_idem (p : Char → Bool) (l : Str) :
    List.dropWhile p (List.dropWhile p l) = List.dropWhile p l := by
  induction l with
  | nil => rfl
  | cons c t ih => by_cases hc : p c <;> simp [List.dropWhile_cons, hc, ih]

lemma rstripBy_idem (p : Char → Bool) (l : Str) :
    rstripBy p (rstripBy p l) = rstripBy p l := by
  unfold rstripBy
  rw [List.reverse_reverse, dropWhile_idem]

lemma pyStrip_fixed_rstrip (s : Str) (h : pyStrip s = s) : rstripWs s = s := by
  calc rstripWs s = rstripWs (pyStrip s) := by rw [h]
    _ = pyStrip s := by unfold pyStrip rstripWs; rw [rstripBy_idem]
    _ = s := h

lemma lastOK_of_pyStrip_fixed (s : Str) (h : pyStrip s = s) : lastOK s :=
  lastOK_of_rstrip_self s (pyStrip_fixed_rstrip s h)

lemma pyStrip_eq_self_head_last (c : Char) (t : Str) (hc : isPyWs c = false)
    (hl : lastOK (c :: t)) : pyStrip (c :: t) = c :: t := by
  unfold pyStrip
  rw [List.dropWhile_cons]
  simp only [hc, Bool.false_eq_true, if_false]
  exact rstrip_self_of_lastOK _ hl

lemma pyStrip_cons_ws (c : Char) (t : Str) (hc : isPyWs c = true) :
    pyStrip (c :: t) = pyStrip t := by
  unfold pyStrip
  rw [List.dropWhile_cons]
  simp [hc]

lemma pyStrip_eq_self_of_all (l : Str) (h : ∀ c ∈ l, isPyWs c = false) :
    pyStrip l = l := by
  cases l with
  | nil => rfl
  | cons c t =>
    refine pyStrip_eq_self_head_last c t (h c (by simp)) ?_
    intro x hx
    obtain ⟨hne, heq⟩ := List.mem_getLast?_eq_getLast hx
    rw [heq]
    exact h _ (List.getLast_mem hne)

lemma lstripSpaces_cons_of_ne (c : Char) (t : Str) (hc : c ≠ ' ') :
    lstripSpaces (c :: t) = c :: t := by
  unfold lstripSpaces
  rw [List.dropWhile_cons]
  simp [hc]

lemma rstripWs_append_lastOK (a b : Str) (hb : b ≠ []) (h : lastOK b) :
    rstripWs (a ++ b) = a ++ b :=
  rstrip_self_of_lastOK _ (lastOK_append a b hb h)

lemma strStarts_cons_ne (p c : Char) (ps cs : Str) (h : p ≠ c) :
    strStarts (p :: ps) (c :: cs) = false := by
  rw [strStarts]
  simp [h]

lemma takeWhile_append_of_all (p : Char → Bool) (a b : Str) (h : ∀ c ∈ a, p c = true) :
    (a ++ b).takeWhile p = a ++ b.takeWhile p := by
  induction a with
  | nil => simp
  | cons c t ih =>
    rw [List.cons_append, List.takeWhile_cons]
    simp only [h c (by simp), if_true]
    rw [ih (fun x hx => h x (by simp [hx]))]
    simp

lemma takeWhile_cons_neg (p : Char → Bool) (c : Char) (t : Str) (h : p c = false) :
    (c :: t).takeWhile p = [] := by
  rw [List.takeWhile_cons]
  simp [h]

lemma drop_one_after (pre : Str) (c : Char) (t : Str) :
    (pre ++ c :: t).drop (pre.length + 1) = t := by
  have : pre ++ c :: t = (pre ++ [c]) ++ t := by simp
  rw [this]
  have hl : (pre ++ [c]).length = pre.length + 1 := by simp
  rw [← hl, List.drop_left]

lemma take_pre (pre : Str) (t : Str) : (pre ++ t).take pre.length = pre :=
  List.take_left pre t

lemma contains_false_iff (l : Str) (x : Char) : l.contains x = false ↔ x ∉ l := by
  simp [List.contains]

lemma contains_append_chars (a b : Str) (x : Char) :
    (a ++ b).contains x = (a.contains x || b.contains x) := by
  simp [List.contains, List.mem_append]

lemma not_contains_cons (c : Char) (t : Str) (x : Char) (h1 : x ≠ c)
    (h2 : t.contains x = false) : (c :: t).contains x = false := by
  rw [contains_false_iff] at h2 ⊢
  simp [h1, h2]

lemma plainKeyChar_not_special (c : Char) (h : plainKeyCharB c = true) :
    isKeyRunC c = true ∧ c ≠ ':' ∧ c ≠ '"' ∧ c ≠ '[' ∧ isPyWs c = false ∧
      c ≠ '\n' ∧ c ≠ ' ' ∧ c ≠ '#' ∧ c ≠ '\\' ∧ c ≠ '-' ∧ c ≠ '\x00' := by
  have hne : ∀ d : Char, plainKeyCharB d = false → c ≠ d :=
    fun d hd => pred_ne h hd
  refine ⟨?_, hne ':' (by decide), hne '"' (by decide), hne '[' (by decide), ?_,
    hne '\n' (by decide), hne ' ' (by decide), hne '#' (by decide),
    hne '\\' (by decide), hne '-' (by decide), hne '\x00' (by decide)⟩
  · unfold isKeyRunC
    have h1 := hne ':' (by decide)
    have h2 := hne '[' (by decide)
    have h3 := hne ']' (by decide)
    have h4 := hne '{' (by decide)
    have h5 := hne '}' (by decide)
    have h6 := hne '"' (by decide)
    simp [h1, h2, h3, h4, h5, h6]
  · cases hw : isPyWs c
    · rfl
    · exfalso
      unfold isPyWs at hw
      simp only [Bool.or_eq_true, decide_eq_true_eq] at hw
      rcases hw with ((((h1 | h1) | h1) | h1) | h1) | h1 <;>
        (subst h1; revert h; decide)

lemma digit_not_special (c : Char) (h : isDigitC c = true) :
    c ≠ ':' ∧ c ≠ '"' ∧ c ≠ ']' ∧ c ≠ '.' ∧ c ≠ 'e' ∧ c ≠ 'E' ∧ c ≠ '-' ∧
      c ≠ '_' ∧ c ≠ '\\' ∧ c ≠ ',' ∧ c ≠ '\n' ∧ c ≠ ' ' ∧ isPyWs c = false ∧
      c ≠ '+' := by
  have hne : ∀ d : Char, isDigitC d = false → c ≠ d :=
    fun d hd => pred_ne h hd
  refine ⟨hne ':' (by decide), hne '"' (by decide), hne ']' (by decide),
    hne '.' (by decide), hne 'e' (by decide), hne 'E' (by decide),
    hne '-' (by decide), hne '_' (by decide), hne '\\' (by decide),
    hne ',' (by decide), hne '\n' (by decide), hne ' ' (by decide), ?_,
    hne '+' (by decide)⟩
  cases hw : isPyWs c
  · rfl
  · exfalso
    unfold isPyWs at hw
    simp only [Bool.or_eq_true, decide_eq_true_eq] at hw
    rcases hw with ((((h1 | h1) | h1) | h1) | h1) | h1 <;>
      (subst h1; revert h; decide)

lemma dottedKey_parts (kk : Str) (h : dottedKeyB kk = true) :
    ∃ c t, kk = c :: t ∧ (isAlphaC c || c = '_') = true ∧
      ∀ x ∈ kk, plainKeyCharB x = true := by
  cases kk with
  | nil => exact absurd h (by simp [dottedKeyB])
  | cons c t =>
    unfold dottedKeyB at h
    simp only [Bool.and_eq_true, List.all_eq_true] at h
    exact ⟨c, t, rfl, h.1, fun x hx => h.2 x hx⟩

lemma alpha_head_props (c : Char) (h : (isAlphaC c || c = '_') = true) :
    c ≠ ' ' ∧ c ≠ '[' ∧ c ≠ '"' ∧ c ≠ '-' ∧ c ≠ '#' ∧ c ≠ '\x00' := by
  have hne : ∀ d : Char, (isAlphaC d || d = '_') = false → c ≠ d := by
    intro d hd he
    rw [he, hd] at h
    exact Bool.noConfusion h
  exact ⟨hne ' ' (by decide), hne '[' (by decide), hne '"' (by decide),
    hne '-' (by decide), hne '#' (by decide), hne '\x00' (by decide)⟩

lemma digitsToNat_append (a b : Str) (acc : Nat) :
    digitsToNat (a ++ b) acc = digitsToNat b (digitsToNat a acc) := by
  induction a generalizing acc with
  | nil => rfl
  | cons c t ih => rw [List.cons_append, digitsToNat, digitsToNat, ih]

lemma digitsToNat_digitChar (m : Nat) (hm : m < 10) (acc : Nat) :
    digitsToNat [Char.ofNat (48 + m)] acc = acc * 10 + m := by
  interval_cases m <;> rfl

lemma digitChar_isDigit (m : Nat) (hm : m < 10) :
    isDigitC (Char.ofNat (48 + m)) = true := by
  interval_cases m <;> decide

lemma natDigitsGo_spec (fuel : Nat) :
    ∀ n, n < fuel → ∀ acc,
      digitsToNat (natDigitsGo fuel n) acc =
        acc * 10 ^ (natDigitsGo fuel n).length + n := by
  induction fuel with
  | zero => intro n hn; omega
  | succ fuel ih =>
    intro n hn acc
    by_cases h10 : n < 10
    · rw [natDigitsGo, if_pos h10, digitsToNat_digitChar n h10]
      simp
    · rw [natDigitsGo, if_neg h10]
      have hdiv : n / 10 < fuel := by
        have h1 : n / 10 < n := Nat.div_lt_self (by omega) (by omega)
        omega
      rw [digitsToNat_append, digitsToNat_digitChar (n % 10) (Nat.mod_lt n (by omega)),
        ih (n / 10) hdiv acc]
      have hmod := Nat.div_add_mod n 10
      set L := (natDigitsGo fuel (n / 10)).length with hL
      have hlen : (natDigitsGo fuel (n / 10) ++
          [Char.ofNat (48 + n % 10)]).length = L + 1 := by simp
      rw [hlen]
      calc (acc * 10 ^ L + n / 10) * 10 + n % 10
          = acc * (10 ^ L * 10) + (10 * (n / 10) + n % 10) := by ring
        _ = acc * 10 ^ (L + 1) + n := by rw [hmod, pow_succ]

lemma natDigits_val (n : Nat) : digitsToNat (natDigits n) 0 = n := by
  have := natDigitsGo_spec (n + 1) n (by omega) 0
  simpa [natDigits] using this

lemma natDigitsGo_all_digits (fuel : Nat) :
    ∀ n, ∀ c ∈ natDigitsGo fuel n, isDigitC c = true := by
  induction fuel with
  | zero => intro n c hc; simp [natDigitsGo] at hc
  | succ fuel ih =>
    intro n c hc
    by_cases h10 : n < 10
    · rw [natDigitsGo, if_pos h10] at hc
      rcases List.mem_singleton.mp hc with rfl
      exact digitChar_isDigit n h10
    · rw [natDigitsGo, if_neg h10] at hc
      rcases List.mem_append.mp hc with hm | hm
      · exact ih (n / 10) c hm
      · rcases List.mem_singleton.mp hm with rfl
        exact digitChar_isDigit (n % 10) (Nat.mod_lt n (by omega))

lemma natDigits_all_digits (n : Nat) : ∀ c ∈ natDigits n, isDigitC c = true :=
  natDigitsGo_all_digits (n + 1) n

lemma natDigitsGo_ne_nil (fuel n : Nat) : natDigitsGo (fuel + 1) n ≠ [] := by
  by_cases h10 : n < 10 <;> simp [natDigitsGo, h10]

lemma natDigits_ne_nil (n : Nat) : natDigits n ≠ [] := natDigitsGo_ne_nil n n

lemma headI_append_of_ne_nil (a b : Str) (ha : a ≠ []) :
    (a ++ b).headI = a.headI := by
  cases a with
  | nil => exact absurd rfl ha
  | cons c t => rfl

lemma natDigitsGo_headI_ne_zero (fuel : Nat) :
    ∀ n, 0 < n → n < fuel → (natDigitsGo fuel n).headI ≠ '0' := by
  induction fuel with
  | zero => intro n hn hf; omega
  | succ fuel ih =>
    intro n hn hf
    by_cases h10 : n < 10
    · rw [natDigitsGo, if_pos h10]
      interval_cases n <;> decide
    · rw [natDigitsGo, if_neg h10]
      rw [headI_append_of_ne_nil _ _ (by
        cases fuel with
        | zero =>
          exfalso
          omega
        | succ fuel2 => exact natDigitsGo_ne_nil fuel2 (n / 10))]
      have hpos : 0 < n / 10 := Nat.div_pos (by omega) (by omega)
      have hlt : n / 10 < fuel := by
        have : n / 10 < n := Nat.div_lt_self (by omega) (by omega)
        omega
      exact ih (n / 10) hpos hlt

lemma natDigits_len_one (n : Nat) (h : n < 10) : (natDigits n).length = 1 := by
  rw [natDigits, natDigitsGo, if_pos h]
  rfl

lemma stripSign_of_head (c : Char) (t : Str) (h1 : c ≠ '+') (h2 : c ≠ '-') :
    stripSign (c :: t) = (false, c :: t) := by
  refine stripSign.eq_3 (c :: t) ?_ ?_
  · intro rest he
    exact h1 (List.cons.inj he).1
  · intro rest he
    exact h2 (List.cons.inj he).1

lemma digitGroupTail_all (t : Str) (h : ∀ c ∈ t, isDigitC c = true) :
    digitGroup.digitGroupTail t = (t, []) := by
  induction t with
  | nil => rfl
  | cons c t2 ih =>
    cases t2 with
    | nil =>
      rw [digitGroup.digitGroupTail.eq_2, if_pos (h c (by simp))]
      rfl
    | cons d r =>
      rw [digitGroup.digitGroupTail.eq_1, if_pos (h c (by simp))]
      rw [ih (fun x hx => h x (by simp [hx]))]

lemma digitGroup_all (l : Str) (hne : l ≠ []) (h : ∀ c ∈ l, isDigitC c = true) :
    digitGroup l = some (l, []) := by
  cases l with
  | nil => exact absurd rfl hne
  | cons c t =>
    rw [digitGroup.eq_1, if_pos (h c (by simp)),
      digitGroupTail_all t (fun x hx => h x (by simp [hx]))]

lemma intStr_nonneg (n : Int) (h : 0 ≤ n) : intStr n = natDigits n.toNat := by
  unfold intStr
  rw [if_neg (by omega)]

lemma intStr_neg (n : Int) (h : n < 0) : intStr n = '-' :: natDigits (-n).toNat := by
  unfold intStr
  rw [if_pos h]

lemma intStr_all_chars (n : Int) :
    ∀ c ∈ intStr n, isDigitC c = true ∨ c = '-' := by
  intro c hc
  unfold intStr at hc
  split at hc
  · rcases List.mem_cons.mp hc with rfl | hm
    · exact Or.inr rfl
    · exact Or.inl (natDigits_all_digits _ c hm)
  · exact Or.inl (natDigits_all_digits _ c hc)

lemma intStr_ne_nil (n : Int) : intStr n ≠ [] := by
  unfold intStr
  split
  · simp
  · exact natDigits_ne_nil _

lemma intStr_pyStrip (n : Int) : pyStrip (intStr n) = intStr n := by
  apply pyStrip_eq_self_of_all
  intro c hc
  rcases intStr_all_chars n c hc with hd | rfl
  · exact (digit_not_special c hd).2.2.2.2.2.2.2.2.2.2.2.2.1
  · decide

lemma intAccepts_intStr (n : Int) : intAccepts (intStr n) = some n := by
  unfold intAccepts
  rw [intStr_pyStrip]
  rcases lt_or_le n 0 with hneg | hpos
  · rw [intStr_neg n hneg]
    have hdg := digitGroup_all (natDigits (-n).toNat) (natDigits_ne_nil _)
      (natDigits_all_digits _)
    simp only [stripSign.eq_2, hdg, natDigits_val, if_true]
    congr 1
    rw [Int.ofNat_eq_natCast, Int.toNat_of_nonneg (by omega : (0:Int) ≤ -n)]
    omega
  · rw [intStr_nonneg n hpos]
    obtain ⟨c, t, hct⟩ : ∃ c t, natDigits n.toNat = c :: t := by
      cases hd : natDigits n.toNat with
      | nil => exact absurd hd (natDigits_ne_nil _)
      | cons c t => exact ⟨c, t, rfl⟩
    have hdig : isDigitC c = true := by
      apply natDigits_all_digits n.toNat
      rw [hct]
      simp
    have hss : stripSign (natDigits n.toNat) = (false, natDigits n.toNat) := by
      rw [hct]
      exact stripSign_of_head c t (digit_not_special c hdig).2.2.2.2.2.2.2.2.2.2.2.2.2
        (digit_not_special c hdig).2.2.2.2.2.2.1
    have hdg := digitGroup_all (natDigits n.toNat) (natDigits_ne_nil _)
      (natDigits_all_digits _)
    simp only [hss, hdg, natDigits_val]
    simp only [Bool.false_eq_true, if_false]
    congr 1
    rw [Int.ofNat_eq_natCast, Int.toNat_of_nonneg hpos]

lemma natDigits_guard (m : Nat) :
    (1 < (natDigits m).length && (natDigits m).headI = '0' &&
      isDigitC ((natDigits m).getD 1 ' ')) = false := by
  by_cases h10 : m < 10
  · simp [natDigits_len_one m h10]
  · have hh : (natDigits m).headI ≠ '0' :=
      natDigitsGo_headI_ne_zero (m + 1) m (by omega) (by omega)
    simp [hh]

lemma dropWhile_dash_digits (m : Nat) :
    (natDigits m).dropWhile (fun c => decide (c = '-')) = natDigits m := by
  obtain ⟨c, t, hct⟩ : ∃ c t, natDigits m = c :: t := by
    cases hd : natDigits m with
    | nil => exact absurd hd (natDigits_ne_nil _)
    | cons c t => exact ⟨c, t, rfl⟩
  have hdig : isDigitC c = true := by
    apply natDigits_all_digits m
    rw [hct]
    simp
  rw [hct, List.dropWhile_cons]
  simp [(digit_not_special c hdig).2.2.2.2.2.2.1]

lemma intStr_head (n : Int) :
    ∃ c t, intStr n = c :: t ∧ (isDigitC c = true ∨ c = '-') := by
  rcases lt_or_le n 0 with hneg | hpos
  · exact ⟨'-', _, intStr_neg n hneg, Or.inr rfl⟩
  · rw [intStr_nonneg n hpos]
    obtain ⟨c, t, hct⟩ : ∃ c t, natDigits n.toNat = c :: t := by
      cases hd : natDigits n.toNat with
      | nil => exact absurd hd (natDigits_ne_nil _)
      | cons c t => exact ⟨c, t, rfl⟩
    refine ⟨c, t, hct, Or.inl ?_⟩
    apply natDigits_all_digits n.toNat
    rw [hct]
    simp

lemma intStr_not_contains (n : Int) (d : Char) (h1 : isDigitC d = false)
    (h2 : d ≠ '-') : (intStr n).contains d = false := by
  rw [contains_false_iff]
  intro hm
  rcases intStr_all_chars n d hm with hd | hd
  · rw [h1] at hd
    exact Bool.noConfusion hd
  · exact h2 hd

lemma intStr_ne_lit (n : Int) (d : Char) (lt : Str) (h1 : isDigitC d = false)
    (h2 : d ≠ '-') : intStr n ≠ d :: lt := by
  intro he
  obtain ⟨c, t, hct, hc⟩ := intStr_head n
  rw [hct] at he
  have hcd : c = d := (List.cons.inj he).1
  rcases hc with hd | rfl
  · rw [hcd, h1] at hd
    exact Bool.noConfusion hd
  · exact h2 hcd.symm

lemma dropWhile_dash_intStr (n : Int) :
    (intStr n).dropWhile (fun c => decide (c = '-')) = natDigits n.natAbs := by
  rcases lt_or_le n 0 with hneg | hpos
  · rw [intStr_neg n hneg, List.dropWhile_cons]
    simp only [decide_eq_true_eq, if_pos rfl]
    rw [show (-n).toNat = n.natAbs by omega]
    exact dropWhile_dash_digits n.natAbs
  · rw [intStr_nonneg n hpos, show n.toNat = n.natAbs by omega]
    exact dropWhile_dash_digits n.natAbs

lemma tryParseNumber_intStr (n : Int) : tryParseNumber (intStr n) = some (.vint n) := by
  unfold tryParseNumber
  rw [if_neg (intStr_ne_nil n)]
  have hdot := intStr_not_contains n '.' (by decide) (by decide)
  have he1 := intStr_not_contains n 'e' (by decide) (by decide)
  have he2 := intStr_not_contains n 'E' (by decide) (by decide)
  simp only [dropWhile_dash_intStr, natDigits_guard, hdot, he1, he2,
    Bool.false_eq_true, if_false, Bool.not_false, Bool.and_self, if_true]
  rw [intAccepts_intStr]
  rfl

lemma parsePrimitive_intStr (n : Int) : parsePrimitive (intStr n) = .ok (.vint n) := by
  unfold parsePrimitive
  rw [if_neg (intStr_ne_nil n)]
  obtain ⟨c, t, hct, hc⟩ := intStr_head n
  have hq : strStarts ['"'] (intStr n) = false := by
    rw [hct]
    refine strStarts_cons_ne '"' c [] t ?_
    rcases hc with hd | rfl
    · exact ((digit_not_special c hd).2.1).symm
    · decide
  rw [hq]
  simp only [Bool.false_eq_true, if_false]
  rw [if_neg (intStr_ne_lit n 'n' _ (by decide) (by decide)),
    if_neg (intStr_ne_lit n 't' _ (by decide) (by decide)),
    if_neg (intStr_ne_lit n 'f' _ (by decide) (by decide)),
    tryParseNumber_intStr]

lemma floatAccepts_of_intAccepts (s : Str) (n : Int) (h : intAccepts s = some n) :
    floatAccepts s = true := by
  unfold intAccepts at h
  unfold floatAccepts
  rcases hss : stripSign (pyStrip s) with ⟨neg, body⟩
  simp only [hss] at h ⊢
  by_cases hfw : isFloatWord body = true
  · simp [hfw]
  · simp only [hfw, Bool.false_eq_true, if_false]
    rcases hdg : digitGroup body with _ | ⟨ds, rest⟩
    · simp [hdg] at h
    · cases rest with
      | nil =>
        have hm : floatMantissa body = some (ds, []) := by
          unfold floatMantissa
          simp [hdg]
        simp [hm, floatExponent]
      | cons x xs => simp [hdg] at h

lemma looksLikeNumber_cons (c : Char) (t : Str) :
    looksLikeNumber (c :: t) =
      (let s := if strStarts ['-'] (c :: t) then t else c :: t
       if s = [] then false
       else if 1 < s.length && s.headI = '0' && isDigitC (s.getD 1 ' ') then false
       else floatAccepts (c :: t)) := by
  rfl

lemma strStarts_dash (c : Char) (t : Str) :
    strStarts ['-'] (c :: t) = decide ('-' = c) := by
  rw [strStarts]
  simp [strStarts]

lemma looks_false_cases (tok : Str) (hnil : tok ≠ [])
    (h : looksLikeNumber tok = false)
    (hguard : (1 < (tok.dropWhile (fun c => decide (c = '-'))).length &&
      (tok.dropWhile (fun c => decide (c = '-'))).headI = '0' &&
      isDigitC ((tok.dropWhile (fun c => decide (c = '-'))).getD 1 ' ')) = false) :
    tok = ['-'] ∨ floatAccepts tok = false := by
  cases tok with
  | nil => exact absurd rfl hnil
  | cons c t =>
    by_cases hc : c = '-'
    · subst hc
      cases t with
      | nil => exact Or.inl rfl
      | cons c2 t2 =>
        refine Or.inr ?_
        by_cases hg : (1 < (c2 :: t2).length && (c2 :: t2).headI = '0' &&
            isDigitC ((c2 :: t2).getD 1 ' ')) = true
        · exfalso
          have hc2 : c2 = '0' := by
            simp only [Bool.and_eq_true, decide_eq_true_eq] at hg
            exact hg.1.2
          have hdw : ('-' :: c2 :: t2).dropWhile (fun c => decide (c = '-')) =
              c2 :: t2 := by
            rw [List.dropWhile_cons]
            simp only [decide_True, if_true]
            rw [List.dropWhile_cons]
            simp [hc2]
          rw [hdw, hg] at hguard
          exact Bool.noConfusion hguard
        · rw [looksLikeNumber_cons] at h
          simp only [strStarts_dash] at h
          simp [hg] at h
          refine h ?_
          have hg2 : 0 < t2.length → c2 = '0' → isDigitC (t2[0]?.getD ' ') = false := by
            simpa using hg
          by_cases ht : t2 = []
          · exact Or.inl (Or.inl ht)
          · by_cases h0 : c2 = '0'
            · exact Or.inr (hg2 (List.length_pos.mpr ht) h0)
            · exact Or.inl (Or.inr h0)
    · refine Or.inr ?_
      rw [looksLikeNumber_cons] at h
      simp only [strStarts_dash] at h
      have hne2 : ¬('-' = c) := fun he => hc he.symm
      have hdw : (c :: t).dropWhile (fun x => decide (x = '-')) = c :: t := by
        rw [List.dropWhile_cons]
        simp [hc]
      rw [hdw] at hguard
      by_cases hg : (1 < (c :: t).length && (c :: t).headI = '0' &&
          isDigitC ((c :: t).getD 1 ' ')) = true
      · rw [hg] at hguard
        exact Bool.noConfusion hguard
      · simp [hne2, hg] at h
        refine h ?_
        have hg2 : 0 < t.length → c = '0' → isDigitC (t[0]?.getD ' ') = false := by
          simpa using hg
        by_cases ht : t = []
        · exact Or.inl (Or.inl ht)
        · by_cases h0 : c = '0'
          · exact Or.inr (hg2 (List.length_pos.mpr ht) h0)
          · exact Or.inl (Or.inr h0)

lemma tryParseNumber_none_of_not_looks (tok : Str) (h : looksLikeNumber tok = false) :
    tryParseNumber tok = none := by
  unfold tryParseNumber
  by_cases hnil : tok = []
  · simp [hnil]
  · rw [if_neg hnil]
    by_cases hguard : (1 < (tok.dropWhile (fun c => decide (c = '-'))).length &&
        (tok.dropWhile (fun c => decide (c = '-'))).headI = '0' &&
        isDigitC ((tok.dropWhile (fun c => decide (c = '-'))).getD 1 ' ')) = true
    · simp only [hguard, if_true]
    · have hguard2 : (1 < (tok.dropWhile (fun c => decide (c = '-'))).length &&
          (tok.dropWhile (fun c => decide (c = '-'))).headI = '0' &&
          isDigitC ((tok.dropWhile (fun c => decide (c = '-'))).getD 1 ' ')) = false := by
        cases hb : (1 < (tok.dropWhile (fun c => decide (c = '-'))).length &&
            (tok.dropWhile (fun c => decide (c = '-'))).headI = '0' &&
            isDigitC ((tok.dropWhile (fun c => decide (c = '-'))).getD 1 ' '))
        · rfl
        · exact absurd hb hguard
      simp only [hguard2, Bool.false_eq_true, if_false]
      rcases looks_false_cases tok hnil h hguard2 with hdash | hfl
      · subst hdash
        simp
        rfl
      · by_cases hint : (!(tok.contains '.') && !(tok.contains 'e') &&
            !(tok.contains 'E')) = true
        · simp only [hint, if_true]
          have hia : intAccepts tok = none := by
            rcases hi : intAccepts tok with _ | m
            · rfl
            · exact absurd (floatAccepts_of_intAccepts tok m hi) (by simp [hfl])
          rw [hia]
          rfl
        · simp only [hint, Bool.false_eq_true, if_false]
          rw [if_neg (by simp [hfl])]

lemma isSafeUnquoted_spec (v : Str) (d : Char) (h : isSafeUnquoted v d = true) :
    v ≠ [] ∧ v = pyStrip v ∧ reservedLiterals.contains (lowerStr v) = false ∧
    looksLikeNumber v = false ∧ v.any isStructuralC = false ∧
    v.contains '"' = false ∧ v.contains '\\' = false ∧ v.contains '\n' = false ∧
    v.contains '\r' = false ∧ v.contains '\t' = false ∧ v.contains d = false ∧
    strStarts ['-'] v = false := by
  unfold isSafeUnquoted at h
  split_ifs at h with h1 h2 h3 h4 h5 h6 h7 h8 h9
  have h6b : '"' ∉ v ∧ '\\' ∉ v := by simpa using h6
  have h7b : ('\n' ∉ v ∧ '\r' ∉ v) ∧ '\t' ∉ v := by simpa using h7
  have h8b : d ∉ v := by simpa using h8
  refine ⟨h1, of_not_not h2, by simpa using h3, by simpa using h4,
    by simpa using h5, (contains_false_iff v '"').mpr h6b.1,
    (contains_false_iff v '\\').mpr h6b.2,
    (contains_false_iff v '\n').mpr h7b.1.1,
    (contains_false_iff v '\r').mpr h7b.1.2,
    (contains_false_iff v '\t').mpr h7b.2,
    (contains_false_iff v d).mpr h8b, by simpa using h9⟩

lemma parseStringLiteral_quoted (s : Str) :
    parseStringLiteral ('"' :: (escapeString s ++ ['"'])) = .ok s := by
  unfold parseStringLiteral findClosingQuote
  have hst : strStarts ['"'] ('"' :: (escapeString s ++ ['"'])) = true := by
    rw [strStarts]
    simp [strStarts]
  rw [hst]
  simp only [Bool.not_true, Bool.false_eq_true, if_false]
  rw [show ('"' :: (escapeString s ++ ['"']) : Str).drop (0 + 1) =
    escapeString s ++ ['"'] from rfl]
  rw [findClosingQuoteGo_escape s (0 + 1)]
  show unescapeString ((('"' :: (escapeString s ++ ['"']) : Str).drop 1).take
    (0 + 1 + (escapeString s).length - 1)) = .ok s
  rw [show ('"' :: (escapeString s ++ ['"']) : Str).drop 1 =
    escapeString s ++ ['"'] from rfl]
  rw [show 0 + 1 + (escapeString s).length - 1 = (escapeString s).length by omega]
  rw [take_pre (escapeString s) ['"'], unescape_escape]

lemma parsePrimitive_encodeString (s : Str) (d : Char) :
    parsePrimitive (encodeStringLiteral s d) = .ok (.vstr s) := by
  unfold encodeStringLiteral
  by_cases hs : isSafeUnquoted s d = true
  · rw [if_pos hs]
    obtain ⟨hne, hstrip, hres, hlooks, hstruct, hq, hbs, hn1, hn2, hn3, hd,
      hdash⟩ := isSafeUnquoted_spec s d hs
    unfold parsePrimitive
    rw [if_neg hne]
    obtain ⟨c, t, rfl⟩ : ∃ c t, s = c :: t := by
      cases s with
      | nil => exact absurd rfl hne
      | cons c t => exact ⟨c, t, rfl⟩
    have hcq : ('"' : Char) ≠ c := by
      intro he
      rw [contains_false_iff] at hq
      exact hq (by rw [← he]; simp)
    rw [strStarts_cons_ne '"' c [] t hcq]
    simp only [Bool.false_eq_true, if_false]
    have hnull : c :: t ≠ ['n', 'u', 'l', 'l'] := by
      intro he
      rw [he] at hres
      revert hres
      decide
    have htrue : c :: t ≠ ['t', 'r', 'u', 'e'] := by
      intro he
      rw [he] at hres
      revert hres
      decide
    have hfalse : c :: t ≠ ['f', 'a', 'l', 's', 'e'] := by
      intro he
      rw [he] at hres
      revert hres
      decide
    rw [if_neg hnull, if_neg htrue, if_neg hfalse,
      tryParseNumber_none_of_not_looks _ hlooks]
  · rw [if_neg hs]
    unfold parsePrimitive
    rw [if_neg (by simp : ('"' :: (escapeString s ++ ['"']) : Str) ≠ [])]
    have hst : strStarts ['"'] ('"' :: (escapeString s ++ ['"'])) = true := by
      rw [strStarts]
      simp [strStarts]
    rw [hst]
    simp only [if_true]
    rw [parseStringLiteral_quoted]
    rfl

lemma parsePrimitive_encode (v : Value) (d : Char) (hv : primLeafB v = true) :
    parsePrimitive (encodePrimitive v d) = .ok v := by
  cases v with
  | vnull => rfl
  | vbool b => cases b <;> rfl
  | vint n => exact parsePrimitive_intStr n
  | vstr s => exact parsePrimitive_encodeString s d
  | vfloat l => exact absurd hv (by simp [primLeafB])
  | varr xs => exact absurd hv (by simp [primLeafB])
  | vobj fs => exact absurd hv (by simp [primLeafB])

lemma dropWhile_eq_self_of_pyStrip (l : Str) (h : pyStrip l = l) :
    l.dropWhile isPyWs = l := by
  have hsub := List.dropWhile_sublist (l := l) (p := isPyWs)
  apply hsub.eq_of_length
  have h1 : (rstripBy isPyWs (l.dropWhile isPyWs)).length ≤
      (l.dropWhile isPyWs).length := rstripBy_sublist _ _
  have h2 := congrArg List.length h
  unfold pyStrip rstripWs at h2
  have h3 : (l.dropWhile isPyWs).length ≤ l.length := hsub.length_le
  omega

lemma head_not_ws_of_pyStrip (c : Char) (t : Str) (h : pyStrip (c :: t) = c :: t) :
    isPyWs c = false := by
  have hd := dropWhile_eq_self_of_pyStrip _ h
  rw [List.dropWhile_cons] at hd
  by_cases hc : isPyWs c = true
  · rw [hc] at hd
    simp only [if_true] at hd
    have h1 := (List.dropWhile_sublist (l := t) (p := isPyWs)).length_le
    have h2 := congrArg List.length hd
    simp at h2
    omega
  · cases hcv : isPyWs c
    · rfl
    · exact absurd hcv hc

lemma encPiece_cases (v : Value) (hv : primLeafB v = true) :
    (∃ s0, encodePrimitive v ',' = '"' :: (escapeString s0 ++ ['"'])) ∨
    (encodePrimitive v ',' ≠ [] ∧
     pyStrip (encodePrimitive v ',') = encodePrimitive v ',' ∧
     (encodePrimitive v ',').contains '"' = false ∧
     (encodePrimitive v ',').contains '\\' = false ∧
     (encodePrimitive v ',').contains ',' = false ∧
     (encodePrimitive v ',').contains '\n' = false) := by
  cases v with
  | vnull =>
    exact Or.inr ⟨by decide, by decide, by decide, by decide, by decide, by decide⟩
  | vbool b =>
    cases b
    · exact Or.inr ⟨by decide, by decide, by decide, by decide, by decide, by decide⟩
    · exact Or.inr ⟨by decide, by decide, by decide, by decide, by decide, by decide⟩
  | vint n =>
    exact Or.inr ⟨intStr_ne_nil n, intStr_pyStrip n,
      intStr_not_contains n '"' (by decide) (by decide),
      intStr_not_contains n '\\' (by decide) (by decide),
      intStr_not_contains n ',' (by decide) (by decide),
      intStr_not_contains n '\n' (by decide) (by decide)⟩
  | vstr s =>
    rw [show encodePrimitive (.vstr s) ',' = encodeStringLiteral s ',' from rfl]
    unfold encodeStringLiteral
    by_cases hs : isSafeUnquoted s ',' = true
    · rw [if_pos hs]
      obtain ⟨hne, hstrip, _, _, _, hq, hbs, hn1, _, _, hd, _⟩ :=
        isSafeUnquoted_spec s ',' hs
      exact Or.inr ⟨hne, hstrip.symm, hq, hbs, hd, hn1⟩
    · rw [if_neg hs]
      exact Or.inl ⟨s, rfl⟩
  | vfloat l => exact absurd hv (by simp [primLeafB])
  | varr xs => exact absurd hv (by simp [primLeafB])
  | vobj fs => exact absurd hv (by simp [primLeafB])

lemma encPiece_ne_nil (v : Value) (hv : primLeafB v = true) :
    encodePrimitive v ',' ≠ [] := by
  rcases encPiece_cases v hv with ⟨s0, he⟩ | ⟨hne, _⟩
  · rw [he]
    simp
  · exact hne

lemma encPiece_pyStrip (v : Value) (hv : primLeafB v = true) :
    pyStrip (encodePrimitive v ',') = encodePrimitive v ',' := by
  rcases encPiece_cases v hv with ⟨s0, he⟩ | ⟨_, hstrip, _⟩
  · rw [he]
    refine pyStrip_eq_self_head_last '"' _ (by decide) ?_
    intro c hc
    rw [show ('"' :: (escapeString s0 ++ ['"']) : Str) =
      ('"' :: escapeString s0) ++ ['"'] by simp, List.getLast?_concat] at hc
    obtain rfl : '"' = c := Option.some.inj hc
    decide
  · exact hstrip

lemma encPiece_lastOK (v : Value) (hv : primLeafB v = true) :
    lastOK (encodePrimitive v ',') :=
  lastOK_of_pyStrip_fixed _ (encPiece_pyStrip v hv)

lemma encPiece_head (v : Value) (hv : primLeafB v = true) :
    ∃ c t, encodePrimitive v ',' = c :: t ∧ isPyWs c = false := by
  obtain ⟨c, t, hct⟩ : ∃ c t, encodePrimitive v ',' = c :: t := by
    cases he : encodePrimitive v ',' with
    | nil => exact absurd he (encPiece_ne_nil v hv)
    | cons c t => exact ⟨c, t, rfl⟩
  refine ⟨c, t, hct, head_not_ws_of_pyStrip c t ?_⟩
  rw [← hct]
  exact encPiece_pyStrip v hv

lemma sbd_plain_end (e : Str) (h : ∀ c ∈ e, c ≠ '"' ∧ c ≠ ',') :
    ∀ cur, splitByDelimiterGo ',' e false cur = [pyStrip (cur ++ e)] := by
  induction e with
  | nil =>
    intro cur
    rw [splitByDelimiterGo.eq_1]
    simp
  | cons c t ih =>
    intro cur
    have hc := h c (by simp)
    rw [sbd_cons_false ',' c t cur hc.1 hc.2,
      ih (fun x hx => h x (by simp [hx])) (cur ++ [c])]
    simp

lemma sbd_plain_mid (e : Str) (h : ∀ c ∈ e, c ≠ '"' ∧ c ≠ ',') (r : Str) :
    ∀ cur, splitByDelimiterGo ',' (e ++ ',' :: r) false cur =
      pyStrip (cur ++ e) :: splitByDelimiterGo ',' r false [] := by
  induction e with
  | nil =>
    intro cur
    rw [List.nil_append, sbd_delim ',' r cur (by decide)]
    simp
  | cons c t ih =>
    intro cur
    have hc := h c (by simp)
    rw [List.cons_append, sbd_cons_false ',' c _ cur hc.1 hc.2,
      ih (fun x hx => h x (by simp [hx])) (cur ++ [c])]
    simp

lemma sbd_quoted_end (s0 : Str) (cur : Str) :
    splitByDelimiterGo ',' ('"' :: (escapeString s0 ++ ['"'])) false cur =
      [pyStrip (cur ++ ('"' :: (escapeString s0 ++ ['"'])))] := by
  rw [show ('"' :: (escapeString s0 ++ ['"']) : Str) =
    '"' :: (escapeString s0 ++ '"' :: []) from rfl]
  rw [sbd_quote ',' _ cur false]
  simp only [Bool.not_false]
  rw [sbd_quoted_body ',' s0 [] (cur ++ ['"']), splitByDelimiterGo.eq_1]
  congr 2
  simp

lemma sbd_quoted_mid (s0 : Str) (r : Str) (cur : Str) :
    splitByDelimiterGo ',' (('"' :: (escapeString s0 ++ ['"'])) ++ ',' :: r) false cur =
      pyStrip (cur ++ ('"' :: (escapeString s0 ++ ['"']))) ::
        splitByDelimiterGo ',' r false [] := by
  rw [show (('"' :: (escapeString s0 ++ ['"'])) ++ ',' :: r : Str) =
    '"' :: (escapeString s0 ++ '"' :: (',' :: r)) by simp]
  rw [sbd_quote ',' _ cur false]
  simp only [Bool.not_false]
  rw [sbd_quoted_body ',' s0 (',' :: r) (cur ++ ['"']),
    sbd_delim ',' r _ (by decide)]
  congr 2
  simp

lemma sbd_piece_end (v : Value) (hv : primLeafB v = true) (cur : Str) :
    splitByDelimiterGo ',' (encodePrimitive v ',') false cur =
      [pyStrip (cur ++ encodePrimitive v ',')] := by
  rcases encPiece_cases v hv with ⟨s0, he⟩ | ⟨_, _, hq, _, hd, _⟩
  · rw [he]
    exact sbd_quoted_end s0 cur
  · refine sbd_plain_end _ ?_ cur
    intro c hc
    rw [contains_false_iff] at hq hd
    exact ⟨fun he2 => hq (he2 ▸ hc), fun he2 => hd (he2 ▸ hc)⟩

lemma sbd_piece_mid (v : Value) (hv : primLeafB v = true) (r : Str) (cur : Str) :
    splitByDelimiterGo ',' (encodePrimitive v ',' ++ ',' :: r) false cur =
      pyStrip (cur ++ encodePrimitive v ',') ::
        splitByDelimiterGo ',' r false [] := by
  rcases encPiece_cases v hv with ⟨s0, he⟩ | ⟨_, _, hq, _, hd, _⟩
  · rw [he]
    exact sbd_quoted_mid s0 r cur
  · refine sbd_plain_mid _ ?_ r cur
    intro c hc
    rw [contains_false_iff] at hq hd
    exact ⟨fun he2 => hq (he2 ▸ hc), fun he2 => hd (he2 ▸ hc)⟩

lemma splitByDelimiter_pieces (xs : List Value) (h : ∀ v ∈ xs, primLeafB v = true)
    (hne : xs ≠ []) :
    splitByDelimiter (List.intercalate [','] (xs.map (encodePrimitive · ','))) ',' =
      xs.map (encodePrimitive · ',') := by
  induction xs with
  | nil => exact absurd rfl hne
  | cons v t ih =>
    cases t with
    | nil =>
      show splitByDelimiterGo ',' (List.intercalate [','] [encodePrimitive v ',']) false [] = _
      rw [show List.intercalate [','] [encodePrimitive v ','] =
        encodePrimitive v ',' by simp [List.intercalate]]
      rw [sbd_piece_end v (h v (by simp)) []]
      rw [List.nil_append, encPiece_pyStrip v (h v (by simp))]
      rfl
    | cons w t2 =>
      show splitByDelimiterGo ',' _ false [] = _
      simp only [List.map_cons]
      rw [intercalate_cons_cons, List.append_assoc, List.singleton_append]
      rw [sbd_piece_mid v (h v (by simp)) _ []]
      rw [List.nil_append, encPiece_pyStrip v (h v (by simp))]
      have hih := ih (fun x hx => h x (by simp [hx])) (by simp)
      simp only [List.map_cons] at hih
      rw [show splitByDelimiterGo ','
        (List.intercalate [','] (encodePrimitive w ',' ::
          t2.map (encodePrimitive · ','))) false [] =
        splitByDelimiter
          (List.intercalate [','] (encodePrimitive w ',' ::
            t2.map (encodePrimitive · ','))) ',' from rfl]
      rw [hih]

lemma mapM_parse_pieces (xs : List Value) (h : ∀ v ∈ xs, primLeafB v = true) :
    (xs.map (encodePrimitive · ',')).mapM parsePrimitive = .ok xs := by
  induction xs with
  | nil => rfl
  | cons v t ih =>
    rw [List.map_cons, List.mapM_cons, parsePrimitive_encode v ',' (h v (by simp)),
      ih (fun x hx => h x (by simp [hx]))]
    rfl

lemma getLast?_cons_of_ne_nil (c : Char) (l : Str) (h : l ≠ []) :
    (c :: l).getLast? = l.getLast? := by
  cases l with
  | nil => exact absurd rfl h
  | cons d t => rw [List.getLast?_cons_cons]

lemma intercalate_ne_nil_of_head (a : Str) (t : List Str) (ha : a ≠ []) :
    List.intercalate [','] (a :: t) ≠ [] := by
  cases t with
  | nil =>
    rw [show List.intercalate [','] [a] = a by simp [List.intercalate]]
    exact ha
  | cons b t2 =>
    rw [intercalate_cons_cons]
    simp [ha]

lemma intercalate_lastOK (ls : List Str) (h : ∀ l ∈ ls, lastOK l ∧ l ≠ [])
    (hne : ls ≠ []) : lastOK (List.intercalate [','] ls) := by
  induction ls with
  | nil => exact absurd rfl hne
  | cons a t ih =>
    cases t with
    | nil =>
      rw [show List.intercalate [','] [a] = a by simp [List.intercalate]]
      exact (h a (by simp)).1
    | cons b t2 =>
      rw [intercalate_cons_cons, List.append_assoc, List.singleton_append]
      refine lastOK_append a _ (by simp) ?_
      intro c hc
      have hI : List.intercalate [','] (b :: t2) ≠ [] :=
        intercalate_ne_nil_of_head b t2 (h b (by simp)).2
      rw [getLast?_cons_of_ne_nil ',' _ hI] at hc
      exact ih (fun l hl => h l (by simp [hl])) (by simp) c hc

lemma joined_pyStrip (xs : List Value) (h : ∀ v ∈ xs, primLeafB v = true)
    (hne : xs ≠ []) :
    pyStrip (List.intercalate [','] (xs.map (encodePrimitive · ','))) =
      List.intercalate [','] (xs.map (encodePrimitive · ',')) := by
  cases xs with
  | nil => exact absurd rfl hne
  | cons v t =>
    simp only [List.map_cons]
    obtain ⟨c, t2, hct, hcw⟩ := encPiece_head v (h v (by simp))
    have hlast : lastOK (List.intercalate [',']
        (encodePrimitive v ',' :: t.map (encodePrimitive · ','))) := by
      refine intercalate_lastOK _ ?_ (by simp)
      intro l hl
      rcases List.mem_cons.mp hl with rfl | hm
      · exact ⟨encPiece_lastOK v (h v (by simp)), encPiece_ne_nil v (h v (by simp))⟩
      · obtain ⟨w, hw, rfl⟩ := List.mem_map.mp hm
        exact ⟨encPiece_lastOK w (h w (by simp [hw])),
          encPiece_ne_nil w (h w (by simp [hw]))⟩
    cases t with
    | nil =>
      simp only [List.map_nil] at hlast ⊢
      rw [show List.intercalate [','] [encodePrimitive v ','] =
        encodePrimitive v ',' by simp [List.intercalate]]
      exact encPiece_pyStrip v (h v (by simp))
    | cons w t3 =>
      rw [List.map_cons, intercalate_cons_cons, List.append_assoc,
        List.singleton_append] at hlast ⊢
      rw [hct] at hlast ⊢
      rw [List.cons_append]
      exact pyStrip_eq_self_head_last c _ hcw (by
        rw [← List.cons_append]
        exact hlast)

lemma decodeInlineValues_enc (xs : List Value) (opts : DecodeOpts)
    (h : ∀ v ∈ xs, primLeafB v = true) (hne : xs ≠ []) :
    decodeInlineValues (List.intercalate [','] (xs.map (encodePrimitive · ',')))
      ⟨xs.length, ',', []⟩ opts = .ok xs := by
  unfold decodeInlineValues
  have hjne : List.intercalate [','] (xs.map (encodePrimitive · ',')) ≠ [] := by
    cases xs with
    | nil => exact absurd rfl hne
    | cons v t =>
      rw [List.map_cons]
      exact intercalate_ne_nil_of_head _ _ (encPiece_ne_nil v (h v (by simp)))
  rw [if_neg hjne]
  rw [show (⟨xs.length, ',', []⟩ : ArrayHeaderInfo).delimiter = ',' from rfl]
  rw [splitByDelimiter_pieces xs h hne]
  simp only [mapM_parse_pieces xs h]
  show (if (opts.strict && decide (xs.length ≠ xs.length)) = true then
    Except.error PyErr.valueErr else Except.ok xs) = Except.ok xs
  simp

lemma dottedKey_all_keyrun (kk : Str) (hk : dottedKeyB kk = true) :
    ∀ c ∈ kk, isKeyRunC c = true := by
  obtain ⟨c0, t0, rfl, _, hall⟩ := dottedKey_parts kk hk
  intro c hc
  exact (plainKeyChar_not_special c (hall c hc)).1

lemma matchArrayHeader_keyline (kk : Str) (hk : dottedKeyB kk = true) (r : Str) :
    matchArrayHeader (kk ++ ':' :: r) = none := by
  obtain ⟨c0, t0, hkk, hhead, hall⟩ := dottedKey_parts kk hk
  have hq : ¬(c0 = '"') := (plainKeyChar_not_special c0 (hall c0 (by rw [hkk]; simp))).2.2.1
  have hb : ¬(c0 = '[') := (plainKeyChar_not_special c0 (hall c0 (by rw [hkk]; simp))).2.2.2.1
  have hrun : (kk ++ ':' :: r).takeWhile isKeyRunC = kk := by
    rw [takeWhile_append_of_all isKeyRunC kk _ (dottedKey_all_keyrun kk hk),
      takeWhile_cons_neg isKeyRunC ':' r (by decide), List.append_nil]
  have hdrop : (kk ++ ':' :: r).drop kk.length = ':' :: r := List.drop_left kk _
  rw [hkk, List.cons_append]
  simp only [matchArrayHeader]
  rw [if_neg hq, if_neg hb, ← List.cons_append, ← hkk, hrun]
  have hkne : kk ≠ [] := by rw [hkk]; simp
  rw [if_neg hkne, hdrop]
  rfl

lemma matchArrayHeader_inline (kk : Str) (hk : dottedKeyB kk = true) (n : Nat)
    (r : Str) :
    matchArrayHeader (kk ++ '[' :: (natDigits n ++ ']' :: ':' :: r)) =
      some ⟨kk, n, none, none, r⟩ := by
  obtain ⟨c0, t0, hkk, hhead, hall⟩ := dottedKey_parts kk hk
  have hq : ¬(c0 = '"') := (plainKeyChar_not_special c0 (hall c0 (by rw [hkk]; simp))).2.2.1
  have hb : ¬(c0 = '[') := (plainKeyChar_not_special c0 (hall c0 (by rw [hkk]; simp))).2.2.2.1
  have hrun : (kk ++ '[' :: (natDigits n ++ ']' :: ':' :: r)).takeWhile isKeyRunC = kk := by
    rw [takeWhile_append_of_all isKeyRunC kk _ (dottedKey_all_keyrun kk hk),
      takeWhile_cons_neg isKeyRunC '[' _ (by decide), List.append_nil]
  have hdrop : (kk ++ '[' :: (natDigits n ++ ']' :: ':' :: r)).drop kk.length =
    '[' :: (natDigits n ++ ']' :: ':' :: r) := List.drop_left kk _
  rw [hkk, List.cons_append]
  simp only [matchArrayHeader]
  rw [if_neg hq, if_neg hb, ← List.cons_append, ← hkk, hrun]
  have hkne : kk ≠ [] := by rw [hkk]; simp
  rw [if_neg hkne, hdrop]
  simp only [headerAfterKey]
  have hds : (natDigits n ++ ']' :: ':' :: r).takeWhile isDigitC = natDigits n := by
    rw [takeWhile_append_of_all isDigitC _ _ (natDigits_all_digits n),
      takeWhile_cons_neg isDigitC ']' _ (by decide), List.append_nil]
  rw [hds, if_neg (natDigits_ne_nil n), natDigits_val,
    List.drop_left (natDigits n) _]
  show headerAfterBracket kk n none (':' :: r) = some ⟨kk, n, none, none, r⟩
  rfl

lemma parseArrayHeader_nofields (kk : Str) (n : Nat) (r : Str) :
    parseArrayHeaderFromMatch ⟨kk, n, none, none, r⟩ ',' =
      .ok ⟨n, ',', []⟩ := rfl

lemma parseKeyStr_plain (kk : Str) (hk : dottedKeyB kk = true) (b : Bool) :
    parseKeyStr kk b = .ok kk := by
  obtain ⟨c0, t0, hkk, hhead, hall⟩ := dottedKey_parts kk hk
  have hstrip : pyStrip kk = kk := by
    apply pyStrip_eq_self_of_all
    intro c hc
    exact (plainKeyChar_not_special c (hall c hc)).2.2.2.2.1
  have hkne : kk ≠ [] := by rw [hkk]; simp
  have hsq : strStarts ['"'] kk = false := by
    rw [hkk]
    exact strStarts_cons_ne '"' c0 [] t0
      (fun he => (plainKeyChar_not_special c0 (hall c0 (by rw [hkk]; simp))).2.2.1 he.symm)
  unfold parseKeyStr
  simp only [hstrip]
  rw [if_neg hkne]
  rw [hsq]
  simp

lemma identTail_plainKey (c : Char) (h : isIdentTailC c = true) :
    plainKeyCharB c = true := by
  unfold isIdentTailC at h
  unfold plainKeyCharB
  simp only [Bool.or_eq_true] at h ⊢
  tauto

lemma goodKey_dotted (k : Str) (h : goodKeyB k = true) : dottedKeyB k = true := by
  unfold goodKeyB at h
  rw [Bool.and_eq_true] at h
  obtain ⟨hid, hsafe⟩ := h
  unfold isValidIdentifierSegment at hid
  cases k with
  | nil => exact absurd hid (by simp)
  | cons c t =>
    rw [Bool.and_eq_true] at hid
    unfold dottedKeyB
    rw [Bool.and_eq_true]
    refine ⟨hid.1, ?_⟩
    rw [List.all_eq_true]
    intro x hx
    rcases List.mem_cons.mp hx with rfl | hm
    · unfold plainKeyCharB
      simp only [Bool.or_eq_true] at hid ⊢
      rcases hid.1 with h1 | h1
      · exact Or.inl (Or.inl (Or.inl h1))
      · exact Or.inl (Or.inr h1)
    · exact identTail_plainKey x (by
        have := hid.2
        rw [List.all_eq_true] at this
        exact this x hm)

lemma dottedKey_no_space (kk : Str) (h : dottedKeyB kk = true) :
    kk.contains ' ' = false := by
  obtain ⟨c0, t0, rfl, _, hall⟩ := dottedKey_parts kk h
  apply contains_false_of_all
  intro x hx
  exact fun he => (plainKeyChar_not_special x (hall x hx)).2.2.2.2.2.2.1 (by rw [← he])

lemma encodeKey_id (k : Str) (h : goodKeyB k = true) : encodeKey k = k := by
  unfold goodKeyB at h
  rw [Bool.and_eq_true] at h
  obtain ⟨hid, hsafe⟩ := h
  have hkne : k ≠ [] := by
    cases k with
    | nil => exact absurd hid (by simp [isValidIdentifierSegment])
    | cons c t => simp
  have hnosp : k.contains ' ' = false :=
    dottedKey_no_space k (goodKey_dotted k (by unfold goodKeyB; rw [hid, hsafe]; rfl))
  unfold encodeKey
  rw [if_neg hkne, hnosp]
  simp only [Bool.false_eq_true, if_false]
  rw [hsafe]
  simp

lemma primLeaf_isPrimitive (v : Value) (h : primLeafB v = true) :
    isPrimitiveVal v = true := by
  cases v <;> simp_all [primLeafB, isPrimitiveVal]

lemma normalizeValue_leaf (v : Value) (h : primLeafB v = true) :
    normalizeValue v = v := by
  cases v <;> simp_all [primLeafB, normalizeValue]

lemma normArr_leaves (xs : List Value) (h : ∀ v ∈ xs, primLeafB v = true) :
    normArr xs = xs := by
  induction xs with
  | nil => rfl
  | cons v t ih =>
    rw [normArr, normalizeValue_leaf v (h v (by simp)),
      ih (fun x hx => h x (by simp [hx]))]

lemma normalizeValue_flat (v : Value) (hv : rowValB v = true) :
    normalizeValue v = v := by
  cases v with
  | vnull => rfl
  | vbool b => rfl
  | vint n => rfl
  | vstr s => rfl
  | vfloat l => exact absurd hv (by simp [rowValB])
  | vobj fs =>
    have : fs = [] := by
      have := hv
      unfold rowValB at this
      exact List.isEmpty_iff.mp this
    subst this
    rfl
  | varr xs =>
    rw [normalizeValue, normArr_leaves xs (by
      have := hv
      unfold rowValB at this
      rw [List.all_eq_true] at this
      exact this)]

lemma indentStr_zero (opts : EncodeOpts) : indentStr opts 0 = [] := by
  unfold indentStr
  rw [Nat.mul_zero]
  rfl

lemma encodeObjectLines_flat (opts : EncodeOpts) (hd : opts.delimiter = ',')
    (hf : opts.keyFolding = .noFold) :
    ∀ fs : List (Str × Value), (∀ e ∈ fs, goodKeyB e.1 = true ∧ rowValB e.2 = true) →
    encodeObjectLines fs opts 0 [] = fs.map (fun e => rowLine e.1 e.2) := by
  intro fs
  induction fs with
  | nil => intro h; rfl
  | cons e rest ih =>
    intro h
    obtain ⟨k, v⟩ := e
    obtain ⟨hk, hv⟩ := h (k, v) (by simp)
    simp only at hk hv
    have hihr := ih (fun x hx => h x (by simp [hx]))
    have hnofold : (decide (opts.keyFolding = KeyFolding.safeFold) &&
        canFoldKey k v []) = false := by
      rw [hf]
      simp
    rw [List.map_cons]
    cases v with
    | vnull =>
      rw [encodeObjectLines.eq_4 opts 0 [] k _ rest
        (fun _ hc => Value.noConfusion hc) (fun _ hc => Value.noConfusion hc)]
      rw [hnofold]
      simp only [Bool.false_eq_true, if_false]
      rw [indentStr_zero, encodeKey_id k hk, hihr, hd]
      simp [rowLine]
    | vbool b =>
      rw [encodeObjectLines.eq_4 opts 0 [] k _ rest
        (fun _ hc => Value.noConfusion hc) (fun _ hc => Value.noConfusion hc)]
      rw [hnofold]
      simp only [Bool.false_eq_true, if_false]
      rw [indentStr_zero, encodeKey_id k hk, hihr, hd]
      simp [rowLine]
    | vint n =>
      rw [encodeObjectLines.eq_4 opts 0 [] k _ rest
        (fun _ hc => Value.noConfusion hc) (fun _ hc => Value.noConfusion hc)]
      rw [hnofold]
      simp only [Bool.false_eq_true, if_false]
      rw [indentStr_zero, encodeKey_id k hk, hihr, hd]
      simp [rowLine]
    | vstr st =>
      rw [encodeObjectLines.eq_4 opts 0 [] k _ rest
        (fun _ hc => Value.noConfusion hc) (fun _ hc => Value.noConfusion hc)]
      rw [hnofold]
      simp only [Bool.false_eq_true, if_false]
      rw [indentStr_zero, encodeKey_id k hk, hihr, hd]
      simp [rowLine]
    | vfloat l => exact absurd hv (by simp [rowValB])
    | vobj fs2 =>
      have hfs2 : fs2 = [] := by
        unfold rowValB at hv
        exact List.isEmpty_iff.mp hv
      subst hfs2
      rw [encodeObjectLines.eq_2, hnofold]
      simp only [Bool.false_eq_true, if_false]
      rw [indentStr_zero, encodeKey_id k hk, hihr]
      simp [rowLine]
    | varr xs =>
      have hxs : ∀ x ∈ xs, primLeafB x = true := by
        unfold rowValB at hv
        rw [List.all_eq_true] at hv
        exact hv
      rw [encodeObjectLines.eq_3, hnofold]
      simp only [Bool.false_eq_true, if_false]
      rw [hihr]
      cases xs with
      | nil =>
        rw [encodeArray.eq_1]
        rw [indentStr_zero, encodeKey_id k hk, hd]
        simp [rowLine]
      | cons y t =>
        rw [encodeArray.eq_2]
        have hinline : isInlinePrimitiveArray (y :: t) = true := by
          unfold isInlinePrimitiveArray
          simp only [show ((y :: t : List Value).isEmpty : Bool) = false from rfl,
            Bool.not_false, Bool.true_and, List.all_eq_true]
          exact fun x hx => primLeaf_isPrimitive x (hxs x hx)
        rw [show ((y :: t : List Value).isEmpty : Bool) = false from rfl, hinline]
        simp only [Bool.false_eq_true, if_false, if_true]
        rw [indentStr_zero, encodeKey_id k hk, hd]
        simp [rowLine]

lemma encodeToon_flat (opts : EncodeOpts) (hd : opts.delimiter = ',')
    (hf : opts.keyFolding = .noFold) (fs : List (Str × Value))
    (h : ∀ e ∈ fs, goodKeyB e.1 = true ∧ rowValB e.2 = true) :
    encodeToon (.vobj fs) opts =
      List.intercalate ['\n'] (fs.map (fun e => rowLine e.1 e.2)) := by
  unfold encodeToon encodeLinesToon
  have hnorm : normalizeValue (.vobj fs) = .vobj fs := by
    rw [normalizeValue]
    congr 1
    induction fs with
    | nil => rfl
    | cons e rest ih =>
      obtain ⟨k, v⟩ := e
      rw [normObj, normalizeValue_flat v (h (k, v) (by simp)).2,
        ih (fun x hx => h x (by simp [hx]))]
  rw [hnorm]
  show List.intercalate ['\n'] (encodeObjectLines fs opts 0 []) = _
  rw [encodeObjectLines_flat opts hd hf fs h]

lemma rowLine_suffix (kk : Str) (v : Value) :
    ∃ suf, rowLine kk v = kk ++ suf := by
  cases v with
  | vnull => exact ⟨[':', ' '] ++ encodePrimitive .vnull ',',
      (List.append_assoc kk [':', ' '] _).symm ▸ rfl⟩
  | vbool b => exact ⟨[':', ' '] ++ encodePrimitive (.vbool b) ',',
      (List.append_assoc kk [':', ' '] _).symm ▸ rfl⟩
  | vint n => exact ⟨[':', ' '] ++ encodePrimitive (.vint n) ',',
      (List.append_assoc kk [':', ' '] _).symm ▸ rfl⟩
  | vfloat l => exact ⟨[':', ' '] ++ encodePrimitive (.vfloat l) ',',
      (List.append_assoc kk [':', ' '] _).symm ▸ rfl⟩
  | vstr st => exact ⟨[':', ' '] ++ encodePrimitive (.vstr st) ',',
      (List.append_assoc kk [':', ' '] _).symm ▸ rfl⟩
  | vobj fs => exact ⟨[':'], rfl⟩
  | varr xs =>
    cases xs with
    | nil => exact ⟨formatBracket 0 ',' ++ [':'],
        (List.append_assoc kk _ _).symm ▸ rfl⟩
    | cons y t =>
      refine ⟨formatBracket (y :: t).length ',' ++ [':', ' '] ++
        List.intercalate [','] ((y :: t).map (encodePrimitive · ',')), ?_⟩
      show kk ++ formatBracket (y :: t).length ',' ++ [':', ' '] ++
        List.intercalate [','] ((y :: t).map (encodePrimitive · ',')) = _
      simp [List.append_assoc]

lemma rowLine_head (kk : Str) (v : Value) (hk : dottedKeyB kk = true) :
    ∃ c t, rowLine kk v = c :: t ∧ (isAlphaC c || c = '_') = true := by
  obtain ⟨c0, t0, hkk, hhead, _⟩ := dottedKey_parts kk hk
  obtain ⟨suf, hsuf⟩ := rowLine_suffix kk v
  exact ⟨c0, t0 ++ suf, by rw [hsuf, hkk, List.cons_append], hhead⟩

lemma lastOK_singleton (c : Char) (h : isPyWs c = false) : lastOK [c] := by
  intro x hx
  obtain rfl : c = x := Option.some.inj (by simpa using hx)
  exact h

lemma rowLine_ne_nil (kk : Str) (v : Value) (hk : dottedKeyB kk = true) :
    rowLine kk v ≠ [] := by
  obtain ⟨c, t, hct, _⟩ := rowLine_head kk v hk
  rw [hct]
  simp

lemma rowLine_lstrip (kk : Str) (v : Value) (hk : dottedKeyB kk = true) :
    lstripSpaces (rowLine kk v) = rowLine kk v := by
  obtain ⟨c, t, hct, hhead⟩ := rowLine_head kk v hk
  rw [hct]
  exact lstripSpaces_cons_of_ne c t (alpha_head_props c hhead).1

lemma lastOK_of_concrete (l : Str) (c0 : Char) (he : l.getLast? = some c0)
    (hc : isPyWs c0 = false) : lastOK l := by
  intro c hc2
  rw [he] at hc2
  obtain rfl := Option.some.inj hc2
  exact hc

lemma rowLine_rstrip (kk : Str) (v : Value) (_hk : dottedKeyB kk = true)
    (hv : rowValB v = true) : rstripWs (rowLine kk v) = rowLine kk v := by
  cases v with
  | vnull =>
    exact rstripWs_append_lastOK _ _ (by decide)
      (lastOK_of_concrete _ 'l' rfl (by decide))
  | vbool b =>
    cases b
    · exact rstripWs_append_lastOK _ _ (by decide)
        (lastOK_of_concrete _ 'e' rfl (by decide))
    · exact rstripWs_append_lastOK _ _ (by decide)
        (lastOK_of_concrete _ 'e' rfl (by decide))
  | vint n =>
    show rstripWs (kk ++ [':', ' '] ++ encodePrimitive (.vint n) ',') =
      kk ++ [':', ' '] ++ encodePrimitive (.vint n) ','
    simp only [List.append_assoc]
    refine rstripWs_append_lastOK kk ([':', ' '] ++ encodePrimitive (.vint n) ',')
      (by simp) ?_
    exact lastOK_append [':', ' '] _ (encPiece_ne_nil (.vint n) (by simp [primLeafB]))
      (encPiece_lastOK (.vint n) (by simp [primLeafB]))
  | vstr st =>
    show rstripWs (kk ++ [':', ' '] ++ encodePrimitive (.vstr st) ',') =
      kk ++ [':', ' '] ++ encodePrimitive (.vstr st) ','
    simp only [List.append_assoc]
    refine rstripWs_append_lastOK kk ([':', ' '] ++ encodePrimitive (.vstr st) ',')
      (by simp) ?_
    exact lastOK_append [':', ' '] _ (encPiece_ne_nil (.vstr st) (by simp [primLeafB]))
      (encPiece_lastOK (.vstr st) (by simp [primLeafB]))
  | vfloat l => exact absurd hv (by simp [rowValB])
  | vobj fs =>
    exact rstripWs_append_lastOK _ _ (by simp) (lastOK_singleton ':' (by decide))
  | varr xs =>
    have hxs : ∀ x ∈ xs, primLeafB x = true := by
      unfold rowValB at hv
      rw [List.all_eq_true] at hv
      exact hv
    cases xs with
    | nil =>
      show rstripWs (kk ++ formatBracket 0 ',' ++ [':']) = _
      exact rstripWs_append_lastOK _ _ (by simp) (lastOK_singleton ':' (by decide))
    | cons y t =>
      show rstripWs (kk ++ formatBracket (y :: t).length ',' ++ [':', ' '] ++
        List.intercalate [','] ((y :: t).map (encodePrimitive · ','))) = _
      refine rstripWs_append_lastOK _ _ ?_ ?_
      · rw [List.map_cons]
        exact intercalate_ne_nil_of_head _ _ (encPiece_ne_nil y (hxs y (by simp)))
      · refine intercalate_lastOK _ ?_ (by simp)
        intro l hl
        obtain ⟨w, hw, rfl⟩ := List.mem_map.mp hl
        exact ⟨encPiece_lastOK w (hxs w hw), encPiece_ne_nil w (hxs w hw)⟩

lemma intercalate_no_newline (ls : List Str) (h : ∀ l ∈ ls, '\n' ∉ l) :
    '\n' ∉ List.intercalate [','] ls := by
  induction ls with
  | nil => simp [List.intercalate]
  | cons a t ih =>
    cases t with
    | nil =>
      rw [show List.intercalate [','] [a] = a by simp [List.intercalate]]
      exact h a (by simp)
    | cons b t2 =>
      rw [intercalate_cons_cons]
      intro hm
      rcases List.mem_append.mp hm with h1 | h1
      · rcases List.mem_append.mp h1 with h2 | h2
        · exact h a (by simp) h2
        · exact absurd (List.mem_singleton.mp h2) (by decide)
      · exact ih (fun l hl => h l (by simp [hl])) h1

lemma rowLine_no_newline (kk : Str) (v : Value) (hk : dottedKeyB kk = true)
    (hv : rowValB v = true) : '\n' ∉ rowLine kk v := by
  obtain ⟨c0, t0, hkk, _, hall⟩ := dottedKey_parts kk hk
  have hkknl : '\n' ∉ kk := fun hm =>
    (plainKeyChar_not_special '\n' (hall '\n' hm)).2.2.2.2.2.1 rfl
  have hpiece : ∀ w : Value, primLeafB w = true → '\n' ∉ encodePrimitive w ',' := by
    intro w hw hm
    rcases encPiece_cases w hw with ⟨s0, he⟩ | ⟨_, _, _, _, _, hnl⟩
    · rw [he] at hm
      rcases List.mem_cons.mp hm with h1 | h1
      · exact absurd h1 (by decide)
      · rcases List.mem_append.mp h1 with h2 | h2
        · exact newline_not_mem_escapeString s0 h2
        · exact absurd (List.mem_singleton.mp h2) (by decide)
    · rw [contains_false_iff] at hnl
      exact hnl hm
  have hbr : ∀ n : Nat, '\n' ∉ formatBracket n ',' := by
    intro n hm
    unfold formatBracket at hm
    rw [if_pos rfl] at hm
    rcases List.mem_cons.mp hm with h1 | h1
    · exact absurd h1 (by decide)
    · rcases List.mem_append.mp h1 with h2 | h2
      · exact absurd (natDigits_all_digits n '\n' h2) (by decide)
      · exact absurd (List.mem_singleton.mp h2) (by decide)
  cases v with
  | vnull =>
    intro hm
    rcases List.mem_append.mp hm with h1 | h1
    · rcases List.mem_append.mp h1 with h2 | h2
      · exact hkknl h2
      · revert h2; decide
    · exact hpiece .vnull (by simp [primLeafB]) h1
  | vbool b =>
    intro hm
    rcases List.mem_append.mp hm with h1 | h1
    · rcases List.mem_append.mp h1 with h2 | h2
      · exact hkknl h2
      · revert h2; decide
    · exact hpiece (.vbool b) (by simp [primLeafB]) h1
  | vint n =>
    intro hm
    rcases List.mem_append.mp hm with h1 | h1
    · rcases List.mem_append.mp h1 with h2 | h2
      · exact hkknl h2
      · revert h2; decide
    · exact hpiece (.vint n) (by simp [primLeafB]) h1
  | vstr st =>
    intro hm
    rcases List.mem_append.mp hm with h1 | h1
    · rcases List.mem_append.mp h1 with h2 | h2
      · exact hkknl h2
      · revert h2; decide
    · exact hpiece (.vstr st) (by simp [primLeafB]) h1
  | vfloat l => exact absurd hv (by simp [rowValB])
  | vobj fs =>
    intro hm
    rcases List.mem_append.mp hm with h1 | h1
    · exact hkknl h1
    · revert h1; decide
  | varr xs =>
    have hxs : ∀ x ∈ xs, primLeafB x = true := by
      unfold rowValB at hv
      rw [List.all_eq_true] at hv
      exact hv
    cases xs with
    | nil =>
      intro hm
      rcases List.mem_append.mp hm with h1 | h1
      · rcases List.mem_append.mp h1 with h2 | h2
        · exact hkknl h2
        · exact hbr 0 h2
      · revert h1; decide
    | cons y t =>
      intro hm
      rcases List.mem_append.mp hm with h1 | h1
      · rcases List.mem_append.mp h1 with h2 | h2
        · rcases List.mem_append.mp h2 with h3 | h3
          · exact hkknl h3
          · exact hbr (y :: t).length h3
        · revert h2; decide
      · exact intercalate_no_newline _ (fun l hl => by
          obtain ⟨w, hw, rfl⟩ := List.mem_map.mp hl
          exact hpiece w (hxs w hw)) h1

lemma parseLine_plain (indentSize : Nat) (i : Nat) (r : Str)
    (h1 : lstripSpaces r = r) (h2 : rstripWs r = r) :
    parseLine indentSize false i r = .ok (mkLine r i) := by
  unfold parseLine
  rw [h1]
  simp only [Bool.false_and, Bool.false_eq_true, if_false, Nat.sub_self]
  rw [h2]
  unfold mkLine
  congr 1
  simp [Nat.zero_div]

lemma parseLinesGo_plain (indentSize : Nat) :
    ∀ (raws : List Str) (i : Nat),
    (∀ r ∈ raws, lstripSpaces r = r ∧ rstripWs r = r) →
    parseLinesGo indentSize false raws i = .ok (mkLines raws i) := by
  intro raws
  induction raws with
  | nil => intro i h; rfl
  | cons r rest ih =>
    intro i h
    rw [parseLinesGo, parseLine_plain indentSize i r (h r (by simp)).1
      (h r (by simp)).2, ih (i + 1) (fun x hx => h x (by simp [hx]))]
    rfl

lemma mkLines_length (raws : List Str) : ∀ i, (mkLines raws i).length = raws.length := by
  induction raws with
  | nil => intro i; rfl
  | cons r rest ih =>
    intro i
    rw [mkLines]
    simp [ih (i + 1)]

lemma mkLines_linesMatch (rows : List (Str × Value)) :
    ∀ i, linesMatch (mkLines (rows.map (fun e => rowLine e.1 e.2)) i) rows := by
  induction rows with
  | nil => intro i; exact List.Forall₂.nil
  | cons e rest ih =>
    intro i
    rw [List.map_cons, mkLines]
    exact List.Forall₂.cons ⟨rfl, rfl⟩ (ih (i + 1))

lemma splitOnChar_encoded_rows (rows : List (Str × Value))
    (h : ∀ e ∈ rows, dottedKeyB e.1 = true ∧ rowValB e.2 = true)
    (hne : rows ≠ []) :
    splitOnChar '\n' (List.intercalate ['\n'] (rows.map (fun e => rowLine e.1 e.2))) =
      rows.map (fun e => rowLine e.1 e.2) := by
  refine splitOnChar_intercalate '\n' _
    (fun hm => hne (List.map_eq_nil_iff.mp hm)) ?_
  intro l hl
  obtain ⟨e, he, rfl⟩ := List.mem_map.mp hl
  exact rowLine_no_newline e.1 e.2 (h e he).1 (h e he).2

lemma decodeStep_root (fuel : Nat) (ctx : DCtx) (pos : Nat) :
    decodeStep (fuel + 1) ctx .root pos =
      (match peekPos ctx.lines pos with
       | (none, p) => .ok (.val .vnull, p)
       | (some line, p) =>
         if strStarts ['['] line.content then decodeStep fuel ctx .rootArray p
         else
           match findUnquotedColon line.content with
           | none =>
             match peekAtDepthPos ctx.lines (p + 1) 0 with
             | (none, p2) => (parsePrimitive line.content).map (fun v => (.val v, p2))
             | (some _, _) => .error .syntaxErr
           | some _ =>
             (decodeStep fuel ctx (.objectGo 0 []) p).map
               (fun r => (.val (.vobj r.1.asDict), r.2))) := rfl

lemma decodeStep_objectGo (fuel : Nat) (ctx : DCtx) (depth : Nat) (acc : Dict)
    (pos : Nat) :
    decodeStep (fuel + 1) ctx (.objectGo depth acc) pos =
      (match peekAtDepthPos ctx.lines pos depth with
       | (none, p) => .ok (.dict acc, p)
       | (some line, p) => do
         let r ← decodeStep fuel ctx (.keyValue line depth) (p + 1)
         decodeStep fuel ctx
           (.objectGo depth (dictInsert acc r.1.asKV.1 r.1.asKV.2)) r.2) := rfl

lemma decodeStep_keyValue (fuel : Nat) (ctx : DCtx) (line : ParsedLine)
    (depth : Nat) (pos : Nat) :
    decodeStep (fuel + 1) ctx (.keyValue line depth) pos =
      (let content := line.content
       match matchArrayHeader content with
       | some m => do
         let key ← parseKeyStr m.key ctx.opts.expandPaths
         let header ← parseArrayHeaderFromMatch m ','
         let rest := pyStrip m.rest
         if header.fields ≠ [] then do
           let r ← decodeStep fuel ctx (.tabularRowsGo header (depth + 1) []) pos
           .ok (.kv key (.varr r.1.asVals), r.2)
         else if rest ≠ [] then do
           let xs ← decodeInlineValues rest header ctx.opts
           .ok (.kv key (.varr xs), pos)
         else do
           let r ← decodeStep fuel ctx (.listItemsGo header.length (depth + 1) []) pos
           .ok (.kv key (.varr r.1.asVals), r.2)
       | none =>
         match findUnquotedColon content with
         | none => .error .syntaxErr
         | some cp => do
           let keyPart := pyStrip (content.take cp)
           let valuePart := pyStrip (content.drop (cp + 1))
           let key ← parseKeyStr keyPart ctx.opts.expandPaths
           if valuePart ≠ [] then
             if blockIndicators.contains valuePart then
               let r := decodeBlockScalar ctx.lines ctx.opts pos depth valuePart
               .ok (.kv key (.vstr r.1), r.2)
             else
               match collectImplicitMultiline ctx.lines pos depth with
               | (some cont, p2) => .ok (.kv key (.vstr (valuePart ++ '\n' :: cont)), p2)
               | (none, p2) => do
                 let v ← parsePrimitive valuePart
                 .ok (.kv key v, p2)
           else
             match peekPos ctx.lines pos with
             | (some nl, p1) =>
               if depth < nl.depth then do
                 let r ← decodeStep fuel ctx (.objectGo (depth + 1) []) p1
                 .ok (.kv key (.vobj r.1.asDict), r.2)
               else .ok (.kv key (.vobj []), p1)
             | (none, p1) => .ok (.kv key (.vobj []), p1)) := rfl

lemma decodeStep_listItemsGo (fuel : Nat) (ctx : DCtx) (expected depth : Nat)
    (acc : List Value) (pos : Nat) :
    decodeStep (fuel + 1) ctx (.listItemsGo expected depth acc) pos =
      (if acc.length < expected then
        match peekAtDepthPos ctx.lines pos depth with
        | (none, p) =>
          if ctx.opts.strict && acc.length ≠ expected then .error .valueErr
          else .ok (.vals acc, p)
        | (some line, p) =>
          if !strStarts ['-', ' '] line.content && line.content ≠ ['-'] then
            if ctx.opts.strict && acc.length ≠ expected then .error .valueErr
            else .ok (.vals acc, p)
          else do
            let r ← decodeStep fuel ctx (.listItem line depth) (p + 1)
            decodeStep fuel ctx
              (.listItemsGo expected depth (acc ++ [r.1.asVal])) r.2
      else
        if ctx.opts.strict && acc.length ≠ expected then .error .valueErr
        else .ok (.vals acc, pos)) := rfl

lemma not_indicator_of_head (c : Char) (t : Str) (h1 : c ≠ '|') (h2 : c ≠ '>') :
    blockIndicators.contains (c :: t) = false := by
  have : (c :: t) ∉ blockIndicators := by
    intro hm
    unfold blockIndicators at hm
    simp only [List.mem_cons, List.not_mem_nil, or_false] at hm
    rcases hm with he | he | he | he | he | he <;>
      first
        | exact h1 (List.cons.inj he).1
        | exact h2 (List.cons.inj he).1
  simpa [List.contains] using this

lemma encPiece_not_indicator (v : Value) (hv : rowValB v = true)
    (hp : primLeafB v = true) :
    blockIndicators.contains (encodePrimitive v ',') = false := by
  cases v with
  | vnull => decide
  | vbool b => cases b <;> decide
  | vint n =>
    obtain ⟨c, t, hct, hc⟩ := intStr_head n
    rw [show encodePrimitive (.vint n) ',' = intStr n from rfl, hct]
    rcases hc with hd | rfl
    · exact not_indicator_of_head c t (pred_ne hd (by decide)) (pred_ne hd (by decide))
    · exact not_indicator_of_head '-' t (by decide) (by decide)
  | vstr st =>
    rw [show encodePrimitive (.vstr st) ',' = encodeStringLiteral st ',' from rfl]
    unfold encodeStringLiteral
    by_cases hs : isSafeUnquoted st ',' = true
    · rw [if_pos hs]
      unfold rowValB at hv
      simpa using hv
    · rw [if_neg hs]
      exact not_indicator_of_head '"' _ (by decide) (by decide)
  | vfloat l => exact absurd hv (by simp [rowValB])
  | varr xs => exact absurd hp (by simp [primLeafB])
  | vobj fs => exact absurd hp (by simp [primLeafB])

lemma cim_none (lines : List ParsedLine) (pos d : Nat)
    (h : ∀ lp : ParsedLine × Nat, peekFrom lines pos = some lp →
      implicitBailsOn lp.1.content = true) :
    collectImplicitMultiline lines pos d = (none, pos) := by
  unfold collectImplicitMultiline
  cases hp : peekFrom lines pos with
  | none => rfl
  | some lp =>
    obtain ⟨l, p⟩ := lp
    simp [h (l, p) hp]

lemma findUnquotedColon_pre (pre : Str)
    (hpre : ∀ c ∈ pre, c ≠ '"' ∧ c ≠ ':') (r : Str) :
    findUnquotedColon (pre ++ ':' :: r) = some pre.length := by
  unfold findUnquotedColon
  rw [fuc_pre pre hpre r 0]
  simp

lemma bails_pre (pre : Str) (c0 : Char) (t0 : Str) (hpre : pre = c0 :: t0)
    (hhead : (isAlphaC c0 || c0 = '_') = true)
    (hchars : ∀ x ∈ pre, x ≠ '"' ∧ x ≠ ':' ∧ x ≠ ' ' ∧ isPyWs x = false)
    (r : Str) : implicitBailsOn (pre ++ ':' :: r) = true := by
  have hprops := alpha_head_props c0 hhead
  have hd1 : strStarts ['-', ' '] (pre ++ ':' :: r) = false := by
    rw [hpre, List.cons_append]
    exact strStarts_cons_ne '-' c0 [' '] _ (fun he => hprops.2.2.2.1 he.symm)
  have hd2 : pre ++ ':' :: r ≠ ['-'] := by
    rw [hpre]
    simp
  have hbr : strStarts ['['] (pre ++ ':' :: r) = false := by
    rw [hpre, List.cons_append]
    exact strStarts_cons_ne '[' c0 [] _ (fun he => hprops.2.1 he.symm)
  have hcolon : findUnquotedColon (pre ++ ':' :: r) = some pre.length :=
    findUnquotedColon_pre pre
      (fun x hx => ⟨(hchars x hx).1, (hchars x hx).2.1⟩) r
  have htake : (pre ++ ':' :: r).take pre.length = pre := take_pre pre _
  have hstrip : pyStrip pre = pre :=
    pyStrip_eq_self_of_all pre (fun x hx => (hchars x hx).2.2.2)
  have hne : pre ≠ [] := by rw [hpre]; simp
  have hlen : 0 < pre.length := by rw [hpre]; simp
  have hheadI : (isAlphaC pre.headI || decide (pre.headI = '_')) = true := by
    rw [hpre]
    exact hhead
  have hnosp : pre.contains ' ' = false := by
    apply contains_false_of_all
    intro x hx
    exact (hchars x hx).2.2.1
  have hq : strStarts ['"'] pre = false := by
    rw [hpre]
    exact strStarts_cons_ne '"' c0 [] t0 (fun he => hprops.2.2.1 he.symm)
  have hhash : strStarts ['#'] pre = false := by
    rw [hpre]
    exact strStarts_cons_ne '#' c0 [] t0 (fun he => hprops.2.2.2.2.1 he.symm)
  unfold implicitBailsOn
  rw [hd1, hcolon]
  simp only [Bool.false_or, decide_eq_true_eq]
  rw [if_neg hd2, if_neg (by rw [hbr]; simp)]
  rw [if_pos hlen, htake, hstrip]
  rw [if_pos hne, hq]
  simp only [Bool.false_eq_true, if_false]
  rw [hheadI, hnosp]
  simp only [Bool.not_false, Bool.true_and, if_true]
  rw [hhash]
  rfl

lemma dottedKey_nice (kk : Str) (hk : dottedKeyB kk = true) :
    ∀ x ∈ kk, x ≠ '"' ∧ x ≠ ':' ∧ x ≠ ' ' ∧ isPyWs x = false := by
  obtain ⟨c0, t0, rfl, _, hall⟩ := dottedKey_parts kk hk
  intro x hx
  have hp := plainKeyChar_not_special x (hall x hx)
  exact ⟨hp.2.2.1, hp.2.1, hp.2.2.2.2.2.2.1, hp.2.2.2.2.1⟩

lemma bracket_nice (n : Nat) :
    ∀ x ∈ '[' :: (natDigits n ++ [']']), x ≠ '"' ∧ x ≠ ':' ∧ x ≠ ' ' ∧
      isPyWs x = false := by
  intro x hx
  rcases List.mem_cons.mp hx with rfl | hm
  · exact ⟨by decide, by decide, by decide, by decide⟩
  · rcases List.mem_append.mp hm with h2 | h2
    · have hd := natDigits_all_digits n x h2
      have hp := digit_not_special x hd
      exact ⟨hp.2.1, hp.1, hp.2.2.2.2.2.2.2.2.2.2.2.1, hp.2.2.2.2.2.2.2.2.2.2.2.2.1⟩
    · obtain rfl := List.mem_singleton.mp h2
      exact ⟨by decide, by decide, by decide, by decide⟩

lemma implicitBailsOn_rowLine (kk : Str) (v : Value) (hk : dottedKeyB kk = true)
    (hv : rowValB v = true) : implicitBailsOn (rowLine kk v) = true := by
  obtain ⟨c0, t0, hkk, hhead, _⟩ := dottedKey_parts kk hk
  cases v with
  | vnull =>
    rw [show rowLine kk .vnull = kk ++ ':' :: (' ' :: encodePrimitive .vnull ',')
      by show kk ++ [':', ' '] ++ _ = _; simp]
    exact bails_pre kk c0 t0 hkk hhead (dottedKey_nice kk hk) _
  | vbool b =>
    rw [show rowLine kk (.vbool b) =
      kk ++ ':' :: (' ' :: encodePrimitive (.vbool b) ',')
      by show kk ++ [':', ' '] ++ _ = _; simp]
    exact bails_pre kk c0 t0 hkk hhead (dottedKey_nice kk hk) _
  | vint n =>
    rw [show rowLine kk (.vint n) =
      kk ++ ':' :: (' ' :: encodePrimitive (.vint n) ',')
      by show kk ++ [':', ' '] ++ _ = _; simp]
    exact bails_pre kk c0 t0 hkk hhead (dottedKey_nice kk hk) _
  | vstr st =>
    rw [show rowLine kk (.vstr st) =
      kk ++ ':' :: (' ' :: encodePrimitive (.vstr st) ',')
      by show kk ++ [':', ' '] ++ _ = _; simp]
    exact bails_pre kk c0 t0 hkk hhead (dottedKey_nice kk hk) _
  | vfloat l => exact absurd hv (by simp [rowValB])
  | vobj fs =>
    rw [show rowLine kk (.vobj fs) = kk ++ ':' :: [] from rfl]
    exact bails_pre kk c0 t0 hkk hhead (dottedKey_nice kk hk) []
  | varr xs =>
    have hnice : ∀ x ∈ kk ++ '[' :: (natDigits xs.length ++ [']']),
        x ≠ '"' ∧ x ≠ ':' ∧ x ≠ ' ' ∧ isPyWs x = false := by
      intro x hx
      rcases List.mem_append.mp hx with h2 | h2
      · exact dottedKey_nice kk hk x h2
      · exact bracket_nice xs.length x h2
    have hpre2 : kk ++ '[' :: (natDigits xs.length ++ [']']) =
        c0 :: (t0 ++ '[' :: (natDigits xs.length ++ [']'])) := by
      rw [hkk, List.cons_append]
    cases xs with
    | nil =>
      rw [show rowLine kk (.varr []) =
        (kk ++ '[' :: (natDigits 0 ++ [']'])) ++ ':' :: []
        by show kk ++ formatBracket 0 ',' ++ [':'] = _; simp [formatBracket]]
      exact bails_pre _ c0 _ hpre2 hhead hnice []
    | cons y t =>
      rw [show rowLine kk (.varr (y :: t)) =
        (kk ++ '[' :: (natDigits (y :: t).length ++ [']'])) ++ ':' ::
          (' ' :: List.intercalate [',']
            ((y :: t).map (encodePrimitive · ',')))
        by show kk ++ formatBracket (y :: t).length ',' ++ [':', ' '] ++ _ = _
           simp [formatBracket]]
      exact bails_pre _ c0 _ hpre2 hhead hnice _

lemma peekFromAux_cons_content (l : ParsedLine) (rest : List ParsedLine)
    (pos : Nat) (h : l.content ≠ []) :
    peekFromAux (l :: rest) pos = some (l, pos) := by
  rw [peekFromAux, if_pos h]

lemma peekFrom_at (lines : List ParsedLine) (pos : Nat) (l : ParsedLine)
    (ls : List ParsedLine) (hdrop : lines.drop pos = l :: ls)
    (h : l.content ≠ []) : peekFrom lines pos = some (l, pos) := by
  unfold peekFrom
  rw [hdrop]
  exact peekFromAux_cons_content l ls pos h

lemma peekFrom_end (lines : List ParsedLine) (pos : Nat)
    (hdrop : lines.drop pos = []) : peekFrom lines pos = none := by
  unfold peekFrom
  rw [hdrop]
  rfl

lemma drop_succ_of_drop_cons {α : Type} (lines : List α) (pos : Nat) (l : α)
    (ls : List α) (h : lines.drop pos = l :: ls) :
    lines.drop (pos + 1) = ls := by
  have h2 : lines.drop (pos + 1) = (lines.drop pos).drop 1 := by
    rw [List.drop_drop]
  rw [h2, h]
  rfl

lemma peekPos_at (lines : List ParsedLine) (pos : Nat) (l : ParsedLine)
    (ls : List ParsedLine) (hdrop : lines.drop pos = l :: ls)
    (h : l.content ≠ []) : peekPos lines pos = (some l, pos) := by
  unfold peekPos
  rw [peekFrom_at lines pos l ls hdrop h]

lemma peekPos_end (lines : List ParsedLine) (pos : Nat)
    (hdrop : lines.drop pos = []) : peekPos lines pos = (none, lines.length) := by
  unfold peekPos
  rw [peekFrom_end lines pos hdrop]

lemma peekAtDepthPos_at (lines : List ParsedLine) (pos : Nat) (l : ParsedLine)
    (ls : List ParsedLine) (hdrop : lines.drop pos = l :: ls)
    (h : l.content ≠ []) (hdepth : l.depth = 0) :
    peekAtDepthPos lines pos 0 = (some l, pos) := by
  unfold peekAtDepthPos
  rw [peekPos_at lines pos l ls hdrop h]
  simp [hdepth]

lemma peekAtDepthPos_end (lines : List ParsedLine) (pos : Nat) (d : Nat)
    (hdrop : lines.drop pos = []) :
    peekAtDepthPos lines pos d = (none, lines.length) := by
  unfold peekAtDepthPos
  rw [peekPos_end lines pos hdrop]

lemma rowLine_content_ne_nil (kk : Str) (v : Value) (hk : dottedKeyB kk = true) :
    rowLine kk v ≠ [] := by
  obtain ⟨c, t, hct, _⟩ := rowLine_head kk v hk
  rw [hct]
  simp

lemma dottedKey_pyStrip (kk : Str) (hk : dottedKeyB kk = true) :
    pyStrip kk = kk := by
  apply pyStrip_eq_self_of_all
  intro x hx
  exact (dottedKey_nice kk hk x hx).2.2.2

lemma dottedKey_ne_nil (kk : Str) (hk : dottedKeyB kk = true) : kk ≠ [] := by
  obtain ⟨c0, t0, rfl, _, _⟩ := dottedKey_parts kk hk
  simp

lemma except_bind_ok {α β : Type} (a : α) (f : α → Except PyErr β) :
    (do let x ← (Except.ok a : Except PyErr α); f x) = f a := rfl

lemma kv_row_prim (ctx : DCtx) (kk : Str) (v : Value) (line : ParsedLine)
    (pos f : Nat) (hk : dottedKeyB kk = true) (hv : rowValB v = true)
    (hp : primLeafB v = true)
    (hc : line.content = kk ++ ':' :: (' ' :: encodePrimitive v ','))
    (hnext : ∀ lp : ParsedLine × Nat, peekFrom ctx.lines pos = some lp →
      implicitBailsOn lp.1.content = true) :
    decodeStep (f + 2) ctx (.keyValue line 0) pos = .ok (.kv kk v, pos) := by
  rw [show f + 2 = (f + 1) + 1 from rfl, decodeStep_keyValue]
  simp only [hc]
  rw [matchArrayHeader_keyline kk hk _]
  rw [findUnquotedColon_pre kk
    (fun x hx => ⟨(dottedKey_nice kk hk x hx).1, (dottedKey_nice kk hk x hx).2.1⟩) _]
  simp only [take_pre, dottedKey_pyStrip kk hk,
    drop_one_after kk ':' (' ' :: encodePrimitive v ','),
    pyStrip_cons_ws ' ' _ (by decide), encPiece_pyStrip v hp,
    parseKeyStr_plain kk hk]
  rw [except_bind_ok]
  rw [if_pos (encPiece_ne_nil v hp)]
  rw [encPiece_not_indicator v hv hp]
  simp only [Bool.false_eq_true, if_false]
  rw [cim_none ctx.lines pos 0 hnext]
  rw [parsePrimitive_encode v ',' hp]
  rfl

lemma kv_row_obj (ctx : DCtx) (kk : Str) (line : ParsedLine) (pos f : Nat)
    (hk : dottedKeyB kk = true) (hc : line.content = kk ++ ':' :: [])
    (hdep : ∀ lp : ParsedLine × Nat, peekFrom ctx.lines pos = some lp →
      lp.1.depth = 0) :
    decodeStep (f + 2) ctx (.keyValue line 0) pos =
      .ok (.kv kk (.vobj []), (peekPos ctx.lines pos).2) := by
  rw [show f + 2 = (f + 1) + 1 from rfl, decodeStep_keyValue]
  simp only [hc]
  rw [matchArrayHeader_keyline kk hk []]
  rw [findUnquotedColon_pre kk
    (fun x hx => ⟨(dottedKey_nice kk hk x hx).1, (dottedKey_nice kk hk x hx).2.1⟩) []]
  simp only [take_pre, dottedKey_pyStrip kk hk, drop_one_after kk ':' [],
    parseKeyStr_plain kk hk]
  rw [except_bind_ok]
  rw [show pyStrip ([] : Str) = [] from rfl]
  rw [if_neg (by simp)]
  cases hpk : peekFrom ctx.lines pos with
  | none =>
    have hpp : peekPos ctx.lines pos = (none, ctx.lines.length) := by
      unfold peekPos
      rw [hpk]
    rw [hpp]
  | some lp =>
    obtain ⟨l, p⟩ := lp
    have hpp : peekPos ctx.lines pos = (some l, p) := by
      unfold peekPos
      rw [hpk]
    rw [hpp]
    have hd0 : l.depth = 0 := hdep (l, p) hpk
    simp [hd0]

lemma listItemsGo_zero (fuel : Nat) (ctx : DCtx) (d : Nat) (pos : Nat) :
    decodeStep (fuel + 1) ctx (.listItemsGo 0 d []) pos = .ok (.vals [], pos) := by
  rw [decodeStep_listItemsGo]
  rw [if_neg (by simp)]
  simp

lemma kv_row_arr_nil (ctx : DCtx) (kk : Str) (line : ParsedLine) (pos f : Nat)
    (hk : dottedKeyB kk = true)
    (hc : line.content = kk ++ '[' :: (natDigits 0 ++ ']' :: ':' :: [])) :
    decodeStep (f + 2) ctx (.keyValue line 0) pos = .ok (.kv kk (.varr []), pos) := by
  rw [show f + 2 = (f + 1) + 1 from rfl, decodeStep_keyValue]
  simp only [hc]
  rw [matchArrayHeader_inline kk hk 0 []]
  simp only [parseKeyStr_plain kk hk, parseArrayHeader_nofields]
  rw [except_bind_ok, except_bind_ok]
  rw [show pyStrip ([] : Str) = [] from rfl]
  rw [if_neg (by simp), if_neg (by simp)]
  rw [listItemsGo_zero f ctx (0 + 1) pos]
  rfl

lemma kv_row_arr_inline (ctx : DCtx) (kk : Str) (y : Value) (t : List Value)
    (line : ParsedLine) (pos f : Nat) (hk : dottedKeyB kk = true)
    (hxs : ∀ x ∈ y :: t, primLeafB x = true)
    (hc : line.content = kk ++ '[' :: (natDigits (y :: t).length ++ ']' :: ':' ::
      (' ' :: List.intercalate [','] ((y :: t).map (encodePrimitive · ','))))) :
    decodeStep (f + 2) ctx (.keyValue line 0) pos =
      .ok (.kv kk (.varr (y :: t)), pos) := by
  rw [show f + 2 = (f + 1) + 1 from rfl, decodeStep_keyValue]
  simp only [hc]
  rw [matchArrayHeader_inline kk hk (y :: t).length _]
  simp only [parseKeyStr_plain kk hk, parseArrayHeader_nofields]
  rw [except_bind_ok, except_bind_ok]
  rw [pyStrip_cons_ws ' ' _ (by decide), joined_pyStrip (y :: t) hxs (by simp)]
  rw [if_neg (by simp)]
  rw [if_pos (by
    rw [List.map_cons]
    exact intercalate_ne_nil_of_head _ _ (encPiece_ne_nil y (hxs y (by simp))))]
  rw [show (⟨(y :: t).length, ',', []⟩ : ArrayHeaderInfo) =
    ⟨(y :: t).length, ',', []⟩ from rfl]
  rw [decodeInlineValues_enc (y :: t) ctx.opts hxs (by simp)]
  rfl

lemma kv_row (ctx : DCtx) (kk : Str) (v : Value) (line : ParsedLine) (pos f : Nat)
    (hk : dottedKeyB kk = true) (hv : rowValB v = true)
    (hc : line.content = rowLine kk v)
    (hnext : ∀ lp : ParsedLine × Nat, peekFrom ctx.lines pos = some lp →
      implicitBailsOn lp.1.content = true ∧ lp.1.depth = 0) :
    decodeStep (f + 2) ctx (.keyValue line 0) pos =
      .ok (.kv kk v, rowAfter ctx pos v) := by
  cases v with
  | vnull =>
    exact kv_row_prim ctx kk .vnull line pos f hk hv (by simp [primLeafB])
      (by rw [hc]; show kk ++ [':', ' '] ++ _ = _; simp)
      (fun lp h => (hnext lp h).1)
  | vbool b =>
    exact kv_row_prim ctx kk (.vbool b) line pos f hk hv (by simp [primLeafB])
      (by rw [hc]; show kk ++ [':', ' '] ++ _ = _; simp)
      (fun lp h => (hnext lp h).1)
  | vint n =>
    exact kv_row_prim ctx kk (.vint n) line pos f hk hv (by simp [primLeafB])
      (by rw [hc]; show kk ++ [':', ' '] ++ _ = _; simp)
      (fun lp h => (hnext lp h).1)
  | vstr st =>
    exact kv_row_prim ctx kk (.vstr st) line pos f hk hv (by simp [primLeafB])
      (by rw [hc]; show kk ++ [':', ' '] ++ _ = _; simp)
      (fun lp h => (hnext lp h).1)
  | vfloat l => exact absurd hv (by simp [rowValB])
  | vobj fs =>
    have hfs : fs = [] := by
      unfold rowValB at hv
      exact List.isEmpty_iff.mp hv
    subst hfs
    exact kv_row_obj ctx kk line pos f hk (by rw [hc]; rfl)
      (fun lp h => (hnext lp h).2)
  | varr xs =>
    have hxs : ∀ x ∈ xs, primLeafB x = true := by
      unfold rowValB at hv
      rw [List.all_eq_true] at hv
      exact hv
    cases xs with
    | nil =>
      exact kv_row_arr_nil ctx kk line pos f hk
        (by rw [hc]; show kk ++ formatBracket 0 ',' ++ [':'] = _
            simp [formatBracket])
    | cons y t =>
      exact kv_row_arr_inline ctx kk y t line pos f hk hxs
        (by rw [hc]
            show kk ++ formatBracket (y :: t).length ',' ++ [':', ' '] ++ _ = _
            simp [formatBracket])

lemma contains_false_iff_gen {α : Type} [BEq α] [LawfulBEq α] (l : List α)
    (x : α) : l.contains x = false ↔ x ∉ l := by
  simp [List.contains]

lemma dictInsert_fresh (acc : Dict) (k : Str) (v : Value)
    (h : dictContains acc k = false) : dictInsert acc k v = acc ++ [(k, v)] := by
  unfold dictInsert
  rw [h]
  simp

lemma dictContains_append_single (acc : Dict) (k : Str) (v : Value) (x : Str)
    (h1 : dictContains acc x = false) (h2 : (k == x) = false) :
    dictContains (acc ++ [(k, v)]) x = false := by
  unfold dictContains at h1 ⊢
  rw [List.any_append, h1]
  simp [h2]

lemma decodeStep_objectGo_some (fuel : Nat) (ctx : DCtx) (depth : Nat)
    (acc : Dict) (pos : Nat) (l : ParsedLine)
    (h : peekAtDepthPos ctx.lines pos depth = (some l, pos)) :
    decodeStep (fuel + 1) ctx (.objectGo depth acc) pos =
      (do
        let r ← decodeStep fuel ctx (.keyValue l depth) (pos + 1)
        decodeStep fuel ctx
          (.objectGo depth (dictInsert acc r.1.asKV.1 r.1.asKV.2)) r.2) := by
  rw [decodeStep_objectGo, h]

lemma decodeStep_objectGo_none (fuel : Nat) (ctx : DCtx) (depth : Nat)
    (acc : Dict) (pos p2 : Nat)
    (h : peekAtDepthPos ctx.lines pos depth = (none, p2)) :
    decodeStep (fuel + 1) ctx (.objectGo depth acc) pos =
      .ok (.dict acc, p2) := by
  rw [decodeStep_objectGo, h]

lemma obj_loop (ctx : DCtx) :
    ∀ (rows : List (Str × Value)) (pos : Nat) (acc : Dict) (f : Nat),
    linesMatch (ctx.lines.drop pos) rows →
    rowsGood rows →
    keysNodupB (rows.map (·.1)) = true →
    (∀ r ∈ rows, dictContains acc r.1 = false) →
    decodeStep (3 * rows.length + f + 2) ctx (.objectGo 0 acc) pos =
      .ok (.dict (acc ++ rows), ctx.lines.length) := by
  intro rows
  induction rows with
  | nil =>
    intro pos acc f hmatch hgood hnodup hfresh
    have hdrop : ctx.lines.drop pos = [] := by
      unfold linesMatch at hmatch
      rw [List.forall₂_nil_right_iff] at hmatch
      exact hmatch
    rw [show 3 * ([] : List (Str × Value)).length + f + 2 = (f + 1) + 1 by simp]
    rw [decodeStep_objectGo_none (f + 1) ctx 0 acc pos ctx.lines.length
      (peekAtDepthPos_end ctx.lines pos 0 hdrop)]
    simp
  | cons row rest ih =>
    intro pos acc f hmatch hgood hnodup hfresh
    obtain ⟨k, v⟩ := row
    have hkv := hgood (k, v) (by simp)
    simp only at hkv
    obtain ⟨hk, hv⟩ := hkv
    unfold linesMatch at hmatch
    rw [List.forall₂_cons_right_iff] at hmatch
    obtain ⟨l, ls, hrel, hmatch2, hdrop⟩ := hmatch
    obtain ⟨hlc, hld⟩ := hrel
    have hlcne : l.content ≠ [] := by
      rw [hlc]
      exact rowLine_ne_nil k v hk
    have hdrop1 : ctx.lines.drop (pos + 1) = ls :=
      drop_succ_of_drop_cons ctx.lines pos l ls hdrop
    have hnodup2 : keysNodupB (rest.map (·.1)) = true := by
      rw [List.map_cons, keysNodupB, Bool.and_eq_true] at hnodup
      exact hnodup.2
    have hheadfresh : (rest.map (·.1)).contains k = false := by
      rw [List.map_cons, keysNodupB, Bool.and_eq_true] at hnodup
      have := hnodup.1
      cases hcc : (rest.map (·.1)).contains k
      · rfl
      · rw [hcc] at this
        exact Bool.noConfusion this
    have hknotin : ∀ r ∈ rest, (k == r.1) = false := by
      intro r hr
      rw [contains_false_iff_gen _ _] at hheadfresh
      refine beq_eq_false_iff_ne.mpr ?_
      intro he
      exact hheadfresh (List.mem_map.mpr ⟨r, hr, he.symm⟩)
    have hnext : ∀ lp : ParsedLine × Nat, peekFrom ctx.lines (pos + 1) = some lp →
        implicitBailsOn lp.1.content = true ∧ lp.1.depth = 0 := by
      intro lp hpk
      cases rest with
      | nil =>
        have hls : ls = [] := by
          have h2 := hmatch2
          rw [List.forall₂_nil_right_iff] at h2
          exact h2
        rw [peekFrom_end ctx.lines (pos + 1) (by rw [hdrop1, hls])] at hpk
        exact Option.noConfusion hpk
      | cons r2 rest2 =>
        have h2 := hmatch2
        rw [List.forall₂_cons_right_iff] at h2
        obtain ⟨l2, ls2, hrel2, _, hls⟩ := h2
        have hl2ne : l2.content ≠ [] := by
          rw [hrel2.1]
          exact rowLine_ne_nil r2.1 r2.2 (hgood r2 (by simp)).1
        rw [peekFrom_at ctx.lines (pos + 1) l2 ls2 (by rw [hdrop1, hls]) hl2ne] at hpk
        obtain rfl := Option.some.inj hpk
        refine ⟨?_, hrel2.2⟩
        rw [hrel2.1]
        exact implicitBailsOn_rowLine r2.1 r2.2 (hgood r2 (by simp)).1
          (hgood r2 (by simp)).2
    have hposmatch : linesMatch (ctx.lines.drop (rowAfter ctx (pos + 1) v)) rest := by
      cases rest with
      | nil =>
        have hls : ls = [] := by
          have h2 := hmatch2
          rw [List.forall₂_nil_right_iff] at h2
          exact h2
        cases v with
        | vobj fs =>
          show linesMatch (ctx.lines.drop (peekPos ctx.lines (pos + 1)).2) []
          rw [peekPos_end ctx.lines (pos + 1) (by rw [hdrop1, hls])]
          show linesMatch (ctx.lines.drop ctx.lines.length) []
          rw [List.drop_length]
          exact List.Forall₂.nil
        | vnull =>
          show linesMatch (ctx.lines.drop (pos + 1)) []
          rw [hdrop1, hls]
          exact List.Forall₂.nil
        | vbool b =>
          show linesMatch (ctx.lines.drop (pos + 1)) []
          rw [hdrop1, hls]
          exact List.Forall₂.nil
        | vint n =>
          show linesMatch (ctx.lines.drop (pos + 1)) []
          rw [hdrop1, hls]
          exact List.Forall₂.nil
        | vfloat lf =>
          show linesMatch (ctx.lines.drop (pos + 1)) []
          rw [hdrop1, hls]
          exact List.Forall₂.nil
        | vstr st =>
          show linesMatch (ctx.lines.drop (pos + 1)) []
          rw [hdrop1, hls]
          exact List.Forall₂.nil
        | varr xs =>
          show linesMatch (ctx.lines.drop (pos + 1)) []
          rw [hdrop1, hls]
          exact List.Forall₂.nil
      | cons r2 rest2 =>
        have hmm := hmatch2
        rw [List.forall₂_cons_right_iff] at hmm
        obtain ⟨l2, ls2, hrel2, _, hls⟩ := hmm
        have hl2ne : l2.content ≠ [] := by
          rw [hrel2.1]
          exact rowLine_ne_nil r2.1 r2.2 (hgood r2 (by simp)).1
        cases v with
        | vobj fs =>
          show linesMatch (ctx.lines.drop (peekPos ctx.lines (pos + 1)).2) (r2 :: rest2)
          rw [peekPos_at ctx.lines (pos + 1) l2 ls2 (by rw [hdrop1, hls]) hl2ne]
          show linesMatch (ctx.lines.drop (pos + 1)) (r2 :: rest2)
          rw [hdrop1]
          exact hmatch2
        | vnull =>
          show linesMatch (ctx.lines.drop (pos + 1)) (r2 :: rest2)
          rw [hdrop1]
          exact hmatch2
        | vbool b =>
          show linesMatch (ctx.lines.drop (pos + 1)) (r2 :: rest2)
          rw [hdrop1]
          exact hmatch2
        | vint n =>
          show linesMatch (ctx.lines.drop (pos + 1)) (r2 :: rest2)
          rw [hdrop1]
          exact hmatch2
        | vfloat lf =>
          show linesMatch (ctx.lines.drop (pos + 1)) (r2 :: rest2)
          rw [hdrop1]
          exact hmatch2
        | vstr st =>
          show linesMatch (ctx.lines.drop (pos + 1)) (r2 :: rest2)
          rw [hdrop1]
          exact hmatch2
        | varr xs =>
          show linesMatch (ctx.lines.drop (pos + 1)) (r2 :: rest2)
          rw [hdrop1]
          exact hmatch2
    rw [show 3 * ((k, v) :: rest).length + f + 2 =
      (3 * rest.length + f + 4) + 1 by simp [List.length_cons]; ring]
    rw [decodeStep_objectGo_some (3 * rest.length + f + 4) ctx 0 acc pos l
      (peekAtDepthPos_at ctx.lines pos l ls hdrop hlcne hld)]
    rw [show 3 * rest.length + f + 4 = (3 * rest.length + f + 2) + 2 by omega]
    rw [kv_row ctx k v l (pos + 1) (3 * rest.length + f + 2) hk hv hlc hnext]
    rw [except_bind_ok]
    simp only [DecOut.asKV]
    rw [dictInsert_fresh acc k v (hfresh (k, v) (by simp))]
    rw [show (3 * rest.length + f + 2) + 2 = 3 * rest.length + (f + 2) + 2 by omega]
    rw [ih (rowAfter ctx (pos + 1) v) (acc ++ [(k, v)]) (f + 2) hposmatch
      (fun r hr => hgood r (by simp [hr])) hnodup2
      (fun r hr => dictContains_append_single acc k v r.1
        (hfresh r (by simp [hr])) (hknotin r hr))]
    rw [List.append_assoc]
    rfl

lemma rowLine_colon (kk : Str) (v : Value) (hk : dottedKeyB kk = true) :
    ∃ n, findUnquotedColon (rowLine kk v) = some n := by
  have hnice : ∀ x ∈ kk, x ≠ '"' ∧ x ≠ ':' := fun x hx =>
    ⟨(dottedKey_nice kk hk x hx).1, (dottedKey_nice kk hk x hx).2.1⟩
  cases v with
  | vnull =>
    refine ⟨kk.length, ?_⟩
    rw [show rowLine kk .vnull = kk ++ ':' :: (' ' :: encodePrimitive .vnull ',')
      by show kk ++ [':', ' '] ++ _ = _; simp]
    exact findUnquotedColon_pre kk hnice _
  | vbool b =>
    refine ⟨kk.length, ?_⟩
    rw [show rowLine kk (.vbool b) = kk ++ ':' :: (' ' :: encodePrimitive (.vbool b) ',')
      by show kk ++ [':', ' '] ++ _ = _; simp]
    exact findUnquotedColon_pre kk hnice _
  | vint n =>
    refine ⟨kk.length, ?_⟩
    rw [show rowLine kk (.vint n) = kk ++ ':' :: (' ' :: encodePrimitive (.vint n) ',')
      by show kk ++ [':', ' '] ++ _ = _; simp]
    exact findUnquotedColon_pre kk hnice _
  | vfloat l =>
    refine ⟨kk.length, ?_⟩
    rw [show rowLine kk (.vfloat l) = kk ++ ':' :: (' ' :: encodePrimitive (.vfloat l) ',')
      by show kk ++ [':', ' '] ++ _ = _; simp]
    exact findUnquotedColon_pre kk hnice _
  | vstr st =>
    refine ⟨kk.length, ?_⟩
    rw [show rowLine kk (.vstr st) = kk ++ ':' :: (' ' :: encodePrimitive (.vstr st) ',')
      by show kk ++ [':', ' '] ++ _ = _; simp]
    exact findUnquotedColon_pre kk hnice _
  | vobj fs =>
    refine ⟨kk.length, ?_⟩
    rw [show rowLine kk (.vobj fs) = kk ++ ':' :: [] from rfl]
    exact findUnquotedColon_pre kk hnice []
  | varr xs =>
    have hnice2 : ∀ x ∈ kk ++ '[' :: (natDigits xs.length ++ [']']),
        x ≠ '"' ∧ x ≠ ':' := by
      intro x hx
      rcases List.mem_append.mp hx with h2 | h2
      · exact ⟨(dottedKey_nice kk hk x h2).1, (dottedKey_nice kk hk x h2).2.1⟩
      · exact ⟨(bracket_nice xs.length x h2).1, (bracket_nice xs.length x h2).2.1⟩
    cases xs with
    | nil =>
      refine ⟨(kk ++ '[' :: (natDigits 0 ++ [']'])).length, ?_⟩
      rw [show rowLine kk (.varr []) =
        (kk ++ '[' :: (natDigits 0 ++ [']'])) ++ ':' :: []
        by show kk ++ formatBracket 0 ',' ++ [':'] = _; simp [formatBracket]]
      exact findUnquotedColon_pre _ hnice2 []
    | cons y t =>
      refine ⟨(kk ++ '[' :: (natDigits (y :: t).length ++ [']'])).length, ?_⟩
      rw [show rowLine kk (.varr (y :: t)) =
        (kk ++ '[' :: (natDigits (y :: t).length ++ [']'])) ++ ':' ::
          (' ' :: List.intercalate [','] ((y :: t).map (encodePrimitive · ',')))
        by show kk ++ formatBracket (y :: t).length ',' ++ [':', ' '] ++ _ = _
           simp [formatBracket]]
      exact findUnquotedColon_pre _ hnice2 _

lemma rowLine_not_bracket (kk : Str) (v : Value) (hk : dottedKeyB kk = true) :
    strStarts ['['] (rowLine kk v) = false := by
  obtain ⟨c, t, hct, hhead⟩ := rowLine_head kk v hk
  rw [hct]
  exact strStarts_cons_ne '[' c [] t (fun he => (alpha_head_props c hhead).2.1 he.symm)

lemma decodeStep_root_obj (fuel : Nat) (ctx : DCtx) (pos : Nat) (l : ParsedLine)
    (p : Nat) (hp : peekPos ctx.lines pos = (some l, p))
    (hsq : strStarts ['['] l.content = false) (n : Nat)
    (hcol : findUnquotedColon l.content = some n) :
    decodeStep (fuel + 1) ctx .root pos =
      (decodeStep fuel ctx (.objectGo 0 []) p).map
        (fun r => (.val (.vobj r.1.asDict), r.2)) := by
  rw [decodeStep_root, hp]
  show (if strStarts ['['] l.content = true then _ else _) = _
  rw [hsq]
  simp only [Bool.false_eq_true, if_false]
  rw [hcol]

lemma root_flat (ctx : DCtx) (rows : List (Str × Value)) (f : Nat)
    (hmatch : linesMatch ctx.lines rows) (hgood : rowsGood rows)
    (hnodup : keysNodupB (rows.map (·.1)) = true) (hne : rows ≠ []) :
    decodeStep (3 * rows.length + f + 3) ctx .root 0 =
      .ok (.val (.vobj rows), ctx.lines.length) := by
  obtain ⟨row, rest, rfl⟩ : ∃ row rest, rows = row :: rest := by
    cases rows with
    | nil => exact absurd rfl hne
    | cons row rest => exact ⟨row, rest, rfl⟩
  have hmm := hmatch
  unfold linesMatch at hmm
  rw [List.forall₂_cons_right_iff] at hmm
  obtain ⟨l, ls, hrel, hmatch2, hlines⟩ := hmm
  have hk := (hgood row (by simp)).1
  have hlcne : l.content ≠ [] := by
    rw [hrel.1]
    exact rowLine_ne_nil row.1 row.2 hk
  have hdrop0 : ctx.lines.drop 0 = l :: ls := by
    rw [List.drop_zero]
    exact hlines
  obtain ⟨n, hcol⟩ := rowLine_colon row.1 row.2 hk
  rw [show 3 * (row :: rest).length + f + 3 =
    (3 * (row :: rest).length + f + 2) + 1 by omega]
  rw [decodeStep_root_obj (3 * (row :: rest).length + f + 2) ctx 0 l 0
    (peekPos_at ctx.lines 0 l ls hdrop0 hlcne)
    (by rw [hrel.1]; exact rowLine_not_bracket row.1 row.2 hk) n
    (by rw [hrel.1]; exact hcol)]
  rw [obj_loop ctx (row :: rest) 0 [] f (by rw [List.drop_zero]; exact hmatch)
    hgood hnodup (fun r hr => rfl)]
  rfl

lemma decodeLinesToon_flat (rows : List (Str × Value)) (opts : DecodeOpts)
    (hstrict : opts.strict = false)
    (hgood : rowsGood rows) (hnodup : keysNodupB (rows.map (·.1)) = true)
    (hne : rows ≠ []) :
    decodeLinesToon (rows.map (fun e => rowLine e.1 e.2)) opts =
      (if opts.expandPaths then expandPathsVal (.vobj rows) opts.strict
       else .ok (.vobj rows)) := by
  have hplain : ∀ r ∈ rows.map (fun e => rowLine e.1 e.2),
      lstripSpaces r = r ∧ rstripWs r = r := by
    intro r hr
    obtain ⟨e, he, rfl⟩ := List.mem_map.mp hr
    exact ⟨rowLine_lstrip e.1 e.2 (hgood e he).1,
      rowLine_rstrip e.1 e.2 (hgood e he).1 (hgood e he).2⟩
  unfold decodeLinesToon
  rw [hstrict, parseLinesGo_plain opts.indent _ 1 hplain, except_bind_ok]
  obtain ⟨row, rest, rfl⟩ : ∃ row rest, rows = row :: rest := by
    cases rows with
    | nil => exact absurd rfl hne
    | cons row rest => exact ⟨row, rest, rfl⟩
  have hlen : (mkLines ((row :: rest).map (fun e => rowLine e.1 e.2)) 1).length =
      (row :: rest).length := by
    rw [mkLines_length, List.length_map]
  have hemp : (mkLines ((row :: rest).map (fun e => rowLine e.1 e.2)) 1).isEmpty
      = false := by
    rw [List.map_cons, mkLines]
    rfl
  rw [hemp]
  simp only [Bool.false_eq_true, if_false]
  have hroot := root_flat ⟨mkLines ((row :: rest).map (fun e => rowLine e.1 e.2)) 1,
    opts⟩ (row :: rest) (13 * (row :: rest).length + 13)
    (mkLines_linesMatch (row :: rest) 1) hgood hnodup (by simp)
  rw [show decodeFuel (mkLines ((row :: rest).map (fun e => rowLine e.1 e.2))
      1).length = 3 * (row :: rest).length + (13 * (row :: rest).length + 13) + 3
    by rw [hlen]; unfold decodeFuel; omega]
  rw [hroot, except_bind_ok]
  rfl

lemma decode_encode_flat (fs : List (Str × Value)) (eopts : EncodeOpts)
    (hd : eopts.delimiter = ',') (hf : eopts.keyFolding = .noFold)
    (dopts : DecodeOpts) (hstrict : dopts.strict = false)
    (hexp : dopts.expandPaths = false)
    (h : ∀ e ∈ fs, goodKeyB e.1 = true ∧ rowValB e.2 = true)
    (hnodup : keysNodupB (fs.map (·.1)) = true) (hne : fs ≠ []) :
    decodeToon (encodeToon (.vobj fs) eopts) dopts = .ok (.vobj fs) := by
  have hrg : rowsGood fs := fun e he =>
    ⟨goodKey_dotted e.1 (h e he).1, (h e he).2⟩
  rw [encodeToon_flat eopts hd hf fs h]
  unfold decodeToon
  rw [splitOnChar_encoded_rows fs hrg hne,
    decodeLinesToon_flat fs dopts hstrict hrg hnodup hne, hexp]
  rfl

/-- C2 (amended): the claimed string round trip through the single-entry
object \x7b"k": s\x7d holds for every string except the two block-scalar
indicator strings "|" and ">", which the claim explicitly includes and which
fail (see the counterexample): for every `s` that is not a block indicator,
`decode(encode(\x7b"k": s\x7d))` returns exactly \x7b"k": s\x7d, covering in
particular strings needing the five escape sequences. -/
theorem C2_roundtrip_amended (s : Str)
    (hs : blockIndicators.contains s = false) :
    decodeToon (encodeToon (.vobj [(['k'], .vstr s)]) {}) {} =
      .ok (.vobj [(['k'], .vstr s)]) := by
  refine decode_encode_flat [(['k'], .vstr s)] {} rfl rfl {} rfl rfl ?_ rfl
    (by simp)
  intro e he
  rw [List.mem_singleton] at he
  subst he
  refine ⟨?_, ?_⟩
  · show goodKeyB ['k'] = true
    decide
  show rowValB (.vstr s) = true
  simp only [rowValB, hs]
  rfl

/-- C2 (amended) witness: the amended round trip evaluated at the concrete
string " multi\nline | text " (spaces at both ends, an embedded newline and
an embedded pipe). -/
theorem C2_roundtrip_amended_witness :
    blockIndicators.contains (" multi\nline | text ".data) = false ∧
    decodeToon (encodeToon (.vobj [(['k'], .vstr (" multi\nline | text ".data))])
        {}) {} = .ok (.vobj [(['k'], .vstr (" multi\nline | text ".data))]) :=
  ⟨by decide, C2_roundtrip_amended (" multi\nline | text ".data) (by decide)⟩

lemma intercalate_single (sep x : Str) : List.intercalate sep [x] = x := by
  simp [List.intercalate]

lemma encPiece_no_newline (v : Value) (hv : primLeafB v = true) :
    '\n' ∉ encodePrimitive v ',' := by
  intro hm
  rcases encPiece_cases v hv with ⟨s0, he⟩ | ⟨_, _, _, _, _, hnl⟩
  · rw [he] at hm
    rcases List.mem_cons.mp hm with h1 | h1
    · exact absurd h1 (by decide)
    · rcases List.mem_append.mp h1 with h2 | h2
      · exact newline_not_mem_escapeString s0 h2
      · exact absurd (List.mem_singleton.mp h2) (by decide)
  · rw [contains_false_iff] at hnl
    exact hnl hm

lemma encPiece_not_bracket (v : Value) (hv : primLeafB v = true) :
    strStarts ['['] (encodePrimitive v ',') = false := by
  cases v with
  | vnull => decide
  | vbool b => cases b <;> decide
  | vint n =>
    obtain ⟨c, t, hct⟩ : ∃ c t, encodePrimitive (.vint n) ',' = c :: t := by
      cases he : encodePrimitive (.vint n) ',' with
      | nil => exact absurd he (encPiece_ne_nil (.vint n) hv)
      | cons c t => exact ⟨c, t, rfl⟩
    rw [hct]
    refine strStarts_cons_ne '[' c [] t (fun he => ?_)
    have hni := intStr_not_contains n '[' (by decide) (by decide)
    rw [contains_false_iff] at hni
    have hcm : c ∈ intStr n := by
      rw [show (intStr n : Str) = encodePrimitive (.vint n) ',' from rfl, hct]
      exact List.mem_cons_self c t
    exact hni (by rw [he]; exact hcm)
  | vstr st =>
    rw [show encodePrimitive (.vstr st) ',' = encodeStringLiteral st ',' from rfl]
    unfold encodeStringLiteral
    by_cases hs : isSafeUnquoted st ',' = true
    · rw [if_pos hs]
      obtain ⟨hne, _, _, _, h5, _⟩ := isSafeUnquoted_spec st ',' hs
      obtain ⟨c, t, hct⟩ : ∃ c t, st = c :: t := by
        cases st with
        | nil => exact absurd rfl hne
        | cons c t => exact ⟨c, t, rfl⟩
      rw [hct]
      refine strStarts_cons_ne '[' c [] t (fun he => ?_)
      have : st.any isStructuralC = true :=
        List.any_eq_true.mpr ⟨c, by rw [hct]; exact List.mem_cons_self c t,
          by rw [← he]; decide⟩
      rw [h5] at this
      exact absurd this (by decide)
    · rw [if_neg hs]
      exact strStarts_cons_ne '[' '"' [] (escapeString st ++ ['"']) (by decide)
  | vfloat l => exact absurd hv (by simp [primLeafB])
  | varr xs => exact absurd hv (by simp [primLeafB])
  | vobj fs => exact absurd hv (by simp [primLeafB])

lemma encPiece_fuc_none (v : Value) (hv : primLeafB v = true) :
    findUnquotedColon (encodePrimitive v ',') = none := by
  cases v with
  | vnull => decide
  | vbool b => cases b <;> decide
  | vint n =>
    unfold findUnquotedColon
    refine fuc_none _ ?_ 0
    intro c hc
    have h1 := intStr_not_contains n '"' (by decide) (by decide)
    have h2 := intStr_not_contains n ':' (by decide) (by decide)
    rw [contains_false_iff] at h1 h2
    exact ⟨fun he => h1 (he ▸ hc), fun he => h2 (he ▸ hc)⟩
  | vstr st =>
    rw [show encodePrimitive (.vstr st) ',' = encodeStringLiteral st ',' from rfl]
    unfold encodeStringLiteral
    by_cases hs : isSafeUnquoted st ',' = true
    · rw [if_pos hs]
      obtain ⟨_, _, _, _, h5, h6, _⟩ := isSafeUnquoted_spec st ',' hs
      unfold findUnquotedColon
      refine fuc_none _ ?_ 0
      intro c hc
      rw [contains_false_iff] at h6
      refine ⟨fun he => h6 (he ▸ hc), fun he => ?_⟩
      have : st.any isStructuralC = true :=
        List.any_eq_true.mpr ⟨c, hc, by rw [he]; decide⟩
      rw [h5] at this
      exact absurd this (by decide)
    · rw [if_neg hs]
      unfold findUnquotedColon
      show findUnquotedColonGo ('"' :: (escapeString st ++ '"' :: [])) 0 false = none
      rw [findUnquotedColonGo_quote, Bool.not_false, fuc_quoted_body st [] 1,
        findUnquotedColonGo.eq_1]
  | vfloat l => exact absurd hv (by simp [primLeafB])
  | varr xs => exact absurd hv (by simp [primLeafB])
  | vobj fs => exact absurd hv (by simp [primLeafB])

lemma decodeStep_root_prim (fuel : Nat) (ctx : DCtx) (pos : Nat)
    (l : ParsedLine) (p : Nat) (hp : peekPos ctx.lines pos = (some l, p))
    (hsq : strStarts ['['] l.content = false)
    (hcol : findUnquotedColon l.content = none) (p2 : Nat)
    (hnext : peekAtDepthPos ctx.lines (p + 1) 0 = (none, p2)) :
    decodeStep (fuel + 1) ctx .root pos =
      (parsePrimitive l.content).map (fun v => (.val v, p2)) := by
  rw [decodeStep_root, hp]
  show (if strStarts ['['] l.content = true then _ else _) = _
  rw [hsq]
  simp only [Bool.false_eq_true, if_false]
  rw [hcol, hnext]

lemma decode_encode_prim (p : Value) (hp : primLeafB p = true)
    (eopts : EncodeOpts) (hd : eopts.delimiter = ',')
    (dopts : DecodeOpts) (hstrict : dopts.strict = false)
    (hexp : dopts.expandPaths = false) :
    decodeToon (encodeToon p eopts) dopts = .ok p := by
  have henc : encodeToon p eopts = encodePrimitive p ',' := by
    cases p with
    | vnull =>
      rw [show encodeToon .vnull eopts =
        List.intercalate ['\n'] [encodePrimitive .vnull eopts.delimiter] from rfl,
        hd, intercalate_single]
    | vbool b =>
      rw [show encodeToon (.vbool b) eopts =
        List.intercalate ['\n'] [encodePrimitive (.vbool b) eopts.delimiter]
        from rfl, hd, intercalate_single]
    | vint n =>
      rw [show encodeToon (.vint n) eopts =
        List.intercalate ['\n'] [encodePrimitive (.vint n) eopts.delimiter]
        from rfl, hd, intercalate_single]
    | vstr st =>
      rw [show encodeToon (.vstr st) eopts =
        List.intercalate ['\n'] [encodePrimitive (.vstr st) eopts.delimiter]
        from rfl, hd, intercalate_single]
    | vfloat l => exact absurd hp (by simp [primLeafB])
    | varr xs => exact absurd hp (by simp [primLeafB])
    | vobj fs => exact absurd hp (by simp [primLeafB])
  rw [henc]
  unfold decodeToon
  rw [splitOnChar_of_not_mem '\n' _ (encPiece_no_newline p hp)]
  obtain ⟨c0, t0, hct, hc0⟩ := encPiece_head p hp
  have hplain : ∀ r ∈ [encodePrimitive p ','],
      lstripSpaces r = r ∧ rstripWs r = r := by
    intro r hr
    obtain rfl := List.mem_singleton.mp hr
    refine ⟨?_, ?_⟩
    · rw [hct]
      exact lstripSpaces_cons_of_ne c0 t0
        (fun he => by rw [he] at hc0; exact absurd hc0 (by decide))
    · have := rstripWs_append_lastOK [] (encodePrimitive p ',')
        (encPiece_ne_nil p hp) (encPiece_lastOK p hp)
      simpa using this
  unfold decodeLinesToon
  rw [hstrict, parseLinesGo_plain dopts.indent [encodePrimitive p ','] 1 hplain,
    except_bind_ok]
  rw [show (mkLines [encodePrimitive p ','] 1).isEmpty = false from rfl]
  simp only [Bool.false_eq_true, if_false]
  rw [show decodeFuel (mkLines [encodePrimitive p ','] 1).length = 31 + 1 from rfl]
  rw [decodeStep_root_prim 31
    ⟨mkLines [encodePrimitive p ','] 1, dopts⟩ 0
    (mkLine (encodePrimitive p ',') 1) 0
    (peekPos_at _ 0 _ [] rfl (encPiece_ne_nil p hp))
    (encPiece_not_bracket p hp) (encPiece_fuc_none p hp) 1
    (peekAtDepthPos_end _ 1 0 rfl)]
  rw [show (mkLine (encodePrimitive p ',') 1).content = encodePrimitive p ','
    from rfl, parsePrimitive_encode p ',' hp]
  rw [show ((Except.ok p : Except PyErr Value).map
    (fun v => ((.val v : DecOut), 1))) = Except.ok ((.val p : DecOut), 1)
    from rfl]
  rw [except_bind_ok, hexp]
  rfl

lemma take_indent_no_tab (raw : Str) :
    ((raw.take (raw.length - (lstripSpaces raw).length)).contains '\t') = false := by
  induction raw with
  | nil => rfl
  | cons c cs ih =>
    by_cases hc : c = ' '
    · subst hc
      have h1 : lstripSpaces (' ' :: cs) = lstripSpaces cs := by
        simp [lstripSpaces, List.dropWhile_cons]
      rw [h1]
      have hsplit : List.takeWhile (fun x => decide (x = ' ')) cs ++
          List.dropWhile (fun x => decide (x = ' ')) cs = cs :=
        List.takeWhile_append_dropWhile (p := fun x => decide (x = ' ')) (l := cs)
      have hle : (lstripSpaces cs).length ≤ cs.length := by
        have := congrArg List.length hsplit
        simp only [List.length_append] at this
        simp only [lstripSpaces]
        omega
      have h2 : (' ' :: cs).length - (lstripSpaces cs).length =
          (cs.length - (lstripSpaces cs).length) + 1 := by
        simp only [List.length_cons]
        omega
      rw [h2, List.take_succ_cons]
      have hch : (' ' == '\t') = false := by decide
      simp only [List.contains_cons, hch, Bool.false_or]
      exact ih
    · have h1 : lstripSpaces (c :: cs) = c :: cs := by
        simp [lstripSpaces, List.dropWhile_cons, hc]
      rw [h1]
      simp

lemma rstripWs_of_all_ws (l : Str) (h : ∀ c ∈ l, isPyWs c = true) :
    rstripWs l = [] := by
  unfold rstripWs rstripBy
  rw [List.dropWhile_eq_nil_iff.mpr (fun x hx => h x (List.mem_reverse.mp hx))]
  rfl

lemma parseLine_blank (indentSize : Nat) (strict : Bool) (idx : Nat) (raw : Str)
    (h : ∀ c ∈ raw, isPyWs c = true)
    (hmod : strict = true →
      (raw.length - (lstripSpaces raw).length) % indentSize = 0) :
    parseLine indentSize strict idx raw =
      .ok { raw := raw, content := [],
            indent := raw.length - (lstripSpaces raw).length,
            depth := (raw.length - (lstripSpaces raw).length) / indentSize,
            lineNumber := idx } := by
  have hcontent : rstripWs (lstripSpaces raw) = [] := by
    refine rstripWs_of_all_ws _ (fun c hc => h c ?_)
    exact List.Sublist.subset (List.dropWhile_sublist _) hc
  show (if (strict &&
      (raw.take (raw.length - (lstripSpaces raw).length)).contains '\t') = true
    then _ else _) = _
  rw [take_indent_no_tab raw]
  simp only [Bool.and_false, Bool.false_eq_true, if_false]
  cases strict with
  | false =>
    simp only [Bool.false_and, Bool.false_eq_true, if_false]
    show Except.ok _ = _
    rw [hcontent]
  | true =>
    simp only [Bool.true_and]
    rw [if_neg (by simp [hmod rfl])]
    show Except.ok _ = _
    rw [hcontent]

lemma parseLinesGo_blank (indentSize : Nat) (strict : Bool) :
    ∀ (raws : List Str) (i : Nat),
    (∀ l ∈ raws, ∀ c ∈ l, isPyWs c = true) →
    (strict = true → ∀ l ∈ raws,
      (l.length - (lstripSpaces l).length) % indentSize = 0) →
    ∃ ls : List ParsedLine, parseLinesGo indentSize strict raws i = .ok ls ∧
      ∀ l ∈ ls, l.content = [] := by
  intro raws
  induction raws with
  | nil => exact fun i _ _ => ⟨[], rfl, by simp⟩
  | cons r rest ih =>
    intro i h hm
    obtain ⟨ls, hls, hcont⟩ := ih (i + 1) (fun l hl => h l (by simp [hl]))
      (fun hs l hl => hm hs l (by simp [hl]))
    refine ⟨(⟨r, [], r.length - (lstripSpaces r).length,
        (r.length - (lstripSpaces r).length) / indentSize, i⟩ : ParsedLine)
        :: ls, ?_, ?_⟩
    · rw [parseLinesGo, parseLine_blank indentSize strict i r (h r (by simp))
        (fun hs => hm hs r (by simp)), except_bind_ok, hls, except_bind_ok]
      rfl
    · intro l hl
      rcases List.mem_cons.mp hl with h1 | h1
      · rw [h1]
      · exact hcont l h1

lemma peekFromAux_blank (ls : List ParsedLine) (h : ∀ l ∈ ls, l.content = []) :
    ∀ pos, peekFromAux ls pos = none := by
  induction ls with
  | nil => intro pos; rfl
  | cons l rest ih =>
    intro pos
    rw [peekFromAux, if_neg (by simp [h l (by simp)])]
    exact ih (fun x hx => h x (by simp [hx])) (pos + 1)

lemma root_blank (ctx : DCtx) (h : ∀ l ∈ ctx.lines, l.content = []) (f : Nat) :
    decodeStep (f + 1) ctx .root 0 = .ok (.val .vnull, ctx.lines.length) := by
  have hpeek : peekPos ctx.lines 0 = (none, ctx.lines.length) := by
    unfold peekPos peekFrom
    rw [peekFromAux_blank _ (fun l hl => h l (List.mem_of_mem_drop hl)) 0]
  rw [decodeStep_root, hpeek]

lemma decodeLinesToon_blank (rawLines : List Str) (opts : DecodeOpts)
    (hblank : ∀ l ∈ rawLines, ∀ c ∈ l, isPyWs c = true)
    (hmod : opts.strict = true → ∀ l ∈ rawLines,
      (l.length - (lstripSpaces l).length) % opts.indent = 0) :
    decodeLinesToon rawLines opts = .ok .vnull := by
  obtain ⟨ls, hls, hcont⟩ :=
    parseLinesGo_blank opts.indent opts.strict rawLines 1 hblank hmod
  unfold decodeLinesToon
  rw [hls, except_bind_ok]
  cases hemp : ls.isEmpty with
  | true => rw [if_pos rfl]
  | false =>
    rw [if_neg (by simp)]
    obtain ⟨n, hn⟩ : ∃ n, decodeFuel ls.length = n + 1 :=
      ⟨16 * ls.length + 15, by unfold decodeFuel; omega⟩
    rw [hn, root_blank ⟨ls, opts⟩ hcont n, except_bind_ok]
    cases opts.expandPaths with
    | false => rfl
    | true => rfl

/-- C10 (amended): decoding input made of blank (whitespace-only) lines
returns `null` without raising — not for every option combination, but for
those with a positive indent width in which the options are non-strict or
every line's leading-space run is a multiple of the indent width (the
claim's unconditional "every combination" fails on a single one-space line
under strict mode, see the counterexample, and at `indent = 0` Python
raises `ZeroDivisionError` computing any line's depth, even for empty
input); empty input likewise returns `null`, and the empty object encodes
to the empty string, which (decoding to `null`) does not decode back to an
object. -/
theorem C10_blank_amended (rawLines : List Str) (opts : DecodeOpts)
    (_hpos : 0 < opts.indent)
    (hblank : ∀ l ∈ rawLines, ∀ c ∈ l, isPyWs c = true)
    (hmod : opts.strict = true → ∀ l ∈ rawLines,
      (l.length - (lstripSpaces l).length) % opts.indent = 0) :
    decodeLinesToon rawLines opts = .ok .vnull ∧
    decodeToon [] opts = .ok .vnull ∧
    ∀ eopts : EncodeOpts, encodeToon (.vobj []) eopts = [] := by
  refine ⟨decodeLinesToon_blank rawLines opts hblank hmod, ?_, fun eopts => rfl⟩
  show decodeLinesToon (splitOnChar '\n' []) opts = .ok .vnull
  refine decodeLinesToon_blank _ opts ?_ ?_
  · intro l hl c hc
    rw [show (splitOnChar '\n' [] : List Str) = [[]] from rfl] at hl
    obtain rfl := List.mem_singleton.mp hl
    exact absurd hc (by simp)
  · intro _ l hl
    rw [show (splitOnChar '\n' [] : List Str) = [[]] from rfl] at hl
    obtain rfl := List.mem_singleton.mp hl
    simp [lstripSpaces]

/-- C10 (amended) witness: the blank-input behaviour evaluated under
`strict=True, indent=2` on three concrete lines: two spaces, the empty
line, and a single tab (whose leading-space run is empty). -/
theorem C10_blank_amended_witness :
    0 < (⟨true, false, 2⟩ : DecodeOpts).indent ∧
    (∀ l ∈ [("  ").data, ([] : Str), ['\t']], ∀ c ∈ l, isPyWs c = true) ∧
    ((⟨true, false, 2⟩ : DecodeOpts).strict = true →
      ∀ l ∈ [("  ").data, ([] : Str), ['\t']],
        (l.length - (lstripSpaces l).length) % (2 : Nat) = 0) ∧
    (decodeLinesToon [("  ").data, ([] : Str), ['\t']] ⟨true, false, 2⟩ =
        .ok .vnull ∧
      decodeToon [] ⟨true, false, 2⟩ = .ok .vnull ∧
      ∀ eopts : EncodeOpts, encodeToon (.vobj []) eopts = []) :=
  ⟨by decide, by decide, by decide,
    C10_blank_amended [("  ").data, ([] : Str), ['\t']] ⟨true, false, 2⟩
      (by decide) (by decide) (by decide)⟩

lemma ident_head (k : Str) (h : isValidIdentifierSegment k = true) :
    ∃ c t, k = c :: t ∧ (isAlphaC c || c = '_') = true ∧
      ∀ x ∈ t, isIdentTailC x = true := by
  cases k with
  | nil => exact absurd h (by simp [isValidIdentifierSegment])
  | cons c t =>
    unfold isValidIdentifierSegment at h
    rw [Bool.and_eq_true] at h
    exact ⟨c, t, rfl, h.1, List.all_eq_true.mp h.2⟩

lemma ident_no_dot (k : Str) (h : isValidIdentifierSegment k = true) :
    '.' ∉ k := by
  obtain ⟨c, t, rfl, hc, ht⟩ := ident_head k h
  intro hm
  rcases List.mem_cons.mp hm with h1 | h1
  · rw [← h1] at hc
    exact absurd hc (by decide)
  · have := ht '.' h1
    exact absurd this (by decide)

lemma dottedKey_mk (c : Char) (t : Str) (hc : (isAlphaC c || c = '_') = true)
    (ht : ∀ x ∈ c :: t, plainKeyCharB x = true) :
    dottedKeyB (c :: t) = true := by
  unfold dottedKeyB
  rw [Bool.and_eq_true]
  exact ⟨hc, List.all_eq_true.mpr ht⟩

lemma ident_chars_plain (k : Str) (h : isValidIdentifierSegment k = true) :
    ∀ x ∈ k, plainKeyCharB x = true := by
  obtain ⟨c, t, rfl, hc, ht⟩ := ident_head k h
  intro x hx
  rcases List.mem_cons.mp hx with rfl | h1
  · unfold plainKeyCharB
    simp only [Bool.or_eq_true] at hc ⊢
    rcases hc with h2 | h2
    · exact Or.inl (Or.inl (Or.inl h2))
    · exact Or.inl (Or.inr h2)
  · exact identTail_plainKey x (ht x h1)

lemma intercalate_dot_chars (ks : List Str) (hne : ks ≠ [])
    (h : ∀ k ∈ ks, isValidIdentifierSegment k = true) :
    ∀ x ∈ List.intercalate ['.'] ks, plainKeyCharB x = true := by
  induction ks with
  | nil => exact absurd rfl hne
  | cons a t ih =>
    cases t with
    | nil =>
      rw [intercalate_single]
      exact ident_chars_plain a (h a (by simp))
    | cons b t2 =>
      intro x hx
      rw [intercalate_cons_cons, List.append_assoc, List.singleton_append] at hx
      rcases List.mem_append.mp hx with h1 | h1
      · exact ident_chars_plain a (h a (by simp)) x h1
      · rcases List.mem_cons.mp h1 with rfl | h2
        · decide
        · exact ih (by simp) (fun l hl => h l (by simp [hl])) x h2

lemma dottedKey_intercalate (ks : List Str) (hne : ks ≠ [])
    (h : ∀ k ∈ ks, isValidIdentifierSegment k = true) :
    dottedKeyB (List.intercalate ['.'] ks) = true := by
  obtain ⟨a, t, rfl⟩ : ∃ a t, ks = a :: t := by
    cases ks with
    | nil => exact absurd rfl hne
    | cons a t => exact ⟨a, t, rfl⟩
  obtain ⟨c, t0, hct, hc, _⟩ := ident_head a (h a (by simp))
  have hchars := intercalate_dot_chars (a :: t) (by simp) h
  cases t with
  | nil =>
    rw [intercalate_single] at hchars ⊢
    rw [hct] at hchars ⊢
    exact dottedKey_mk c t0 hc hchars
  | cons b t2 =>
    rw [intercalate_cons_cons, List.append_assoc, List.singleton_append]
      at hchars ⊢
    rw [hct] at hchars ⊢
    rw [List.cons_append]
    exact dottedKey_mk c _ hc hchars

lemma splitOnChar_dotted (k : Str) (ks : List Str)
    (h : ∀ x ∈ k :: ks, isValidIdentifierSegment x = true) :
    splitOnChar '.' (List.intercalate ['.'] (k :: ks)) = k :: ks :=
  splitOnChar_intercalate '.' (k :: ks) (by simp)
    (fun l hl => ident_no_dot l (h l hl))

lemma isExpandablePath_dotted (k : Str) (ks : List Str)
    (h : ∀ x ∈ k :: ks, isValidIdentifierSegment x = true) :
    isExpandablePath (List.intercalate ['.'] (k :: ks)) = true := by
  unfold isExpandablePath
  rw [splitOnChar_dotted k ks h]
  exact List.all_eq_true.mpr h

lemma setNested_nil_chain (leaf : Value) :
    ∀ path : List Str, path ≠ [] →
    setNested [] path leaf false = .ok (chainEntry path leaf) := by
  intro path
  induction path with
  | nil => exact fun h => absurd rfl h
  | cons k rest ih =>
    intro _
    cases rest with
    | nil => rfl
    | cons k1 t =>
      show (do
        let sub ← (Except.ok ([] : Dict) : Except PyErr Dict)
        let sub2 ← setNested sub (k1 :: t) leaf false
        .ok (dictInsert [] k (.vobj sub2))) = _
      rw [except_bind_ok, ih (by simp), except_bind_ok]
      rfl

lemma chainEntry_eq (leaf : Value) :
    ∀ ks (k : Str), chainEntry (k :: ks) leaf = [(k, chainVal ks leaf)] := by
  intro ks
  induction ks with
  | nil => intro k; rfl
  | cons k1 rest ih =>
    intro k
    show [(k, Value.vobj (chainEntry (k1 :: rest) leaf))] = _
    rw [ih k1]
    rfl

lemma foldLeaf_rowVal (leaf : Value) (h : foldLeafB leaf = true) :
    rowValB leaf = true := by
  cases leaf with
  | vnull => rfl
  | vbool b => rfl
  | vint n => rfl
  | vstr s => exact h
  | vfloat l => exact absurd h (by simp [foldLeafB])
  | varr xs => exact absurd h (by simp [foldLeafB])
  | vobj fs => exact h

lemma expandPathsVal_leaf (leaf : Value) (h : foldLeafB leaf = true) :
    expandPathsVal leaf false = .ok leaf := by
  cases leaf with
  | vnull => rfl
  | vbool b => rfl
  | vint n => rfl
  | vstr s => rfl
  | vfloat l => rfl
  | varr xs => exact absurd h (by simp [foldLeafB])
  | vobj fs =>
    obtain rfl : fs = [] := by
      cases fs with
      | nil => rfl
      | cons e t => exact absurd h (by simp [foldLeafB])
    rfl

lemma expand_single_dotted (k : Str) (ks : List Str) (leaf : Value)
    (hids : ∀ x ∈ k :: ks, isValidIdentifierSegment x = true)
    (hleaf : foldLeafB leaf = true) :
    expandPathsVal (.vobj [(List.intercalate ['.'] (k :: ks), leaf)]) false =
      .ok (.vobj [(k, chainVal ks leaf)]) := by
  obtain ⟨c, t0, hct, hc, _⟩ := ident_head k (hids k (by simp))
  have hmark : strStarts quotedKeyMarker (List.intercalate ['.'] (k :: ks)) =
      false := by
    cases ks with
    | nil =>
      rw [intercalate_single, hct]
      exact strStarts_cons_ne '\x00' c _ t0
        (fun he => (alpha_head_props c hc).2.2.2.2.2 he.symm)
    | cons b t2 =>
      rw [intercalate_cons_cons, List.append_assoc, List.singleton_append,
        hct, List.cons_append]
      exact strStarts_cons_ne '\x00' c _ _
        (fun he => (alpha_head_props c hc).2.2.2.2.2 he.symm)
  show (expandObjGo [(List.intercalate ['.'] (k :: ks), leaf)] false []).map
    Value.vobj = _
  show (do
    let ev ← expandPathsVal leaf false
    let acc2 ←
      if strStarts quotedKeyMarker (List.intercalate ['.'] (k :: ks)) then _
      else if (List.intercalate ['.'] (k :: ks)).contains '.' &&
          isExpandablePath (List.intercalate ['.'] (k :: ks)) then
        setNested [] (splitOnChar '.' (List.intercalate ['.'] (k :: ks))) ev
          false
      else
        if dictContains [] (List.intercalate ['.'] (k :: ks)) then _
        else .ok (dictInsert [] (List.intercalate ['.'] (k :: ks)) ev)
    expandObjGo [] false acc2).map Value.vobj = _
  rw [expandPathsVal_leaf leaf hleaf, except_bind_ok, hmark]
  simp only [Bool.false_eq_true, if_false]
  cases ks with
  | nil =>
    have hnd : (List.intercalate ['.'] [k]).contains '.' = false := by
      rw [intercalate_single]
      exact contains_false_of_all
        (fun x hx he => ident_no_dot k (hids k (by simp)) (he ▸ hx))
    rw [hnd]
    simp only [Bool.false_and, Bool.false_eq_true, if_false]
    rw [show dictContains [] (List.intercalate ['.'] [k]) = false from rfl]
    simp only [Bool.false_eq_true, if_false]
    rw [except_bind_ok]
    show Except.ok (Value.vobj (dictInsert [] (List.intercalate ['.'] [k])
      leaf)) = _
    rw [intercalate_single]
    rfl
  | cons k1 t2 =>
    have hd : (List.intercalate ['.'] (k :: k1 :: t2)).contains '.' = true := by
      rw [intercalate_cons_cons, List.append_assoc, List.singleton_append]
      simp [List.contains]
    rw [hd, isExpandablePath_dotted k (k1 :: t2) hids]
    simp only [Bool.and_self]
    rw [if_pos trivial, splitOnChar_dotted k (k1 :: t2) hids,
      setNested_nil_chain leaf (k :: k1 :: t2) (by simp), except_bind_ok]
    show Except.ok (Value.vobj (chainEntry (k :: k1 :: t2) leaf)) = _
    rw [chainEntry_eq leaf (k1 :: t2) k]

lemma normalize_leaf (leaf : Value) (h : foldLeafB leaf = true) :
    normalizeValue leaf = leaf := by
  cases leaf with
  | vnull => rfl
  | vbool b => rfl
  | vint n => rfl
  | vstr s => rfl
  | vfloat l => exact absurd h (by simp [foldLeafB])
  | varr xs => exact absurd h (by simp [foldLeafB])
  | vobj fs =>
    obtain rfl : fs = [] := by
      cases fs with
      | nil => rfl
      | cons e t => exact absurd h (by simp [foldLeafB])
    rfl

lemma normalize_chainVal (leaf : Value) (h : foldLeafB leaf = true) :
    ∀ ks, normalizeValue (chainVal ks leaf) = chainVal ks leaf := by
  intro ks
  induction ks with
  | nil => exact normalize_leaf leaf h
  | cons k1 rest ih =>
    show Value.vobj (normObj [(k1, chainVal rest leaf)]) = _
    rw [normObj, normObj, ih]
    rfl

lemma encodeFolded_chain (opts : EncodeOpts) (hd : opts.delimiter = ',')
    (hfd : opts.flattenDepth = none) (leaf : Value)
    (hleaf : foldLeafB leaf = true) :
    ∀ ks (path : List Str), path ≠ [] →
    (∀ x ∈ ks, isValidIdentifierSegment x = true) →
    encodeFolded path (chainVal ks leaf) opts 0 =
      [rowLine (List.intercalate ['.'] (path ++ ks)) leaf] := by
  intro ks
  induction ks with
  | nil =>
    intro path hpne _
    rw [List.append_nil]
    have hind : indentStr opts 0 = [] := by
      unfold indentStr
      rw [Nat.mul_zero]
      rfl
    cases leaf with
    | vnull =>
      show [indentStr opts 0 ++ List.intercalate ['.'] path ++ [':', ' '] ++
        encodePrimitive .vnull opts.delimiter] = _
      rw [hind, hd, List.nil_append]
      rfl
    | vbool b =>
      show [indentStr opts 0 ++ List.intercalate ['.'] path ++ [':', ' '] ++
        encodePrimitive (.vbool b) opts.delimiter] = _
      rw [hind, hd, List.nil_append]
      rfl
    | vint n =>
      show [indentStr opts 0 ++ List.intercalate ['.'] path ++ [':', ' '] ++
        encodePrimitive (.vint n) opts.delimiter] = _
      rw [hind, hd, List.nil_append]
      rfl
    | vstr st =>
      show [indentStr opts 0 ++ List.intercalate ['.'] path ++ [':', ' '] ++
        encodePrimitive (.vstr st) opts.delimiter] = _
      rw [hind, hd, List.nil_append]
      rfl
    | vfloat l => exact absurd hleaf (by simp [foldLeafB])
    | varr xs => exact absurd hleaf (by simp [foldLeafB])
    | vobj fs =>
      obtain rfl : fs = [] := by
        cases fs with
        | nil => rfl
        | cons e t => exact absurd hleaf (by simp [foldLeafB])
      show [indentStr opts 0 ++ List.intercalate ['.'] path ++ [':']] = _
      rw [hind, List.nil_append]
      rfl
  | cons k1 rest ih =>
    intro path hpne hids
    rw [show chainVal (k1 :: rest) leaf =
      Value.vobj [(k1, chainVal rest leaf)] from rfl]
    simp only [encodeFolded]
    rw [hfd]
    simp only [if_true]
    rw [if_pos (hids k1 (by simp)),
      ih (path ++ [k1]) (by simp) (fun x hx => hids x (by simp [hx])),
      List.append_assoc, List.singleton_append]

lemma canFold_leaf (k : Str) (leaf : Value) (hleaf : foldLeafB leaf = true) :
    canFoldKey k leaf [] = false := by
  cases leaf with
  | vnull => unfold canFoldKey; split <;> rfl
  | vbool b => unfold canFoldKey; split <;> rfl
  | vint n => unfold canFoldKey; split <;> rfl
  | vstr st => unfold canFoldKey; split <;> rfl
  | vfloat l => exact absurd hleaf (by simp [foldLeafB])
  | varr xs => exact absurd hleaf (by simp [foldLeafB])
  | vobj fs =>
    obtain rfl : fs = [] := by
      cases fs with
      | nil => rfl
      | cons e t => exact absurd hleaf (by simp [foldLeafB])
    unfold canFoldKey
    split <;> rfl

lemma canFold_single (k k1 : Str) (v : Value)
    (hk : isValidIdentifierSegment k = true)
    (hk1 : isValidIdentifierSegment k1 = true) :
    canFoldKey k (.vobj [(k1, v)]) [] = true := by
  unfold canFoldKey
  rw [hk]
  simp only [Bool.not_true, Bool.false_eq_true, if_false]
  rw [hk1]
  simp only [Bool.not_true, Bool.false_eq_true, if_false]
  rfl

lemma encodeToon_folded (k : Str) (ks : List Str) (leaf : Value)
    (eopts : EncodeOpts) (hd : eopts.delimiter = ',')
    (hkf : eopts.keyFolding = .safeFold) (hfd : eopts.flattenDepth = none)
    (hk : goodKeyB k = true)
    (hks : ∀ x ∈ ks, isValidIdentifierSegment x = true)
    (hleaf : foldLeafB leaf = true) :
    encodeToon (.vobj [(k, chainVal ks leaf)]) eopts =
      rowLine (List.intercalate ['.'] (k :: ks)) leaf := by
  have hkid : isValidIdentifierSegment k = true := by
    unfold goodKeyB at hk
    rw [Bool.and_eq_true] at hk
    exact hk.1
  have hind : indentStr eopts 0 = [] := by
    unfold indentStr
    rw [Nat.mul_zero]
    rfl
  have hlines : encodeLinesToon (.vobj [(k, chainVal ks leaf)]) eopts =
      encodeObjectLines [(k, chainVal ks leaf)] eopts 0 [] := by
    unfold encodeLinesToon
    rw [show normalizeValue (.vobj [(k, chainVal ks leaf)]) =
      .vobj [(k, chainVal ks leaf)] from normalize_chainVal leaf hleaf (k :: ks)]
  unfold encodeToon
  rw [hlines]
  have hcond : (decide (eopts.keyFolding = KeyFolding.safeFold) &&
      canFoldKey k leaf []) = false := by
    rw [canFold_leaf k leaf hleaf, Bool.and_false]
  cases ks with
  | nil =>
    rw [show chainVal [] leaf = leaf from rfl, intercalate_single]
    cases leaf with
    | vnull =>
      rw [encodeObjectLines.eq_4 eopts 0 [] k _ []
        (fun _ hc => Value.noConfusion hc) (fun _ hc => Value.noConfusion hc)]
      rw [hcond]
      simp only [Bool.false_eq_true, if_false]
      rw [indentStr_zero, encodeKey_id k hk, hd]
      simp [rowLine, List.intercalate, encodeObjectLines]
    | vbool b =>
      rw [encodeObjectLines.eq_4 eopts 0 [] k _ []
        (fun _ hc => Value.noConfusion hc) (fun _ hc => Value.noConfusion hc)]
      rw [hcond]
      simp only [Bool.false_eq_true, if_false]
      rw [indentStr_zero, encodeKey_id k hk, hd]
      simp [rowLine, List.intercalate, encodeObjectLines]
    | vint n =>
      rw [encodeObjectLines.eq_4 eopts 0 [] k _ []
        (fun _ hc => Value.noConfusion hc) (fun _ hc => Value.noConfusion hc)]
      rw [hcond]
      simp only [Bool.false_eq_true, if_false]
      rw [indentStr_zero, encodeKey_id k hk, hd]
      simp [rowLine, List.intercalate, encodeObjectLines]
    | vstr st =>
      rw [encodeObjectLines.eq_4 eopts 0 [] k _ []
        (fun _ hc => Value.noConfusion hc) (fun _ hc => Value.noConfusion hc)]
      rw [hcond]
      simp only [Bool.false_eq_true, if_false]
      rw [indentStr_zero, encodeKey_id k hk, hd]
      simp [rowLine, List.intercalate, encodeObjectLines]
    | vfloat l => exact absurd hleaf (by simp [foldLeafB])
    | varr xs => exact absurd hleaf (by simp [foldLeafB])
    | vobj fs =>
      obtain rfl : fs = [] := by
        cases fs with
        | nil => rfl
        | cons e t => exact absurd hleaf (by simp [foldLeafB])
      rw [encodeObjectLines.eq_2]
      rw [hcond]
      simp only [Bool.false_eq_true, if_false]
      rw [indentStr_zero, encodeKey_id k hk]
      simp [rowLine, List.intercalate, encodeObjectLines]
  | cons k1 rest =>
    rw [show chainVal (k1 :: rest) leaf =
      Value.vobj [(k1, chainVal rest leaf)] from rfl]
    rw [encodeObjectLines.eq_2]
    rw [canFold_single k k1 (chainVal rest leaf) hkid (hks k1 (by simp)), hkf]
    simp only [decide_True, Bool.true_and, if_true]
    rw [show (Value.vobj [(k1, chainVal rest leaf)]) =
      chainVal (k1 :: rest) leaf from rfl,
      encodeFolded_chain eopts hd hfd leaf hleaf (k1 :: rest) [k] (by simp)
        (fun x hx => hks x hx),
      show encodeObjectLines [] eopts 0 [] = [] from rfl,
      List.append_nil, List.singleton_append, intercalate_single]

/-! ### The nested-document round trips for the amended C1 and C9 -/

/-! ### B1: line contents of the nested document -/

lemma lstrip_replicate (n : Nat) (c : Str) :
    lstripSpaces (List.replicate n ' ' ++ c) = lstripSpaces c := by
  induction n with
  | zero => rfl
  | succ m ih =>
    rw [List.replicate_succ, List.cons_append]
    show lstripSpaces (' ' :: (List.replicate m ' ' ++ c)) = _
    rw [show lstripSpaces (' ' :: (List.replicate m ' ' ++ c)) =
      lstripSpaces (List.replicate m ' ' ++ c) by
        simp [lstripSpaces, List.dropWhile_cons]]
    exact ih

lemma parseLine_indented (i : Nat) (d : Nat) (c : Str)
    (hl : lstripSpaces c = c) (hr : rstripWs c = c) :
    parseLine 2 false i (List.replicate (2 * d) ' ' ++ c) =
      .ok ⟨List.replicate (2 * d) ' ' ++ c, c, 2 * d, d, i⟩ := by
  unfold parseLine
  simp only [Bool.false_and, Bool.false_eq_true, if_false]
  rw [lstrip_replicate, hl]
  have hlen : (List.replicate (2 * d) ' ' ++ c).length - c.length = 2 * d := by
    simp
  rw [hlen, hr]
  have hdiv : 2 * d / 2 = d := by omega
  rw [hdiv]

lemma parseLinesGo_indented :
    ∀ (ps : List (Nat × Str)) (i : Nat),
    (∀ p ∈ ps, lstripSpaces p.2 = p.2 ∧ rstripWs p.2 = p.2) →
    parseLinesGo 2 false (ps.map rawOfD) i = .ok (mkLinesD ps i) := by
  intro ps
  induction ps with
  | nil => intro i _; rfl
  | cons p rest ih =>
    intro i h
    obtain ⟨d, c⟩ := p
    rw [List.map_cons, parseLinesGo]
    rw [show rawOfD (d, c) = List.replicate (2 * d) ' ' ++ c from rfl]
    rw [parseLine_indented i d c (h (d, c) (by simp)).1 (h (d, c) (by simp)).2,
      except_bind_ok, ih (i + 1) (fun x hx => h x (by simp [hx])),
      except_bind_ok]
    rfl

lemma mkLinesD_length (ps : List (Nat × Str)) :
    ∀ i, (mkLinesD ps i).length = ps.length := by
  induction ps with
  | nil => intro i; rfl
  | cons p rest ih =>
    intro i
    obtain ⟨d, c⟩ := p
    rw [mkLinesD]
    simp [ih (i + 1)]

lemma mkLinesD_matches (ps : List (Nat × Str)) :
    ∀ i, linesMatchD (mkLinesD ps i) ps := by
  induction ps with
  | nil => intro i; exact List.Forall₂.nil
  | cons p rest ih =>
    intro i
    obtain ⟨d, c⟩ := p
    rw [mkLinesD]
    exact List.Forall₂.cons ⟨rfl, rfl⟩ (ih (i + 1))

lemma mem_intercalate (sep : Str) (ls : List Str) (x : Char)
    (hx : x ∈ List.intercalate sep ls) : (∃ l ∈ ls, x ∈ l) ∨ x ∈ sep := by
  induction ls with
  | nil => simp [List.intercalate] at hx
  | cons a t ih =>
    cases t with
    | nil =>
      rw [intercalate_single] at hx
      exact Or.inl ⟨a, by simp, hx⟩
    | cons b t2 =>
      rw [intercalate_cons_cons] at hx
      rcases List.mem_append.mp hx with h1 | h1
      · rcases List.mem_append.mp h1 with h2 | h2
        · exact Or.inl ⟨a, by simp, h2⟩
        · exact Or.inr h2
      · rcases ih h1 with ⟨l, hl, hxl⟩ | h2
        · exact Or.inl ⟨l, by simp [hl], hxl⟩
        · exact Or.inr h2

lemma intercalate_head (sep : Str) (l : Str) (rest : List Str) :
    ∃ t, List.intercalate sep (l :: rest) = l ++ t := by
  cases rest with
  | nil => exact ⟨[], by rw [intercalate_single, List.append_nil]⟩
  | cons b t2 =>
    exact ⟨sep ++ List.intercalate sep (b :: t2), by
      rw [intercalate_cons_cons, List.append_assoc]⟩

lemma tabArrB_spec (xs : List Value) (h : tabArrB xs = true) :
    ∃ fs rest, xs = .vobj fs :: rest ∧ fs ≠ [] ∧
      tabFields xs = fs.map (·.1) ∧
      (∀ f ∈ fs.map (·.1), goodKeyB f = true) ∧
      keysNodupB (fs.map (·.1)) = true ∧
      (∀ r ∈ xs, tabRowB (fs.map (·.1)) r = true) := by
  match xs, h with
  | .vobj ((f0, v0) :: fr) :: rest, h =>
    unfold tabArrB at h
    simp only [Bool.and_eq_true] at h
    obtain ⟨⟨⟨hg, hnd⟩, hp⟩, hrest⟩ := h
    refine ⟨(f0, v0) :: fr, rest, rfl, by simp, rfl,
      fun f hf => List.all_eq_true.mp hg f hf, hnd, ?_⟩
    intro r hr
    rcases List.mem_cons.mp hr with rfl | h2
    · unfold tabRowB
      simp only [Bool.and_eq_true]
      exact ⟨by simp, hp⟩
    · exact List.all_eq_true.mp hrest r h2

lemma keycolon_facts (kk : Str) (hk : dottedKeyB kk = true) :
    lstripSpaces (kk ++ [':']) = kk ++ [':'] ∧
    rstripWs (kk ++ [':']) = kk ++ [':'] ∧
    (kk ++ [':'] : Str) ≠ [] ∧
    '\n' ∉ (kk ++ [':'] : Str) ∧
    implicitBailsOn (kk ++ [':']) = true := by
  obtain ⟨c0, t0, hkk, hhead, hall⟩ := dottedKey_parts kk hk
  refine ⟨?_, ?_, by simp, ?_, ?_⟩
  · rw [hkk, List.cons_append]
    exact lstripSpaces_cons_of_ne c0 _ (alpha_head_props c0 hhead).1
  · exact rstripBy_self_of_last isPyWs kk ':' (by decide)
  · intro hm
    rcases List.mem_append.mp hm with h1 | h1
    · have := (dottedKey_nice kk hk '\n' h1).2.2.2
      rw [show isPyWs '\n' = true from by decide] at this
      exact Bool.noConfusion this
    · exact absurd (List.mem_singleton.mp h1) (by decide)
  · rw [show (kk ++ [':'] : Str) = kk ++ ':' :: [] from rfl]
    exact bails_pre kk c0 t0 hkk hhead
      (fun x hx => (dottedKey_nice kk hk x hx)) []

lemma tabFields_chars (xs : List Value) (h : tabArrB xs = true) :
    ∀ x ∈ List.intercalate [','] (tabFields xs),
      x ≠ '"' ∧ x ≠ ':' ∧ x ≠ ' ' ∧ isPyWs x = false := by
  obtain ⟨fs, rest, hx, hne, hflds, hg, _, _⟩ := tabArrB_spec xs h
  intro x hxm
  rw [hflds] at hxm
  rcases mem_intercalate [','] _ x hxm with ⟨l, hl, hxl⟩ | h2
  · exact dottedKey_nice l (goodKey_dotted l (hg l hl)) x hxl
  · obtain rfl := List.mem_singleton.mp h2
    exact ⟨by decide, by decide, by decide, by decide⟩

lemma header_pre_form (kk : Str) (xs : List Value) :
    tabHeaderLine kk xs =
      (kk ++ '[' :: (natDigits xs.length ++ ']' :: '{' ::
        (List.intercalate [','] (tabFields xs) ++ ['}']))) ++ ':' :: [] := by
  unfold tabHeaderLine
  simp

lemma header_pre_chars (kk : Str) (xs : List Value) (hk : dottedKeyB kk = true)
    (h : tabArrB xs = true) :
    ∀ x ∈ (kk ++ '[' :: (natDigits xs.length ++ ']' :: '{' ::
        (List.intercalate [','] (tabFields xs) ++ ['}'])) : Str),
      x ≠ '"' ∧ x ≠ ':' ∧ x ≠ ' ' ∧ isPyWs x = false := by
  intro x hx
  rcases List.mem_append.mp hx with h1 | h1
  · exact dottedKey_nice kk hk x h1
  · rcases List.mem_cons.mp h1 with rfl | h2
    · exact ⟨by decide, by decide, by decide, by decide⟩
    rcases List.mem_append.mp h2 with h3 | h3
    · have hd := digit_not_special x (natDigits_all_digits xs.length x h3)
      exact ⟨hd.2.1, hd.1, hd.2.2.2.2.2.2.2.2.2.2.2.1, hd.2.2.2.2.2.2.2.2.2.2.2.2.1⟩
    · rcases List.mem_cons.mp h3 with rfl | h4
      · exact ⟨by decide, by decide, by decide, by decide⟩
      rcases List.mem_cons.mp h4 with rfl | h5
      · exact ⟨by decide, by decide, by decide, by decide⟩
      rcases List.mem_append.mp h5 with h6 | h6
      · exact tabFields_chars xs h x h6
      · obtain rfl := List.mem_singleton.mp h6
        exact ⟨by decide, by decide, by decide, by decide⟩

lemma header_facts (kk : Str) (xs : List Value) (hk : dottedKeyB kk = true)
    (h : tabArrB xs = true) :
    lstripSpaces (tabHeaderLine kk xs) = tabHeaderLine kk xs ∧
    rstripWs (tabHeaderLine kk xs) = tabHeaderLine kk xs ∧
    tabHeaderLine kk xs ≠ [] ∧
    '\n' ∉ tabHeaderLine kk xs ∧
    implicitBailsOn (tabHeaderLine kk xs) = true := by
  obtain ⟨c0, t0, hkk, hhead, hall⟩ := dottedKey_parts kk hk
  have hpre := header_pre_chars kk xs hk h
  rw [header_pre_form]
  refine ⟨?_, ?_, by simp, ?_, ?_⟩
  · rw [hkk]
    simp only [List.cons_append, List.append_assoc]
    exact lstripSpaces_cons_of_ne c0 _ (alpha_head_props c0 hhead).1
  · exact rstripBy_self_of_last isPyWs _ ':' (by decide)
  · intro hm
    rcases List.mem_append.mp hm with h1 | h1
    · have := (hpre '\n' h1).2.2.2
      rw [show isPyWs '\n' = true from by decide] at this
      exact Bool.noConfusion this
    · rcases List.mem_cons.mp h1 with h2 | h2
      · exact absurd h2 (by decide)
      · simp at h2
  · exact bails_pre
      (kk ++ '[' :: (natDigits xs.length ++ ']' :: '{' ::
        (List.intercalate [','] (tabFields xs) ++ ['}'])))
      c0 (t0 ++ '[' :: (natDigits xs.length ++ ']' :: '{' ::
        (List.intercalate [','] (tabFields xs) ++ ['}'])))
      (by rw [hkk]; rfl) hhead hpre []

lemma tabRowLine_pieces (fs : List (Str × Value)) :
    tabRowLine (.vobj fs) =
      List.intercalate [','] ((fs.map (·.2)).map (encodePrimitive · ',')) := by
  show List.intercalate [','] (fs.map (fun e => encodePrimitive e.2 ',')) = _
  rw [List.map_map]
  rfl

lemma tabrow_facts (fields : List Str) (r : Value)
    (hrow : tabRowB fields r = true) (hf : fields ≠ []) :
    lstripSpaces (tabRowLine r) = tabRowLine r ∧
    rstripWs (tabRowLine r) = tabRowLine r ∧
    tabRowLine r ≠ [] ∧
    '\n' ∉ tabRowLine r := by
  obtain ⟨fs, rfl⟩ : ∃ fs, r = .vobj fs := by
    cases r with
    | vobj fs => exact ⟨fs, rfl⟩
    | vnull => exact absurd hrow (by simp [tabRowB])
    | vbool b => exact absurd hrow (by simp [tabRowB])
    | vint n => exact absurd hrow (by simp [tabRowB])
    | vfloat l => exact absurd hrow (by simp [tabRowB])
    | vstr s => exact absurd hrow (by simp [tabRowB])
    | varr xs => exact absurd hrow (by simp [tabRowB])
  unfold tabRowB at hrow
  simp only [Bool.and_eq_true] at hrow
  obtain ⟨hkeys, hprims⟩ := hrow
  have hp : ∀ v ∈ fs.map (·.2), primLeafB v = true :=
    fun v hv => List.all_eq_true.mp hprims v hv
  have hfsne : fs ≠ [] := by
    intro he
    subst he
    simp at hkeys
    exact hf hkeys
  obtain ⟨v0, vrest, hvs⟩ : ∃ v0 vrest, fs.map (·.2) = v0 :: vrest := by
    cases hm : fs.map (·.2) with
    | nil => exact absurd (List.map_eq_nil_iff.mp hm) hfsne
    | cons v0 vrest => exact ⟨v0, vrest, rfl⟩
  have hline := tabRowLine_pieces fs
  rw [hvs] at hline
  have hp0 : primLeafB v0 = true := hp v0 (by rw [hvs]; simp)
  refine ⟨?_, ?_, ?_, ?_⟩
  · rw [hline, List.map_cons]
    obtain ⟨t, ht⟩ := intercalate_head [','] (encodePrimitive v0 ',')
      (vrest.map (encodePrimitive · ','))
    rw [ht]
    obtain ⟨c, ct, hct, hcw⟩ := encPiece_head v0 hp0
    rw [hct, List.cons_append]
    exact lstripSpaces_cons_of_ne c _
      (fun he => by rw [he] at hcw; exact absurd hcw (by decide))
  · rw [hline]
    refine rstrip_self_of_lastOK _ (intercalate_lastOK _ ?_ ?_)
    · intro l hl
      rcases List.mem_map.mp hl with ⟨v, hv, rfl⟩
      refine ⟨encPiece_lastOK v (hp v (by rw [hvs]; exact hv)),
        encPiece_ne_nil v (hp v (by rw [hvs]; exact hv))⟩
    · rw [List.map_cons]
      simp
  · rw [hline, List.map_cons]
    obtain ⟨t, ht⟩ := intercalate_head [','] (encodePrimitive v0 ',')
      (vrest.map (encodePrimitive · ','))
    rw [ht]
    intro he
    exact encPiece_ne_nil v0 hp0 (by
      cases hc : encodePrimitive v0 ',' with
      | nil => rfl
      | cons a b => rw [hc] at he; simp at he)
  · rw [hline]
    intro hm
    rcases mem_intercalate [','] _ '\n' hm with ⟨l, hl, hxl⟩ | h2
    · rcases List.mem_map.mp hl with ⟨v, hv, rfl⟩
      exact encPiece_no_newline v (hp v (by rw [hvs]; exact hv)) hxl
    · exact absurd (List.mem_singleton.mp h2) (by decide)

/-! ### B2: depth-generalised row decoding -/

lemma kv_prim_d (ctx : DCtx) (kk : Str) (v : Value) (line : ParsedLine)
    (dep pos f : Nat) (hk : dottedKeyB kk = true) (hv : rowValB v = true)
    (hp : primLeafB v = true)
    (hc : line.content = kk ++ ':' :: (' ' :: encodePrimitive v ','))
    (hnext : ∀ lp : ParsedLine × Nat, peekFrom ctx.lines pos = some lp →
      implicitBailsOn lp.1.content = true) :
    decodeStep (f + 2) ctx (.keyValue line dep) pos = .ok (.kv kk v, pos) := by
  rw [show f + 2 = (f + 1) + 1 from rfl, decodeStep_keyValue]
  simp only [hc]
  rw [matchArrayHeader_keyline kk hk _]
  rw [findUnquotedColon_pre kk
    (fun x hx => ⟨(dottedKey_nice kk hk x hx).1, (dottedKey_nice kk hk x hx).2.1⟩) _]
  simp only [take_pre, dottedKey_pyStrip kk hk,
    drop_one_after kk ':' (' ' :: encodePrimitive v ','),
    pyStrip_cons_ws ' ' _ (by decide), encPiece_pyStrip v hp,
    parseKeyStr_plain kk hk]
  rw [except_bind_ok]
  rw [if_pos (encPiece_ne_nil v hp)]
  rw [encPiece_not_indicator v hv hp]
  simp only [Bool.false_eq_true, if_false]
  rw [cim_none ctx.lines pos dep hnext]
  rw [parsePrimitive_encode v ',' hp]
  rfl

lemma kv_obj_d (ctx : DCtx) (kk : Str) (line : ParsedLine) (dep pos f : Nat)
    (hk : dottedKeyB kk = true) (hc : line.content = kk ++ ':' :: [])
    (hdep : ∀ lp : ParsedLine × Nat, peekFrom ctx.lines pos = some lp →
      lp.1.depth ≤ dep) :
    decodeStep (f + 2) ctx (.keyValue line dep) pos =
      .ok (.kv kk (.vobj []), (peekPos ctx.lines pos).2) := by
  rw [show f + 2 = (f + 1) + 1 from rfl, decodeStep_keyValue]
  simp only [hc]
  rw [matchArrayHeader_keyline kk hk []]
  rw [findUnquotedColon_pre kk
    (fun x hx => ⟨(dottedKey_nice kk hk x hx).1, (dottedKey_nice kk hk x hx).2.1⟩) []]
  simp only [take_pre, dottedKey_pyStrip kk hk, drop_one_after kk ':' [],
    parseKeyStr_plain kk hk]
  rw [except_bind_ok]
  rw [show pyStrip ([] : Str) = [] from rfl]
  rw [if_neg (by simp)]
  cases hpk : peekFrom ctx.lines pos with
  | none =>
    have hpp : peekPos ctx.lines pos = (none, ctx.lines.length) := by
      unfold peekPos
      rw [hpk]
    rw [hpp]
  | some lp =>
    obtain ⟨l, p⟩ := lp
    have hpp : peekPos ctx.lines pos = (some l, p) := by
      unfold peekPos
      rw [hpk]
    rw [hpp]
    have h2 : l.depth ≤ dep := hdep (l, p) hpk
    have hnlt : ¬ dep < l.depth := by omega
    simp [hnlt]

lemma kv_arrnil_d (ctx : DCtx) (kk : Str) (line : ParsedLine) (dep pos f : Nat)
    (hk : dottedKeyB kk = true)
    (hc : line.content = kk ++ '[' :: (natDigits 0 ++ ']' :: ':' :: [])) :
    decodeStep (f + 2) ctx (.keyValue line dep) pos =
      .ok (.kv kk (.varr []), pos) := by
  rw [show f + 2 = (f + 1) + 1 from rfl, decodeStep_keyValue]
  simp only [hc]
  rw [matchArrayHeader_inline kk hk 0 []]
  simp only [parseKeyStr_plain kk hk, parseArrayHeader_nofields]
  rw [except_bind_ok, except_bind_ok]
  rw [show pyStrip ([] : Str) = [] from rfl]
  rw [if_neg (by simp), if_neg (by simp)]
  rw [listItemsGo_zero f ctx (dep + 1) pos]
  rfl

lemma kv_arrinline_d (ctx : DCtx) (kk : Str) (y : Value) (t : List Value)
    (line : ParsedLine) (dep pos f : Nat) (hk : dottedKeyB kk = true)
    (hxs : ∀ x ∈ y :: t, primLeafB x = true)
    (hc : line.content = kk ++ '[' :: (natDigits (y :: t).length ++ ']' :: ':' ::
      (' ' :: List.intercalate [','] ((y :: t).map (encodePrimitive · ','))))) :
    decodeStep (f + 2) ctx (.keyValue line dep) pos =
      .ok (.kv kk (.varr (y :: t)), pos) := by
  rw [show f + 2 = (f + 1) + 1 from rfl, decodeStep_keyValue]
  simp only [hc]
  rw [matchArrayHeader_inline kk hk (y :: t).length _]
  simp only [parseKeyStr_plain kk hk, parseArrayHeader_nofields]
  rw [except_bind_ok, except_bind_ok]
  rw [pyStrip_cons_ws ' ' _ (by decide), joined_pyStrip (y :: t) hxs (by simp)]
  rw [if_neg (by simp)]
  rw [if_pos (by
    rw [List.map_cons]
    exact intercalate_ne_nil_of_head _ _ (encPiece_ne_nil y (hxs y (by simp))))]
  rw [show (⟨(y :: t).length, ',', []⟩ : ArrayHeaderInfo) =
    ⟨(y :: t).length, ',', []⟩ from rfl]
  rw [decodeInlineValues_enc (y :: t) ctx.opts hxs (by simp)]
  rfl

lemma kv_rowD (ctx : DCtx) (kk : Str) (v : Value) (line : ParsedLine)
    (dep pos f : Nat)
    (hk : dottedKeyB kk = true) (hv : rowValB v = true)
    (hc : line.content = rowLine kk v)
    (hnext : ∀ lp : ParsedLine × Nat, peekFrom ctx.lines pos = some lp →
      implicitBailsOn lp.1.content = true ∧ lp.1.depth ≤ dep) :
    decodeStep (f + 2) ctx (.keyValue line dep) pos =
      .ok (.kv kk v, rowAfter ctx pos v) := by
  cases v with
  | vnull =>
    exact kv_prim_d ctx kk .vnull line dep pos f hk hv (by simp [primLeafB])
      (by rw [hc]; show kk ++ [':', ' '] ++ _ = _; simp)
      (fun lp h => (hnext lp h).1)
  | vbool b =>
    exact kv_prim_d ctx kk (.vbool b) line dep pos f hk hv (by simp [primLeafB])
      (by rw [hc]; show kk ++ [':', ' '] ++ _ = _; simp)
      (fun lp h => (hnext lp h).1)
  | vint n =>
    exact kv_prim_d ctx kk (.vint n) line dep pos f hk hv (by simp [primLeafB])
      (by rw [hc]; show kk ++ [':', ' '] ++ _ = _; simp)
      (fun lp h => (hnext lp h).1)
  | vstr st =>
    exact kv_prim_d ctx kk (.vstr st) line dep pos f hk hv (by simp [primLeafB])
      (by rw [hc]; show kk ++ [':', ' '] ++ _ = _; simp)
      (fun lp h => (hnext lp h).1)
  | vfloat l => exact absurd hv (by simp [rowValB])
  | vobj fs =>
    have hfs : fs = [] := by
      unfold rowValB at hv
      exact List.isEmpty_iff.mp hv
    subst hfs
    exact kv_obj_d ctx kk line dep pos f hk (by rw [hc]; rfl)
      (fun lp h => (hnext lp h).2)
  | varr xs =>
    have hxs : ∀ x ∈ xs, primLeafB x = true := by
      unfold rowValB at hv
      rw [List.all_eq_true] at hv
      exact hv
    cases xs with
    | nil =>
      exact kv_arrnil_d ctx kk line dep pos f hk
        (by rw [hc]; show kk ++ formatBracket 0 ',' ++ [':'] = _
            simp [formatBracket])
    | cons y t =>
      exact kv_arrinline_d ctx kk y t line dep pos f hk hxs
        (by rw [hc]
            show kk ++ formatBracket (y :: t).length ',' ++ [':', ' '] ++ _ = _
            simp [formatBracket])

lemma kv_sub_open (ctx : DCtx) (kk : Str) (line : ParsedLine)
    (dep pos fuel : Nat) (hk : dottedKeyB kk = true)
    (hc : line.content = kk ++ [':']) (nl : ParsedLine) (p1 : Nat)
    (hpk : peekPos ctx.lines pos = (some nl, p1)) (hdeep : dep < nl.depth) :
    decodeStep (fuel + 2) ctx (.keyValue line dep) pos =
      (decodeStep (fuel + 1) ctx (.objectGo (dep + 1) []) p1).bind
        (fun r => .ok (.kv kk (.vobj r.1.asDict), r.2)) := by
  rw [show fuel + 2 = (fuel + 1) + 1 from rfl, decodeStep_keyValue]
  simp only [hc]
  rw [show (kk ++ [':'] : Str) = kk ++ ':' :: [] from rfl]
  rw [matchArrayHeader_keyline kk hk []]
  rw [findUnquotedColon_pre kk
    (fun x hx => ⟨(dottedKey_nice kk hk x hx).1, (dottedKey_nice kk hk x hx).2.1⟩) []]
  simp only [take_pre, dottedKey_pyStrip kk hk, drop_one_after kk ':' [],
    parseKeyStr_plain kk hk]
  rw [except_bind_ok]
  rw [show pyStrip ([] : Str) = [] from rfl]
  rw [if_neg (by simp), hpk]
  show (if dep < nl.depth then (do
      let r ← decodeStep (fuel + 1) ctx (.objectGo (dep + 1) []) p1
      Except.ok ((DecOut.kv kk (.vobj r.1.asDict) : DecOut), r.2))
    else Except.ok ((DecOut.kv kk (.vobj []) : DecOut), p1)) = _
  rw [if_pos hdeep]
  rfl

/-! ### B3: tabular machinery -/

lemma decodeStep_tabularRowsGo (fuel : Nat) (ctx : DCtx)
    (header : ArrayHeaderInfo) (depth : Nat) (acc : List Value) (pos : Nat) :
    decodeStep (fuel + 1) ctx (.tabularRowsGo header depth acc) pos =
      (if acc.length < header.length then
        match peekAtDepthPos ctx.lines pos depth with
        | (none, p) =>
          if ctx.opts.strict && acc.length ≠ header.length then .error .valueErr
          else .ok (.vals acc, p)
        | (some line, p) => do
          let values := splitByDelimiter line.content header.delimiter
          let values ←
            if values.length ≠ header.fields.length then
              if ctx.opts.strict then .error .valueErr
              else .ok (padTruncate values header.fields.length)
            else .ok values
          let row ← buildRowGo (header.fields.zip values) []
          decodeStep fuel ctx
            (.tabularRowsGo header depth (acc ++ [Value.vobj row])) (p + 1)
      else
        if ctx.opts.strict && acc.length ≠ header.length then .error .valueErr
        else .ok (.vals acc, pos)) := rfl

lemma dottedKey_ne_comma (kk : Str) (hk : dottedKeyB kk = true) :
    ∀ c ∈ kk, c ≠ '"' ∧ c ≠ ',' := by
  obtain ⟨c0, t0, rfl, _, hall⟩ := dottedKey_parts kk hk
  intro c hc
  exact ⟨(plainKeyChar_not_special c (hall c hc)).2.2.1,
    pred_ne (hall c hc) (by decide)⟩

lemma sbd_keys (fields : List Str) (h : ∀ f ∈ fields, dottedKeyB f = true)
    (hne : fields ≠ []) :
    splitByDelimiter (List.intercalate [','] fields) ',' = fields := by
  induction fields with
  | nil => exact absurd rfl hne
  | cons a t ih =>
    cases t with
    | nil =>
      rw [intercalate_single]
      unfold splitByDelimiter
      rw [sbd_plain_end a (dottedKey_ne_comma a (h a (by simp))) []]
      rw [List.nil_append, dottedKey_pyStrip a (h a (by simp))]
    | cons b t2 =>
      rw [intercalate_cons_cons, List.append_assoc, List.singleton_append]
      unfold splitByDelimiter
      rw [sbd_plain_mid a (dottedKey_ne_comma a (h a (by simp))) _ []]
      rw [List.nil_append, dottedKey_pyStrip a (h a (by simp))]
      have := ih (fun f hf => h f (by simp [hf])) (by simp)
      unfold splitByDelimiter at this
      rw [this]

lemma mapM_parse_keys (fields : List Str)
    (h : ∀ f ∈ fields, dottedKeyB f = true) :
    fields.mapM (fun f => parseKeyStr (pyStrip f) false) = .ok fields := by
  induction fields with
  | nil => rfl
  | cons a t ih =>
    rw [List.mapM_cons, dottedKey_pyStrip a (h a (by simp)),
      parseKeyStr_plain a (h a (by simp)) false,
      ih (fun f hf => h f (by simp [hf]))]
    rfl

lemma parseArrayHeader_fields (kk : Str) (n : Nat) (r : Str)
    (fields : List Str) (h : ∀ f ∈ fields, dottedKeyB f = true)
    (hne : fields ≠ []) :
    parseArrayHeaderFromMatch
        ⟨kk, n, none, some (List.intercalate [','] fields), r⟩ ',' =
      .ok ⟨n, ',', fields⟩ := by
  obtain ⟨f0, frest, rfl⟩ : ∃ f0 frest, fields = f0 :: frest := by
    cases fields with
    | nil => exact absurd rfl hne
    | cons f0 frest => exact ⟨f0, frest, rfl⟩
  unfold parseArrayHeaderFromMatch
  simp only [Option.getD]
  rw [if_neg (intercalate_ne_nil_of_head f0 frest
    (dottedKey_ne_nil f0 (h f0 (by simp))))]
  rw [sbd_keys (f0 :: frest) h (by simp), mapM_parse_keys (f0 :: frest) h,
    except_bind_ok]

lemma joined_ne_rbrace (xs : List Value) (h : tabArrB xs = true) :
    ∀ x ∈ List.intercalate [','] (tabFields xs), (x ≠ '}') = True := by
  obtain ⟨fs, rest, hx, hne, hflds, hg, _, _⟩ := tabArrB_spec xs h
  intro x hxm
  simp only [eq_iff_iff, iff_true]
  rw [hflds] at hxm
  rcases mem_intercalate [','] _ x hxm with ⟨l, hl, hxl⟩ | h2
  · obtain ⟨c0, t0, rfl, _, hall⟩ :=
      dottedKey_parts l (goodKey_dotted l (hg l hl))
    exact pred_ne (hall x hxl) (by decide)
  · obtain rfl := List.mem_singleton.mp h2
    decide

lemma matchArrayHeader_tab (kk : Str) (hk : dottedKeyB kk = true)
    (xs : List Value) (h : tabArrB xs = true) :
    matchArrayHeader (tabHeaderLine kk xs) =
      some ⟨kk, xs.length, none,
        some (List.intercalate [','] (tabFields xs)), []⟩ := by
  obtain ⟨c0, t0, hkk, hhead, hall⟩ := dottedKey_parts kk hk
  have hq : ¬(c0 = '"') :=
    (plainKeyChar_not_special c0 (hall c0 (by rw [hkk]; simp))).2.2.1
  have hb : ¬(c0 = '[') :=
    (plainKeyChar_not_special c0 (hall c0 (by rw [hkk]; simp))).2.2.2.1
  unfold tabHeaderLine
  have hrun : (kk ++ '[' :: (natDigits xs.length ++ ']' :: '{' ::
      (List.intercalate [','] (tabFields xs) ++ '}' :: ':' :: []))).takeWhile
        isKeyRunC = kk := by
    rw [takeWhile_append_of_all isKeyRunC kk _ (dottedKey_all_keyrun kk hk),
      takeWhile_cons_neg isKeyRunC '[' _ (by decide), List.append_nil]
  have hdrop : (kk ++ '[' :: (natDigits xs.length ++ ']' :: '{' ::
      (List.intercalate [','] (tabFields xs) ++ '}' :: ':' :: []))).drop
        kk.length = '[' :: (natDigits xs.length ++ ']' :: '{' ::
      (List.intercalate [','] (tabFields xs) ++ '}' :: ':' :: [])) :=
    List.drop_left kk _
  rw [hkk, List.cons_append]
  simp only [matchArrayHeader]
  rw [if_neg hq, if_neg hb, ← List.cons_append, ← hkk, hrun]
  have hkne : kk ≠ [] := by rw [hkk]; simp
  rw [if_neg hkne, hdrop]
  simp only [headerAfterKey]
  have hds : (natDigits xs.length ++ ']' :: '{' ::
      (List.intercalate [','] (tabFields xs) ++ '}' :: ':' :: [])).takeWhile
        isDigitC = natDigits xs.length := by
    rw [takeWhile_append_of_all isDigitC _ _ (natDigits_all_digits xs.length),
      takeWhile_cons_neg isDigitC ']' _ (by decide), List.append_nil]
  rw [hds, if_neg (natDigits_ne_nil xs.length), natDigits_val,
    List.drop_left (natDigits xs.length) _]
  show headerAfterBracket kk xs.length none ('{' ::
    (List.intercalate [','] (tabFields xs) ++ '}' :: ':' :: [])) = _
  simp only [headerAfterBracket]
  have htw : ((List.intercalate [','] (tabFields xs) ++ '}' :: ':' ::
      []) : Str).takeWhile (· ≠ '}') = List.intercalate [','] (tabFields xs) := by
    rw [takeWhile_append_of_all _ _ _ (fun x hx => by
        simpa using joined_ne_rbrace xs h x hx),
      takeWhile_cons_neg _ '}' _ (by simp), List.append_nil]
  rw [htw]
  rw [if_neg (by
    rw [List.length_append]
    simp)]
  rw [show (List.intercalate [','] (tabFields xs) ++ '}' :: ':' :: []).drop
      ((List.intercalate [','] (tabFields xs)).length + 1) = ':' :: [] by
    rw [show (List.intercalate [','] (tabFields xs)).length + 1 =
      (List.intercalate [','] (tabFields xs) ++ ['}']).length by simp]
    rw [show (List.intercalate [','] (tabFields xs) ++ '}' :: ':' :: [] : Str) =
      (List.intercalate [','] (tabFields xs) ++ ['}']) ++ ':' :: [] by simp]
    exact List.drop_left _ _]
  rfl

lemma peekAtDepthPos_at_d (lines : List ParsedLine) (pos : Nat)
    (l : ParsedLine) (ls : List ParsedLine) (hdrop : lines.drop pos = l :: ls)
    (h : l.content ≠ []) (dd : Nat) (hdepth : l.depth = dd) :
    peekAtDepthPos lines pos dd = (some l, pos) := by
  unfold peekAtDepthPos
  rw [peekPos_at lines pos l ls hdrop h]
  simp [hdepth]

lemma zip_self_map (fs : List (Str × Value)) :
    (fs.map (·.1)).zip ((fs.map (·.2)).map (encodePrimitive · ',')) =
      fs.map (fun e => (e.1, encodePrimitive e.2 ',')) := by
  induction fs with
  | nil => rfl
  | cons e t ih =>
    simp only [List.map_cons, List.zip_cons_cons, ih]

lemma buildRowGo_enc (fs : List (Str × Value)) :
    ∀ acc : Dict,
    (∀ v ∈ fs.map (·.2), primLeafB v = true) →
    keysNodupB (fs.map (·.1)) = true →
    (∀ e ∈ fs, dictContains acc e.1 = false) →
    buildRowGo (fs.map (fun e => (e.1, encodePrimitive e.2 ','))) acc =
      .ok (acc ++ fs) := by
  induction fs with
  | nil =>
    intro acc _ _ _
    simp [buildRowGo]
  | cons e t ih =>
    intro acc hv hnd hfresh
    obtain ⟨k, v⟩ := e
    rw [List.map_cons]
    show (do
      let w ← parsePrimitive (encodePrimitive v ',')
      buildRowGo (t.map (fun e : Str × Value => (e.1, encodePrimitive e.2 ',')))
        (dictInsert acc k w)) = _
    rw [parsePrimitive_encode v ',' (hv v (by simp)), except_bind_ok,
      dictInsert_fresh acc k v (hfresh (k, v) (by simp))]
    rw [List.map_cons] at hnd
    rw [show keysNodupB (k :: t.map (·.1)) =
      (!((t.map (·.1)).contains k) && keysNodupB (t.map (·.1))) from rfl,
      Bool.and_eq_true] at hnd
    obtain ⟨hkf, hnd2⟩ := hnd
    rw [ih (acc ++ [(k, v)]) (fun x hx => hv x (by simp [hx])) hnd2 ?_]
    · simp
    · intro e2 he2
      refine dictContains_append_single acc k v e2.1
        (hfresh e2 (by simp [he2])) ?_
      have : e2.1 ∈ t.map (·.1) := List.mem_map.mpr ⟨e2, he2, rfl⟩
      rw [Bool.not_eq_true'] at hkf
      rw [contains_false_iff_gen] at hkf
      exact beq_eq_false_iff_ne.mpr (fun he => hkf (he ▸ this))

lemma tab_loop (ctx : DCtx) (fields : List Str)
    (_hfld : ∀ f ∈ fields, dottedKeyB f = true) (hfne : fields ≠ [])
    (hnodup : keysNodupB fields = true) (total : Nat) (dd : Nat) :
    ∀ (rows : List Value) (done : List Value) (pos f : Nat)
      (ls S : List ParsedLine),
    (∀ r ∈ rows, tabRowB fields r = true) →
    done.length + rows.length = total →
    ctx.lines.drop pos = ls ++ S →
    pos ≤ ctx.lines.length →
    linesMatchD ls (rows.map (fun r => (dd, tabRowLine r))) →
    (∀ l S2, S = l :: S2 → l.depth < dd ∧ l.content ≠ []) →
    decodeStep (rows.length + f + 1) ctx
        (.tabularRowsGo ⟨total, ',', fields⟩ dd done) pos =
      .ok (.vals (done ++ rows), pos + rows.length) := by
  intro rows
  induction rows with
  | nil =>
    intro done pos f ls S hrows hlen hdrop hple hmatch hS
    rw [decodeStep_tabularRowsGo]
    rw [if_neg (by
      show ¬ done.length < total
      simp at hlen
      omega)]
    rw [if_neg (by
      simp at hlen
      simp [hlen])]
    simp
  | cons r rest ih =>
    intro done pos f ls S hrows hlen hdrop hple hmatch hS
    obtain ⟨fs, hr⟩ : ∃ fs, r = .vobj fs := by
      have := hrows r (by simp)
      cases r with
      | vobj fs => exact ⟨fs, rfl⟩
      | vnull => exact absurd this (by simp [tabRowB])
      | vbool b => exact absurd this (by simp [tabRowB])
      | vint n => exact absurd this (by simp [tabRowB])
      | vfloat l => exact absurd this (by simp [tabRowB])
      | vstr st => exact absurd this (by simp [tabRowB])
      | varr ys => exact absurd this (by simp [tabRowB])
    subst hr
    have hrowB := hrows (.vobj fs) (by simp)
    unfold tabRowB at hrowB
    rw [Bool.and_eq_true] at hrowB
    obtain ⟨hkeys, hprims⟩ := hrowB
    have hkeys2 : fs.map (·.1) = fields := by simpa using hkeys
    have hprims2 : ∀ v ∈ fs.map (·.2), primLeafB v = true :=
      fun v hv => List.all_eq_true.mp hprims v hv
    unfold linesMatchD at hmatch
    rw [List.map_cons] at hmatch
    rw [List.forall₂_cons_right_iff] at hmatch
    obtain ⟨l0, ls2, hrel, hmatch2, hls⟩ := hmatch
    subst hls
    have hdrop0 : ctx.lines.drop pos = l0 :: (ls2 ++ S) := by
      rw [hdrop]
      rfl
    have hfsne : fs ≠ [] := by
      intro he
      subst he
      simp at hkeys2
      exact hfne hkeys2
    have hcne : l0.content ≠ [] := by
      rw [hrel.1]
      exact (tabrow_facts fields (.vobj fs) (hrows (.vobj fs) (by simp))
        hfne).2.2.1
    rw [show (Value.vobj fs :: rest).length + f + 1 =
      (rest.length + f + 1) + 1 by simp; omega]
    rw [decodeStep_tabularRowsGo]
    rw [if_pos (by
      show done.length < total
      simp at hlen
      omega)]
    rw [peekAtDepthPos_at_d ctx.lines pos l0 (ls2 ++ S) hdrop0 hcne dd hrel.2]
    show (do
      let values ←
        if (splitByDelimiter l0.content ',').length ≠ fields.length then
          if ctx.opts.strict = true then Except.error PyErr.valueErr
          else Except.ok (padTruncate (splitByDelimiter l0.content ',')
            fields.length)
        else Except.ok (splitByDelimiter l0.content ',')
      let row ← buildRowGo (fields.zip values) []
      decodeStep (rest.length + f + 1) ctx
        (.tabularRowsGo ⟨total, ',', fields⟩ dd (done ++ [Value.vobj row]))
        (pos + 1)) = _
    have hsplit : splitByDelimiter l0.content ',' =
        (fs.map (·.2)).map (encodePrimitive · ',') := by
      rw [hrel.1, tabRowLine_pieces fs]
      exact splitByDelimiter_pieces (fs.map (·.2)) hprims2
        (by simpa using hfsne)
    rw [hsplit]
    rw [if_neg (by
      simp only [List.length_map]
      rw [← hkeys2]
      simp)]
    rw [except_bind_ok]
    have hbuild : buildRowGo
        (fields.zip ((fs.map (·.2)).map (encodePrimitive · ','))) [] =
        .ok ([] ++ fs) := by
      rw [← hkeys2, zip_self_map fs]
      exact buildRowGo_enc fs [] hprims2 (by rw [hkeys2]; exact hnodup)
        (fun e he => rfl)
    rw [hbuild, except_bind_ok, List.nil_append]
    have hdrop1 : ctx.lines.drop (pos + 1) = ls2 ++ S :=
      drop_succ_of_drop_cons ctx.lines pos l0 _ hdrop0
    have hple1 : pos + 1 ≤ ctx.lines.length := by
      have := congrArg List.length hdrop0
      rw [List.length_drop] at this
      simp at this
      omega
    rw [ih (done ++ [Value.vobj fs]) (pos + 1) f ls2 S
      (fun x hx => hrows x (by simp [hx])) (by simp at hlen ⊢; omega)
      hdrop1 hple1 hmatch2 hS]
    simp only [List.append_assoc, List.singleton_append]
    rw [show pos + 1 + rest.length = pos + (rest.length + 1) by omega]
    rfl

lemma kv_tab (ctx : DCtx) (kk : Str) (xs : List Value) (line : ParsedLine)
    (dep pos f : Nat) (hk : dottedKeyB kk = true) (htab : tabArrB xs = true)
    (hc : line.content = tabHeaderLine kk xs)
    (ls S : List ParsedLine)
    (hdrop : ctx.lines.drop pos = ls ++ S)
    (hple : pos ≤ ctx.lines.length)
    (hmatch : linesMatchD ls (xs.map (fun r => (dep + 1, tabRowLine r))))
    (hS : ∀ l S2, S = l :: S2 → l.depth < dep + 1 ∧ l.content ≠ []) :
    decodeStep (xs.length + f + 3) ctx (.keyValue line dep) pos =
      .ok (.kv kk (.varr xs), pos + xs.length) := by
  obtain ⟨fs, rest0, hxs0, hfsne, hflds, hg, hnd, hrows⟩ := tabArrB_spec xs htab
  have hfieldsd : ∀ fl ∈ tabFields xs, dottedKeyB fl = true := by
    rw [hflds]
    exact fun fl hfl => goodKey_dotted fl (hg fl hfl)
  have hfne : tabFields xs ≠ [] := by
    rw [hflds]
    simpa using hfsne
  have hnodup : keysNodupB (tabFields xs) = true := by
    rw [hflds]
    exact hnd
  have hrows2 : ∀ r ∈ xs, tabRowB (tabFields xs) r = true := by
    rw [hflds]
    exact hrows
  rw [show xs.length + f + 3 = (xs.length + f + 2) + 1 by omega,
    decodeStep_keyValue]
  simp only [hc]
  rw [matchArrayHeader_tab kk hk xs htab]
  simp only [parseKeyStr_plain kk hk,
    parseArrayHeader_fields kk xs.length [] (tabFields xs) hfieldsd hfne]
  rw [except_bind_ok, except_bind_ok]
  rw [if_pos (show (⟨xs.length, ',', tabFields xs⟩ : ArrayHeaderInfo).fields
    ≠ [] from hfne)]
  rw [show xs.length + f + 2 = xs.length + (f + 1) + 1 by omega]
  rw [tab_loop ctx (tabFields xs) hfieldsd hfne hnodup xs.length (dep + 1) xs
    [] pos (f + 1) ls S hrows2 (by simp) hdrop hple hmatch hS]
  rfl

/-! ### B4: shape and wellformedness facts for the nested lines -/

lemma nentsB_cons (kp : Str → Bool) (k : Str) (v : Value)
    (rest : List (Str × Value)) (h : nentsB kp ((k, v) :: rest) = true) :
    kp k = true ∧ ((rest.map (·.1)).contains k) = false ∧
      nvalB kp v = true ∧ nentsB kp rest = true := by
  rw [show nentsB kp ((k, v) :: rest) =
    (kp k && !((rest.map (·.1)).contains k) && nvalB kp v && nentsB kp rest)
    from rfl] at h
  simp only [Bool.and_eq_true, Bool.not_eq_true'] at h
  exact ⟨h.1.1.1, h.1.1.2, h.1.2, h.2⟩

lemma nvalB_rowVal (v : Value) (hv : nvalB dottedKeyB v = true)
    (hnotsub : ∀ e es, v ≠ .vobj (e :: es))
    (hnottab : ∀ xs, v = .varr xs → tabArrB xs = false) :
    rowValB v = true := by
  cases v with
  | vnull => rfl
  | vbool b => rfl
  | vint n => rfl
  | vstr s => exact hv
  | vfloat l => exact absurd hv (by simp [nvalB])
  | vobj fs =>
    cases fs with
    | nil => rfl
    | cons e es => exact absurd rfl (hnotsub e es)
  | varr xs =>
    rw [show nvalB dottedKeyB (.varr xs) =
      (xs.all primLeafB || tabArrB xs) from rfl] at hv
    rw [hnottab xs rfl, Bool.or_false] at hv
    exact hv

lemma nvalLines_shape (kk : Str) (v : Value) (d : Nat)
    (hk : dottedKeyB kk = true) (hv : nvalB dottedKeyB v = true) :
    ∃ c ps2, nvalLines kk v d = (d, c) :: ps2 ∧
      implicitBailsOn c = true ∧ c ≠ [] ∧
      (∃ n, findUnquotedColon c = some n) ∧
      (∃ ch ct, c = ch :: ct ∧ (isAlphaC ch || ch = '_') = true) := by
  obtain ⟨c0, t0, hkk, hhead, hall⟩ := dottedKey_parts kk hk
  cases v with
  | vobj fs =>
    cases fs with
    | nil =>
      refine ⟨rowLine kk (.vobj []), [], rfl,
        implicitBailsOn_rowLine kk (.vobj []) hk rfl,
        rowLine_ne_nil kk (.vobj []) hk, rowLine_colon kk (.vobj []) hk, ?_⟩
      obtain ⟨ch, ct, hct, hhp⟩ := rowLine_head kk (.vobj []) hk
      exact ⟨ch, ct, hct, hhp⟩
    | cons e es =>
      refine ⟨kk ++ [':'], nentsLines (e :: es) (d + 1), rfl,
        (keycolon_facts kk hk).2.2.2.2, by simp, ?_, ?_⟩
      · exact ⟨kk.length, findUnquotedColon_pre kk
          (fun x hx => ⟨(dottedKey_nice kk hk x hx).1,
            (dottedKey_nice kk hk x hx).2.1⟩) []⟩
      · exact ⟨c0, t0 ++ [':'], by rw [hkk]; rfl, hhead⟩
  | varr xs =>
    by_cases htab : tabArrB xs = true
    · refine ⟨tabHeaderLine kk xs, xs.map (fun r => (d + 1, tabRowLine r)),
        by rw [show nvalLines kk (.varr xs) d =
          (if tabArrB xs then (d, tabHeaderLine kk xs) ::
            xs.map (fun r => (d + 1, tabRowLine r))
          else [(d, rowLine kk (.varr xs))]) from rfl, if_pos htab],
        (header_facts kk xs hk htab).2.2.2.2,
        (header_facts kk xs hk htab).2.2.1, ?_, ?_⟩
      · refine ⟨(kk ++ '[' :: (natDigits xs.length ++ ']' :: '{' ::
          (List.intercalate [','] (tabFields xs) ++ ['}']))).length, ?_⟩
        rw [header_pre_form]
        exact findUnquotedColon_pre _
          (fun x hx => ⟨(header_pre_chars kk xs hk htab x hx).1,
            (header_pre_chars kk xs hk htab x hx).2.1⟩) []
      · refine ⟨c0, t0 ++ '[' :: (natDigits xs.length ++ ']' :: '{' ::
          (List.intercalate [','] (tabFields xs) ++ '}' :: ':' :: [])), ?_, hhead⟩
        unfold tabHeaderLine
        rw [hkk]
        rfl
    · have hrv : rowValB (.varr xs) = true :=
        nvalB_rowVal (.varr xs) hv (fun e es h => Value.noConfusion h)
          (fun ys hy => by
            obtain rfl := Value.varr.inj hy
            simpa using htab)
      refine ⟨rowLine kk (.varr xs), [],
        by rw [show nvalLines kk (.varr xs) d =
          (if tabArrB xs then (d, tabHeaderLine kk xs) ::
            xs.map (fun r => (d + 1, tabRowLine r))
          else [(d, rowLine kk (.varr xs))]) from rfl,
          if_neg (by simpa using htab)],
        implicitBailsOn_rowLine kk (.varr xs) hk hrv,
        rowLine_ne_nil kk (.varr xs) hk, rowLine_colon kk (.varr xs) hk, ?_⟩
      obtain ⟨ch, ct, hct, hhp⟩ := rowLine_head kk (.varr xs) hk
      exact ⟨ch, ct, hct, hhp⟩
  | vnull =>
    refine ⟨rowLine kk .vnull, [], rfl,
      implicitBailsOn_rowLine kk .vnull hk rfl,
      rowLine_ne_nil kk .vnull hk, rowLine_colon kk .vnull hk, ?_⟩
    obtain ⟨ch, ct, hct, hhp⟩ := rowLine_head kk .vnull hk
    exact ⟨ch, ct, hct, hhp⟩
  | vbool b =>
    refine ⟨rowLine kk (.vbool b), [], rfl,
      implicitBailsOn_rowLine kk (.vbool b) hk rfl,
      rowLine_ne_nil kk (.vbool b) hk, rowLine_colon kk (.vbool b) hk, ?_⟩
    obtain ⟨ch, ct, hct, hhp⟩ := rowLine_head kk (.vbool b) hk
    exact ⟨ch, ct, hct, hhp⟩
  | vint n =>
    refine ⟨rowLine kk (.vint n), [], rfl,
      implicitBailsOn_rowLine kk (.vint n) hk rfl,
      rowLine_ne_nil kk (.vint n) hk, rowLine_colon kk (.vint n) hk, ?_⟩
    obtain ⟨ch, ct, hct, hhp⟩ := rowLine_head kk (.vint n) hk
    exact ⟨ch, ct, hct, hhp⟩
  | vstr st =>
    refine ⟨rowLine kk (.vstr st), [], rfl,
      implicitBailsOn_rowLine kk (.vstr st) hk hv,
      rowLine_ne_nil kk (.vstr st) hk, rowLine_colon kk (.vstr st) hk, ?_⟩
    obtain ⟨ch, ct, hct, hhp⟩ := rowLine_head kk (.vstr st) hk
    exact ⟨ch, ct, hct, hhp⟩
  | vfloat l => exact absurd hv (by simp [nvalB])

lemma nents_contents :
    ∀ (N : Nat) (es : List (Str × Value)), nentsSize es ≤ N →
    nentsB dottedKeyB es = true →
    ∀ (d : Nat) (p : Nat × Str), p ∈ nentsLines es d →
    lstripSpaces p.2 = p.2 ∧ rstripWs p.2 = p.2 ∧ p.2 ≠ [] ∧ '\n' ∉ p.2 := by
  intro N
  induction N with
  | zero =>
    intro es hsz hwf d p hp
    cases es with
    | nil => simp [nentsLines] at hp
    | cons e rest =>
      exfalso
      obtain ⟨k, v⟩ := e
      have : nentsSize ((k, v) :: rest) = 1 + nvalSize v + nentsSize rest := rfl
      omega
  | succ N ih =>
    intro es hsz hwf d p hp
    cases es with
    | nil => simp [nentsLines] at hp
    | cons e rest =>
      obtain ⟨k, v⟩ := e
      obtain ⟨hk, hkf, hv, hrest⟩ := nentsB_cons dottedKeyB k v rest hwf
      have hsz2 : nentsSize ((k, v) :: rest) =
          1 + nvalSize v + nentsSize rest := rfl
      rw [show nentsLines ((k, v) :: rest) d =
        nvalLines k v d ++ nentsLines rest d from rfl] at hp
      rcases List.mem_append.mp hp with h1 | h1
      · -- inside this entry
        cases v with
        | vobj fs =>
          cases fs with
          | nil =>
            obtain rfl := List.mem_singleton.mp h1
            have hf := keycolon_facts k hk
            exact ⟨by
                show lstripSpaces (rowLine k (.vobj [])) = _
                exact rowLine_lstrip k (.vobj []) hk,
              rowLine_rstrip k (.vobj []) hk rfl,
              rowLine_ne_nil k (.vobj []) hk,
              rowLine_no_newline k (.vobj []) hk rfl⟩
          | cons e2 es2 =>
            rw [show nvalLines k (.vobj (e2 :: es2)) d =
              (d, k ++ [':']) :: nentsLines (e2 :: es2) (d + 1) from rfl] at h1
            rcases List.mem_cons.mp h1 with rfl | h2
            · have hf := keycolon_facts k hk
              exact ⟨hf.1, hf.2.1, hf.2.2.1, hf.2.2.2.1⟩
            · refine ih (e2 :: es2) ?_ hv (d + 1) p h2
              have : nvalSize (.vobj (e2 :: es2)) =
                  1 + nentsSize (e2 :: es2) := rfl
              omega
        | varr xs =>
          by_cases htab : tabArrB xs = true
          · rw [show nvalLines k (.varr xs) d =
              (if tabArrB xs then (d, tabHeaderLine k xs) ::
                xs.map (fun r => (d + 1, tabRowLine r))
              else [(d, rowLine k (.varr xs))]) from rfl, if_pos htab] at h1
            rcases List.mem_cons.mp h1 with rfl | h2
            · have hf := header_facts k xs hk htab
              exact ⟨hf.1, hf.2.1, hf.2.2.1, hf.2.2.2.1⟩
            · rcases List.mem_map.mp h2 with ⟨r, hr, rfl⟩
              obtain ⟨fs, rest0, hxs0, hfsne, hflds, hg, hnd, hrows⟩ :=
                tabArrB_spec xs htab
              have hfne : fs.map (·.1) ≠ [] := by simpa using hfsne
              have hf := tabrow_facts (fs.map (·.1)) r (hrows r hr) hfne
              exact ⟨hf.1, hf.2.1, hf.2.2.1, hf.2.2.2⟩
          · have hrv : rowValB (.varr xs) = true :=
              nvalB_rowVal (.varr xs) hv (fun e es h => Value.noConfusion h)
                (fun ys hy => by
                  obtain rfl := Value.varr.inj hy
                  simpa using htab)
            rw [show nvalLines k (.varr xs) d =
              (if tabArrB xs then (d, tabHeaderLine k xs) ::
                xs.map (fun r => (d + 1, tabRowLine r))
              else [(d, rowLine k (.varr xs))]) from rfl,
              if_neg (by simpa using htab)] at h1
            obtain rfl := List.mem_singleton.mp h1
            exact ⟨rowLine_lstrip k (.varr xs) hk,
              rowLine_rstrip k (.varr xs) hk hrv,
              rowLine_ne_nil k (.varr xs) hk,
              rowLine_no_newline k (.varr xs) hk hrv⟩
        | vnull =>
          obtain rfl := List.mem_singleton.mp h1
          exact ⟨rowLine_lstrip k .vnull hk, rowLine_rstrip k .vnull hk rfl,
            rowLine_ne_nil k .vnull hk, rowLine_no_newline k .vnull hk rfl⟩
        | vbool b =>
          obtain rfl := List.mem_singleton.mp h1
          exact ⟨rowLine_lstrip k (.vbool b) hk,
            rowLine_rstrip k (.vbool b) hk rfl,
            rowLine_ne_nil k (.vbool b) hk,
            rowLine_no_newline k (.vbool b) hk rfl⟩
        | vint n =>
          obtain rfl := List.mem_singleton.mp h1
          exact ⟨rowLine_lstrip k (.vint n) hk,
            rowLine_rstrip k (.vint n) hk rfl,
            rowLine_ne_nil k (.vint n) hk,
            rowLine_no_newline k (.vint n) hk rfl⟩
        | vstr st =>
          obtain rfl := List.mem_singleton.mp h1
          exact ⟨rowLine_lstrip k (.vstr st) hk,
            rowLine_rstrip k (.vstr st) hk hv,
            rowLine_ne_nil k (.vstr st) hk,
            rowLine_no_newline k (.vstr st) hk hv⟩
        | vfloat l => exact absurd hv (by simp [nvalB])
      · refine ih rest ?_ hrest d p h1
        omega

lemma next_stream (ctx : DCtx) (pos d : Nat) (ls2 S : List ParsedLine)
    (rest : List (Str × Value))
    (hdrop : ctx.lines.drop pos = ls2 ++ S)
    (hple : pos ≤ ctx.lines.length)
    (hm : linesMatchD ls2 (nentsLines rest d))
    (hwf : nentsB dottedKeyB rest = true)
    (hS : sCondD d S) :
    (ctx.lines.drop pos = [] ∧ pos = ctx.lines.length) ∨
    (∃ l1 tl, ctx.lines.drop pos = l1 :: tl ∧ l1.content ≠ [] ∧
      implicitBailsOn l1.content = true ∧ l1.depth ≤ d) := by
  cases rest with
  | nil =>
    have hls2 : ls2 = [] := by
      unfold linesMatchD at hm
      rw [show nentsLines [] d = [] from rfl, List.forall₂_nil_right_iff] at hm
      exact hm
    subst hls2
    rw [List.nil_append] at hdrop
    cases S with
    | nil =>
      left
      refine ⟨hdrop, ?_⟩
      have := congrArg List.length hdrop
      rw [List.length_drop] at this
      simp at this
      omega
    | cons l S2 =>
      right
      obtain ⟨hb, hlt, hne⟩ := hS l S2 rfl
      exact ⟨l, S2, hdrop, hne, hb, by omega⟩
  | cons e2 rest2 =>
    obtain ⟨k2, v2⟩ := e2
    obtain ⟨hk2, _, hv2, _⟩ := nentsB_cons dottedKeyB k2 v2 rest2 hwf
    obtain ⟨c, ps2, hshape, hb, hcne, _, _⟩ := nvalLines_shape k2 v2 d hk2 hv2
    unfold linesMatchD at hm
    rw [show nentsLines ((k2, v2) :: rest2) d =
      nvalLines k2 v2 d ++ nentsLines rest2 d from rfl, hshape,
      List.cons_append, List.forall₂_cons_right_iff] at hm
    obtain ⟨l1, ls3, hrel, _, hls⟩ := hm
    subst hls
    right
    refine ⟨l1, ls3 ++ S, by rw [hdrop]; rfl, ?_, ?_, ?_⟩
    · rw [hrel.1]
      exact hcne
    · rw [hrel.1]
      exact hb
    · rw [hrel.2]

lemma sCond_from (d : Nat) (lsR S : List ParsedLine)
    (rest : List (Str × Value))
    (hm : linesMatchD lsR (nentsLines rest d))
    (hwf : nentsB dottedKeyB rest = true)
    (hS : sCondD d S) : sCondD (d + 1) (lsR ++ S) := by
  intro l S2 he
  cases rest with
  | nil =>
    have hls : lsR = [] := by
      unfold linesMatchD at hm
      rw [show nentsLines [] d = [] from rfl, List.forall₂_nil_right_iff] at hm
      exact hm
    subst hls
    rw [List.nil_append] at he
    obtain ⟨hb, hlt, hne⟩ := hS l S2 he
    exact ⟨hb, by omega, hne⟩
  | cons e2 rest2 =>
    obtain ⟨k2, v2⟩ := e2
    obtain ⟨hk2, _, hv2, _⟩ := nentsB_cons dottedKeyB k2 v2 rest2 hwf
    obtain ⟨c, ps2, hshape, hb, hcne, _, _⟩ := nvalLines_shape k2 v2 d hk2 hv2
    unfold linesMatchD at hm
    rw [show nentsLines ((k2, v2) :: rest2) d =
      nvalLines k2 v2 d ++ nentsLines rest2 d from rfl, hshape,
      List.cons_append, List.forall₂_cons_right_iff] at hm
    obtain ⟨l1, ls3, hrel, _, hls⟩ := hm
    subst hls
    rw [List.cons_append] at he
    obtain ⟨rfl, rfl⟩ : l1 = l ∧ ls3 ++ S = S2 := by
      constructor
      · exact (List.cons.inj he).1
      · exact (List.cons.inj he).2
    refine ⟨?_, ?_, ?_⟩
    · rw [hrel.1]
      exact hb
    · rw [hrel.2]
      omega
    · rw [hrel.1]
      exact hcne

lemma nvalCost_tab (xs : List Value) (htab : tabArrB xs = true) :
    nvalCost (.varr xs) = 3 + xs.length := by
  show (if tabArrB xs then 3 + xs.length else 3) = 3 + xs.length
  rw [htab]
  simp

lemma nvalCost_rowarr (xs : List Value) (htab : tabArrB xs = false) :
    nvalCost (.varr xs) = 3 := by
  show (if tabArrB xs then 3 + xs.length else 3) = 3
  rw [htab]
  simp

lemma nval_cases (v : Value) (hv : nvalB dottedKeyB v = true) :
    (rowValB v = true ∧ 3 ≤ nvalCost v ∧
      ∀ kk d, nvalLines kk v d = [(d, rowLine kk v)]) ∨
    (∃ e1 es1, v = .vobj (e1 :: es1)) ∨
    (∃ xs, v = .varr xs ∧ tabArrB xs = true) := by
  cases v with
  | vnull => exact .inl ⟨rfl, Nat.le_refl 3, fun kk d => rfl⟩
  | vbool b => exact .inl ⟨rfl, Nat.le_refl 3, fun kk d => rfl⟩
  | vint n => exact .inl ⟨rfl, Nat.le_refl 3, fun kk d => rfl⟩
  | vfloat l => exact absurd hv (by simp [nvalB])
  | vstr s => exact .inl ⟨hv, Nat.le_refl 3, fun kk d => rfl⟩
  | vobj fs =>
    cases fs with
    | nil => exact .inl ⟨rfl, Nat.le_refl 3, fun kk d => rfl⟩
    | cons e1 es1 => exact .inr (.inl ⟨e1, es1, rfl⟩)
  | varr xs =>
    cases htab : tabArrB xs with
    | true => exact .inr (.inr ⟨xs, rfl, htab⟩)
    | false =>
      refine .inl ⟨?_, ?_, ?_⟩
      · rw [show nvalB dottedKeyB (.varr xs) =
          (xs.all primLeafB || tabArrB xs) from rfl, htab, Bool.or_false] at hv
        exact hv
      · rw [nvalCost_rowarr xs htab]
      · intro kk d
        show (if tabArrB xs then (d, tabHeaderLine kk xs) ::
            xs.map (fun r => (d + 1, tabRowLine r))
          else [(d, rowLine kk (.varr xs))]) = [(d, rowLine kk (.varr xs))]
        rw [htab]
        simp

lemma peekAtDepthPos_bail (lines : List ParsedLine) (pos : Nat)
    (l : ParsedLine) (ls : List ParsedLine) (hdrop : lines.drop pos = l :: ls)
    (h : l.content ≠ []) (dd : Nat) (hdepth : l.depth ≠ dd) :
    peekAtDepthPos lines pos dd = (none, pos) := by
  unfold peekAtDepthPos
  rw [peekPos_at lines pos l ls hdrop h]
  simp [hdepth]

lemma obj_end (ctx : DCtx) (d pos : Nat) (acc : Dict) (f : Nat)
    (S : List ParsedLine)
    (hdrop : ctx.lines.drop pos = S)
    (hple : pos ≤ ctx.lines.length)
    (hS : sCondD d S) :
    decodeStep (f + 1) ctx (.objectGo d acc) pos = .ok (.dict acc, pos) := by
  cases S with
  | nil =>
    rw [decodeStep_objectGo_none f ctx d acc pos ctx.lines.length
      (peekAtDepthPos_end ctx.lines pos d hdrop)]
    have hlen : (ctx.lines.drop pos).length = ctx.lines.length - pos :=
      List.length_drop pos ctx.lines
    rw [hdrop] at hlen
    simp at hlen
    rw [show ctx.lines.length = pos by omega]
  | cons l S2 =>
    obtain ⟨hb, hlt, hne⟩ := hS l S2 rfl
    rw [decodeStep_objectGo_none f ctx d acc pos pos
      (peekAtDepthPos_bail ctx.lines pos l S2 hdrop hne d (by omega))]

lemma except_bind_ok2 {α β : Type} (a : α) (f : α → Except PyErr β) :
    Except.bind (Except.ok a) f = f a := rfl

lemma obj_loop_deep (ctx : DCtx) :
    ∀ (N : Nat) (es : List (Str × Value)), nentsSize es ≤ N →
    ∀ (d pos : Nat) (acc : Dict) (f : Nat) (ls S : List ParsedLine),
    nentsB dottedKeyB es = true →
    ctx.lines.drop pos = ls ++ S →
    pos ≤ ctx.lines.length →
    linesMatchD ls (nentsLines es d) →
    sCondD d S →
    (∀ e ∈ es, dictContains acc e.1 = false) →
    decodeStep (nentsCost es + f) ctx (.objectGo d acc) pos =
      .ok (.dict (acc ++ es), pos + ls.length) := by
  intro N
  induction N with
  | zero =>
    intro es hsz d pos acc f ls S hwf hdrop hple hm hS hfresh
    cases es with
    | nil =>
      have hls : ls = [] := by
        unfold linesMatchD at hm
        rw [show nentsLines [] d = [] from rfl, List.forall₂_nil_right_iff] at hm
        exact hm
      subst hls
      rw [List.nil_append] at hdrop
      rw [show nentsCost ([] : List (Str × Value)) + f = f + 1 from by
        show 1 + f = f + 1
        omega]
      rw [obj_end ctx d pos acc f S hdrop hple hS]
      simp
    | cons e rest =>
      exfalso
      obtain ⟨k, v⟩ := e
      have hc : nentsSize ((k, v) :: rest) = 1 + nvalSize v + nentsSize rest := rfl
      omega
  | succ N ih =>
    intro es hsz d pos acc f ls S hwf hdrop hple hm hS hfresh
    cases es with
    | nil =>
      have hls : ls = [] := by
        unfold linesMatchD at hm
        rw [show nentsLines [] d = [] from rfl, List.forall₂_nil_right_iff] at hm
        exact hm
      subst hls
      rw [List.nil_append] at hdrop
      rw [show nentsCost ([] : List (Str × Value)) + f = f + 1 from by
        show 1 + f = f + 1
        omega]
      rw [obj_end ctx d pos acc f S hdrop hple hS]
      simp
    | cons e rest =>
      obtain ⟨k, v⟩ := e
      obtain ⟨hk, hkfresh, hv, hrest⟩ := nentsB_cons dottedKeyB k v rest hwf
      have hszr : nentsSize rest ≤ N := by
        have hc : nentsSize ((k, v) :: rest) =
            1 + nvalSize v + nentsSize rest := rfl
        omega
      have hknotin : ∀ r ∈ rest, (k == r.1) = false := by
        intro r hr
        rw [contains_false_iff_gen _ _] at hkfresh
        refine beq_eq_false_iff_ne.mpr ?_
        intro he
        exact hkfresh (List.mem_map.mpr ⟨r, hr, he.symm⟩)
      have hfresh2 : ∀ r ∈ rest, dictContains (acc ++ [(k, v)]) r.1 = false :=
        fun r hr => dictContains_append_single acc k v r.1
          (hfresh r (by simp [hr])) (hknotin r hr)
      unfold linesMatchD at hm
      rw [show nentsLines ((k, v) :: rest) d =
        nvalLines k v d ++ nentsLines rest d from rfl] at hm
      rcases nval_cases v hv with ⟨hrow, h3, hA⟩ | ⟨e1, es1, rfl⟩ | ⟨xs, rfl, htab⟩
      · -- flat row entry
        rw [hA k d, List.singleton_append, List.forall₂_cons_right_iff] at hm
        obtain ⟨l0, lsB, hrel, hmB, hls⟩ := hm
        subst hls
        obtain ⟨hlc, hld⟩ := hrel
        have hlcne : l0.content ≠ [] := by
          rw [hlc]
          exact rowLine_ne_nil k v hk
        have hdrop0 : ctx.lines.drop pos = l0 :: (lsB ++ S) := by
          rw [hdrop, List.cons_append]
        have hdrop1 : ctx.lines.drop (pos + 1) = lsB ++ S :=
          drop_succ_of_drop_cons ctx.lines pos l0 (lsB ++ S) hdrop0
        have hple1 : pos + 1 ≤ ctx.lines.length := by
          have hlen : (ctx.lines.drop pos).length = ctx.lines.length - pos :=
            List.length_drop pos ctx.lines
          rw [hdrop0] at hlen
          simp at hlen
          omega
        have hns := next_stream ctx (pos + 1) d lsB S rest hdrop1 hple1 hmB
          hrest hS
        have hnext : ∀ lp : ParsedLine × Nat,
            peekFrom ctx.lines (pos + 1) = some lp →
            implicitBailsOn lp.1.content = true ∧ lp.1.depth ≤ d := by
          intro lp hpk
          rcases hns with ⟨hd0, _⟩ | ⟨l1, tl, hd1, hne1, hb1, hdep1⟩
          · rw [peekFrom_end ctx.lines (pos + 1) hd0] at hpk
            exact Option.noConfusion hpk
          · rw [peekFrom_at ctx.lines (pos + 1) l1 tl hd1 hne1] at hpk
            obtain rfl := Option.some.inj hpk
            exact ⟨hb1, hdep1⟩
        have hra : rowAfter ctx (pos + 1) v = pos + 1 := by
          cases v with
          | vobj fs =>
            show (peekPos ctx.lines (pos + 1)).2 = pos + 1
            rcases hns with ⟨hd0, hpe⟩ | ⟨l1, tl, hd1, hne1, _, _⟩
            · rw [peekPos_end ctx.lines (pos + 1) hd0]
              exact hpe.symm
            · rw [peekPos_at ctx.lines (pos + 1) l1 tl hd1 hne1]
          | vnull => rfl
          | vbool b => rfl
          | vint n => rfl
          | vfloat lf => rfl
          | vstr st => rfl
          | varr ys => rfl
        rw [show nentsCost ((k, v) :: rest) + f =
          (nvalCost v + nentsCost rest + f) + 1 from by
            show 1 + nvalCost v + nentsCost rest + f = _
            omega]
        rw [decodeStep_objectGo_some (nvalCost v + nentsCost rest + f) ctx d acc
          pos l0
          (peekAtDepthPos_at_d ctx.lines pos l0 (lsB ++ S) hdrop0 hlcne d hld)]
        rw [show nvalCost v + nentsCost rest + f =
          (nvalCost v + nentsCost rest + f - 2) + 2 by omega]
        rw [kv_rowD ctx k v l0 d (pos + 1) (nvalCost v + nentsCost rest + f - 2)
          hk hrow hlc hnext]
        rw [except_bind_ok]
        simp only [DecOut.asKV]
        rw [dictInsert_fresh acc k v (hfresh (k, v) (by simp))]
        rw [hra]
        rw [show nvalCost v + nentsCost rest + f - 2 + 2 =
          nentsCost rest + (nvalCost v + f) by omega]
        rw [ih rest hszr d (pos + 1) (acc ++ [(k, v)]) (nvalCost v + f) lsB S
          hrest hdrop1 hple1 hmB hS hfresh2]
        rw [List.append_assoc]
        rw [show pos + (l0 :: lsB).length = pos + 1 + lsB.length by
          simp only [List.length_cons]
          omega]
        rfl
      · -- nested object entry
        obtain ⟨k1, v1⟩ := e1
        have hchild : nentsB dottedKeyB ((k1, v1) :: es1) = true := hv
        obtain ⟨hk1, _, hv1, _⟩ := nentsB_cons dottedKeyB k1 v1 es1 hchild
        obtain ⟨c1, ps2, hshape1, hb1, hc1ne, _, _⟩ :=
          nvalLines_shape k1 v1 (d + 1) hk1 hv1
        have hszc : nentsSize ((k1, v1) :: es1) ≤ N := by
          have hc1 : nentsSize ((k, Value.vobj ((k1, v1) :: es1)) :: rest) =
              1 + (1 + nentsSize ((k1, v1) :: es1)) + nentsSize rest := rfl
          omega
        rw [show nvalLines k (Value.vobj ((k1, v1) :: es1)) d =
          (d, k ++ [':']) :: nentsLines ((k1, v1) :: es1) (d + 1) from rfl,
          List.cons_append, List.forall₂_cons_right_iff] at hm
        obtain ⟨l0, ls3, hrel, hm3, hls⟩ := hm
        subst hls
        obtain ⟨hlc, hld⟩ := hrel
        have hlcne : l0.content ≠ [] := by
          rw [hlc]
          exact (keycolon_facts k hk).2.2.1
        have hdrop0 : ctx.lines.drop pos = l0 :: (ls3 ++ S) := by
          rw [hdrop, List.cons_append]
        have hdrop1 : ctx.lines.drop (pos + 1) = ls3 ++ S :=
          drop_succ_of_drop_cons ctx.lines pos l0 (ls3 ++ S) hdrop0
        have hple1 : pos + 1 ≤ ctx.lines.length := by
          have hlen : (ctx.lines.drop pos).length = ctx.lines.length - pos :=
            List.length_drop pos ctx.lines
          rw [hdrop0] at hlen
          simp at hlen
          omega
        obtain ⟨lsC, lsR, hsplit, hmC, hmR⟩ : ∃ lsC lsR, ls3 = lsC ++ lsR ∧
            List.Forall₂ (fun l p => l.content = p.2 ∧ l.depth = p.1) lsC
              (nentsLines ((k1, v1) :: es1) (d + 1)) ∧
            List.Forall₂ (fun l p => l.content = p.2 ∧ l.depth = p.1) lsR
              (nentsLines rest d) :=
          ⟨_, _, (List.take_append_drop _ _).symm,
            List.forall₂_take_append ls3 _ _ hm3,
            List.forall₂_drop_append ls3 _ _ hm3⟩
        have hdropIn : ctx.lines.drop (pos + 1) = lsC ++ (lsR ++ S) := by
          rw [hdrop1, hsplit, List.append_assoc]
        have hmC2 := hmC
        rw [show nentsLines ((k1, v1) :: es1) (d + 1) =
          (d + 1, c1) :: (ps2 ++ nentsLines es1 (d + 1)) from by
            rw [show nentsLines ((k1, v1) :: es1) (d + 1) =
              nvalLines k1 v1 (d + 1) ++ nentsLines es1 (d + 1) from rfl,
              hshape1, List.cons_append],
          List.forall₂_cons_right_iff] at hmC2
        obtain ⟨lc1, lsC2, hrelC, _, hlsC⟩ := hmC2
        have hdropC : ctx.lines.drop (pos + 1) = lc1 :: (lsC2 ++ (lsR ++ S)) := by
          rw [hdropIn, hlsC, List.cons_append]
        have hpkC : peekPos ctx.lines (pos + 1) = (some lc1, pos + 1) :=
          peekPos_at ctx.lines (pos + 1) lc1 (lsC2 ++ (lsR ++ S)) hdropC
            (by rw [hrelC.1]; exact hc1ne)
        have hdeepC : d < lc1.depth := by
          rw [hrelC.2]
          omega
        have hpleIn : pos + 1 + lsC.length ≤ ctx.lines.length := by
          have hlen2 : (ctx.lines.drop (pos + 1)).length =
              ctx.lines.length - (pos + 1) := List.length_drop (pos + 1) ctx.lines
          rw [hdropIn] at hlen2
          simp only [List.length_append] at hlen2
          omega
        have hdropR : ctx.lines.drop (pos + 1 + lsC.length) = lsR ++ S := by
          have h1 : (ctx.lines.drop (pos + 1)).drop lsC.length =
              ctx.lines.drop (pos + 1 + lsC.length) := by
            rw [List.drop_drop]
          rw [← h1, hdropIn]
          exact List.drop_left lsC (lsR ++ S)
        rw [show nentsCost ((k, Value.vobj ((k1, v1) :: es1)) :: rest) + f =
          (nvalCost (Value.vobj ((k1, v1) :: es1)) + nentsCost rest + f) + 1
          from by
            show 1 + nvalCost (Value.vobj ((k1, v1) :: es1)) +
              nentsCost rest + f = _
            omega]
        rw [decodeStep_objectGo_some
          (nvalCost (Value.vobj ((k1, v1) :: es1)) + nentsCost rest + f) ctx d
          acc pos l0
          (peekAtDepthPos_at_d ctx.lines pos l0 (ls3 ++ S) hdrop0 hlcne d hld)]
        rw [show nvalCost (Value.vobj ((k1, v1) :: es1)) + nentsCost rest + f =
          (nentsCost ((k1, v1) :: es1) + nentsCost rest + f + 1) + 2 from by
            show 3 + nentsCost ((k1, v1) :: es1) + nentsCost rest + f = _
            omega]
        rw [kv_sub_open ctx k l0 d (pos + 1)
          (nentsCost ((k1, v1) :: es1) + nentsCost rest + f + 1) hk hlc lc1
          (pos + 1) hpkC hdeepC]
        rw [show nentsCost ((k1, v1) :: es1) + nentsCost rest + f + 1 + 1 =
          nentsCost ((k1, v1) :: es1) + (nentsCost rest + f + 2) by omega]
        rw [ih ((k1, v1) :: es1) hszc (d + 1) (pos + 1) []
          (nentsCost rest + f + 2) lsC (lsR ++ S) hchild hdropIn hple1 hmC
          (sCond_from d lsR S rest hmR hrest hS) (fun e2 he2 => rfl)]
        rw [except_bind_ok2]
        rw [except_bind_ok]
        simp only [DecOut.asKV, DecOut.asDict, List.nil_append]
        rw [dictInsert_fresh acc k (Value.vobj ((k1, v1) :: es1))
          (hfresh (k, Value.vobj ((k1, v1) :: es1)) (by simp))]
        rw [show nentsCost ((k1, v1) :: es1) + nentsCost rest + f + 1 + 2 =
          nentsCost rest + (nentsCost ((k1, v1) :: es1) + f + 3) by omega]
        rw [ih rest hszr d (pos + 1 + lsC.length)
          (acc ++ [(k, Value.vobj ((k1, v1) :: es1))])
          (nentsCost ((k1, v1) :: es1) + f + 3) lsR S hrest hdropR hpleIn hmR
          hS hfresh2]
        rw [List.append_assoc]
        rw [show pos + (l0 :: ls3).length = pos + 1 + lsC.length + lsR.length by
          rw [hsplit]
          simp only [List.length_cons, List.length_append]
          omega]
        rfl
      · -- tabular array entry
        have hA : nvalLines k (Value.varr xs) d =
            (d, tabHeaderLine k xs) :: xs.map (fun r => (d + 1, tabRowLine r)) := by
          show (if tabArrB xs then (d, tabHeaderLine k xs) ::
              xs.map (fun r => (d + 1, tabRowLine r))
            else [(d, rowLine k (Value.varr xs))]) = _
          rw [htab]
          simp
        rw [hA, List.cons_append, List.forall₂_cons_right_iff] at hm
        obtain ⟨l0, ls3, hrel, hm3, hls⟩ := hm
        subst hls
        obtain ⟨hlc, hld⟩ := hrel
        have hlcne : l0.content ≠ [] := by
          rw [hlc]
          exact (header_facts k xs hk htab).2.2.1
        have hdrop0 : ctx.lines.drop pos = l0 :: (ls3 ++ S) := by
          rw [hdrop, List.cons_append]
        have hdrop1 : ctx.lines.drop (pos + 1) = ls3 ++ S :=
          drop_succ_of_drop_cons ctx.lines pos l0 (ls3 ++ S) hdrop0
        have hple1 : pos + 1 ≤ ctx.lines.length := by
          have hlen : (ctx.lines.drop pos).length = ctx.lines.length - pos :=
            List.length_drop pos ctx.lines
          rw [hdrop0] at hlen
          simp at hlen
          omega
        obtain ⟨lsRow, lsR, hsplit, hmRow, hmR⟩ : ∃ lsRow lsR, ls3 = lsRow ++ lsR ∧
            List.Forall₂ (fun l p => l.content = p.2 ∧ l.depth = p.1) lsRow
              (xs.map (fun r => (d + 1, tabRowLine r))) ∧
            List.Forall₂ (fun l p => l.content = p.2 ∧ l.depth = p.1) lsR
              (nentsLines rest d) :=
          ⟨_, _, (List.take_append_drop _ _).symm,
            List.forall₂_take_append ls3 _ _ hm3,
            List.forall₂_drop_append ls3 _ _ hm3⟩
        have hrowlen : lsRow.length = xs.length := by
          have hle := List.Forall₂.length_eq hmRow
          rw [List.length_map] at hle
          exact hle
        have hdropIn : ctx.lines.drop (pos + 1) = lsRow ++ (lsR ++ S) := by
          rw [hdrop1, hsplit, List.append_assoc]
        have hpleIn : pos + 1 + xs.length ≤ ctx.lines.length := by
          have hlen2 : (ctx.lines.drop (pos + 1)).length =
              ctx.lines.length - (pos + 1) := List.length_drop (pos + 1) ctx.lines
          rw [hdropIn] at hlen2
          simp only [List.length_append] at hlen2
          omega
        have hdropR : ctx.lines.drop (pos + 1 + xs.length) = lsR ++ S := by
          have h1 : (ctx.lines.drop (pos + 1)).drop lsRow.length =
              ctx.lines.drop (pos + 1 + xs.length) := by
            rw [List.drop_drop]
            congr 1
            omega
          rw [← h1, hdropIn]
          exact List.drop_left lsRow (lsR ++ S)
        have hS2 : ∀ l S2, lsR ++ S = l :: S2 →
            l.depth < d + 1 ∧ l.content ≠ [] := by
          intro l S2 he
          exact ⟨(sCond_from d lsR S rest hmR hrest hS l S2 he).2.1,
            (sCond_from d lsR S rest hmR hrest hS l S2 he).2.2⟩
        rw [show nentsCost ((k, Value.varr xs) :: rest) + f =
          (nvalCost (Value.varr xs) + nentsCost rest + f) + 1 from by
            show 1 + nvalCost (Value.varr xs) + nentsCost rest + f = _
            rw [nvalCost_tab xs htab]
            omega]
        rw [decodeStep_objectGo_some
          (nvalCost (Value.varr xs) + nentsCost rest + f) ctx d acc pos l0
          (peekAtDepthPos_at_d ctx.lines pos l0 (ls3 ++ S) hdrop0 hlcne d hld)]
        rw [show nvalCost (Value.varr xs) + nentsCost rest + f =
          xs.length + (nentsCost rest + f) + 3 from by
            rw [nvalCost_tab xs htab]
            omega]
        rw [kv_tab ctx k xs l0 d (pos + 1) (nentsCost rest + f) hk htab hlc
          lsRow (lsR ++ S) hdropIn hple1 hmRow hS2]
        rw [except_bind_ok]
        simp only [DecOut.asKV]
        rw [dictInsert_fresh acc k (Value.varr xs)
          (hfresh (k, Value.varr xs) (by simp))]
        rw [show xs.length + (nentsCost rest + f) + 3 =
          nentsCost rest + (xs.length + f + 3) by omega]
        rw [ih rest hszr d (pos + 1 + xs.length) (acc ++ [(k, Value.varr xs)])
          (xs.length + f + 3) lsR S hrest hdropR hpleIn hmR hS hfresh2]
        rw [List.append_assoc]
        rw [show pos + (l0 :: ls3).length = pos + 1 + xs.length + lsR.length by
          rw [hsplit]
          simp only [List.length_cons, List.length_append]
          omega]
        rfl

lemma nents_cost_le : ∀ (N : Nat) (es : List (Str × Value)), nentsSize es ≤ N →
    ∀ d, nentsCost es ≤ 6 * (nentsLines es d).length + 1 := by
  intro N
  induction N with
  | zero =>
    intro es hsz d
    cases es with
    | nil =>
      show 1 ≤ 6 * 0 + 1
      omega
    | cons e rest =>
      exfalso
      obtain ⟨k, v⟩ := e
      have hc : nentsSize ((k, v) :: rest) = 1 + nvalSize v + nentsSize rest := rfl
      omega
  | succ N ih =>
    intro es hsz d
    cases es with
    | nil =>
      show 1 ≤ 6 * 0 + 1
      omega
    | cons e rest =>
      obtain ⟨k, v⟩ := e
      have hszc : nentsSize ((k, v) :: rest) = 1 + nvalSize v + nentsSize rest := rfl
      have hrec := ih rest (by omega) d
      have hcost : nentsCost ((k, v) :: rest) = 1 + nvalCost v + nentsCost rest := rfl
      have hlines : nentsLines ((k, v) :: rest) d =
          nvalLines k v d ++ nentsLines rest d := rfl
      rw [hcost, hlines, List.length_append]
      have hval : nvalCost v + 2 ≤ 6 * (nvalLines k v d).length := by
        cases v with
        | vnull =>
          show 3 + 2 ≤ 6 * 1
          omega
        | vbool b =>
          show 3 + 2 ≤ 6 * 1
          omega
        | vint n =>
          show 3 + 2 ≤ 6 * 1
          omega
        | vfloat l =>
          show 3 + 2 ≤ 6 * 1
          omega
        | vstr st =>
          show 3 + 2 ≤ 6 * 1
          omega
        | vobj fs =>
          cases fs with
          | nil =>
            show 3 + 2 ≤ 6 * 1
            omega
          | cons e1 es1 =>
            have hsz1 : nvalSize (Value.vobj (e1 :: es1)) =
                1 + nentsSize (e1 :: es1) := rfl
            have hrc := ih (e1 :: es1) (by omega) (d + 1)
            have h1 : nvalCost (Value.vobj (e1 :: es1)) =
                3 + nentsCost (e1 :: es1) := rfl
            have h2 : nvalLines k (Value.vobj (e1 :: es1)) d =
                (d, k ++ [':']) :: nentsLines (e1 :: es1) (d + 1) := rfl
            rw [h1, h2, List.length_cons]
            omega
        | varr xs =>
          cases htab : tabArrB xs with
          | true =>
            rw [nvalCost_tab xs htab, show nvalLines k (Value.varr xs) d =
              (d, tabHeaderLine k xs) :: xs.map (fun r => (d + 1, tabRowLine r))
              from by
                show (if tabArrB xs then (d, tabHeaderLine k xs) ::
                    xs.map (fun r => (d + 1, tabRowLine r))
                  else [(d, rowLine k (Value.varr xs))]) = _
                rw [htab]
                simp]
            rw [List.length_cons, List.length_map]
            omega
          | false =>
            rw [nvalCost_rowarr xs htab, show nvalLines k (Value.varr xs) d =
              [(d, rowLine k (Value.varr xs))] from by
                show (if tabArrB xs then (d, tabHeaderLine k xs) ::
                    xs.map (fun r => (d + 1, tabRowLine r))
                  else [(d, rowLine k (Value.varr xs))]) = _
                rw [htab]
                simp]
            show 3 + 2 ≤ 6 * 1
            omega
      omega

lemma nentsLines_head (k : Str) (v : Value) (rest : List (Str × Value)) (d : Nat)
    (hk : dottedKeyB k = true) (hv : nvalB dottedKeyB v = true) :
    ∃ c t, nentsLines ((k, v) :: rest) d = (d, c) :: t := by
  obtain ⟨c, ps2, hshape, _, _, _, _⟩ := nvalLines_shape k v d hk hv
  refine ⟨c, ps2 ++ nentsLines rest d, ?_⟩
  rw [show nentsLines ((k, v) :: rest) d =
    nvalLines k v d ++ nentsLines rest d from rfl, hshape, List.cons_append]

lemma root_deep (ctx : DCtx) (es : List (Str × Value)) (f : Nat)
    (hwf : nentsB dottedKeyB es = true) (hne : es ≠ [])
    (hmatch : linesMatchD ctx.lines (nentsLines es 0)) :
    decodeStep (nentsCost es + f + 1) ctx .root 0 =
      .ok (.val (.vobj es), ctx.lines.length) := by
  obtain ⟨⟨k, v⟩, rest, rfl⟩ : ∃ e rest, es = e :: rest := by
    cases es with
    | nil => exact absurd rfl hne
    | cons e rest => exact ⟨e, rest, rfl⟩
  obtain ⟨hk, _, hv, _⟩ := nentsB_cons dottedKeyB k v rest hwf
  obtain ⟨c, ps2, hshape, hb, hcne, hcol0, hhead0⟩ :=
    nvalLines_shape k v 0 hk hv
  obtain ⟨n, hcol⟩ := hcol0
  obtain ⟨ch, ct, hcc, hhead⟩ := hhead0
  have hmm := hmatch
  unfold linesMatchD at hmm
  rw [show nentsLines ((k, v) :: rest) 0 =
    nvalLines k v 0 ++ nentsLines rest 0 from rfl, hshape,
    List.cons_append, List.forall₂_cons_right_iff] at hmm
  obtain ⟨l0, ls2, hrel, _, hlines⟩ := hmm
  have hdrop0 : ctx.lines.drop 0 = l0 :: ls2 := by
    rw [List.drop_zero]
    exact hlines
  have hlcne : l0.content ≠ [] := by
    rw [hrel.1]
    exact hcne
  have hsq : strStarts ['['] l0.content = false := by
    rw [hrel.1]
    show strStarts ['['] c = false
    rw [hcc]
    exact strStarts_cons_ne '[' ch [] ct
      (fun he => (alpha_head_props ch hhead).2.1 he.symm)
  rw [decodeStep_root_obj (nentsCost ((k, v) :: rest) + f) ctx 0 l0 0
    (peekPos_at ctx.lines 0 l0 ls2 hdrop0 hlcne) hsq n
    (by rw [hrel.1]; exact hcol)]
  rw [obj_loop_deep ctx (nentsSize ((k, v) :: rest)) ((k, v) :: rest)
    (Nat.le_refl _) 0 0 [] f ctx.lines [] hwf
    (by rw [List.drop_zero, List.append_nil]) (Nat.zero_le _) hmatch
    (fun l S2 he => List.noConfusion he) (fun e2 he2 => rfl)]
  rw [Nat.zero_add ctx.lines.length]
  rfl

lemma decodeLinesToon_deep (es : List (Str × Value)) (opts : DecodeOpts)
    (hstrict : opts.strict = false) (hind : opts.indent = 2)
    (hwf : nentsB dottedKeyB es = true) (hne : es ≠ []) :
    decodeLinesToon ((nentsLines es 0).map rawOfD) opts =
      (if opts.expandPaths then expandPathsVal (.vobj es) opts.strict
       else .ok (.vobj es)) := by
  have hcont : ∀ p ∈ nentsLines es 0,
      lstripSpaces p.2 = p.2 ∧ rstripWs p.2 = p.2 := by
    intro p hp
    have h := nents_contents (nentsSize es) es (Nat.le_refl _) hwf 0 p hp
    exact ⟨h.1, h.2.1⟩
  unfold decodeLinesToon
  rw [hstrict, hind, parseLinesGo_indented (nentsLines es 0) 1 hcont,
    except_bind_ok]
  obtain ⟨⟨k, v⟩, rest, rfl⟩ : ∃ e rest, es = e :: rest := by
    cases es with
    | nil => exact absurd rfl hne
    | cons e rest => exact ⟨e, rest, rfl⟩
  obtain ⟨hk, _, hv, _⟩ := nentsB_cons dottedKeyB k v rest hwf
  obtain ⟨c, t, hct⟩ := nentsLines_head k v rest 0 hk hv
  have hemp : (mkLinesD (nentsLines ((k, v) :: rest) 0) 1).isEmpty = false := by
    rw [hct, mkLinesD]
    rfl
  rw [hemp]
  simp only [Bool.false_eq_true, if_false]
  have hlen : (mkLinesD (nentsLines ((k, v) :: rest) 0) 1).length =
      (nentsLines ((k, v) :: rest) 0).length :=
    mkLinesD_length (nentsLines ((k, v) :: rest) 0) 1
  have hcost := nents_cost_le (nentsSize ((k, v) :: rest)) ((k, v) :: rest)
    (Nat.le_refl _) 0
  rw [show decodeFuel (mkLinesD (nentsLines ((k, v) :: rest) 0) 1).length =
    nentsCost ((k, v) :: rest) +
      (decodeFuel (nentsLines ((k, v) :: rest) 0).length - 1 -
        nentsCost ((k, v) :: rest)) + 1 by
    rw [hlen]
    unfold decodeFuel
    omega]
  rw [root_deep ⟨mkLinesD (nentsLines ((k, v) :: rest) 0) 1, opts⟩
    ((k, v) :: rest)
    (decodeFuel (nentsLines ((k, v) :: rest) 0).length - 1 -
      nentsCost ((k, v) :: rest)) hwf (by simp)
    (mkLinesD_matches (nentsLines ((k, v) :: rest) 0) 1)]
  rw [except_bind_ok]
  rfl

lemma tabRowB_obj (fields : List Str) (r : Value) (h : tabRowB fields r = true) :
    ∃ fs, r = .vobj fs ∧ fs.map (·.1) = fields ∧
      ∀ e ∈ fs, primLeafB e.2 = true := by
  cases r with
  | vobj fs =>
    unfold tabRowB at h
    rw [Bool.and_eq_true] at h
    refine ⟨fs, rfl, eq_of_beq h.1, ?_⟩
    intro e he
    exact List.all_eq_true.mp h.2 e.2 (List.mem_map.mpr ⟨e, he, rfl⟩)
  | vnull => exact Bool.noConfusion h
  | vbool b => exact Bool.noConfusion h
  | vint n => exact Bool.noConfusion h
  | vfloat l => exact Bool.noConfusion h
  | vstr st => exact Bool.noConfusion h
  | varr ys => exact Bool.noConfusion h

lemma normObj_leafrow : ∀ fs : List (Str × Value),
    (∀ e ∈ fs, primLeafB e.2 = true) → normObj fs = fs := by
  intro fs
  induction fs with
  | nil => intro _; rfl
  | cons e t ih =>
    intro h
    obtain ⟨k, v⟩ := e
    rw [normObj, normalizeValue_leaf v (h (k, v) (by simp)),
      ih (fun x hx => h x (by simp [hx]))]

lemma normArr_prim : ∀ xs : List Value,
    (∀ x ∈ xs, primLeafB x = true) → normArr xs = xs := by
  intro xs
  induction xs with
  | nil => intro _; rfl
  | cons x t ih =>
    intro h
    rw [normArr, normalizeValue_leaf x (h x (by simp)),
      ih (fun y hy => h y (by simp [hy]))]

lemma normArr_rows (fields : List Str) : ∀ xs : List Value,
    (∀ r ∈ xs, tabRowB fields r = true) → normArr xs = xs := by
  intro xs
  induction xs with
  | nil => intro _; rfl
  | cons r t ih =>
    intro h
    obtain ⟨fs, rfl, _, hp⟩ := tabRowB_obj fields r (h r (by simp))
    rw [normArr, show normalizeValue (.vobj fs) = .vobj (normObj fs) from rfl,
      normObj_leafrow fs hp, ih (fun y hy => h y (by simp [hy]))]

lemma normEnts_deep : ∀ (N : Nat) (es : List (Str × Value)),
    nentsSize es ≤ N → nentsB goodKeyB es = true → normObj es = es := by
  intro N
  induction N with
  | zero =>
    intro es hsz hwf
    cases es with
    | nil => rfl
    | cons e rest =>
      exfalso
      obtain ⟨k, v⟩ := e
      have hc : nentsSize ((k, v) :: rest) = 1 + nvalSize v + nentsSize rest := rfl
      omega
  | succ N ih =>
    intro es hsz hwf
    cases es with
    | nil => rfl
    | cons e rest =>
      obtain ⟨k, v⟩ := e
      obtain ⟨hk, _, hv, hrest⟩ := nentsB_cons goodKeyB k v rest hwf
      have hszc : nentsSize ((k, v) :: rest) = 1 + nvalSize v + nentsSize rest := rfl
      rw [normObj, ih rest (by omega) hrest]
      have hval : normalizeValue v = v := by
        cases v with
        | vnull => rfl
        | vbool b => rfl
        | vint n => rfl
        | vstr st => rfl
        | vfloat l => exact absurd hv (by simp [nvalB])
        | vobj fs =>
          cases fs with
          | nil => rfl
          | cons e1 es1 =>
            have hsz1 : nvalSize (Value.vobj (e1 :: es1)) =
                1 + nentsSize (e1 :: es1) := rfl
            rw [show normalizeValue (Value.vobj (e1 :: es1)) =
              .vobj (normObj (e1 :: es1)) from rfl,
              ih (e1 :: es1) (by omega) hv]
        | varr xs =>
          rw [show normalizeValue (Value.varr xs) = .varr (normArr xs) from rfl]
          have hv2 : xs.all primLeafB = true ∨ tabArrB xs = true := by
            cases h1 : xs.all primLeafB with
            | true => exact .inl rfl
            | false =>
              rw [show nvalB goodKeyB (Value.varr xs) =
                (xs.all primLeafB || tabArrB xs) from rfl, h1,
                Bool.false_or] at hv
              exact .inr hv
          rcases hv2 with hall | htab
          · rw [normArr_prim xs (List.all_eq_true.mp hall)]
          · obtain ⟨fs, rest2, hxs, _, _, _, _, hrows⟩ := tabArrB_spec xs htab
            rw [normArr_rows (fs.map (·.1)) xs hrows]
      rw [hval]

lemma nentsB_mono : ∀ (N : Nat) (es : List (Str × Value)),
    nentsSize es ≤ N → nentsB goodKeyB es = true →
    nentsB dottedKeyB es = true := by
  intro N
  induction N with
  | zero =>
    intro es hsz hwf
    cases es with
    | nil => rfl
    | cons e rest =>
      exfalso
      obtain ⟨k, v⟩ := e
      have hc : nentsSize ((k, v) :: rest) = 1 + nvalSize v + nentsSize rest := rfl
      omega
  | succ N ih =>
    intro es hsz hwf
    cases es with
    | nil => rfl
    | cons e rest =>
      obtain ⟨k, v⟩ := e
      obtain ⟨hk, hkf, hv, hrest⟩ := nentsB_cons goodKeyB k v rest hwf
      have hszc : nentsSize ((k, v) :: rest) = 1 + nvalSize v + nentsSize rest := rfl
      have hvd : nvalB dottedKeyB v = true := by
        cases v with
        | vnull => rfl
        | vbool b => rfl
        | vint n => rfl
        | vstr st => exact hv
        | vfloat l => exact absurd hv (by simp [nvalB])
        | vobj fs =>
          cases fs with
          | nil => rfl
          | cons e1 es1 =>
            have hsz1 : nvalSize (Value.vobj (e1 :: es1)) =
                1 + nentsSize (e1 :: es1) := rfl
            exact ih (e1 :: es1) (by omega) hv
        | varr xs => exact hv
      rw [show nentsB dottedKeyB ((k, v) :: rest) =
        (dottedKeyB k && !((rest.map (·.1)).contains k) &&
          nvalB dottedKeyB v && nentsB dottedKeyB rest) from rfl]
      simp only [Bool.and_eq_true, Bool.not_eq_true']
      exact ⟨⟨⟨goodKey_dotted k hk, hkf⟩, hvd⟩, ih rest (by omega) hrest⟩

lemma dictGet_head (k : Str) (v : Value) (t : Dict) :
    dictGet ((k, v) :: t) k = some v := by
  unfold dictGet
  rw [List.find?_cons_of_pos _ (by simp)]
  rfl

lemma dictGet_tail (k : Str) (v : Value) (t : Dict) (f : Str)
    (hne : (k == f) = false) :
    dictGet ((k, v) :: t) f = dictGet t f := by
  unfold dictGet
  rw [List.find?_cons_of_neg _ (by simp only; rw [hne]; simp)]

lemma row_fields_map : ∀ fs : List (Str × Value),
    keysNodupB (fs.map (·.1)) = true →
    (∀ e ∈ fs, primLeafB e.2 = true) →
    (fs.map (·.1)).map
        (fun f => encodePrimitive (normalizeValue ((dictGet fs f).getD .vnull)) ',') =
      fs.map (fun e => encodePrimitive e.2 ',') := by
  intro fs
  induction fs with
  | nil => intro _ _; rfl
  | cons e t ih =>
    intro hnd hp
    obtain ⟨k1, v1⟩ := e
    rw [List.map_cons] at hnd
    rw [show keysNodupB (k1 :: t.map (·.1)) =
      (!((t.map (·.1)).contains k1) && keysNodupB (t.map (·.1))) from rfl,
      Bool.and_eq_true, Bool.not_eq_true'] at hnd
    obtain ⟨hfresh, hnd2⟩ := hnd
    rw [List.map_cons, List.map_cons, List.map_cons]
    congr 1
    · rw [dictGet_head]
      rw [show ((some v1).getD Value.vnull) = v1 from rfl]
      rw [normalizeValue_leaf v1 (hp (k1, v1) (by simp))]
    · rw [← ih hnd2 (fun x hx => hp x (by simp [hx]))]
      apply List.map_congr_left
      intro f hf
      have hne : (k1 == f) = false := by
        rw [contains_false_iff_gen] at hfresh
        refine beq_eq_false_iff_ne.mpr ?_
        intro he
        exact hfresh (he ▸ hf)
      rw [dictGet_tail k1 v1 t f hne]

lemma keySetEq_refl (a : List Str) : keySetEq a a = true := by
  unfold keySetEq
  rw [Bool.and_self]
  rw [List.all_eq_true]
  intro x hx
  exact List.elem_iff.mpr hx

lemma tabArr_isTabular (xs : List Value) (htab : tabArrB xs = true) :
    isTabularArray xs = true := by
  obtain ⟨fs, rest, hxs, hfsne, hflds, hg, hnd, hrows⟩ := tabArrB_spec xs htab
  subst hxs
  simp only [isTabularArray]
  split
  · -- some element is not an object: contradiction
    rename_i h1
    exfalso
    rw [Bool.not_eq_true', List.all_eq_false] at h1
    obtain ⟨v, hv, hvf⟩ := h1
    obtain ⟨fs2, rfl, _, _⟩ := tabRowB_obj (fs.map (·.1)) v (hrows v hv)
    exact hvf rfl
  · split
    · -- first keys empty: contradiction
      rename_i h2
      exfalso
      rw [show objKeys (Value.vobj fs) = fs.map (·.1) from rfl] at h2
      cases fs with
      | nil => exact hfsne rfl
      | cons a b => exact Bool.noConfusion h2
    · split
      · -- some row has a different key set: contradiction
        rename_i h3
        exfalso
        rw [Bool.not_eq_true', List.all_eq_false] at h3
        obtain ⟨v, hv, hvf⟩ := h3
        obtain ⟨fs2, rfl, hk2, _⟩ := tabRowB_obj (fs.map (·.1)) v
          (hrows v (by simp [hv]))
        rw [show objKeys (Value.vobj fs2) = fs2.map (·.1) from rfl, hk2,
          show objKeys (Value.vobj fs) = fs.map (·.1) from rfl,
          keySetEq_refl] at hvf
        exact hvf rfl
      · -- all field values primitive after normalisation
        rw [List.all_eq_true]
        intro v hv
        obtain ⟨fs2, rfl, _, hp2⟩ := tabRowB_obj (fs.map (·.1)) v (hrows v hv)
        rw [List.all_eq_true]
        intro e2 he2
        rw [normalizeValue_leaf e2.2 (hp2 e2 he2)]
        exact primLeaf_isPrimitive e2.2 (hp2 e2 he2)

lemma goodKey_ne_nil (k : Str) (hk : goodKeyB k = true) : k ≠ [] := by
  obtain ⟨c0, t0, hkk, _, _⟩ := dottedKey_parts k (goodKey_dotted k hk)
  rw [hkk]
  simp

lemma encodeKey_map_id (fields : List Str)
    (h : ∀ f ∈ fields, goodKeyB f = true) : fields.map encodeKey = fields := by
  induction fields with
  | nil => rfl
  | cons f t ih =>
    rw [List.map_cons, encodeKey_id f (h f (by simp)),
      ih (fun x hx => h x (by simp [hx]))]

lemma indentStr_two (opts : EncodeOpts) (hin : opts.indent = 2) (d : Nat) :
    indentStr opts d = List.replicate (2 * d) ' ' := by
  unfold indentStr
  rw [hin]

lemma nvalLines_tab (k : Str) (xs : List Value) (d : Nat)
    (htab : tabArrB xs = true) :
    nvalLines k (.varr xs) d =
      (d, tabHeaderLine k xs) :: xs.map (fun r => (d + 1, tabRowLine r)) := by
  show (if tabArrB xs then (d, tabHeaderLine k xs) ::
      xs.map (fun r => (d + 1, tabRowLine r))
    else [(d, rowLine k (.varr xs))]) = _
  rw [htab]
  simp

lemma nvalLines_rowarr (k : Str) (xs : List Value) (d : Nat)
    (htab : tabArrB xs = false) :
    nvalLines k (.varr xs) d = [(d, rowLine k (.varr xs))] := by
  show (if tabArrB xs then (d, tabHeaderLine k xs) ::
      xs.map (fun r => (d + 1, tabRowLine r))
    else [(d, rowLine k (.varr xs))]) = _
  rw [htab]
  simp

lemma primhead_not_tab (y : Value) (t : List Value) (hy : primLeafB y = true) :
    tabArrB (y :: t) = false := by
  cases y with
  | vobj fs =>
    cases fs with
    | nil => rfl
    | cons a b => exact absurd hy (by simp [primLeafB])
  | vnull => rfl
  | vbool b => rfl
  | vint n => rfl
  | vfloat l => rfl
  | vstr st => rfl
  | varr ys => rfl

lemma tabArr_notInline (xs : List Value) (htab : tabArrB xs = true) :
    isInlinePrimitiveArray xs = false := by
  obtain ⟨fs, rest, hxs, _, _, _, _, _⟩ := tabArrB_spec xs htab
  subst hxs
  unfold isInlinePrimitiveArray
  rw [show (Value.vobj fs :: rest).all isPrimitiveVal = false from by
    rw [List.all_eq_false]
    exact ⟨.vobj fs, by simp, fun h => Bool.noConfusion h⟩]
  simp

lemma formatArrayHeader_tab_enc (k : Str) (hk : goodKeyB k = true)
    (xs : List Value) (htab : tabArrB xs = true) :
    formatArrayHeader xs.length (some k) (tabFields xs) ',' =
      tabHeaderLine k xs := by
  obtain ⟨fs, rest, hxs, hfsne, hflds, hg, hnd, hrows⟩ := tabArrB_spec xs htab
  have hkne : k ≠ [] := goodKey_ne_nil k hk
  have hfne : tabFields xs ≠ [] := by
    rw [hflds]
    simpa using hfsne
  have hfg : ∀ f ∈ tabFields xs, goodKeyB f = true := by
    rw [hflds]
    exact hg
  simp only [formatArrayHeader]
  rw [if_neg hkne, if_neg hfne, encodeKey_id k hk, encodeKey_map_id _ hfg]
  rw [show formatBracket xs.length ',' =
    '[' :: (natDigits xs.length ++ [']']) from by
      unfold formatBracket
      rw [if_pos rfl]]
  unfold tabHeaderLine
  simp [List.append_assoc]

lemma encodeTabularRow_row (fs : List (Str × Value)) (opts : EncodeOpts)
    (hd : opts.delimiter = ',') (d : Nat)
    (hnd : keysNodupB (fs.map (·.1)) = true)
    (hp : ∀ e ∈ fs, primLeafB e.2 = true) :
    encodeTabularRow fs (fs.map (·.1)) opts d =
      indentStr opts d ++ tabRowLine (.vobj fs) := by
  unfold encodeTabularRow
  rw [hd]
  congr 1
  rw [row_fields_map fs hnd hp]
  rfl

lemma encodeObjectLines_deep (opts : EncodeOpts) (hd : opts.delimiter = ',')
    (hf : opts.keyFolding = .noFold) (hin : opts.indent = 2) :
    ∀ (N : Nat) (es : List (Str × Value)), nentsSize es ≤ N →
    nentsB goodKeyB es = true →
    ∀ d, encodeObjectLines es opts d [] = (nentsLines es d).map rawOfD := by
  intro N
  induction N with
  | zero =>
    intro es hsz hwf d
    cases es with
    | nil => rfl
    | cons e rest =>
      exfalso
      obtain ⟨k, v⟩ := e
      have hc : nentsSize ((k, v) :: rest) = 1 + nvalSize v + nentsSize rest := rfl
      omega
  | succ N ih =>
    intro es hsz hwf d
    cases es with
    | nil => rfl
    | cons e rest =>
      obtain ⟨k, v⟩ := e
      obtain ⟨hk, _, hv, hrest⟩ := nentsB_cons goodKeyB k v rest hwf
      have hszc : nentsSize ((k, v) :: rest) = 1 + nvalSize v + nentsSize rest := rfl
      have hihr := ih rest (by omega) hrest d
      have hnofold : (decide (opts.keyFolding = KeyFolding.safeFold) &&
          canFoldKey k v []) = false := by
        rw [hf]
        simp
      have hind2 := indentStr_two opts hin
      rw [show nentsLines ((k, v) :: rest) d =
        nvalLines k v d ++ nentsLines rest d from rfl, List.map_append]
      cases v with
      | vnull =>
        rw [encodeObjectLines.eq_4 opts d [] k _ rest
          (fun _ hc => Value.noConfusion hc) (fun _ hc => Value.noConfusion hc)]
        rw [hnofold]
        simp only [Bool.false_eq_true, if_false]
        rw [hind2 d, encodeKey_id k hk, hihr, hd]
        simp [nvalLines, rowLine, rawOfD]
      | vbool b =>
        rw [encodeObjectLines.eq_4 opts d [] k _ rest
          (fun _ hc => Value.noConfusion hc) (fun _ hc => Value.noConfusion hc)]
        rw [hnofold]
        simp only [Bool.false_eq_true, if_false]
        rw [hind2 d, encodeKey_id k hk, hihr, hd]
        simp [nvalLines, rowLine, rawOfD]
      | vint n =>
        rw [encodeObjectLines.eq_4 opts d [] k _ rest
          (fun _ hc => Value.noConfusion hc) (fun _ hc => Value.noConfusion hc)]
        rw [hnofold]
        simp only [Bool.false_eq_true, if_false]
        rw [hind2 d, encodeKey_id k hk, hihr, hd]
        simp [nvalLines, rowLine, rawOfD]
      | vstr st =>
        rw [encodeObjectLines.eq_4 opts d [] k _ rest
          (fun _ hc => Value.noConfusion hc) (fun _ hc => Value.noConfusion hc)]
        rw [hnofold]
        simp only [Bool.false_eq_true, if_false]
        rw [hind2 d, encodeKey_id k hk, hihr, hd]
        simp [nvalLines, rowLine, rawOfD]
      | vfloat l => exact absurd hv (by simp [nvalB])
      | vobj fs2 =>
        cases fs2 with
        | nil =>
          rw [encodeObjectLines.eq_2, hnofold]
          simp only [Bool.false_eq_true, if_false]
          rw [hind2 d, encodeKey_id k hk, hihr]
          simp [nvalLines, rowLine, rawOfD]
        | cons e1 es1 =>
          have hsz1 : nvalSize (Value.vobj (e1 :: es1)) =
              1 + nentsSize (e1 :: es1) := rfl
          rw [encodeObjectLines.eq_2, hnofold]
          simp only [Bool.false_eq_true, if_false]
          rw [show (((e1 :: es1 : List (Str × Value))).isEmpty : Bool) = false
            from rfl]
          simp only [Bool.false_eq_true, if_false]
          rw [hind2 d, encodeKey_id k hk, hihr,
            ih (e1 :: es1) (by omega) hv (d + 1)]
          rw [show nvalLines k (Value.vobj (e1 :: es1)) d =
            (d, k ++ [':']) :: nentsLines (e1 :: es1) (d + 1) from rfl]
          simp [rawOfD]
      | varr xs =>
        rw [encodeObjectLines.eq_3, hnofold]
        simp only [Bool.false_eq_true, if_false]
        rw [hihr]
        cases xs with
        | nil =>
          rw [encodeArray.eq_1]
          rw [hind2 d, encodeKey_id k hk, hd]
          rw [nvalLines_rowarr k [] d rfl]
          simp [nvalLines, rowLine, rawOfD]
        | cons y t =>
          have hv2 : (y :: t).all primLeafB = true ∨ tabArrB (y :: t) = true := by
            cases h1 : (y :: t).all primLeafB with
            | true => exact .inl rfl
            | false =>
              rw [show nvalB goodKeyB (Value.varr (y :: t)) =
                ((y :: t).all primLeafB || tabArrB (y :: t)) from rfl, h1,
                Bool.false_or] at hv
              exact .inr hv
          rcases hv2 with hall | htab
          · -- inline primitive array
            have hxs : ∀ x ∈ y :: t, primLeafB x = true := List.all_eq_true.mp hall
            have htabf : tabArrB (y :: t) = false :=
              primhead_not_tab y t (hxs y (by simp))
            rw [encodeArray.eq_2]
            have hinline : isInlinePrimitiveArray (y :: t) = true := by
              unfold isInlinePrimitiveArray
              simp only [show ((y :: t : List Value).isEmpty : Bool) = false
                from rfl, Bool.not_false, Bool.true_and, List.all_eq_true]
              exact fun x hx => primLeaf_isPrimitive x (hxs x hx)
            rw [show ((y :: t : List Value).isEmpty : Bool) = false from rfl,
              hinline]
            simp only [Bool.false_eq_true, if_false, if_true]
            rw [hind2 d, encodeKey_id k hk, hd]
            rw [nvalLines_rowarr k (y :: t) d htabf]
            simp [nvalLines, rowLine, rawOfD]
          · -- tabular array
            obtain ⟨fs, rest2, hxs0, hfsne, hflds, hg, hnd, hrows⟩ :=
              tabArrB_spec (y :: t) htab
            obtain ⟨rfl, rfl⟩ : y = Value.vobj fs ∧ t = rest2 :=
              ⟨(List.cons.inj hxs0).1, (List.cons.inj hxs0).2⟩
            rw [encodeArray.eq_2]
            rw [show ((Value.vobj fs :: t : List Value).isEmpty : Bool) =
              false from rfl,
              tabArr_notInline (Value.vobj fs :: t) htab,
              tabArr_isTabular (Value.vobj fs :: t) htab]
            simp only [Bool.false_eq_true, if_false, if_true]
            rw [nvalLines_tab k (Value.vobj fs :: t) d htab]
            conv_rhs => rw [List.map_cons]
            rw [hind2 d, hd]
            rw [show objKeys (Value.vobj fs :: t).headI =
              tabFields (Value.vobj fs :: t) from rfl]
            rw [formatArrayHeader_tab_enc k hk (Value.vobj fs :: t) htab]
            rw [show rawOfD (d, tabHeaderLine k (Value.vobj fs :: t)) =
              List.replicate (2 * d) ' ' ++ tabHeaderLine k (Value.vobj fs :: t)
              from rfl]
            apply congrArg (List.cons
              (List.replicate (2 * d) ' ' ++ tabHeaderLine k (Value.vobj fs :: t)))
            refine congrArg
              (fun l : List Str => l.append (List.map rawOfD (nentsLines rest d)))
              ?_
            rw [List.map_map]
            apply List.map_congr_left
            intro r hr
            obtain ⟨fs2, rfl, hk2, hp2⟩ :=
              tabRowB_obj (fs.map (·.1)) r (hrows r hr)
            show encodeTabularRow fs2 (fs.map (·.1)) opts (d + 1) =
              rawOfD (d + 1, tabRowLine (Value.vobj fs2))
            rw [← hk2]
            rw [encodeTabularRow_row fs2 opts hd (d + 1)
              (by rw [hk2]; exact hnd) hp2, hind2 (d + 1)]
            rfl

lemma goodKey_valid (k : Str) (hk : goodKeyB k = true) :
    isValidIdentifierSegment k = true := by
  unfold goodKeyB at hk
  rw [Bool.and_eq_true] at hk
  exact hk.1

lemma intercalate_dot_merge (k k1 : Str) (ps : List Str) :
    List.intercalate ['.'] ((k ++ '.' :: k1) :: ps) =
      List.intercalate ['.'] (k :: k1 :: ps) := by
  cases ps with
  | nil =>
    rw [intercalate_single, intercalate_cons_cons, intercalate_single]
    simp
  | cons p ps2 =>
    rw [intercalate_cons_cons, intercalate_cons_cons ['.'] k k1 (p :: ps2),
      intercalate_cons_cons ['.'] k1 p ps2]
    simp

lemma foldEntry_key : ∀ (N : Nat) (v : Value), nvalSize v ≤ N →
    ∀ k, (foldEntry k v).1 = List.intercalate ['.'] (k :: foldPathKeys v) := by
  intro N
  induction N with
  | zero =>
    intro v hsz k
    cases v with
    | vobj fs =>
      cases fs with
      | nil =>
        rw [show foldPathKeys (Value.vobj []) = [] from rfl, intercalate_single]
        rfl
      | cons e1 es1 =>
        exfalso
        have h1 : nvalSize (Value.vobj (e1 :: es1)) =
            1 + nentsSize (e1 :: es1) := rfl
        omega
    | vnull =>
      rw [show foldPathKeys Value.vnull = [] from rfl, intercalate_single]
      rfl
    | vbool b =>
      rw [show foldPathKeys (Value.vbool b) = [] from rfl, intercalate_single]
      rfl
    | vint n =>
      rw [show foldPathKeys (Value.vint n) = [] from rfl, intercalate_single]
      rfl
    | vfloat l =>
      rw [show foldPathKeys (Value.vfloat l) = [] from rfl, intercalate_single]
      rfl
    | vstr st =>
      rw [show foldPathKeys (Value.vstr st) = [] from rfl, intercalate_single]
      rfl
    | varr xs =>
      rw [show foldPathKeys (Value.varr xs) = [] from rfl, intercalate_single]
      rfl
  | succ N ih =>
    intro v hsz k
    cases v with
    | vobj fs =>
      match fs with
      | [] =>
        rw [show foldPathKeys (Value.vobj []) = [] from rfl, intercalate_single]
        rfl
      | [(k1, v1)] =>
        have ha : nvalSize (Value.vobj [(k1, v1)]) =
            1 + nentsSize [(k1, v1)] := rfl
        have hb : nentsSize [(k1, v1)] =
            1 + nvalSize v1 + nentsSize ([] : List (Str × Value)) := rfl
        have hc : nentsSize ([] : List (Str × Value)) = 0 := rfl
        rw [show foldEntry k (Value.vobj [(k1, v1)]) =
          foldEntry (k ++ '.' :: k1) v1 from rfl]
        rw [ih v1 (by omega) (k ++ '.' :: k1)]
        rw [show foldPathKeys (Value.vobj [(k1, v1)]) =
          k1 :: foldPathKeys v1 from rfl]
        exact intercalate_dot_merge k k1 (foldPathKeys v1)
      | (e1 :: e2 :: rest) =>
        rw [show foldPathKeys (Value.vobj (e1 :: e2 :: rest)) = [] from rfl,
          intercalate_single]
        rfl
    | vnull =>
      rw [show foldPathKeys Value.vnull = [] from rfl, intercalate_single]
      rfl
    | vbool b =>
      rw [show foldPathKeys (Value.vbool b) = [] from rfl, intercalate_single]
      rfl
    | vint n =>
      rw [show foldPathKeys (Value.vint n) = [] from rfl, intercalate_single]
      rfl
    | vfloat l =>
      rw [show foldPathKeys (Value.vfloat l) = [] from rfl, intercalate_single]
      rfl
    | vstr st =>
      rw [show foldPathKeys (Value.vstr st) = [] from rfl, intercalate_single]
      rfl
    | varr xs =>
      rw [show foldPathKeys (Value.varr xs) = [] from rfl, intercalate_single]
      rfl

lemma foldPathKeys_good : ∀ (N : Nat) (v : Value), nvalSize v ≤ N →
    nvalB goodKeyB v = true →
    ∀ s ∈ foldPathKeys v, goodKeyB s = true := by
  intro N
  induction N with
  | zero =>
    intro v hsz hv s hs
    cases v with
    | vobj fs =>
      cases fs with
      | nil => simp [foldPathKeys] at hs
      | cons e1 es1 =>
        exfalso
        have h1 : nvalSize (Value.vobj (e1 :: es1)) =
            1 + nentsSize (e1 :: es1) := rfl
        omega
    | vnull => simp [foldPathKeys] at hs
    | vbool b => simp [foldPathKeys] at hs
    | vint n => simp [foldPathKeys] at hs
    | vfloat l => simp [foldPathKeys] at hs
    | vstr st => simp [foldPathKeys] at hs
    | varr xs => simp [foldPathKeys] at hs
  | succ N ih =>
    intro v hsz hv s hs
    cases v with
    | vobj fs =>
      match fs with
      | [] => simp [foldPathKeys] at hs
      | [(k1, v1)] =>
        have ha : nvalSize (Value.vobj [(k1, v1)]) =
            1 + nentsSize [(k1, v1)] := rfl
        have hb : nentsSize [(k1, v1)] =
            1 + nvalSize v1 + nentsSize ([] : List (Str × Value)) := rfl
        have hc : nentsSize ([] : List (Str × Value)) = 0 := rfl
        obtain ⟨hk1, _, hv1, _⟩ := nentsB_cons goodKeyB k1 v1 [] hv
        rw [show foldPathKeys (Value.vobj [(k1, v1)]) =
          k1 :: foldPathKeys v1 from rfl] at hs
        rcases List.mem_cons.mp hs with rfl | h2
        · exact hk1
        · exact ih v1 (by omega) hv1 s h2
      | (e1 :: e2 :: rest) => simp [foldPathKeys] at hs
    | vnull => simp [foldPathKeys] at hs
    | vbool b => simp [foldPathKeys] at hs
    | vint n => simp [foldPathKeys] at hs
    | vfloat l => simp [foldPathKeys] at hs
    | vstr st => simp [foldPathKeys] at hs
    | varr xs => simp [foldPathKeys] at hs

lemma foldEnts_keys : ∀ es : List (Str × Value),
    (foldEnts es).map (·.1) = es.map (fun e => (foldEntry e.1 e.2).1) := by
  intro es
  induction es with
  | nil => rfl
  | cons e rest ih =>
    obtain ⟨k, v⟩ := e
    rw [show foldEnts ((k, v) :: rest) = foldEntry k v :: foldEnts rest from rfl,
      List.map_cons, List.map_cons, ih]

lemma takeWhile_nodot : ∀ k : Str, '.' ∉ k →
    List.takeWhile (fun c => !(c = '.')) k = k := by
  intro k
  induction k with
  | nil => intro _; rfl
  | cons c t ih =>
    intro h
    rw [List.takeWhile_cons]
    rw [show (!(c = '.') : Bool) = true from by
      simp only [Bool.not_eq_true', decide_eq_false_iff_not]
      exact fun he => h (by simp [he])]
    rw [ih (fun hm => h (by simp [hm]))]
    simp

lemma takeWhile_nodot_app : ∀ (k t : Str), '.' ∉ k →
    List.takeWhile (fun c => !(c = '.')) (k ++ '.' :: t) = k := by
  intro k
  induction k with
  | nil =>
    intro t _
    rw [List.nil_append, List.takeWhile_cons]
    simp
  | cons c k2 ih =>
    intro t h
    rw [List.cons_append, List.takeWhile_cons]
    rw [show (!(c = '.') : Bool) = true from by
      simp only [Bool.not_eq_true', decide_eq_false_iff_not]
      exact fun he => h (by simp [he])]
    rw [ih t (fun hm => h (by simp [hm]))]
    simp

lemma foldKey_firstSeg (N : Nat) (v : Value) (hsz : nvalSize v ≤ N)
    (hv : nvalB goodKeyB v = true) (k : Str) (hk : goodKeyB k = true) :
    List.takeWhile (fun c => !(c = '.')) ((foldEntry k v).1) = k := by
  rw [foldEntry_key N v hsz k]
  have hnd : '.' ∉ k := ident_no_dot k (goodKey_valid k hk)
  cases hps : foldPathKeys v with
  | nil =>
    rw [intercalate_single]
    exact takeWhile_nodot k hnd
  | cons p ps2 =>
    rw [intercalate_cons_cons, List.append_assoc, List.singleton_append]
    exact takeWhile_nodot_app k _ hnd

lemma nentsB_keys (kp : Str → Bool) : ∀ es : List (Str × Value),
    nentsB kp es = true → ∀ e ∈ es, kp e.1 = true := by
  intro es
  induction es with
  | nil => intro _ e he; simp at he
  | cons e2 rest ih =>
    intro h e he
    obtain ⟨k, v⟩ := e2
    obtain ⟨hk, _, _, hrest⟩ := nentsB_cons kp k v rest h
    rcases List.mem_cons.mp he with rfl | h2
    · exact hk
    · exact ih hrest e h2

lemma nentsB_vals (kp : Str → Bool) : ∀ es : List (Str × Value),
    nentsB kp es = true → ∀ e ∈ es, nvalB kp e.2 = true := by
  intro es
  induction es with
  | nil => intro _ e he; simp at he
  | cons e2 rest ih =>
    intro h e he
    obtain ⟨k, v⟩ := e2
    obtain ⟨_, _, hv, hrest⟩ := nentsB_cons kp k v rest h
    rcases List.mem_cons.mp he with rfl | h2
    · exact hv
    · exact ih hrest e h2

lemma nentsSize_mem : ∀ (es : List (Str × Value)) (e : Str × Value), e ∈ es →
    nvalSize e.2 < nentsSize es := by
  intro es
  induction es with
  | nil => intro e he; simp at he
  | cons e2 rest ih =>
    intro e he
    obtain ⟨k, v⟩ := e2
    have hc : nentsSize ((k, v) :: rest) = 1 + nvalSize v + nentsSize rest := rfl
    rcases List.mem_cons.mp he with rfl | h2
    · have h2 : nvalSize (k, v).2 = nvalSize v := rfl
      omega
    · have := ih e h2
      omega

lemma foldEnts_wf : ∀ (N : Nat),
    (∀ es : List (Str × Value), nentsSize es ≤ N → nentsB goodKeyB es = true →
      nentsB dottedKeyB (foldEnts es) = true) ∧
    (∀ v : Value, nvalSize v ≤ N → nvalB goodKeyB v = true →
      ∀ k : Str, nvalB dottedKeyB ((foldEntry k v).2) = true) := by
  intro N
  induction N with
  | zero =>
    constructor
    · intro es hsz hwf
      cases es with
      | nil => rfl
      | cons e rest =>
        exfalso
        obtain ⟨k, v⟩ := e
        have hc : nentsSize ((k, v) :: rest) =
            1 + nvalSize v + nentsSize rest := rfl
        omega
    · intro v hsz hv k
      cases v with
      | vnull => rfl
      | vbool b => rfl
      | vint n => rfl
      | vstr st => exact hv
      | vfloat l => exact absurd hv (by simp [nvalB])
      | varr xs => exact hv
      | vobj fs =>
        cases fs with
        | nil => rfl
        | cons e1 es1 =>
          exfalso
          have h1 : nvalSize (Value.vobj (e1 :: es1)) =
              1 + nentsSize (e1 :: es1) := rfl
          have h2 : e1 ∈ e1 :: es1 := by simp
          omega
  | succ N ih =>
    constructor
    · intro es hsz hwf
      cases es with
      | nil => rfl
      | cons e rest =>
        obtain ⟨k, v⟩ := e
        obtain ⟨hk, hkfresh, hv, hrest⟩ := nentsB_cons goodKeyB k v rest hwf
        have hszc : nentsSize ((k, v) :: rest) =
            1 + nvalSize v + nentsSize rest := rfl
        obtain ⟨fk, fv, hfe⟩ : ∃ fk fv, foldEntry k v = (fk, fv) := ⟨_, _, rfl⟩
        have hfk : (foldEntry k v).1 = fk := by rw [hfe]
        have hfv : (foldEntry k v).2 = fv := by rw [hfe]
        rw [show foldEnts ((k, v) :: rest) =
          foldEntry k v :: foldEnts rest from rfl, hfe]
        rw [show nentsB dottedKeyB ((fk, fv) :: foldEnts rest) =
          (dottedKeyB fk && !(((foldEnts rest).map (·.1)).contains fk) &&
            nvalB dottedKeyB fv && nentsB dottedKeyB (foldEnts rest))
          from rfl]
        simp only [Bool.and_eq_true, Bool.not_eq_true']
        refine ⟨⟨⟨?_, ?_⟩, ?_⟩, ih.1 rest (by omega) hrest⟩
        · -- the folded key is a dotted key
          rw [← hfk, foldEntry_key (nvalSize v) v (Nat.le_refl _) k]
          refine dottedKey_intercalate (k :: foldPathKeys v) (by simp) ?_
          intro x hx
          rcases List.mem_cons.mp hx with rfl | h2
          · exact goodKey_valid x hk
          · exact goodKey_valid x
              (foldPathKeys_good (nvalSize v) v (Nat.le_refl _) hv x h2)
        · -- freshness among the other folded keys
          rw [contains_false_iff_gen]
          intro hmem
          rw [foldEnts_keys] at hmem
          obtain ⟨e2, he2, hke⟩ := List.mem_map.mp hmem
          have hgood2 : goodKeyB e2.1 = true := nentsB_keys goodKeyB rest hrest e2 he2
          have hval2 : nvalB goodKeyB e2.2 = true := nentsB_vals goodKeyB rest hrest e2 he2
          have hsz2 : nvalSize e2.2 < nentsSize rest := nentsSize_mem rest e2 he2
          have hfs1 : List.takeWhile (fun c => !(c = '.')) fk = k := by
            rw [← hfk]
            exact foldKey_firstSeg (nvalSize v) v (Nat.le_refl _) hv k hk
          have hfs2 : List.takeWhile (fun c => !(c = '.')) fk = e2.1 := by
            rw [← hke]
            exact foldKey_firstSeg (nvalSize e2.2) e2.2 (Nat.le_refl _) hval2
              e2.1 hgood2
          have hkeq : k = e2.1 := by rw [← hfs1, hfs2]
          rw [contains_false_iff_gen] at hkfresh
          exact hkfresh (List.mem_map.mpr ⟨e2, he2, hkeq.symm⟩)
        · -- the folded value is in the decoder-side class
          rw [← hfv]
          exact ih.2 v (by omega) hv k
    · intro v hsz hv k
      cases v with
      | vnull => rfl
      | vbool b => rfl
      | vint n => rfl
      | vstr st => exact hv
      | vfloat l => exact absurd hv (by simp [nvalB])
      | varr xs => exact hv
      | vobj fs =>
        match fs with
        | [] => rfl
        | [(k1, v1)] =>
          have ha : nvalSize (Value.vobj [(k1, v1)]) =
              1 + nentsSize [(k1, v1)] := rfl
          have hb : nentsSize [(k1, v1)] =
              1 + nvalSize v1 + nentsSize ([] : List (Str × Value)) := rfl
          have hc : nentsSize ([] : List (Str × Value)) = 0 := rfl
          obtain ⟨hk1, _, hv1, _⟩ := nentsB_cons goodKeyB k1 v1 [] hv
          rw [show foldEntry k (Value.vobj [(k1, v1)]) =
            foldEntry (k ++ '.' :: k1) v1 from rfl]
          exact ih.2 v1 (by omega) hv1 (k ++ '.' :: k1)
        | ((a1, b1) :: e2 :: rest2) =>
          have h1 : nvalSize (Value.vobj ((a1, b1) :: e2 :: rest2)) =
              1 + nentsSize ((a1, b1) :: e2 :: rest2) := rfl
          have h := ih.1 ((a1, b1) :: e2 :: rest2) (by omega) hv
          rw [show foldEnts ((a1, b1) :: e2 :: rest2) =
            foldEntry a1 b1 :: foldEnts (e2 :: rest2) from rfl] at h
          rw [show (foldEntry k (Value.vobj ((a1, b1) :: e2 :: rest2))).2 =
            Value.vobj (foldEnts ((a1, b1) :: e2 :: rest2)) from rfl]
          rw [show foldEnts ((a1, b1) :: e2 :: rest2) =
            foldEntry a1 b1 :: foldEnts (e2 :: rest2) from rfl]
          exact h

lemma intercalate_append_single : ∀ (path : List Str), path ≠ [] → ∀ x : Str,
    List.intercalate ['.'] (path ++ [x]) =
      List.intercalate ['.'] path ++ '.' :: x := by
  intro path
  induction path with
  | nil => exact fun h => absurd rfl h
  | cons a t ih =>
    intro _ x
    cases t with
    | nil =>
      rw [List.cons_append, List.nil_append, intercalate_cons_cons,
        intercalate_single, intercalate_single]
      simp
    | cons b t2 =>
      have h1 : (a :: b :: t2) ++ [x] = a :: b :: (t2 ++ [x]) := by simp
      rw [h1, intercalate_cons_cons ['.'] a b (t2 ++ [x]),
        intercalate_cons_cons ['.'] a b t2]
      have h2 := ih (by simp) x
      rw [show ((b :: t2) ++ [x] : List Str) = b :: (t2 ++ [x]) from by simp]
        at h2
      rw [h2]
      simp [List.append_assoc]

lemma canFold_arr (k : Str) (xs : List Value) (s : List Str) :
    canFoldKey k (.varr xs) s = false := by
  unfold canFoldKey
  split <;> rfl

lemma canFold_multi (k : Str) (e1 e2 : Str × Value) (r : List (Str × Value))
    (s : List Str) :
    canFoldKey k (.vobj (e1 :: e2 :: r)) s = false := by
  unfold canFoldKey
  split <;> rfl

lemma nvalB_foldLeaf (v : Value) (hv : nvalB goodKeyB v = true)
    (hnotobj : ∀ e es, v ≠ .vobj (e :: es)) (hnotarr : ∀ xs, v ≠ .varr xs) :
    foldLeafB v = true := by
  cases v with
  | vnull => rfl
  | vbool b => rfl
  | vint n => rfl
  | vstr st => exact hv
  | vfloat l => exact absurd hv (by simp [nvalB])
  | varr xs => exact absurd rfl (hnotarr xs)
  | vobj fs =>
    cases fs with
    | nil => rfl
    | cons e es => exact absurd rfl (hnotobj e es)

lemma withKey_header2 (ind key : Str) (xs : List Value) :
    ind ++ key ++ formatBracket xs.length ',' ++
      ('{' :: (List.intercalate [','] (tabFields xs) ++ ['}'])) ++ [':'] =
    ind ++ tabHeaderLine key xs := by
  rw [show formatBracket xs.length ',' =
    '[' :: (natDigits xs.length ++ [']']) from by
      unfold formatBracket
      rw [if_pos rfl]]
  unfold tabHeaderLine
  simp [List.append_assoc]

lemma encodeArrayWithKey_deep (key : Str) (xs : List Value) (opts : EncodeOpts)
    (hd : opts.delimiter = ',') (hin : opts.indent = 2) (d : Nat)
    (hv : xs.all primLeafB = true ∨ tabArrB xs = true) :
    encodeArrayWithKey key xs opts d = (nvalLines key (.varr xs) d).map rawOfD := by
  cases xs with
  | nil =>
    rw [show encodeArrayWithKey key [] opts d =
      [indentStr opts d ++ key ++ formatBracket 0 opts.delimiter ++ [':']]
      from rfl]
    rw [indentStr_two opts hin d, hd, nvalLines_rowarr key [] d rfl]
    simp [rowLine, rawOfD]
  | cons y t =>
    have hunf : encodeArrayWithKey key (y :: t) opts d =
        (if isInlinePrimitiveArray (y :: t) then
          [indentStr opts d ++ key ++
            formatBracket (y :: t).length opts.delimiter ++ [':', ' '] ++
            List.intercalate [opts.delimiter]
              ((y :: t).map (encodePrimitive · opts.delimiter))]
        else if isTabularArray (y :: t) then
          (indentStr opts d ++ key ++
              formatBracket (y :: t).length opts.delimiter ++
              (if (objKeys (y :: t).headI).isEmpty then [] else
                '{' :: (List.intercalate [opts.delimiter]
                  (((objKeys (y :: t).headI)).map encodeKey) ++ ['}'])) ++
              [':']) ::
            (y :: t).map (fun row =>
              encodeTabularRow (match row with | .vobj fs => fs | _ => [])
                (objKeys (y :: t).headI) opts (d + 1))
        else
          (indentStr opts d ++ key ++
              formatBracket (y :: t).length opts.delimiter ++ [':']) ::
            (encodeListItem y opts (d + 1) ++
              encodeListItemsLoop t opts (d + 1))) := rfl
    rcases hv with hall | htab
    · -- inline
      have hxs : ∀ x ∈ y :: t, primLeafB x = true := List.all_eq_true.mp hall
      have htabf : tabArrB (y :: t) = false :=
        primhead_not_tab y t (hxs y (by simp))
      have hinline : isInlinePrimitiveArray (y :: t) = true := by
        unfold isInlinePrimitiveArray
        simp only [show ((y :: t : List Value).isEmpty : Bool) = false
          from rfl, Bool.not_false, Bool.true_and, List.all_eq_true]
        exact fun x hx => primLeaf_isPrimitive x (hxs x hx)
      rw [hunf, hinline]
      simp only [if_true]
      rw [indentStr_two opts hin d, hd, nvalLines_rowarr key (y :: t) d htabf]
      simp [rowLine, rawOfD]
    · -- tabular
      obtain ⟨fs, rest2, hxs0, hfsne, hflds, hg, hnd, hrows⟩ :=
        tabArrB_spec (y :: t) htab
      obtain ⟨rfl, rfl⟩ : y = Value.vobj fs ∧ t = rest2 :=
        ⟨(List.cons.inj hxs0).1, (List.cons.inj hxs0).2⟩
      rw [hunf, tabArr_notInline (Value.vobj fs :: t) htab,
        tabArr_isTabular (Value.vobj fs :: t) htab]
      simp only [Bool.false_eq_true, if_false, if_true]
      have hfne : tabFields (Value.vobj fs :: t) ≠ [] := by
        rw [hflds]
        simpa using hfsne
      have hfg : ∀ f ∈ tabFields (Value.vobj fs :: t), goodKeyB f = true := by
        rw [hflds]
        exact hg
      rw [show objKeys (Value.vobj fs :: t).headI =
        tabFields (Value.vobj fs :: t) from rfl]
      rw [if_neg (by
        intro he
        exact hfne (List.isEmpty_iff.mp he))]
      rw [hd, encodeKey_map_id _ hfg, indentStr_two opts hin d]
      rw [withKey_header2 (List.replicate (2 * d) ' ') key (Value.vobj fs :: t)]
      rw [nvalLines_tab key (Value.vobj fs :: t) d htab]
      conv_rhs => rw [List.map_cons]
      rw [show rawOfD (d, tabHeaderLine key (Value.vobj fs :: t)) =
        List.replicate (2 * d) ' ' ++ tabHeaderLine key (Value.vobj fs :: t)
        from rfl]
      apply congrArg (List.cons
        (List.replicate (2 * d) ' ' ++ tabHeaderLine key (Value.vobj fs :: t)))
      rw [List.map_map]
      apply List.map_congr_left
      intro r hr
      obtain ⟨fs2, rfl, hk2, hp2⟩ :=
        tabRowB_obj (fs.map (·.1)) r (hrows r hr)
      show encodeTabularRow fs2 (tabFields (Value.vobj fs :: t)) opts (d + 1) =
        rawOfD (d + 1, tabRowLine (Value.vobj fs2))
      rw [show tabFields (Value.vobj fs :: t) = fs.map (·.1) from rfl, ← hk2]
      rw [encodeTabularRow_row fs2 opts hd (d + 1)
        (by rw [hk2]; exact hnd) hp2, indentStr_two opts hin (d + 1)]
      rfl

lemma encodeFolded_flatval (opts : EncodeOpts) (hd : opts.delimiter = ',')
    (hin : opts.indent = 2) (v : Value) (hv : nvalB goodKeyB v = true)
    (hnotobj : ∀ e es, v ≠ .vobj (e :: es)) (path : List Str) (d : Nat) :
    encodeFolded path v opts d =
      (nvalLines (List.intercalate ['.'] path) v d).map rawOfD := by
  cases v with
  | vnull =>
    rw [show encodeFolded path Value.vnull opts d =
      [indentStr opts d ++ List.intercalate ['.'] path ++ [':', ' '] ++
        encodePrimitive Value.vnull opts.delimiter] from rfl]
    rw [indentStr_two opts hin d, hd]
    simp [nvalLines, rowLine, rawOfD]
  | vbool b =>
    rw [show encodeFolded path (Value.vbool b) opts d =
      [indentStr opts d ++ List.intercalate ['.'] path ++ [':', ' '] ++
        encodePrimitive (Value.vbool b) opts.delimiter] from rfl]
    rw [indentStr_two opts hin d, hd]
    simp [nvalLines, rowLine, rawOfD]
  | vint n =>
    rw [show encodeFolded path (Value.vint n) opts d =
      [indentStr opts d ++ List.intercalate ['.'] path ++ [':', ' '] ++
        encodePrimitive (Value.vint n) opts.delimiter] from rfl]
    rw [indentStr_two opts hin d, hd]
    simp [nvalLines, rowLine, rawOfD]
  | vstr st =>
    rw [show encodeFolded path (Value.vstr st) opts d =
      [indentStr opts d ++ List.intercalate ['.'] path ++ [':', ' '] ++
        encodePrimitive (Value.vstr st) opts.delimiter] from rfl]
    rw [indentStr_two opts hin d, hd]
    simp [nvalLines, rowLine, rawOfD]
  | vfloat l => exact absurd hv (by simp [nvalB])
  | vobj fs =>
    cases fs with
    | nil =>
      rw [show encodeFolded path (Value.vobj []) opts d =
        [indentStr opts d ++ List.intercalate ['.'] path ++ [':']] from rfl]
      rw [indentStr_two opts hin d]
      simp [nvalLines, rowLine, rawOfD]
    | cons e es => exact absurd rfl (hnotobj e es)
  | varr xs =>
    rw [show encodeFolded path (Value.varr xs) opts d =
      encodeArrayWithKey (List.intercalate ['.'] path) xs opts d from rfl]
    refine encodeArrayWithKey_deep (List.intercalate ['.'] path) xs opts hd hin d ?_
    cases h1 : xs.all primLeafB with
    | true => exact .inl rfl
    | false =>
      rw [show nvalB goodKeyB (Value.varr xs) =
        (xs.all primLeafB || tabArrB xs) from rfl, h1, Bool.false_or] at hv
      exact .inr hv

lemma fold_enc (opts : EncodeOpts) (hd : opts.delimiter = ',')
    (hf : opts.keyFolding = .safeFold) (hfd : opts.flattenDepth = none)
    (hin : opts.indent = 2) : ∀ (N : Nat),
    (∀ es : List (Str × Value), nentsSize es ≤ N → nentsB goodKeyB es = true →
      ∀ d, encodeObjectLines es opts d [] =
        (nentsLines (foldEnts es) d).map rawOfD) ∧
    (∀ v : Value, nvalSize v ≤ N → nvalB goodKeyB v = true →
      ∀ (path : List Str) (d : Nat), path ≠ [] →
      encodeFolded path v opts d =
        (nvalLines (foldEntry (List.intercalate ['.'] path) v).1
          (foldEntry (List.intercalate ['.'] path) v).2 d).map rawOfD) := by
  intro N
  induction N with
  | zero =>
    constructor
    · intro es hsz hwf d
      cases es with
      | nil => rfl
      | cons e rest =>
        exfalso
        obtain ⟨k, v⟩ := e
        have hc : nentsSize ((k, v) :: rest) =
            1 + nvalSize v + nentsSize rest := rfl
        omega
    · intro v hsz hv path d hpath
      cases v with
      | vobj fs =>
        cases fs with
        | nil =>
          exact encodeFolded_flatval opts hd hin (Value.vobj []) hv
            (fun e es h => List.noConfusion (Value.vobj.inj h)) path d
        | cons e1 es1 =>
          exfalso
          have h1 : nvalSize (Value.vobj (e1 :: es1)) =
              1 + nentsSize (e1 :: es1) := rfl
          omega
      | vnull =>
        exact encodeFolded_flatval opts hd hin Value.vnull hv
          (fun e es h => Value.noConfusion h) path d
      | vbool b =>
        exact encodeFolded_flatval opts hd hin (Value.vbool b) hv
          (fun e es h => Value.noConfusion h) path d
      | vint n =>
        exact encodeFolded_flatval opts hd hin (Value.vint n) hv
          (fun e es h => Value.noConfusion h) path d
      | vfloat l => exact absurd hv (by simp [nvalB])
      | vstr st =>
        exact encodeFolded_flatval opts hd hin (Value.vstr st) hv
          (fun e es h => Value.noConfusion h) path d
      | varr xs =>
        exact encodeFolded_flatval opts hd hin (Value.varr xs) hv
          (fun e es h => Value.noConfusion h) path d
  | succ N ih =>
    constructor
    · intro es hsz hwf d
      cases es with
      | nil => rfl
      | cons e rest =>
        obtain ⟨k, v⟩ := e
        obtain ⟨hk, _, hv, hrest⟩ := nentsB_cons goodKeyB k v rest hwf
        have hszc : nentsSize ((k, v) :: rest) =
            1 + nvalSize v + nentsSize rest := rfl
        have hihr := ih.1 rest (by omega) hrest d
        rw [show foldEnts ((k, v) :: rest) =
          foldEntry k v :: foldEnts rest from rfl]
        cases v with
        | vnull =>
          have hnf : (decide (opts.keyFolding = KeyFolding.safeFold) &&
              canFoldKey k Value.vnull []) = false := by
            rw [canFold_leaf k Value.vnull rfl]
            simp
          rw [encodeObjectLines.eq_4 opts d [] k _ rest
            (fun _ hc => Value.noConfusion hc) (fun _ hc => Value.noConfusion hc)]
          rw [hnf]
          simp only [Bool.false_eq_true, if_false]
          rw [indentStr_two opts hin d, encodeKey_id k hk, hihr, hd]
          rw [show foldEntry k Value.vnull = (k, Value.vnull) from rfl]
          rw [show nentsLines ((k, Value.vnull) :: foldEnts rest) d =
            nvalLines k Value.vnull d ++ nentsLines (foldEnts rest) d from rfl,
            List.map_append]
          simp [nvalLines, rowLine, rawOfD]
        | vbool b =>
          have hnf : (decide (opts.keyFolding = KeyFolding.safeFold) &&
              canFoldKey k (Value.vbool b) []) = false := by
            rw [canFold_leaf k (Value.vbool b) rfl]
            simp
          rw [encodeObjectLines.eq_4 opts d [] k _ rest
            (fun _ hc => Value.noConfusion hc) (fun _ hc => Value.noConfusion hc)]
          rw [hnf]
          simp only [Bool.false_eq_true, if_false]
          rw [indentStr_two opts hin d, encodeKey_id k hk, hihr, hd]
          rw [show foldEntry k (Value.vbool b) = (k, Value.vbool b) from rfl]
          rw [show nentsLines ((k, Value.vbool b) :: foldEnts rest) d =
            nvalLines k (Value.vbool b) d ++ nentsLines (foldEnts rest) d
            from rfl, List.map_append]
          simp [nvalLines, rowLine, rawOfD]
        | vint n =>
          have hnf : (decide (opts.keyFolding = KeyFolding.safeFold) &&
              canFoldKey k (Value.vint n) []) = false := by
            rw [canFold_leaf k (Value.vint n) rfl]
            simp
          rw [encodeObjectLines.eq_4 opts d [] k _ rest
            (fun _ hc => Value.noConfusion hc) (fun _ hc => Value.noConfusion hc)]
          rw [hnf]
          simp only [Bool.false_eq_true, if_false]
          rw [indentStr_two opts hin d, encodeKey_id k hk, hihr, hd]
          rw [show foldEntry k (Value.vint n) = (k, Value.vint n) from rfl]
          rw [show nentsLines ((k, Value.vint n) :: foldEnts rest) d =
            nvalLines k (Value.vint n) d ++ nentsLines (foldEnts rest) d
            from rfl, List.map_append]
          simp [nvalLines, rowLine, rawOfD]
        | vstr st =>
          have hnf : (decide (opts.keyFolding = KeyFolding.safeFold) &&
              canFoldKey k (Value.vstr st) []) = false := by
            rw [canFold_leaf k (Value.vstr st) hv]
            simp
          rw [encodeObjectLines.eq_4 opts d [] k _ rest
            (fun _ hc => Value.noConfusion hc) (fun _ hc => Value.noConfusion hc)]
          rw [hnf]
          simp only [Bool.false_eq_true, if_false]
          rw [indentStr_two opts hin d, encodeKey_id k hk, hihr, hd]
          rw [show foldEntry k (Value.vstr st) = (k, Value.vstr st) from rfl]
          rw [show nentsLines ((k, Value.vstr st) :: foldEnts rest) d =
            nvalLines k (Value.vstr st) d ++ nentsLines (foldEnts rest) d
            from rfl, List.map_append]
          simp [nvalLines, rowLine, rawOfD]
        | vfloat l => exact absurd hv (by simp [nvalB])
        | vobj fs2 =>
          match fs2 with
          | [] =>
            have hnf : (decide (opts.keyFolding = KeyFolding.safeFold) &&
                canFoldKey k (Value.vobj []) []) = false := by
              rw [canFold_leaf k (Value.vobj []) rfl]
              simp
            rw [encodeObjectLines.eq_2, hnf]
            simp only [Bool.false_eq_true, if_false]
            rw [indentStr_two opts hin d, encodeKey_id k hk, hihr]
            rw [show foldEntry k (Value.vobj []) = (k, Value.vobj []) from rfl]
            rw [show nentsLines ((k, Value.vobj []) :: foldEnts rest) d =
              nvalLines k (Value.vobj []) d ++ nentsLines (foldEnts rest) d
              from rfl, List.map_append]
            simp [nvalLines, rowLine, rawOfD]
          | [(k1, v1)] =>
            have ha : nvalSize (Value.vobj [(k1, v1)]) =
                1 + nentsSize [(k1, v1)] := rfl
            have hb : nentsSize [(k1, v1)] =
                1 + nvalSize v1 + nentsSize ([] : List (Str × Value)) := rfl
            have hc : nentsSize ([] : List (Str × Value)) = 0 := rfl
            obtain ⟨hk1, _, hv1, _⟩ := nentsB_cons goodKeyB k1 v1 [] hv
            have hcf : (decide (opts.keyFolding = KeyFolding.safeFold) &&
                canFoldKey k (Value.vobj [(k1, v1)]) []) = true := by
              rw [hf, canFold_single k k1 v1 (goodKey_valid k hk)
                (goodKey_valid k1 hk1)]
              simp
            rw [encodeObjectLines.eq_2, hcf]
            simp only [if_true]
            have hB := ih.2 (Value.vobj [(k1, v1)]) (by omega) hv [k] d (by simp)
            rw [intercalate_single] at hB
            rw [hB, hihr, ← List.map_append]
            rfl
          | ((a1, b1) :: e2 :: r2) =>
            have h1 : nvalSize (Value.vobj ((a1, b1) :: e2 :: r2)) =
                1 + nentsSize ((a1, b1) :: e2 :: r2) := rfl
            have hnf : (decide (opts.keyFolding = KeyFolding.safeFold) &&
                canFoldKey k (Value.vobj ((a1, b1) :: e2 :: r2)) []) = false := by
              rw [canFold_multi]
              simp
            rw [encodeObjectLines.eq_2, hnf]
            simp only [Bool.false_eq_true, if_false]
            rw [show (((a1, b1) :: e2 :: r2 : List (Str × Value))).isEmpty =
              false from rfl]
            simp only [Bool.false_eq_true, if_false]
            rw [indentStr_two opts hin d, encodeKey_id k hk, hihr,
              ih.1 ((a1, b1) :: e2 :: r2) (by omega) hv (d + 1)]
            rw [show foldEntry k (Value.vobj ((a1, b1) :: e2 :: r2)) =
              (k, Value.vobj (foldEnts ((a1, b1) :: e2 :: r2))) from rfl]
            rw [show foldEnts ((a1, b1) :: e2 :: r2) =
              foldEntry a1 b1 :: foldEnts (e2 :: r2) from rfl]
            rw [show nentsLines ((k, Value.vobj (foldEntry a1 b1 ::
                foldEnts (e2 :: r2))) :: foldEnts rest) d =
              nvalLines k (Value.vobj (foldEntry a1 b1 :: foldEnts (e2 :: r2)))
                d ++ nentsLines (foldEnts rest) d from rfl, List.map_append]
            rw [show nvalLines k (Value.vobj (foldEntry a1 b1 ::
                foldEnts (e2 :: r2))) d =
              (d, k ++ [':']) :: nentsLines (foldEntry a1 b1 ::
                foldEnts (e2 :: r2)) (d + 1) from rfl]
            rw [show foldEntry a1 b1 :: foldEnts (e2 :: r2) =
              foldEnts ((a1, b1) :: e2 :: r2) from rfl]
            simp [rawOfD]
        | varr xs =>
          have hnf : (decide (opts.keyFolding = KeyFolding.safeFold) &&
              canFoldKey k (Value.varr xs) []) = false := by
            rw [canFold_arr]
            simp
          rw [encodeObjectLines.eq_3, hnf]
          simp only [Bool.false_eq_true, if_false]
          rw [hihr]
          rw [show foldEntry k (Value.varr xs) = (k, Value.varr xs) from rfl]
          rw [show nentsLines ((k, Value.varr xs) :: foldEnts rest) d =
            nvalLines k (Value.varr xs) d ++ nentsLines (foldEnts rest) d
            from rfl, List.map_append]
          cases xs with
          | nil =>
            rw [encodeArray.eq_1]
            rw [indentStr_two opts hin d, encodeKey_id k hk, hd]
            rw [nvalLines_rowarr k [] d rfl]
            simp [rowLine, rawOfD]
          | cons y t =>
            have hv2 : (y :: t).all primLeafB = true ∨
                tabArrB (y :: t) = true := by
              cases h1 : (y :: t).all primLeafB with
              | true => exact .inl rfl
              | false =>
                rw [show nvalB goodKeyB (Value.varr (y :: t)) =
                  ((y :: t).all primLeafB || tabArrB (y :: t)) from rfl, h1,
                  Bool.false_or] at hv
                exact .inr hv
            rcases hv2 with hall | htab
            · have hxs : ∀ x ∈ y :: t, primLeafB x = true :=
                List.all_eq_true.mp hall
              have htabf : tabArrB (y :: t) = false :=
                primhead_not_tab y t (hxs y (by simp))
              rw [encodeArray.eq_2]
              have hinline : isInlinePrimitiveArray (y :: t) = true := by
                unfold isInlinePrimitiveArray
                simp only [show ((y :: t : List Value).isEmpty : Bool) = false
                  from rfl, Bool.not_false, Bool.true_and, List.all_eq_true]
                exact fun x hx => primLeaf_isPrimitive x (hxs x hx)
              rw [show ((y :: t : List Value).isEmpty : Bool) = false from rfl,
                hinline]
              simp only [Bool.false_eq_true, if_false, if_true]
              rw [indentStr_two opts hin d, encodeKey_id k hk, hd]
              rw [nvalLines_rowarr k (y :: t) d htabf]
              simp [rowLine, rawOfD]
            · obtain ⟨fs, rest2, hxs0, hfsne, hflds, hg, hnd, hrows⟩ :=
                tabArrB_spec (y :: t) htab
              obtain ⟨rfl, rfl⟩ : y = Value.vobj fs ∧ t = rest2 :=
                ⟨(List.cons.inj hxs0).1, (List.cons.inj hxs0).2⟩
              rw [encodeArray.eq_2]
              rw [show ((Value.vobj fs :: t : List Value).isEmpty : Bool) =
                false from rfl,
                tabArr_notInline (Value.vobj fs :: t) htab,
                tabArr_isTabular (Value.vobj fs :: t) htab]
              simp only [Bool.false_eq_true, if_false, if_true]
              rw [nvalLines_tab k (Value.vobj fs :: t) d htab]
              conv_rhs => rw [List.map_cons]
              rw [hd]
              rw [show objKeys (Value.vobj fs :: t).headI =
                tabFields (Value.vobj fs :: t) from rfl]
              rw [formatArrayHeader_tab_enc k hk (Value.vobj fs :: t) htab]
              rw [show rawOfD (d, tabHeaderLine k (Value.vobj fs :: t)) =
                List.replicate (2 * d) ' ' ++
                  tabHeaderLine k (Value.vobj fs :: t) from rfl]
              rw [show indentStr opts d = List.replicate (2 * d) ' ' from
                indentStr_two opts hin d]
              apply congrArg (List.cons (List.replicate (2 * d) ' ' ++
                tabHeaderLine k (Value.vobj fs :: t)))
              refine congrArg
                (fun l : List Str =>
                  l.append (List.map rawOfD (nentsLines (foldEnts rest) d)))
                ?_
              rw [List.map_map]
              apply List.map_congr_left
              intro r hr
              obtain ⟨fs2, rfl, hk2, hp2⟩ :=
                tabRowB_obj (fs.map (·.1)) r (hrows r hr)
              show encodeTabularRow fs2 (tabFields (Value.vobj fs :: t)) opts
                (d + 1) = rawOfD (d + 1, tabRowLine (Value.vobj fs2))
              rw [show tabFields (Value.vobj fs :: t) = fs.map (·.1) from rfl,
                ← hk2]
              rw [encodeTabularRow_row fs2 opts hd (d + 1)
                (by rw [hk2]; exact hnd) hp2, indentStr_two opts hin (d + 1)]
              rfl
    · intro v hsz hv path d hpath
      cases v with
      | vnull =>
        exact encodeFolded_flatval opts hd hin Value.vnull hv
          (fun e es h => Value.noConfusion h) path d
      | vbool b =>
        exact encodeFolded_flatval opts hd hin (Value.vbool b) hv
          (fun e es h => Value.noConfusion h) path d
      | vint n =>
        exact encodeFolded_flatval opts hd hin (Value.vint n) hv
          (fun e es h => Value.noConfusion h) path d
      | vfloat l => exact absurd hv (by simp [nvalB])
      | vstr st =>
        exact encodeFolded_flatval opts hd hin (Value.vstr st) hv
          (fun e es h => Value.noConfusion h) path d
      | varr xs =>
        exact encodeFolded_flatval opts hd hin (Value.varr xs) hv
          (fun e es h => Value.noConfusion h) path d
      | vobj fs =>
        match fs with
        | [] =>
          exact encodeFolded_flatval opts hd hin (Value.vobj []) hv
            (fun e es h => List.noConfusion (Value.vobj.inj h)) path d
        | [(k1, v1)] =>
          have ha : nvalSize (Value.vobj [(k1, v1)]) =
              1 + nentsSize [(k1, v1)] := rfl
          have hb : nentsSize [(k1, v1)] =
              1 + nvalSize v1 + nentsSize ([] : List (Str × Value)) := rfl
          have hc : nentsSize ([] : List (Str × Value)) = 0 := rfl
          obtain ⟨hk1, _, hv1, _⟩ := nentsB_cons goodKeyB k1 v1 [] hv
          rw [show encodeFolded path (Value.vobj [(k1, v1)]) opts d =
            (if (match opts.flattenDepth with
                | none => true
                | some m => path.length ≤ m) then
              (if isValidIdentifierSegment k1 then
                encodeFolded (path ++ [k1]) v1 opts d
              else (indentStr opts d ++ List.intercalate ['.'] path ++ [':']) ::
                encodeObjectLines [(k1, v1)] opts (d + 1) [])
            else (indentStr opts d ++ List.intercalate ['.'] path ++ [':']) ::
              encodeObjectLines [(k1, v1)] opts (d + 1) []) from rfl, hfd]
          simp only [goodKey_valid k1 hk1, if_true]
          have hB := ih.2 v1 (by omega) hv1 (path ++ [k1]) d (by simp)
          rw [intercalate_append_single path hpath k1] at hB
          rw [hB]
          rw [show foldEntry (List.intercalate ['.'] path)
              (Value.vobj [(k1, v1)]) =
            foldEntry (List.intercalate ['.'] path ++ '.' :: k1) v1 from rfl]
        | ((a1, b1) :: e2 :: r2) =>
          have h1 : nvalSize (Value.vobj ((a1, b1) :: e2 :: r2)) =
              1 + nentsSize ((a1, b1) :: e2 :: r2) := rfl
          rw [show encodeFolded path (Value.vobj ((a1, b1) :: e2 :: r2)) opts d =
            (indentStr opts d ++ List.intercalate ['.'] path ++ [':']) ::
              encodeObjectLines ((a1, b1) :: e2 :: r2) opts (d + 1) [] from rfl]
          rw [indentStr_two opts hin d,
            ih.1 ((a1, b1) :: e2 :: r2) (by omega) hv (d + 1)]
          rw [show foldEntry (List.intercalate ['.'] path)
              (Value.vobj ((a1, b1) :: e2 :: r2)) =
            (List.intercalate ['.'] path,
              Value.vobj (foldEnts ((a1, b1) :: e2 :: r2))) from rfl]
          rw [show foldEnts ((a1, b1) :: e2 :: r2) =
            foldEntry a1 b1 :: foldEnts (e2 :: r2) from rfl]
          rw [show nvalLines (List.intercalate ['.'] path)
              (Value.vobj (foldEntry a1 b1 :: foldEnts (e2 :: r2))) d =
            (d, List.intercalate ['.'] path ++ [':']) ::
              nentsLines (foldEntry a1 b1 :: foldEnts (e2 :: r2)) (d + 1)
            from rfl]
          rw [show foldEntry a1 b1 :: foldEnts (e2 :: r2) =
            foldEnts ((a1, b1) :: e2 :: r2) from rfl]
          simp [rawOfD]

lemma expand_prim (v : Value) (hp : primLeafB v = true) :
    expandPathsVal v false = .ok v := by
  cases v with
  | vnull => rfl
  | vbool b => rfl
  | vint n => rfl
  | vstr st => rfl
  | vfloat l => exact absurd hp (by simp [primLeafB])
  | vobj fs => exact absurd hp (by simp [primLeafB])
  | varr xs => exact absurd hp (by simp [primLeafB])

lemma expandList_prim : ∀ xs : List Value, (∀ x ∈ xs, primLeafB x = true) →
    expandListGo xs false = .ok xs := by
  intro xs
  induction xs with
  | nil => intro _; rfl
  | cons x t ih =>
    intro h
    rw [show expandListGo (x :: t) false = (do
      let e ← expandPathsVal x false
      let r ← expandListGo t false
      .ok (e :: r)) from rfl]
    rw [expand_prim x (h x (by simp)), except_bind_ok,
      ih (fun y hy => h y (by simp [hy])), except_bind_ok]

lemma goodKey_marker (k : Str) (hk : goodKeyB k = true) :
    strStarts quotedKeyMarker k = false := by
  obtain ⟨c, t0, hct, hc, _⟩ := ident_head k (goodKey_valid k hk)
  rw [hct]
  exact strStarts_cons_ne '\x00' c _ t0
    (fun he => (alpha_head_props c hc).2.2.2.2.2 he.symm)

lemma goodKey_nodot (k : Str) (hk : goodKeyB k = true) :
    k.contains '.' = false :=
  contains_false_of_all
    (fun x hx he => ident_no_dot k (goodKey_valid k hk) (he ▸ hx))

lemma dictGet_none (d : Dict) (k : Str) (h : dictContains d k = false) :
    dictGet d k = none := by
  unfold dictGet
  rw [List.find?_eq_none.mpr ?_]
  · rfl
  · intro e he
    unfold dictContains at h
    rw [List.any_eq_false] at h
    have := h e he
    simpa using this

lemma expandObjGo_flatrow : ∀ fs2 : List (Str × Value),
    (∀ e ∈ fs2, goodKeyB e.1 = true ∧ primLeafB e.2 = true) →
    keysNodupB (fs2.map (·.1)) = true →
    ∀ acc : Dict, (∀ e ∈ fs2, dictContains acc e.1 = false) →
    expandObjGo fs2 false acc = .ok (acc ++ fs2) := by
  intro fs2
  induction fs2 with
  | nil =>
    intro _ _ acc _
    simp [expandObjGo]
  | cons e t ih =>
    intro h hnd acc hfresh
    obtain ⟨kf, vf⟩ := e
    obtain ⟨hkf, hvf⟩ := h (kf, vf) (by simp)
    rw [List.map_cons] at hnd
    rw [show keysNodupB (kf :: t.map (·.1)) =
      (!((t.map (·.1)).contains kf) && keysNodupB (t.map (·.1))) from rfl,
      Bool.and_eq_true, Bool.not_eq_true'] at hnd
    obtain ⟨hkfresh, hnd2⟩ := hnd
    rw [show expandObjGo ((kf, vf) :: t) false acc = (do
      let ev ← expandPathsVal vf false
      let acc2 ←
        if strStarts quotedKeyMarker kf then
          let actual := kf.drop quotedKeyMarker.length
          if dictContains acc actual then
            if false then .error .typeErr
            else .ok (dictInsert acc actual
              (mergeValues ((dictGet acc actual).getD .vnull) ev false))
          else .ok (dictInsert acc actual ev)
        else if kf.contains '.' && isExpandablePath kf then
          setNested acc (splitOnChar '.' kf) ev false
        else
          if dictContains acc kf then
            if false then .error .typeErr
            else .ok (dictInsert acc kf
              (mergeValues ((dictGet acc kf).getD .vnull) ev false))
          else .ok (dictInsert acc kf ev)
      expandObjGo t false acc2) from rfl]
    rw [expand_prim vf hvf, except_bind_ok, goodKey_marker kf hkf]
    simp only [Bool.false_eq_true, if_false]
    rw [goodKey_nodot kf hkf]
    simp only [Bool.false_and, Bool.false_eq_true, if_false]
    rw [hfresh (kf, vf) (by simp)]
    simp only [Bool.false_eq_true, if_false]
    rw [except_bind_ok, dictInsert_fresh acc kf vf (hfresh (kf, vf) (by simp))]
    have hknotin : ∀ r ∈ t, (kf == r.1) = false := by
      intro r hr
      rw [contains_false_iff_gen] at hkfresh
      refine beq_eq_false_iff_ne.mpr ?_
      intro he
      exact hkfresh (List.mem_map.mpr ⟨r, hr, he.symm⟩)
    rw [ih (fun x hx => h x (by simp [hx])) hnd2 (acc ++ [(kf, vf)])
      (fun r hr => dictContains_append_single acc kf vf r.1
        (hfresh r (by simp [hr])) (hknotin r hr))]
    rw [List.append_assoc]
    rfl

lemma expandList_rows (fields : List Str)
    (hg : ∀ f ∈ fields, goodKeyB f = true)
    (hnd : keysNodupB fields = true) : ∀ xs : List Value,
    (∀ r ∈ xs, tabRowB fields r = true) →
    expandListGo xs false = .ok xs := by
  intro xs
  induction xs with
  | nil => intro _; rfl
  | cons r t ih =>
    intro h
    obtain ⟨fs2, rfl, hk2, hp2⟩ := tabRowB_obj fields r (h r (by simp))
    rw [show expandListGo (Value.vobj fs2 :: t) false = (do
      let e ← expandPathsVal (Value.vobj fs2) false
      let r2 ← expandListGo t false
      .ok (e :: r2)) from rfl]
    rw [show expandPathsVal (Value.vobj fs2) false =
      (expandObjGo fs2 false []).map Value.vobj from rfl]
    rw [expandObjGo_flatrow fs2
      (fun e he => ⟨by rw [← hk2] at hg
                       exact hg e.1 (List.mem_map.mpr ⟨e, he, rfl⟩),
                    hp2 e he⟩)
      (by rw [hk2]; exact hnd) [] (fun e _ => rfl)]
    rw [show (Except.ok ([] ++ fs2 : Dict)).map Value.vobj =
      (Except.ok (Value.vobj fs2) : Except PyErr Value) from by
        rw [List.nil_append]
        rfl]
    rw [except_bind_ok, ih (fun y hy => h y (by simp [hy])), except_bind_ok]

lemma expandArr (xs : List Value)
    (hv : xs.all primLeafB = true ∨ tabArrB xs = true) :
    expandPathsVal (.varr xs) false = .ok (.varr xs) := by
  rw [show expandPathsVal (.varr xs) false =
    (expandListGo xs false).map Value.varr from rfl]
  rcases hv with hall | htab
  · rw [expandList_prim xs (List.all_eq_true.mp hall)]
    rfl
  · obtain ⟨fs, rest2, hxs, hfsne, hflds, hg, hnd, hrows⟩ := tabArrB_spec xs htab
    rw [expandList_rows (fs.map (·.1)) hg hnd xs hrows]
    rfl

lemma setNested_fresh_cons (acc : Dict) (k k1 : Str) (ks : List Str)
    (v2 : Value) (hget : dictGet acc k = none) :
    setNested acc (k :: k1 :: ks) v2 false =
      (do
        let sub2 ← setNested ([] : Dict) (k1 :: ks) v2 false
        Except.ok (dictInsert acc k (Value.vobj sub2))) := by
  rw [show setNested acc (k :: k1 :: ks) v2 false = (do
    let sub ←
      match dictGet acc k with
      | none => Except.ok ([] : Dict)
      | some (Value.vobj d2) => Except.ok d2
      | some _ => if false then Except.error PyErr.typeErr
                  else Except.ok ([] : Dict)
    let sub2 ← setNested sub (k1 :: ks) v2 false
    Except.ok (dictInsert acc k (Value.vobj sub2))) from rfl]
  rw [hget]
  rfl

lemma marker_dotted (k : Str) (ks : List Str)
    (hk : isValidIdentifierSegment k = true) :
    strStarts quotedKeyMarker (List.intercalate ['.'] (k :: ks)) = false := by
  obtain ⟨c, t0, hct, hc, _⟩ := ident_head k hk
  cases ks with
  | nil =>
    rw [intercalate_single, hct]
    exact strStarts_cons_ne '\x00' c _ t0
      (fun he => (alpha_head_props c hc).2.2.2.2.2 he.symm)
  | cons b t2 =>
    rw [intercalate_cons_cons, List.append_assoc, List.singleton_append,
      hct, List.cons_append]
    exact strStarts_cons_ne '\x00' c _ _
      (fun he => (alpha_head_props c hc).2.2.2.2.2 he.symm)

lemma expand_fold : ∀ (N : Nat),
    (∀ es : List (Str × Value), nentsSize es ≤ N → nentsB goodKeyB es = true →
      ∀ acc : Dict, (∀ e ∈ es, dictContains acc e.1 = false) →
      expandObjGo (foldEnts es) false acc = .ok (acc ++ es)) ∧
    (∀ v : Value, nvalSize v ≤ N → nvalB goodKeyB v = true →
      (∀ k : Str, expandPathsVal ((foldEntry k v).2) false = .ok (foldEnd v)) ∧
      chainVal (foldPathKeys v) (foldEnd v) = v) := by
  intro N
  induction N with
  | zero =>
    constructor
    · intro es hsz hwf acc hfresh
      cases es with
      | nil => simp [foldEnts, expandObjGo]
      | cons e rest =>
        exfalso
        obtain ⟨k, v⟩ := e
        have hc : nentsSize ((k, v) :: rest) =
            1 + nvalSize v + nentsSize rest := rfl
        omega
    · intro v hsz hv
      cases v with
      | vnull => exact ⟨fun k => rfl, rfl⟩
      | vbool b => exact ⟨fun k => rfl, rfl⟩
      | vint n => exact ⟨fun k => rfl, rfl⟩
      | vstr st => exact ⟨fun k => rfl, rfl⟩
      | vfloat l => exact absurd hv (by simp [nvalB])
      | varr xs =>
        refine ⟨fun k => ?_, rfl⟩
        show expandPathsVal (Value.varr xs) false = .ok (Value.varr xs)
        refine expandArr xs ?_
        cases h1 : xs.all primLeafB with
        | true => exact .inl rfl
        | false =>
          rw [show nvalB goodKeyB (Value.varr xs) =
            (xs.all primLeafB || tabArrB xs) from rfl, h1, Bool.false_or] at hv
          exact .inr hv
      | vobj fs =>
        cases fs with
        | nil => exact ⟨fun k => rfl, rfl⟩
        | cons e1 es1 =>
          exfalso
          have h1 : nvalSize (Value.vobj (e1 :: es1)) =
              1 + nentsSize (e1 :: es1) := rfl
          omega
  | succ N ih =>
    constructor
    · intro es hsz hwf acc hfresh
      cases es with
      | nil => simp [foldEnts, expandObjGo]
      | cons e rest =>
        obtain ⟨k, v⟩ := e
        obtain ⟨hk, hkfresh, hv, hrest⟩ := nentsB_cons goodKeyB k v rest hwf
        have hszc : nentsSize ((k, v) :: rest) =
            1 + nvalSize v + nentsSize rest := rfl
        have hknotin : ∀ r ∈ rest, (k == r.1) = false := by
          intro r hr
          rw [contains_false_iff_gen] at hkfresh
          refine beq_eq_false_iff_ne.mpr ?_
          intro he
          exact hkfresh (List.mem_map.mpr ⟨r, hr, he.symm⟩)
        have hfresh2 : ∀ r ∈ rest, dictContains (acc ++ [(k, v)]) r.1 = false :=
          fun r hr => dictContains_append_single acc k v r.1
            (hfresh r (by simp [hr])) (hknotin r hr)
        have hfreshk : dictContains acc k = false := hfresh (k, v) (by simp)
        obtain ⟨fk, fv, hfe⟩ : ∃ fk fv, foldEntry k v = (fk, fv) := ⟨_, _, rfl⟩
        have hfk : (foldEntry k v).1 = fk := by rw [hfe]
        have hfv : (foldEntry k v).2 = fv := by rw [hfe]
        have hBfull := ih.2 v (by omega) hv
        have hev : expandPathsVal fv false = .ok (foldEnd v) := by
          rw [← hfv]
          exact hBfull.1 k
        have hchain : chainVal (foldPathKeys v) (foldEnd v) = v := hBfull.2
        have hfkey : fk = List.intercalate ['.'] (k :: foldPathKeys v) := by
          rw [← hfk, foldEntry_key (nvalSize v) v (Nat.le_refl _) k]
        rw [show foldEnts ((k, v) :: rest) =
          foldEntry k v :: foldEnts rest from rfl, hfe]
        rw [show expandObjGo ((fk, fv) :: foldEnts rest) false acc = (do
          let ev ← expandPathsVal fv false
          let acc2 ←
            if strStarts quotedKeyMarker fk then
              let actual := fk.drop quotedKeyMarker.length
              if dictContains acc actual then
                if false then .error .typeErr
                else .ok (dictInsert acc actual
                  (mergeValues ((dictGet acc actual).getD .vnull) ev false))
              else .ok (dictInsert acc actual ev)
            else if fk.contains '.' && isExpandablePath fk then
              setNested acc (splitOnChar '.' fk) ev false
            else
              if dictContains acc fk then
                if false then .error .typeErr
                else .ok (dictInsert acc fk
                  (mergeValues ((dictGet acc fk).getD .vnull) ev false))
              else .ok (dictInsert acc fk ev)
          expandObjGo (foldEnts rest) false acc2) from rfl]
        rw [hev, except_bind_ok]
        cases hps : foldPathKeys v with
        | nil =>
          rw [hps] at hfkey hchain
          rw [intercalate_single] at hfkey
          rw [hfkey]
          have hend : foldEnd v = v := hchain
          rw [goodKey_marker k hk]
          simp only [Bool.false_eq_true, if_false]
          rw [goodKey_nodot k hk]
          simp only [Bool.false_and, Bool.false_eq_true, if_false]
          rw [hfreshk]
          simp only [Bool.false_eq_true, if_false]
          rw [except_bind_ok, hend, dictInsert_fresh acc k v hfreshk]
          rw [ih.1 rest (by omega) hrest (acc ++ [(k, v)]) hfresh2]
          rw [List.append_assoc]
          rfl
        | cons k1 ks =>
          rw [hps] at hfkey hchain
          have hsegs : ∀ x ∈ k :: k1 :: ks,
              isValidIdentifierSegment x = true := by
            intro x hx
            rcases List.mem_cons.mp hx with rfl | h2
            · exact goodKey_valid x hk
            · refine goodKey_valid x
                (foldPathKeys_good (nvalSize v) v (Nat.le_refl _) hv x ?_)
              rw [hps]
              exact h2
          subst hfkey
          rw [marker_dotted k (k1 :: ks) (goodKey_valid k hk)]
          simp only [Bool.false_eq_true, if_false]
          have hdot : (List.intercalate ['.'] (k :: k1 :: ks)).contains '.' =
              true := by
            rw [intercalate_cons_cons, List.append_assoc,
              List.singleton_append]
            simp [List.contains]
          rw [hdot, isExpandablePath_dotted k (k1 :: ks) hsegs]
          simp only [Bool.and_self]
          rw [if_pos trivial, splitOnChar_dotted k (k1 :: ks) hsegs]
          rw [setNested_fresh_cons acc k k1 ks (foldEnd v)
            (dictGet_none acc k hfreshk)]
          rw [setNested_nil_chain (foldEnd v) (k1 :: ks) (by simp),
            except_bind_ok, chainEntry_eq (foldEnd v) ks k1]
          have hval : Value.vobj [(k1, chainVal ks (foldEnd v))] = v := by
            rw [show Value.vobj [(k1, chainVal ks (foldEnd v))] =
              chainVal (k1 :: ks) (foldEnd v) from rfl]
            exact hchain
          rw [hval, except_bind_ok, dictInsert_fresh acc k v hfreshk]
          rw [ih.1 rest (by omega) hrest (acc ++ [(k, v)]) hfresh2]
          rw [List.append_assoc]
          rfl
    · intro v hsz hv
      cases v with
      | vnull => exact ⟨fun k => rfl, rfl⟩
      | vbool b => exact ⟨fun k => rfl, rfl⟩
      | vint n => exact ⟨fun k => rfl, rfl⟩
      | vstr st => exact ⟨fun k => rfl, rfl⟩
      | vfloat l => exact absurd hv (by simp [nvalB])
      | varr xs =>
        refine ⟨fun k => ?_, rfl⟩
        show expandPathsVal (Value.varr xs) false = .ok (Value.varr xs)
        refine expandArr xs ?_
        cases h1 : xs.all primLeafB with
        | true => exact .inl rfl
        | false =>
          rw [show nvalB goodKeyB (Value.varr xs) =
            (xs.all primLeafB || tabArrB xs) from rfl, h1, Bool.false_or] at hv
          exact .inr hv
      | vobj fs =>
        match fs with
        | [] => exact ⟨fun k => rfl, rfl⟩
        | [(k1, v1)] =>
          have ha : nvalSize (Value.vobj [(k1, v1)]) =
              1 + nentsSize [(k1, v1)] := rfl
          have hb : nentsSize [(k1, v1)] =
              1 + nvalSize v1 + nentsSize ([] : List (Str × Value)) := rfl
          have hc : nentsSize ([] : List (Str × Value)) = 0 := rfl
          obtain ⟨hk1, _, hv1, _⟩ := nentsB_cons goodKeyB k1 v1 [] hv
          refine ⟨fun k => ?_, ?_⟩
          · show expandPathsVal ((foldEntry (k ++ '.' :: k1) v1).2) false =
              .ok (foldEnd v1)
            exact (ih.2 v1 (by omega) hv1).1 (k ++ '.' :: k1)
          · show chainVal (k1 :: foldPathKeys v1) (foldEnd v1) =
              Value.vobj [(k1, v1)]
            rw [show chainVal (k1 :: foldPathKeys v1) (foldEnd v1) =
              Value.vobj [(k1, chainVal (foldPathKeys v1) (foldEnd v1))]
              from rfl]
            rw [(ih.2 v1 (by omega) hv1).2]
        | ((a1, b1) :: e2 :: r2) =>
          have h1 : nvalSize (Value.vobj ((a1, b1) :: e2 :: r2)) =
              1 + nentsSize ((a1, b1) :: e2 :: r2) := rfl
          refine ⟨fun k => ?_, rfl⟩
          show expandPathsVal
            (Value.vobj (foldEnts ((a1, b1) :: e2 :: r2))) false =
            .ok (Value.vobj ((a1, b1) :: e2 :: r2))
          rw [show expandPathsVal
              (Value.vobj (foldEnts ((a1, b1) :: e2 :: r2))) false =
            (expandObjGo (foldEnts ((a1, b1) :: e2 :: r2)) false []).map
              Value.vobj from rfl]
          rw [ih.1 ((a1, b1) :: e2 :: r2) (by omega) hv [] (fun e _ => rfl)]
          rfl

lemma expand_deep (es : List (Str × Value)) (hwf : nentsB goodKeyB es = true) :
    expandPathsVal (.vobj (foldEnts es)) false = .ok (.vobj es) := by
  rw [show expandPathsVal (.vobj (foldEnts es)) false =
    (expandObjGo (foldEnts es) false []).map Value.vobj from rfl]
  rw [(expand_fold (nentsSize es)).1 es (Nat.le_refl _) hwf []
    (fun e _ => rfl)]
  rfl

lemma encodeToon_deep (opts : EncodeOpts) (hd : opts.delimiter = ',')
    (hf : opts.keyFolding = .noFold) (hin : opts.indent = 2)
    (es : List (Str × Value)) (hwf : nentsB goodKeyB es = true) :
    encodeToon (.vobj es) opts =
      List.intercalate ['\n'] ((nentsLines es 0).map rawOfD) := by
  unfold encodeToon encodeLinesToon
  have hnorm : normalizeValue (.vobj es) = .vobj es := by
    rw [show normalizeValue (.vobj es) = .vobj (normObj es) from rfl,
      normEnts_deep (nentsSize es) es (Nat.le_refl _) hwf]
  rw [hnorm]
  show List.intercalate ['\n'] (encodeObjectLines es opts 0 []) = _
  rw [encodeObjectLines_deep opts hd hf hin (nentsSize es) es (Nat.le_refl _)
    hwf 0]

lemma encodeToon_fold (opts : EncodeOpts) (hd : opts.delimiter = ',')
    (hf : opts.keyFolding = .safeFold) (hfd : opts.flattenDepth = none)
    (hin : opts.indent = 2) (es : List (Str × Value))
    (hwf : nentsB goodKeyB es = true) :
    encodeToon (.vobj es) opts =
      List.intercalate ['\n'] ((nentsLines (foldEnts es) 0).map rawOfD) := by
  unfold encodeToon encodeLinesToon
  have hnorm : normalizeValue (.vobj es) = .vobj es := by
    rw [show normalizeValue (.vobj es) = .vobj (normObj es) from rfl,
      normEnts_deep (nentsSize es) es (Nat.le_refl _) hwf]
  rw [hnorm]
  show List.intercalate ['\n'] (encodeObjectLines es opts 0 []) = _
  rw [(fold_enc opts hd hf hfd hin (nentsSize es)).1 es (Nat.le_refl _) hwf 0]

lemma splitOnChar_deep (es : List (Str × Value))
    (hwf : nentsB dottedKeyB es = true) (hne : es ≠ []) :
    splitOnChar '\n' (List.intercalate ['\n'] ((nentsLines es 0).map rawOfD)) =
      (nentsLines es 0).map rawOfD := by
  refine splitOnChar_intercalate '\n' _ ?_ ?_
  · intro hm
    rw [List.map_eq_nil_iff] at hm
    cases es with
    | nil => exact hne rfl
    | cons e rest =>
      obtain ⟨k, v⟩ := e
      obtain ⟨hk, _, hv, _⟩ := nentsB_cons dottedKeyB k v rest hwf
      obtain ⟨c, t, hct⟩ := nentsLines_head k v rest 0 hk hv
      rw [hct] at hm
      exact List.noConfusion hm
  · intro l hl
    obtain ⟨p, hp, rfl⟩ := List.mem_map.mp hl
    intro hm
    unfold rawOfD at hm
    rcases List.mem_append.mp hm with h1 | h1
    · rw [List.mem_replicate] at h1
      exact absurd h1.2 (by decide)
    · exact (nents_contents (nentsSize es) es (Nat.le_refl _) hwf 0 p hp).2.2.2
        h1

lemma decode_encode_deep (es : List (Str × Value)) (eopts : EncodeOpts)
    (hd : eopts.delimiter = ',') (hf : eopts.keyFolding = .noFold)
    (hie : eopts.indent = 2) (dopts : DecodeOpts)
    (hstrict : dopts.strict = false) (hexp : dopts.expandPaths = false)
    (hid : dopts.indent = 2)
    (hwf : nentsB goodKeyB es = true) (hne : es ≠ []) :
    decodeToon (encodeToon (.vobj es) eopts) dopts = .ok (.vobj es) := by
  have hwfd : nentsB dottedKeyB es = true :=
    nentsB_mono (nentsSize es) es (Nat.le_refl _) hwf
  rw [encodeToon_deep eopts hd hf hie es hwf]
  unfold decodeToon
  rw [splitOnChar_deep es hwfd hne]
  rw [decodeLinesToon_deep es dopts hstrict hid hwfd hne, hexp]
  rfl

lemma foldEnts_ne (es : List (Str × Value)) (hne : es ≠ []) :
    foldEnts es ≠ [] := by
  cases es with
  | nil => exact absurd rfl hne
  | cons e rest =>
    obtain ⟨k, v⟩ := e
    rw [show foldEnts ((k, v) :: rest) =
      foldEntry k v :: foldEnts rest from rfl]
    simp

lemma decode_encode_fold (es : List (Str × Value))
    (hwf : nentsB goodKeyB es = true) (hne : es ≠ []) :
    decodeToon (encodeToon (.vobj es) { keyFolding := .safeFold })
      { expandPaths := true } = .ok (.vobj es) := by
  have hwfd : nentsB dottedKeyB (foldEnts es) = true :=
    (foldEnts_wf (nentsSize es)).1 es (Nat.le_refl _) hwf
  have hne2 : foldEnts es ≠ [] := foldEnts_ne es hne
  rw [encodeToon_fold { keyFolding := .safeFold } rfl rfl rfl rfl es hwf]
  unfold decodeToon
  rw [splitOnChar_deep (foldEnts es) hwfd hne2]
  rw [decodeLinesToon_deep (foldEnts es) { expandPaths := true } rfl rfl
    hwfd hne2]
  show expandPathsVal (.vobj (foldEnts es)) false = .ok (.vobj es)
  exact expand_deep es hwf

/-- C1 (amended): the claimed round trip `decode(encode(v)) == v` under
default options holds for bare primitive documents and for every non-empty
object of the nested document class: at every level the keys encode
verbatim (safe unquoted identifier segments) and are pairwise distinct, and
each value is a primitive other than a float or a block-indicator string,
an inline array of primitive leaves, a tabular array of uniform flat
objects over those leaves, an empty object, or recursively such a non-empty
object.  Inside the claim's class, the empty object itself fails (it
encodes to the empty string, which decodes to `None`), floats fail (`nan`
is normalised to `null` by the encoder), and the block-indicator strings
fail (see the counterexample and C2). -/
theorem C1_roundtrip_amended :
    (∀ p : Value, primLeafB p = true →
      decodeToon (encodeToon p {}) {} = .ok p) ∧
    (∀ fs : List (Str × Value), nentsB goodKeyB fs = true → fs ≠ [] →
      decodeToon (encodeToon (.vobj fs) {}) {} = .ok (.vobj fs)) := by
  constructor
  · intro p hp
    exact decode_encode_prim p hp {} rfl {} rfl rfl
  · intro fs hwf hne
    exact decode_encode_deep fs {} rfl rfl rfl {} rfl rfl rfl hwf hne

/-- C1 (amended) witness: the round trip evaluated at the primitive `42`
and at a concrete nested document exercising an int, a two-level nested
object, a string value with a space, an inline string array, a two-row
tabular array and an empty object. -/
theorem C1_roundtrip_amended_witness :
    (primLeafB (.vint 42) = true ∧
      decodeToon (encodeToon (.vint 42) {}) {} = .ok (.vint 42)) ∧
    (nentsB goodKeyB [(("id").data, .vint 7),
        (("cfg").data, .vobj [(("host").data, .vstr (("local host").data)),
          (("deep").data, .vobj [(("flag").data, .vbool true)])]),
        (("tags").data, .varr [.vstr (("x").data), .vstr (("y").data)]),
        (("rows").data, .varr
          [.vobj [(("a").data, .vint 1), (("b").data, .vstr (("p q").data))],
           .vobj [(("a").data, .vint 2), (("b").data, .vnull)]]),
        (("meta").data, .vobj [])] = true ∧
      ([(("id").data, .vint 7),
        (("cfg").data, .vobj [(("host").data, .vstr (("local host").data)),
          (("deep").data, .vobj [(("flag").data, .vbool true)])]),
        (("tags").data, .varr [.vstr (("x").data), .vstr (("y").data)]),
        (("rows").data, .varr
          [.vobj [(("a").data, .vint 1), (("b").data, .vstr (("p q").data))],
           .vobj [(("a").data, .vint 2), (("b").data, .vnull)]]),
        (("meta").data, .vobj [])] : List (Str × Value)) ≠ [] ∧
      decodeToon (encodeToon (.vobj [(("id").data, .vint 7),
        (("cfg").data, .vobj [(("host").data, .vstr (("local host").data)),
          (("deep").data, .vobj [(("flag").data, .vbool true)])]),
        (("tags").data, .varr [.vstr (("x").data), .vstr (("y").data)]),
        (("rows").data, .varr
          [.vobj [(("a").data, .vint 1), (("b").data, .vstr (("p q").data))],
           .vobj [(("a").data, .vint 2), (("b").data, .vnull)]]),
        (("meta").data, .vobj [])]) {}) {} =
        .ok (.vobj [(("id").data, .vint 7),
        (("cfg").data, .vobj [(("host").data, .vstr (("local host").data)),
          (("deep").data, .vobj [(("flag").data, .vbool true)])]),
        (("tags").data, .varr [.vstr (("x").data), .vstr (("y").data)]),
        (("rows").data, .varr
          [.vobj [(("a").data, .vint 1), (("b").data, .vstr (("p q").data))],
           .vobj [(("a").data, .vint 2), (("b").data, .vnull)]]),
        (("meta").data, .vobj [])])) :=
  ⟨⟨by decide, C1_roundtrip_amended.1 (.vint 42) (by decide)⟩,
   ⟨by decide, by simp, C1_roundtrip_amended.2 _ (by decide) (by simp)⟩⟩

/-- C9 (amended): with `key_folding="safe"` on encode and
`expand_paths=True` on decode, `expand(fold(v)) == v` holds for every
non-empty object of the nested document class of C1: single-key chains of
identifier keys fold into one dotted key at every level, and a chain may
end in a primitive, an inline or tabular array, an empty object, or a
multi-entry object whose entries fold recursively.  The claim's stronger
guarantee — that safe folding never collides with an existing sibling
key — fails, because `_encode_object_lines` passes an always-empty sibling
set to `_can_fold_key` (see the counterexample). -/
theorem C9_fold_expand_amended (fs : List (Str × Value))
    (hwf : nentsB goodKeyB fs = true) (hne : fs ≠ []) :
    decodeToon (encodeToon (.vobj fs) { keyFolding := .safeFold })
      { expandPaths := true } = .ok (.vobj fs) :=
  decode_encode_fold fs hwf hne

/-- C9 (amended) witness: the fold/expand round trip evaluated at a
concrete document with a chain ending in a primitive, a multi-entry object
containing a chain ending in an empty object, and a chain ending in a
tabular array. -/
theorem C9_fold_expand_amended_witness :
    nentsB goodKeyB [(("a").data, .vobj [(("b").data,
        .vobj [(("c").data, .vint 1)])]),
      (("d").data, .vobj [(("e").data, .vobj []), (("f").data, .vint 2)]),
      (("g").data, .vobj [(("h").data, .varr
        [.vobj [(("x").data, .vint 1)], .vobj [(("x").data, .vint 2)]])])] =
      true ∧
    ([(("a").data, .vobj [(("b").data, .vobj [(("c").data, .vint 1)])]),
      (("d").data, .vobj [(("e").data, .vobj []), (("f").data, .vint 2)]),
      (("g").data, .vobj [(("h").data, .varr
        [.vobj [(("x").data, .vint 1)], .vobj [(("x").data, .vint 2)]])])] :
      List (Str × Value)) ≠ [] ∧
    decodeToon (encodeToon (.vobj [(("a").data, .vobj [(("b").data,
        .vobj [(("c").data, .vint 1)])]),
      (("d").data, .vobj [(("e").data, .vobj []), (("f").data, .vint 2)]),
      (("g").data, .vobj [(("h").data, .varr
        [.vobj [(("x").data, .vint 1)], .vobj [(("x").data, .vint 2)]])])])
        { keyFolding := .safeFold }) { expandPaths := true } =
      .ok (.vobj [(("a").data, .vobj [(("b").data,
        .vobj [(("c").data, .vint 1)])]),
      (("d").data, .vobj [(("e").data, .vobj []), (("f").data, .vint 2)]),
      (("g").data, .vobj [(("h").data, .varr
        [.vobj [(("x").data, .vint 1)], .vobj [(("x").data, .vint 2)]])])]) :=
  ⟨by decide, by simp, C9_fold_expand_amended _ (by decide) (by simp)⟩


/-- C3: the spec (and the repository's own `TestHeredoc` tests) require
`decode("content: <<END\nEND is near\nEND") == {"content": "END is near"}`,
with the `<<END` opener starting a heredoc and the exact `END` line consumed
as its terminator.  The decoder has no heredoc handling at all: the value
`<<END` fails the block-scalar test, the implicit-multiline heuristic then
captures both following lines as continuation text, and the result keeps the
opener and the terminator verbatim. -/
theorem C3_heredoc_missing :
    decodeToon ("content: <<END\nEND is near\nEND").data
      { strict := false, expandPaths := false, indent := 2 } =
    .ok (.vobj [(("content").data, .vstr (("<<END\nEND is near\nEND").data))]) := by
  rfl

/-- C4: the claim says a tab inside a line's leading indentation run raises
a strict-mode syntax error.  The scanner counts only leading spaces
(`raw.lstrip(" ")`), so `raw[:indent]` consists of spaces and the tab check
can never fire: the first conjunct shows the guard is false for every raw
line, and the second shows the claimed failing input `"\tkey: 1"` decoding
without error under `strict=True`. -/
theorem C4_tab_check_dead :
    (∀ raw : Str,
      ((raw.take (raw.length - (lstripSpaces raw).length)).contains '\t') = false) ∧
    decodeToon ("\tkey: 1").data { strict := true, expandPaths := false, indent := 2 } =
      .ok (.vobj [(("key").data, .vint 1)]) := by
  refine ⟨?_, by rfl⟩
  intro raw
  induction raw with
  | nil => rfl
  | cons c cs ih =>
    by_cases hc : c = ' '
    · subst hc
      have h1 : lstripSpaces (' ' :: cs) = lstripSpaces cs := by
        simp [lstripSpaces, List.dropWhile_cons]
      rw [h1]
      have hsplit : List.takeWhile (fun x => decide (x = ' ')) cs ++
          List.dropWhile (fun x => decide (x = ' ')) cs = cs :=
        List.takeWhile_append_dropWhile (p := fun x => decide (x = ' ')) (l := cs)
      have hle : (lstripSpaces cs).length ≤ cs.length := by
        have := congrArg List.length hsplit
        simp only [List.length_append] at this
        simp only [lstripSpaces]
        omega
      have h2 : (' ' :: cs).length - (lstripSpaces cs).length =
          (cs.length - (lstripSpaces cs).length) + 1 := by
        simp only [List.length_cons]
        omega
      rw [h2, List.take_succ_cons]
      have hch : (' ' == '\t') = false := by decide
      simp only [List.contains_cons, hch, Bool.false_or]
      exact ih
    · have h1 : lstripSpaces (c :: cs) = c :: cs := by
        simp [lstripSpaces, List.dropWhile_cons, hc]
      rw [h1]
      simp

/-- C5: `decode("items[5]: 1,2,3")` raises a validation error in strict mode
(the whole call fails, leaving no partial result) and returns exactly the
three parsed elements in non-strict mode, with no padding to the declared
length of 5. -/
theorem C5_inline_length_mismatch :
    decodeToon ("items[5]: 1,2,3").data
        { strict := true, expandPaths := false, indent := 2 } = .error .valueErr ∧
    decodeToon ("items[5]: 1,2,3").data
        { strict := false, expandPaths := false, indent := 2 } =
      .ok (.vobj [(("items").data, .varr [.vint 1, .vint 2, .vint 3])]) := by
  exact ⟨by rfl, by rfl⟩

/-- C6: block-scalar chomping.  `|-` (strip) removes the trailing line
break; `|` (clip) appends exactly one trailing line break to the non-empty
result. -/
theorem C6_block_scalar_chomping :
    decodeToon ("content: |-\n  a\n  b").data
        { strict := false, expandPaths := false, indent := 2 } =
      .ok (.vobj [(("content").data, .vstr (("a\nb").data))]) ∧
    decodeToon ("content: |\n  a\n  b").data
        { strict := false, expandPaths := false, indent := 2 } =
      .ok (.vobj [(("content").data, .vstr (("a\nb\n").data))]) := by
  exact ⟨by rfl, by rfl⟩

/-- C7: the spec (and the repository's `TestSingleQuotedStrings` tests) say
the decoder accepts `'` as an alternate quote character, so that
`decode("value: 'hello'")` yields `"hello"`.  No decoding path handles
single quotes (`unescape_string`, `parse_primitive` and
`find_unquoted_colon` only treat `"`), and the quotes are kept as part of an
unquoted string token. -/
theorem C7_single_quotes_unsupported :
    decodeToon (("value: ").data ++ ([squoteC] ++ ("hello").data ++ [squoteC]))
      { strict := false, expandPaths := false, indent := 2 } =
    .ok (.vobj [(("value").data,
      .vstr ([squoteC] ++ ("hello").data ++ [squoteC]))]) := by
  rfl

/-- C8: a source-quoted key is restored verbatim and never split by path
expansion, even when each dot-separated segment is a valid identifier:
`decode('"a.b.c": 1', expandPaths=true)` keeps the single key `a.b.c`. -/
theorem C8_quoted_key_not_expanded :
    decodeToon (("\"a.b.c\": 1").data)
      { strict := false, expandPaths := true, indent := 2 } =
    .ok (.vobj [(("a.b.c").data, .vint 1)]) := by
  rfl

/-- C1 (counterexample): two failures inside the claim's class.  The empty
object is built from no arrays and no strings at all, but
`decode(encode({}))` yields `null`, not `{}`: it encodes to the empty
string, whose decoding is `None`.  And a float value is not returned
unchanged: the encoder normalises `nan` to `null`, so
`decode(encode(nan))` is `None`, not the float. -/
theorem C1_counterexample :
    (decodeToon (encodeToon (.vobj []) { indent := 2, delimiter := ',' })
        { strict := false, expandPaths := false, indent := 2 } = .ok .vnull ∧
      Value.vnull ≠ Value.vobj []) ∧
    (decodeToon (encodeToon (.vfloat (("nan").data))
          { indent := 2, delimiter := ',' })
        { strict := false, expandPaths := false, indent := 2 } = .ok .vnull ∧
      Value.vnull ≠ Value.vfloat (("nan").data)) := by
  refine ⟨⟨by rfl, ?_⟩, ⟨by rfl, ?_⟩⟩
  · intro h
    exact Value.noConfusion h
  · intro h
    exact Value.noConfusion h

/-- C2 (counterexample): for each of the six block-scalar indicator strings
`"|"`, `">"`, `"|-"`, `">-"`, `"|+"`, `">+"` — the claim explicitly covers
`"|"` and `">"` — the encoder leaves the value unquoted (`k: |` and so on),
and the decoder reads the bare indicator as a block-scalar header with an
empty block, so the round trip returns the empty string instead of the
indicator. -/
theorem C2_counterexample :
    (decodeToon (encodeToon (.vobj [(("k").data, .vstr (("|").data))])
          { indent := 2, delimiter := ',' })
          { strict := false, expandPaths := false, indent := 2 } =
        .ok (.vobj [(("k").data, .vstr [])]) ∧
      Value.vstr [] ≠ Value.vstr (("|").data)) ∧
    (decodeToon (encodeToon (.vobj [(("k").data, .vstr (("|-").data))])
          { indent := 2, delimiter := ',' })
          { strict := false, expandPaths := false, indent := 2 } =
        .ok (.vobj [(("k").data, .vstr [])]) ∧
      Value.vstr [] ≠ Value.vstr (("|-").data)) ∧
    (decodeToon (encodeToon (.vobj [(("k").data, .vstr (("|+").data))])
          { indent := 2, delimiter := ',' })
          { strict := false, expandPaths := false, indent := 2 } =
        .ok (.vobj [(("k").data, .vstr [])]) ∧
      Value.vstr [] ≠ Value.vstr (("|+").data)) ∧
    (decodeToon (encodeToon (.vobj [(("k").data, .vstr ((">").data))])
          { indent := 2, delimiter := ',' })
          { strict := false, expandPaths := false, indent := 2 } =
        .ok (.vobj [(("k").data, .vstr [])]) ∧
      Value.vstr [] ≠ Value.vstr ((">").data)) ∧
    (decodeToon (encodeToon (.vobj [(("k").data, .vstr ((">-").data))])
          { indent := 2, delimiter := ',' })
          { strict := false, expandPaths := false, indent := 2 } =
        .ok (.vobj [(("k").data, .vstr [])]) ∧
      Value.vstr [] ≠ Value.vstr ((">-").data)) ∧
    (decodeToon (encodeToon (.vobj [(("k").data, .vstr ((">+").data))])
          { indent := 2, delimiter := ',' })
          { strict := false, expandPaths := false, indent := 2 } =
        .ok (.vobj [(("k").data, .vstr [])]) ∧
      Value.vstr [] ≠ Value.vstr ((">+").data)) :=
  ⟨⟨by rfl, by simp⟩, ⟨by rfl, by simp⟩, ⟨by rfl, by simp⟩,
   ⟨by rfl, by simp⟩, ⟨by rfl, by simp⟩, ⟨by rfl, by simp⟩⟩

/-- C9 (counterexample): safe folding checks collisions against a sibling
set that is always empty, so the chain `a ↦ b` folds to the dotted key
`a.b` even though a literal sibling key `a.b` exists.  The document becomes
`a.b: 1\na.b: 2`, and expansion merges both entries: the round trip returns
`{"a": {"b": 2}}`, losing the original two entries. -/
theorem C9_counterexample :
    decodeToon
        (encodeToon
          (.vobj [(("a").data, .vobj [(("b").data, .vint 1)]), (("a.b").data, .vint 2)])
          { indent := 2, delimiter := ',', keyFolding := .safeFold })
        { strict := false, expandPaths := true, indent := 2 } =
      .ok (.vobj [(("a").data, .vobj [(("b").data, .vint 2)])]) ∧
    Value.vobj [(("a").data, .vobj [(("b").data, .vint 2)])] ≠
      Value.vobj [(("a").data, .vobj [(("b").data, .vint 1)]), (("a.b").data, .vint 2)] := by
  refine ⟨by rfl, ?_⟩
  simp

/-- C10 (counterexample): the claim says blank-only input returns `null`
for every option combination, but under `strict=True` the scanner checks
every line's leading-space count against the indent width, including blank
lines: a single line of one space raises a syntax error. -/
theorem C10_counterexample :
    decodeToon ((" ").data) { strict := true, expandPaths := false, indent := 2 } =
      .error .syntaxErr := by
  rfl

end Toon
